import Mathlib

/-!
Verification of the concurrent skip-list repository (coarse / fine / lock-free
variants) against its natural-language specification.

The C sources are shallowly embedded: the node heap is a list of node records
addressed by allocation index, a `Node*` value is a tagged pointer (an optional
node index plus the low mark bit), and every pointer dereference goes through a
checked `deref` that faults on a null or mark-tagged pointer, exactly where the
C code would dereference.  All loops are translated with an explicit fuel
parameter (single-threaded executions are deterministic, and under the list
invariant the fuel is shown to be sufficient).  The claims are about
single-threaded sequences of operations, so every CAS and lock in the C code
is executed atomically by the unique thread: a CAS compares the current slot
content with the expected value, and lock acquisition is a no-op.
Deallocation (`free`) is not observable through the five-operation API in a
single-threaded run, so it is modelled as dropping the node from further use
(a failed lock-free insert simply continues from the pre-allocation state,
mirroring the `free(newNode)` in the C code).
-/

namespace SkipV

/-- `MAX_LEVEL` from `skiplist_common.h`. -/
def MAX_LEVEL : Nat := 16

/-- `INT_MIN`, the head sentinel key. -/
def INT_MIN : Int := -2147483648

/-- `INT_MAX`, the tail sentinel key. -/
def INT_MAX : Int := 2147483647

/-- A tagged `Node*` value: `base = none` is `NULL`; `mark` is the low tag bit.
A "marked NULL" (`(Node*)1`, which arises from `GET_MARKED(NULL)`) is
`⟨none, true⟩`. -/
structure Ptr where
  base : Option Nat
  mark : Bool
deriving DecidableEq, Repr

/-- The `NULL` pointer. -/
def nullPtr : Ptr := ⟨none, false⟩

instance : Inhabited Ptr := ⟨nullPtr⟩

/-- `IS_MARKED` from `skiplist_lockfree.c`. -/
def IS_MARKED (p : Ptr) : Bool := p.mark

/-- `GET_UNMARKED` from `skiplist_lockfree.c`. -/
def GET_UNMARKED (p : Ptr) : Ptr := ⟨p.base, false⟩

/-- `GET_MARKED` from `skiplist_lockfree.c`. -/
def GET_MARKED (p : Ptr) : Ptr := ⟨p.base, true⟩

/-- A node record (`struct Node` from `skiplist_common.h`).  The per-node lock
and the cache-line padding have no observable single-threaded behaviour and are
not represented. -/
structure Node where
  key : Int
  value : Int
  topLevel : Nat
  marked : Bool
  fully_linked : Bool
  next : List Ptr
deriving DecidableEq, Repr

/-- `create_node` from `skiplist_utils.c` (also `alloc_node` from
`skiplist_lockfree.c`, which performs the same field setup): all `next`
slots start as `NULL`, `marked` and `fully_linked` start `false`. -/
def create_node (key value : Int) (level : Nat) : Node :=
  { key := key, value := value, topLevel := level, marked := false,
    fully_linked := false, next := List.replicate (MAX_LEVEL + 1) nullPtr }

instance : Inhabited Node := ⟨create_node 0 0 0⟩

/-- `struct SkipList` plus the node heap: `mem` is the allocation arena, a
node index is its allocation order. -/
structure SkipList where
  mem : List Node
  head : Nat
  tail : Nat
  maxLevel : Nat
  size : Int
deriving DecidableEq, Repr

/-- Read a node from the heap. -/
def getNode (st : SkipList) (i : Nat) : Node := st.mem.getD i default

/-- An atomic load of `node(i)->next[L]`. -/
def loadNext (st : SkipList) (i L : Nat) : Ptr := (getNode st i).next.getD L nullPtr

/-- Overwrite node `i`. -/
def setNode (st : SkipList) (i : Nat) (nd : Node) : SkipList :=
  { st with mem := st.mem.set i nd }

/-- An atomic store to `node(i)->next[L]`. -/
def storeNext (st : SkipList) (i L : Nat) (p : Ptr) : SkipList :=
  setNode st i { getNode st i with next := (getNode st i).next.set L p }

/-- An atomic store to `node(i)->marked`. -/
def storeMarked (st : SkipList) (i : Nat) (b : Bool) : SkipList :=
  setNode st i { getNode st i with marked := b }

/-- An atomic store to `node(i)->fully_linked`. -/
def storeFullyLinked (st : SkipList) (i : Nat) (b : Bool) : SkipList :=
  setNode st i { getNode st i with fully_linked := b }

/-- `malloc` of a fresh node: its index is the current arena length. -/
def allocNode (st : SkipList) (nd : Node) : Nat × SkipList :=
  (st.mem.length, { st with mem := st.mem ++ [nd] })

/-- Adjust the approximate size counter. -/
def addSize (st : SkipList) (d : Int) : SkipList := { st with size := st.size + d }

/-- The (unmarked) pointer value `list->tail`. -/
def tailPtr (st : SkipList) : Ptr := ⟨some st.tail, false⟩

/-- The (unmarked) pointer value `list->head`. -/
def headPtr (st : SkipList) : Ptr := ⟨some st.head, false⟩

/-- Faults of the embedded execution: dereferencing `NULL`, dereferencing a
pointer whose low mark bit is set (in C, a misaligned read), or exhausting the
fuel of a loop (an artefact of the embedding; under the list invariant the
chosen fuel is sufficient and this never occurs). -/
inductive Fault where
  | nullDeref
  | markedDeref
  | outOfFuel
deriving DecidableEq, Repr

/-- The execution monad: a result or a fault. -/
abbrev M (α : Type) := Except Fault α

/-- Checked pointer dereference, used exactly where the C code dereferences. -/
def deref (p : Ptr) : M Nat :=
  match p.base with
  | none => .error .nullDeref
  | some i => if p.mark then .error .markedDeref else .ok i

/-- Default fuel for a loop: one step per allocated node plus slack.  Under the
list invariant every traversed chain is duplicate-free, so this bound is never
reached. -/
def FUEL (st : SkipList) : Nat := st.mem.length + 2

@[simp] theorem pure_eq_ok {α : Type} (a : α) : (pure a : M α) = .ok a := rfl

@[simp] theorem bind_ok {α β : Type} (a : α) (f : α → M β) :
    (Except.ok a >>= f : M β) = f a := rfl

@[simp] theorem bind_err {α β : Type} (e : Fault) (f : α → M β) :
    (Except.error e >>= f : M β) = .error e := rfl

/-! ## Coarse variant (`skiplist_coarse.c`)

The global lock makes every operation a sequential step; in a single-threaded
embedding lock acquisition/release is a no-op.  `random_level()` results are
supplied as an explicit argument `lvl` (see `random_level` below for the level
generator itself). -/

/-- `skiplist_create_coarse`: sentinels at indices 0 (head) and 1 (tail),
`head->next[i] = tail` for all `i ∈ [0, MAX_LEVEL]`, both sentinels
`fully_linked`. -/
def skiplist_create_coarse : SkipList :=
  { mem :=
      [ { create_node INT_MIN 0 MAX_LEVEL with
            next := List.replicate (MAX_LEVEL + 1) ⟨some 1, false⟩,
            fully_linked := true },
        { create_node INT_MAX 0 MAX_LEVEL with fully_linked := true } ],
    head := 0, tail := 1, maxLevel := MAX_LEVEL, size := 0 }

/-- The per-level walk
`while (curr != tail && curr->key < key) { pred = curr; curr = load(pred->next[level]); }`
shared by the three coarse operations.  Returns the final `(pred, curr)`. -/
def walkC : Nat → SkipList → Int → Nat → Nat → M (Nat × Ptr)
  | 0, _, _, _, _ => .error .outOfFuel
  | fuel + 1, st, key, pred, level =>
    let curr := loadNext st pred level
    if curr = tailPtr st then .ok (pred, curr)
    else do
      let ci ← deref curr
      if (getNode st ci).key < key then walkC fuel st key ci level
      else .ok (pred, curr)

/-- The top-down descent of the coarse search: records `(preds[l], curr_l)` for
levels `l = level, …, 0`; entry `l` of the result list is the level-`l` pair. -/
def searchC (fuel : Nat) (st : SkipList) (key : Int) : Nat → Nat → M (List (Nat × Ptr))
  | pred, 0 => do
    let pc ← walkC fuel st key pred 0
    .ok [pc]
  | pred, level + 1 => do
    let pc ← walkC fuel st key pred (level + 1)
    let rest ← searchC fuel st key pc.1 level
    .ok (rest ++ [pc])

/-- The link loop of `skiplist_insert_coarse`:
`for level in [0, topLevel]: succ = load(preds[level]->next[level]);
 newNode->next[level] = succ; preds[level]->next[level] = newNode`. -/
def linkUpC (pcs : List (Nat × Ptr)) (nid : Nat) : Nat → Nat → SkipList → SkipList
  | i, stop, st =>
    if _h : i ≤ stop then
      let p := (pcs.getD i (0, nullPtr)).1
      let succ := loadNext st p i
      let st1 := storeNext st nid i succ
      let st2 := storeNext st1 p i ⟨some nid, false⟩
      linkUpC pcs nid (i + 1) stop st2
    else st
  termination_by i stop _ => stop + 1 - i

/-- The unlink loop of `skiplist_delete_coarse`:
`for level in [0, victim->topLevel]:
 preds[level]->next[level] = load(victim->next[level])`. -/
def unlinkUpC (pcs : List (Nat × Ptr)) (vi : Nat) : Nat → Nat → SkipList → SkipList
  | i, stop, st =>
    if _h : i ≤ stop then
      let p := (pcs.getD i (0, nullPtr)).1
      let st1 := storeNext st p i (loadNext st vi i)
      unlinkUpC pcs vi (i + 1) stop st1
    else st
  termination_by i stop _ => stop + 1 - i

/-- `skiplist_insert_coarse` (the `random_level()` draw is the argument
`lvl`). -/
def skiplist_insert_coarse (st : SkipList) (key value : Int) (lvl : Nat) :
    M (Bool × SkipList) := do
  let pcs ← searchC (FUEL st) st key st.head st.maxLevel
  -- duplicate check performed at level 0 of the descent:
  -- `if (level == 0 && curr != tail && curr->key == key) return false`
  let c0 := (pcs.getD 0 (0, nullPtr)).2
  let dup ←
    if c0 = tailPtr st then pure false
    else do
      let ci ← deref c0
      pure (decide ((getNode st ci).key = key))
  if dup then .ok (false, st)
  else
    let (nid, st1) := allocNode st { create_node key value lvl with fully_linked := true }
    let st2 := linkUpC pcs nid 0 lvl st1
    .ok (true, addSize st2 1)

/-- `skiplist_delete_coarse`.  The `free(victim)` is not observable through the
API in a single-threaded run and is not modelled. -/
def skiplist_delete_coarse (st : SkipList) (key : Int) : M (Bool × SkipList) := do
  let pcs ← searchC (FUEL st) st key st.head st.maxLevel
  let c0 := (pcs.getD 0 (0, nullPtr)).2
  if c0 = tailPtr st then .ok (false, st)
  else do
    let vi ← deref c0
    if (getNode st vi).key = key then
      let st1 := unlinkUpC pcs vi 0 ((getNode st vi).topLevel) st
      .ok (true, addSize st1 (-1))
    else .ok (false, st)

/-- `skiplist_contains_coarse`: the same descent, then
`curr = load(pred->next[0]); found = (curr != tail && curr->key == key)`. -/
def skiplist_contains_coarse (st : SkipList) (key : Int) : M Bool := do
  let pcs ← searchC (FUEL st) st key st.head st.maxLevel
  let p0 := (pcs.getD 0 (0, nullPtr)).1
  let curr := loadNext st p0 0
  if curr = tailPtr st then .ok false
  else do
    let ci ← deref curr
    .ok (decide ((getNode st ci).key = key))

/-! ## Fine variant (`skiplist_fine.c`)

Per-node locks are no-ops in the single-threaded embedding; the epoch-based
reclamation (`epoch_enter`/`epoch_exit`/`retire_node`/`try_gc`) only defers
`free` and has no observable effect through the API, so it is not modelled. -/

/-- `skiplist_create_fine`: like the coarse create, but the sentinels'
`fully_linked` flags are left `false` (the fine create never sets them). -/
def skiplist_create_fine : SkipList :=
  { mem :=
      [ { create_node INT_MIN 0 MAX_LEVEL with
            next := List.replicate (MAX_LEVEL + 1) ⟨some 1, false⟩ },
        create_node INT_MAX 0 MAX_LEVEL ],
    head := 0, tail := 1, maxLevel := MAX_LEVEL, size := 0 }

/-- The per-level walk of `find_optimistic` (and of the re-find loops and of
`skiplist_contains_fine`): `while (curr->key < key) { pred = curr; curr =
load(pred->next[level]); }`.  Note there is no tail test: termination relies on
the tail key `INT_MAX`. -/
def walkF : Nat → SkipList → Int → Nat → Nat → M (Nat × Ptr)
  | 0, _, _, _, _ => .error .outOfFuel
  | fuel + 1, st, key, pred, level =>
    let curr := loadNext st pred level
    match deref curr with
    | .error e => .error e
    | .ok ci =>
      if (getNode st ci).key < key then walkF fuel st key ci level
      else .ok (pred, curr)

/-- `find_optimistic`: the top-down descent recording `(preds[l], succs[l])`
for `l = level, …, 0`; entry `l` of the result is the level-`l` pair. -/
def find_optimistic (fuel : Nat) (st : SkipList) (key : Int) :
    Nat → Nat → M (List (Nat × Ptr))
  | pred, 0 => do
    let pc ← walkF fuel st key pred 0
    .ok [pc]
  | pred, level + 1 => do
    let pc ← walkF fuel st key pred (level + 1)
    let rest ← find_optimistic fuel st key pc.1 level
    .ok (rest ++ [pc])

/-- `validate_link`: `!pred->marked && !succ->marked &&
pred->next[level] == succ` (with C short-circuit evaluation, so `succ` is only
dereferenced when `pred` is unmarked). -/
def validate_link (st : SkipList) (pred : Nat) (succ : Ptr) (level : Nat) : M Bool :=
  if (getNode st pred).marked then .ok false
  else do
    let si ← deref succ
    if (getNode st si).marked then .ok false
    else .ok (decide (loadNext st pred level = succ))

/-- `for (i = 0; i <= topLevel; i++) newNode->next[i] = succs[i]` (shared by
the fine and lock-free inserts). -/
def setSuccs (pss : List (Nat × Ptr)) (nid : Nat) : Nat → Nat → SkipList → SkipList
  | i, stop, st =>
    if _h : i ≤ stop then
      setSuccs pss nid (i + 1) stop (storeNext st nid i (pss.getD i (0, nullPtr)).2)
    else st
  termination_by i stop _ => stop + 1 - i

/-- The inner retry loop linking one upper level `i` of a fine insert: validate
`(preds[i], succs[i])`; on failure re-search level `i` from the head and retry;
on success store `newNode->next[i] = succs[i]` and `preds[i]->next[i] =
newNode`. -/
def linkLevelFine : Nat → SkipList → Int → Nat → Nat → Ptr → Nat → M SkipList
  | 0, _, _, _, _, _, _ => .error .outOfFuel
  | fuel + 1, st, key, nid, pred, succ, i => do
    let v ← validate_link st pred succ i
    if v then
      let st1 := storeNext st nid i succ
      let st2 := storeNext st1 pred i ⟨some nid, false⟩
      .ok st2
    else do
      let pc ← walkF (FUEL st) st key st.head i
      linkLevelFine fuel st key nid pc.1 pc.2 i

/-- The upper-level loop of `skiplist_insert_fine`: levels `i = 1, …,
topLevel`. -/
def linkUpFine (key : Int) (nid : Nat) (pss : List (Nat × Ptr)) :
    Nat → Nat → SkipList → M SkipList
  | i, stop, st =>
    if _h : i ≤ stop then do
      let st1 ← linkLevelFine (FUEL st) st key nid (pss.getD i (0, nullPtr)).1
        (pss.getD i (0, nullPtr)).2 i
      linkUpFine key nid pss (i + 1) stop st1
    else .ok st
  termination_by i stop _ => stop + 1 - i

/-- The outer retry loop of `skiplist_insert_fine`. -/
def insertFineLoop : Nat → SkipList → Int → Int → Nat → M (Bool × SkipList)
  | 0, _, _, _, _ => .error .outOfFuel
  | fuel + 1, st, key, value, lvl => do
    let pss ← find_optimistic (FUEL st) st key st.head MAX_LEVEL
    let s0 := (pss.getD 0 (0, nullPtr)).2
    let s0i ← deref s0
    if (getNode st s0i).key = key then .ok (false, st)
    else do
      let p0 := (pss.getD 0 (0, nullPtr)).1
      let v ← validate_link st p0 s0 0
      if v then
        let (nid, st1) := allocNode st (create_node key value lvl)
        let st2 := setSuccs pss nid 0 lvl st1
        let st3 := storeNext st2 p0 0 ⟨some nid, false⟩
        let st4 := addSize st3 1
        let st5 ← linkUpFine key nid pss 1 lvl st4
        .ok (true, st5)
      else insertFineLoop fuel st key value lvl

/-- `skiplist_insert_fine` (the `random_level()` draw is the argument `lvl`).
Note that, unlike the coarse and lock-free inserts, the fine insert never
writes `fully_linked`. -/
def skiplist_insert_fine (st : SkipList) (key value : Int) (lvl : Nat) :
    M (Bool × SkipList) :=
  insertFineLoop (FUEL st) st key value lvl

/-- The inner retry loop unlinking one level `i` of a fine delete: if
`preds[i]->next[i] != victim`, re-find the predecessor at level `i` from the
head and retry; otherwise `preds[i]->next[i] = load(victim->next[i])`. -/
def unlinkLevelFine : Nat → SkipList → Int → Nat → Ptr → Nat → Nat → M SkipList
  | 0, _, _, _, _, _, _ => .error .outOfFuel
  | fuel + 1, st, key, vi, vptr, pred, i =>
    if loadNext st pred i = vptr then
      .ok (storeNext st pred i (loadNext st vi i))
    else do
      let pc ← walkF (FUEL st) st key st.head i
      unlinkLevelFine fuel st key vi vptr pc.1 i

/-- The unlink loop of `skiplist_delete_fine`: levels `i = victim->topLevel`
down to `0`. -/
def unlinkDownFine (key : Int) (vi : Nat) (vptr : Ptr) (pss : List (Nat × Ptr)) :
    Nat → SkipList → M SkipList
  | i, st => do
    let st1 ← unlinkLevelFine (FUEL st) st key vi vptr (pss.getD i (0, nullPtr)).1 i
    match i with
    | 0 => .ok st1
    | i' + 1 => unlinkDownFine key vi vptr pss i' st1

/-- The outer retry loop of `skiplist_delete_fine`. -/
def deleteFineLoop : Nat → SkipList → Int → M (Bool × SkipList)
  | 0, _, _ => .error .outOfFuel
  | _fuel + 1, st, key => do
    let pss ← find_optimistic (FUEL st) st key st.head MAX_LEVEL
    let victim := (pss.getD 0 (0, nullPtr)).2
    let vi ← deref victim
    if (getNode st vi).key ≠ key ∨ victim = tailPtr st then .ok (false, st)
    else if (getNode st vi).marked then .ok (false, st)
    else
      -- every path of the loop body returns, so the outer `while(true)` of the
      -- C delete runs its body exactly once
      let st1 := storeMarked st vi true
      do
        let st2 ← unlinkDownFine key vi victim pss ((getNode st1 vi).topLevel) st1
        .ok (true, addSize st2 (-1))

/-- `skiplist_delete_fine`.  (`retire_node`/`try_gc` only defer `free` and are
not modelled.) -/
def skiplist_delete_fine (st : SkipList) (key : Int) : M (Bool × SkipList) :=
  deleteFineLoop (FUEL st) st key

/-- The descent of `skiplist_contains_fine` (the same walk as
`find_optimistic`, tracking only the running `(pred, curr)`). -/
def containsDescF (fuel : Nat) (st : SkipList) (key : Int) :
    Nat → Nat → M (Nat × Ptr)
  | pred, 0 => walkF fuel st key pred 0
  | pred, level + 1 => do
    let pc ← walkF fuel st key pred (level + 1)
    containsDescF fuel st key pc.1 level

/-- `skiplist_contains_fine`: `found = (curr->key == key && !curr->marked)`.
Note that `fully_linked` is not consulted. -/
def skiplist_contains_fine (st : SkipList) (key : Int) : M Bool := do
  let pc ← containsDescF (FUEL st) st key st.head MAX_LEVEL
  let ci ← deref pc.2
  .ok (decide ((getNode st ci).key = key) && !(getNode st ci).marked)

/-! ## Lock-free variant (`skiplist_lockfree.c`)

Marked pointers carry the deletion tag in the low bit (`Ptr.mark`).  In the
single-threaded embedding a CAS compares the current slot content against the
expected value and stores on success.  Backoff only spins and is not
modelled. -/

/-- `skiplist_create_lockfree`: note the link loop runs
`for (i = 0; i < MAX_LEVEL; i++)`, so `head->next[MAX_LEVEL]` stays `NULL`. -/
def skiplist_create_lockfree : SkipList :=
  { mem :=
      [ { create_node INT_MIN 0 MAX_LEVEL with
            next := List.replicate MAX_LEVEL ⟨some 1, false⟩ ++ [nullPtr] },
        create_node INT_MAX 0 MAX_LEVEL ],
    head := 0, tail := 1, maxLevel := MAX_LEVEL, size := 0 }

/-- The inner loop of `find` at one level, with helping: on a marked successor,
CAS `pred->next[level]: curr → GET_UNMARKED(succ)`; a CAS failure requests a
full restart (`goto retry`), signalled by the `none` result. -/
def findLevelGo : Nat → SkipList → Int → Nat → Ptr → Nat →
    M (Option (Nat × Ptr) × SkipList)
  | 0, _, _, _, _, _ => .error .outOfFuel
  | fuel + 1, st, key, pred, curr, level =>
    if curr.base = none then .ok (some (pred, curr), st)
    else do
      let ci ← deref curr
      let succ := loadNext st ci level
      if IS_MARKED succ then
        -- helping: physically unlink `curr` at this level
        if loadNext st pred level = curr then
          let st1 := storeNext st pred level (GET_UNMARKED succ)
          findLevelGo fuel st1 key pred (GET_UNMARKED succ) level
        else .ok (none, st)  -- CAS failed: `goto retry`
      else
        if (getNode st ci).key < key then
          findLevelGo fuel st key ci (GET_UNMARKED succ) level
        else .ok (some (pred, curr), st)

/-- The level descent of `find`, from `MAX_LEVEL - 1` down to `0`, recording
`(preds[l], succs[l])`; entry `l` of the result is the level-`l` pair.  A
`none` first component propagates the restart request. -/
def findDesc (fuel : Nat) (key : Int) :
    SkipList → Nat → Nat → M (Option (List (Nat × Ptr)) × SkipList)
  | st, pred, 0 => do
    let (r, st1) ← findLevelGo fuel st key pred (GET_UNMARKED (loadNext st pred 0)) 0
    match r with
    | none => .ok (none, st1)
    | some pc => .ok (some [pc], st1)
  | st, pred, level + 1 => do
    let (r, st1) ←
      findLevelGo fuel st key pred (GET_UNMARKED (loadNext st pred (level + 1))) (level + 1)
    match r with
    | none => .ok (none, st1)
    | some pc => do
      let (r2, st2) ← findDesc fuel key st1 pc.1 level
      match r2 with
      | none => .ok (none, st2)
      | some rest => .ok (some (rest ++ [pc]), st2)

/-- The outer `retry` loop of `find`.  Returns the found flag
(`succs[0] != NULL && succs[0]->key == key`), the `(preds, succs)` pairs for
levels `0, …, MAX_LEVEL - 1`, and the (possibly helped) state. -/
def findLoop (key : Int) : Nat → SkipList → M ((Bool × List (Nat × Ptr)) × SkipList)
  | 0, _ => .error .outOfFuel
  | fuel + 1, st => do
    let (r, st1) ← findDesc (FUEL st) key st st.head (MAX_LEVEL - 1)
    match r with
    | none => findLoop key fuel st1
    | some pss =>
      let s0 := (pss.getD 0 (0, nullPtr)).2
      if s0.base = none then .ok ((false, pss), st1)
      else do
        let i ← deref s0
        .ok ((decide ((getNode st1 i).key = key), pss), st1)

/-- `find` from `skiplist_lockfree.c`. -/
def find (st : SkipList) (key : Int) : M ((Bool × List (Nat × Ptr)) × SkipList) :=
  findLoop key (FUEL st) st

/-- One iteration bundle of the tower-build loop of `skiplist_insert_lockfree`
at level `i`: CAS `preds[i]->next[i]: succs[i] → newNode`; on failure re-run
`find`, stop if `newNode->next[0]` became marked, else refresh
`newNode->next[i]` and retry.  Returns the refreshed pairs, the state, and
`false` if the build stopped early (node deleted while building). -/
def towerLevelLF : Nat → SkipList → Int → Nat → List (Nat × Ptr) → Nat →
    M (List (Nat × Ptr) × SkipList × Bool)
  | 0, _, _, _, _, _ => .error .outOfFuel
  | fuel + 1, st, key, nid, pss, i =>
    let pred := (pss.getD i (0, nullPtr)).1
    let succ := (pss.getD i (0, nullPtr)).2
    if loadNext st pred i = succ then
      .ok (pss, storeNext st pred i ⟨some nid, false⟩, true)
    else do
      let ((_, pss1), st1) ← find st key
      if IS_MARKED (loadNext st1 nid 0) then .ok (pss1, st1, false)
      else
        let st2 := storeNext st1 nid i (pss1.getD i (0, nullPtr)).2
        towerLevelLF fuel st2 key nid pss1 i

/-- The tower-build loop of `skiplist_insert_lockfree`: levels `i = 1, …,
topLevel`; the `Bool` result is `false` if the build stopped early. -/
def towerLF (key : Int) (nid : Nat) : Nat → Nat → List (Nat × Ptr) → SkipList →
    M (SkipList × Bool)
  | i, stop, pss, st =>
    if _h : i ≤ stop then do
      let (pss1, st1, cont) ← towerLevelLF (FUEL st) st key nid pss i
      if cont then towerLF key nid (i + 1) stop pss1 st1
      else .ok (st1, false)
    else .ok (st, true)
  termination_by i stop _ _ => stop + 1 - i

/-- The outer retry loop of `skiplist_insert_lockfree`.  A failed level-0 CAS
frees the fresh node and retries: the embedding continues from the
pre-allocation state, which models `free(newNode)` exactly (the next `malloc`
reuses the index). -/
def insertLFLoop (key value : Int) (lvl : Nat) : Nat → SkipList → M (Bool × SkipList)
  | 0, _ => .error .outOfFuel
  | fuel + 1, st => do
    let ((found, pss), st1) ← find st key
    if found then .ok (false, st1)
    else
      let topLevel := if MAX_LEVEL ≤ lvl then MAX_LEVEL - 1 else lvl
      let (nid, st2) := allocNode st1 (create_node key value topLevel)
      let st3 := setSuccs pss nid 0 topLevel st2
      let p0 := (pss.getD 0 (0, nullPtr)).1
      let s0 := (pss.getD 0 (0, nullPtr)).2
      if loadNext st3 p0 0 = s0 then
        let st4 := addSize (storeNext st3 p0 0 ⟨some nid, false⟩) 1
        do
          let (st5, completed) ← towerLF key nid 1 topLevel pss st4
          if completed then .ok (true, storeFullyLinked st5 nid true)
          else .ok (true, st5)
      else insertLFLoop key value lvl fuel st1

/-- `skiplist_insert_lockfree` (the `random_level()` draw is the argument
`lvl`; the code clamps it to `MAX_LEVEL - 1`). -/
def skiplist_insert_lockfree (st : SkipList) (key value : Int) (lvl : Nat) :
    M (Bool × SkipList) :=
  insertLFLoop key value lvl (FUEL st) st

/-- Result of the marking loop of `skiplist_delete_lockfree`. -/
inductive MarkRes where
  | marked
  | already
  | restart
deriving DecidableEq, Repr

/-- The marking loop of `skiplist_delete_lockfree`:
`for (i = victim->topLevel; i >= 0; i--)` CAS the mark bit onto
`victim->next[i]`; a level-0 slot already marked returns `false`
(`already`); a failed level-0 CAS restarts the outer loop (`restart`, dead in
a single-threaded run). -/
def markDownLF (vi : Nat) : Nat → SkipList → MarkRes × SkipList
  | i, st =>
    let succ := loadNext st vi i
    if IS_MARKED succ then
      match i with
      | 0 => (.already, st)
      | i' + 1 => markDownLF vi i' st
    else
      if loadNext st vi i = succ then
        let st1 := storeNext st vi i (GET_MARKED succ)
        match i with
        | 0 => (.marked, st1)
        | i' + 1 => markDownLF vi i' st1
      else
        match i with
        | 0 => (.restart, st)
        | i' + 1 => markDownLF vi i' st

/-- The outer retry loop of `skiplist_delete_lockfree`. -/
def deleteLFLoop (key : Int) : Nat → SkipList → M (Bool × SkipList)
  | 0, _ => .error .outOfFuel
  | fuel + 1, st => do
    let ((found, pss), st1) ← find st key
    if !found then .ok (false, st1)
    else do
      let victim := (pss.getD 0 (0, nullPtr)).2
      let vi ← deref victim
      match markDownLF vi ((getNode st1 vi).topLevel) st1 with
      | (.already, st2) => .ok (false, st2)
      | (.restart, st2) => deleteLFLoop key fuel st2
      | (.marked, st2) => do
        -- `find` once more to let the helping protocol physically unlink
        let (_, st3) ← find st2 key
        .ok (true, addSize st3 (-1))

/-- `skiplist_delete_lockfree`. -/
def skiplist_delete_lockfree (st : SkipList) (key : Int) : M (Bool × SkipList) :=
  deleteLFLoop key (FUEL st) st

/-- The inner loop of `skiplist_contains_lockfree` at one level: break on
`NULL` or the tail; skip marked successors without unlinking; otherwise advance
while `curr->key < key`.  Returns the final `pred`. -/
def containsLevelLF : Nat → SkipList → Int → Nat → Ptr → Nat → M Nat
  | 0, _, _, _, _, _ => .error .outOfFuel
  | fuel + 1, st, key, pred, curr, level =>
    if curr.base = none ∨ curr = tailPtr st then .ok pred
    else do
      let ci ← deref curr
      let succ := loadNext st ci level
      if IS_MARKED succ then
        containsLevelLF fuel st key pred (GET_UNMARKED succ) level
      else
        if (getNode st ci).key < key then
          containsLevelLF fuel st key ci (GET_UNMARKED succ) level
        else .ok pred

/-- The level descent of `skiplist_contains_lockfree`, from `MAX_LEVEL - 1`
down to `0`. -/
def containsDescLF (fuel : Nat) (st : SkipList) (key : Int) : Nat → Nat → M Nat
  | pred, 0 => containsLevelLF fuel st key pred (GET_UNMARKED (loadNext st pred 0)) 0
  | pred, level + 1 => do
    let p1 ← containsLevelLF fuel st key pred
      (GET_UNMARKED (loadNext st pred (level + 1))) (level + 1)
    containsDescLF fuel st key p1 level

/-- `skiplist_contains_lockfree`: the final check is
`curr != tail && curr->key == key && !IS_MARKED(curr->next[0])` — note the
missing `NULL` test before the dereference of `curr`. -/
def skiplist_contains_lockfree (st : SkipList) (key : Int) : M Bool := do
  let pred ← containsDescLF (FUEL st) st key st.head (MAX_LEVEL - 1)
  let curr := GET_UNMARKED (loadNext st pred 0)
  if curr = tailPtr st then .ok false
  else do
    let ci ← deref curr
    .ok (decide ((getNode st ci).key = key) && !IS_MARKED (loadNext st ci 0))

/-! ## Level generator (`random_level` from `skiplist_utils.c`)

The claim models the PRNG draws as an i.i.d. sequence of fair coin flips, so
the generator is embedded as a function of the flip sequence:
`while (level < MAX_LEVEL && flip(level)) level++`. -/

/-- The loop of `random_level`, starting at a given level. -/
def random_level_from (flips : Nat → Bool) (level : Nat) : Nat :=
  if _h : level < MAX_LEVEL ∧ flips level then random_level_from flips (level + 1)
  else level
  termination_by MAX_LEVEL - level
  decreasing_by exact Nat.sub_lt_sub_left _h.1 (Nat.lt_succ_self level)

/-- `random_level()` as a function of the coin-flip sequence. -/
def random_level (flips : Nat → Bool) : Nat := random_level_from flips 0

/-- The number of leading successes of a finite flip list. -/
def streak (l : List Bool) : Nat := (l.takeWhile (fun b => b)).length

/-- All flip lists of length `n` (the sample space for the distribution
statement). -/
def allBoolLists : Nat → List (List Bool)
  | 0 => [[]]
  | n + 1 =>
    (allBoolLists n).map (List.cons true) ++ (allBoolLists n).map (List.cons false)

/-- How many length-`n` flip lists make `random_level` return `j`. -/
def levelCount (n j : Nat) : Nat :=
  ((allBoolLists n).filter
    (fun l => decide (random_level (fun i => l.getD i false) = j))).length

/-! ## Reference model and operation sequences -/

/-- Modelled from the spec: "for a single-threaded sequence of operations, the
result is identical to a standard ordered set" — a finite set of keys;
`insert` answers true iff the key was absent, `delete` true iff present,
`contains` reports membership. -/
def refInsert (s : Finset Int) (k : Int) : Bool × Finset Int :=
  (decide (k ∉ s), insert k s)

/-- Modelled from the spec: reference set deletion. -/
def refDelete (s : Finset Int) (k : Int) : Bool × Finset Int :=
  (decide (k ∈ s), s.erase k)

/-- Modelled from the spec: reference set membership. -/
def refContains (s : Finset Int) (k : Int) : Bool := decide (k ∈ s)

/-- One abstract operation of a single-threaded sequence (`lvl` is the
`random_level()` draw consumed by an insert). -/
inductive OpK where
  | ins (k v : Int) (lvl : Nat)
  | del (k : Int)
  | qry (k : Int)
deriving DecidableEq, Repr

/-- The reference run: the list of boolean results and the final set. -/
def runRef : Finset Int → List OpK → List Bool × Finset Int
  | s, [] => ([], s)
  | s, op :: ops =>
    let (b, s') :=
      match op with
      | .ins k _ _ => refInsert s k
      | .del k => refDelete s k
      | .qry k => (refContains s k, s)
    let (bs, s'') := runRef s' ops
    (b :: bs, s'')

/-- A run of the coarse variant. -/
def runCoarse : SkipList → List OpK → M (List Bool × SkipList)
  | st, [] => .ok ([], st)
  | st, op :: ops => do
    let (b, st') ←
      match op with
      | .ins k v lvl => skiplist_insert_coarse st k v lvl
      | .del k => skiplist_delete_coarse st k
      | .qry k => do
          let b ← skiplist_contains_coarse st k
          pure (b, st)
    let (bs, st'') ← runCoarse st' ops
    .ok (b :: bs, st'')

/-- A run of the fine variant. -/
def runFine : SkipList → List OpK → M (List Bool × SkipList)
  | st, [] => .ok ([], st)
  | st, op :: ops => do
    let (b, st') ←
      match op with
      | .ins k v lvl => skiplist_insert_fine st k v lvl
      | .del k => skiplist_delete_fine st k
      | .qry k => do
          let b ← skiplist_contains_fine st k
          pure (b, st)
    let (bs, st'') ← runFine st' ops
    .ok (b :: bs, st'')

/-- A run of the lock-free variant. -/
def runLockfree : SkipList → List OpK → M (List Bool × SkipList)
  | st, [] => .ok ([], st)
  | st, op :: ops => do
    let (b, st') ←
      match op with
      | .ins k v lvl => skiplist_insert_lockfree st k v lvl
      | .del k => skiplist_delete_lockfree st k
      | .qry k => do
          let b ← skiplist_contains_lockfree st k
          pure (b, st)
    let (bs, st'') ← runLockfree st' ops
    .ok (b :: bs, st'')

/-- Key/level sanity of an operation: keys are `i32` values and a
`random_level()` draw is at most `MAX_LEVEL` (see `random_level_le`). -/
def opWF : OpK → Prop
  | .ins k _ lvl => INT_MIN ≤ k ∧ k ≤ INT_MAX ∧ lvl ≤ MAX_LEVEL
  | .del k => INT_MIN ≤ k ∧ k ≤ INT_MAX
  | .qry k => INT_MIN ≤ k ∧ k ≤ INT_MAX

/-- The key touched by an operation. -/
def opKey : OpK → Int
  | .ins k _ _ => k
  | .del k => k
  | .qry k => k

/-! ## Chains

`collectChain` is the traversal of `validate_skiplist` from
`skiplist_utils.c`: follow `GET_UNMARKED` links from the head at one level
until the tail (stopping also at `NULL`, where the C validator would fault).
`links` is the proposition that a pointer heads a given chain of nodes. -/

/-- The collector loop of `validate_skiplist` at one level. -/
def collectGo : Nat → SkipList → Nat → Ptr → List Nat
  | 0, _, _, _ => []
  | fuel + 1, st, L, p =>
    match (GET_UNMARKED p).base with
    | none => []
    | some i => if i = st.tail then [] else i :: collectGo fuel st L (loadNext st i L)

/-- The node indices encountered when traversing level `L` from the head,
following unmarked links, up to the tail. -/
def collectChain (st : SkipList) (L : Nat) : List Nat :=
  collectGo (FUEL st) st L (loadNext st st.head L)

/-- `links st L p cs e`: starting from the pointer value `p`, the level-`L`
chain visits exactly the nodes `cs` (through unmarked stored pointers) and ends
with the pointer value `e`. -/
def links (st : SkipList) (L : Nat) : Ptr → List Nat → Ptr → Prop
  | p, [], e => p = e
  | p, i :: is, e => p = ⟨some i, false⟩ ∧ links st L (loadNext st i L) is e

/-! ## Reachable states

One inductive per variant: the states produced by `create` followed by any
single-threaded sequence of API calls with `i32` keys (a `contains` call does
not change the state).  `ReachLFND` additionally records that no delete was
called with key `INT_MAX` (the amended claims C3/C10 need this distinction). -/

/-- States reachable in the coarse variant. -/
inductive ReachC : SkipList → Prop where
  | create : ReachC skiplist_create_coarse
  | insert (st st' : SkipList) (k v : Int) (lvl : Nat) (b : Bool) :
      ReachC st → INT_MIN ≤ k → k ≤ INT_MAX → lvl ≤ MAX_LEVEL →
      skiplist_insert_coarse st k v lvl = .ok (b, st') → ReachC st'
  | delete (st st' : SkipList) (k : Int) (b : Bool) :
      ReachC st → INT_MIN ≤ k → k ≤ INT_MAX →
      skiplist_delete_coarse st k = .ok (b, st') → ReachC st'

/-- States reachable in the fine variant. -/
inductive ReachF : SkipList → Prop where
  | create : ReachF skiplist_create_fine
  | insert (st st' : SkipList) (k v : Int) (lvl : Nat) (b : Bool) :
      ReachF st → INT_MIN ≤ k → k ≤ INT_MAX → lvl ≤ MAX_LEVEL →
      skiplist_insert_fine st k v lvl = .ok (b, st') → ReachF st'
  | delete (st st' : SkipList) (k : Int) (b : Bool) :
      ReachF st → INT_MIN ≤ k → k ≤ INT_MAX →
      skiplist_delete_fine st k = .ok (b, st') → ReachF st'

/-- States reachable in the lock-free variant. -/
inductive ReachLF : SkipList → Prop where
  | create : ReachLF skiplist_create_lockfree
  | insert (st st' : SkipList) (k v : Int) (lvl : Nat) (b : Bool) :
      ReachLF st → INT_MIN ≤ k → k ≤ INT_MAX → lvl ≤ MAX_LEVEL →
      skiplist_insert_lockfree st k v lvl = .ok (b, st') → ReachLF st'
  | delete (st st' : SkipList) (k : Int) (b : Bool) :
      ReachLF st → INT_MIN ≤ k → k ≤ INT_MAX →
      skiplist_delete_lockfree st k = .ok (b, st') → ReachLF st'

/-- States reachable in the lock-free variant without ever passing `INT_MAX`
to delete (equivalently, states in which the tail sentinel is still linked). -/
inductive ReachLFND : SkipList → Prop where
  | create : ReachLFND skiplist_create_lockfree
  | insert (st st' : SkipList) (k v : Int) (lvl : Nat) (b : Bool) :
      ReachLFND st → INT_MIN ≤ k → k ≤ INT_MAX → lvl ≤ MAX_LEVEL →
      skiplist_insert_lockfree st k v lvl = .ok (b, st') → ReachLFND st'
  | delete (st st' : SkipList) (k : Int) (b : Bool) :
      ReachLFND st → INT_MIN ≤ k → k < INT_MAX →
      skiplist_delete_lockfree st k = .ok (b, st') → ReachLFND st'

/-! ## Structural invariant of quiescent states -/

/-- Key of node `i`. -/
def keyOf (st : SkipList) (i : Nat) : Int := (getNode st i).key

/-- The sub-chain of live nodes participating at level `L` (a node participates
at levels `0, …, topLevel`). -/
def towerFilter (st : SkipList) (ns : List Nat) (L : Nat) : List Nat :=
  ns.filter (fun i => decide (L ≤ (getNode st i).topLevel))

/-- Facts shared by the quiescent invariants of all variants: heap
well-formedness, sentinel fields, and the sorted list `ns` of live node
indices. -/
structure InvBase (st : SkipList) (ns : List Nat) : Prop where
  wfn : ∀ i, (getNode st i).next.length = MAX_LEVEL + 1
  hhead : st.head = 0
  htail : st.tail = 1
  hmax : st.maxLevel = MAX_LEVEL
  hmem : 2 ≤ st.mem.length
  headKey : (getNode st st.head).key = INT_MIN
  tailKey : (getNode st st.tail).key = INT_MAX
  headTop : (getNode st st.head).topLevel = MAX_LEVEL
  tailTop : (getNode st st.tail).topLevel = MAX_LEVEL
  headUnmarked : (getNode st st.head).marked = false
  tailUnmarked : (getNode st st.tail).marked = false
  sorted : List.Pairwise (fun a b => (getNode st a).key < (getNode st b).key) ns
  idsLt : ∀ i ∈ ns, i < st.mem.length
  idsHead : ∀ i ∈ ns, i ≠ st.head
  idsTail : ∀ i ∈ ns, i ≠ st.tail
  keysLe : ∀ i ∈ ns, (getNode st i).key ≤ INT_MAX
  unmarked : ∀ i ∈ ns, (getNode st i).marked = false

/-- Quiescent invariant of the coarse and fine variants: at every level
`L ≤ MAX_LEVEL` the chain from the head visits exactly the live nodes with
`topLevel ≥ L` and ends at the tail, whose own slots are all `NULL`. -/
structure InvSL (st : SkipList) (ns : List Nat) extends InvBase st ns : Prop where
  tops : ∀ i ∈ ns, (getNode st i).topLevel ≤ MAX_LEVEL
  tailNext : ∀ L, loadNext st st.tail L = nullPtr
  chains : ∀ L ≤ MAX_LEVEL,
    links st L (loadNext st st.head L) (towerFilter st ns L) (tailPtr st)

/-- Quiescent invariant of the lock-free variant.  `ms` lists the chain
participants in key order: the live nodes plus — until
`skiplist_delete_lockfree(list, INT_MAX)` marks and unlinks it — the tail
sentinel, whose key is `INT_MAX`.  Chains live at levels `0, …, MAX_LEVEL - 1`
and end at `NULL` (`head->next[MAX_LEVEL]` is `NULL` from creation on).  The
`marked` bool field is irrelevant here: the Harris algorithm tags the `next`
pointers instead. -/
structure InvLF (st : SkipList) (ms : List Nat) : Prop where
  wfn : ∀ i, (getNode st i).next.length = MAX_LEVEL + 1
  hhead : st.head = 0
  htail : st.tail = 1
  hmax : st.maxLevel = MAX_LEVEL
  hmem : 2 ≤ st.mem.length
  headKey : (getNode st st.head).key = INT_MIN
  tailKey : (getNode st st.tail).key = INT_MAX
  headTop : (getNode st st.head).topLevel = MAX_LEVEL
  tailTop : (getNode st st.tail).topLevel = MAX_LEVEL
  sorted : List.Pairwise (fun a b => (getNode st a).key < (getNode st b).key) ms
  idsLt : ∀ i ∈ ms, i < st.mem.length
  idsHead : ∀ i ∈ ms, i ≠ st.head
  keysLe : ∀ i ∈ ms, (getNode st i).key ≤ INT_MAX
  tops : ∀ i ∈ ms, (getNode st i).topLevel ≤ MAX_LEVEL
  topsLt : ∀ i ∈ ms, i ≠ st.tail → (getNode st i).topLevel < MAX_LEVEL
  top16 : loadNext st st.head MAX_LEVEL = nullPtr
  tailNexts : st.tail ∈ ms → ∀ L, loadNext st st.tail L = nullPtr
  chains : ∀ L < MAX_LEVEL,
    links st L (loadNext st st.head L) (towerFilter st ms L) nullPtr

end SkipV

namespace SkipV

/-! ## Heap access lemmas -/

theorem getNode_setNode_eq {st : SkipList} {i : Nat} (nd : Node)
    (h : i < st.mem.length) : getNode (setNode st i nd) i = nd := by
  simp [getNode, setNode, List.getD_eq_getElem?_getD, List.getElem?_set_self h]

theorem getNode_setNode_ne {st : SkipList} {i j : Nat} (nd : Node)
    (h : i ≠ j) : getNode (setNode st i nd) j = getNode st j := by
  simp [getNode, setNode, List.getD_eq_getElem?_getD, List.getElem?_set_ne h]

@[simp] theorem setNode_head (st : SkipList) (i : Nat) (nd : Node) :
    (setNode st i nd).head = st.head := rfl

@[simp] theorem setNode_tail (st : SkipList) (i : Nat) (nd : Node) :
    (setNode st i nd).tail = st.tail := rfl

@[simp] theorem setNode_maxLevel (st : SkipList) (i : Nat) (nd : Node) :
    (setNode st i nd).maxLevel = st.maxLevel := rfl

@[simp] theorem setNode_mem_length (st : SkipList) (i : Nat) (nd : Node) :
    (setNode st i nd).mem.length = st.mem.length := by
  simp [setNode]

@[simp] theorem storeNext_head (st : SkipList) (i L : Nat) (p : Ptr) :
    (storeNext st i L p).head = st.head := rfl

@[simp] theorem storeNext_tail (st : SkipList) (i L : Nat) (p : Ptr) :
    (storeNext st i L p).tail = st.tail := rfl

@[simp] theorem storeNext_maxLevel (st : SkipList) (i L : Nat) (p : Ptr) :
    (storeNext st i L p).maxLevel = st.maxLevel := rfl

@[simp] theorem storeNext_mem_length (st : SkipList) (i L : Nat) (p : Ptr) :
    (storeNext st i L p).mem.length = st.mem.length := by
  simp [storeNext]

@[simp] theorem tailPtr_storeNext (st : SkipList) (i L : Nat) (p : Ptr) :
    tailPtr (storeNext st i L p) = tailPtr st := rfl

@[simp] theorem tailPtr_setNode (st : SkipList) (i : Nat) (nd : Node) :
    tailPtr (setNode st i nd) = tailPtr st := rfl

theorem getNode_storeNext_ne {st : SkipList} {i j : Nat} (L : Nat) (p : Ptr)
    (h : i ≠ j) : getNode (storeNext st i L p) j = getNode st j :=
  getNode_setNode_ne _ h

theorem getNode_oob {st : SkipList} {i : Nat} (h : st.mem.length ≤ i) :
    getNode st i = default := by
  simp [getNode, List.getD_eq_getElem?_getD, List.getElem?_eq_none h]

theorem setNode_oob {st : SkipList} {i : Nat} (nd : Node)
    (h : st.mem.length ≤ i) : setNode st i nd = st := by
  simp [setNode, List.set_eq_of_length_le h]

theorem getNode_storeNext_self {st : SkipList} {i : Nat} (L : Nat) (p : Ptr)
    (hv : i < st.mem.length) :
    getNode (storeNext st i L p) i =
      { getNode st i with next := (getNode st i).next.set L p } :=
  getNode_setNode_eq _ hv

theorem loadNext_storeNext_self {st : SkipList} {i L : Nat} (p : Ptr)
    (hv : i < st.mem.length) (hL : L < (getNode st i).next.length) :
    loadNext (storeNext st i L p) i L = p := by
  rw [loadNext, getNode_storeNext_self _ _ hv]
  simp [List.getD_eq_getElem?_getD, List.getElem?_set_self hL]

theorem loadNext_storeNext_ne_node {st : SkipList} {i j : Nat} (L L' : Nat)
    (p : Ptr) (h : i ≠ j) :
    loadNext (storeNext st i L p) j L' = loadNext st j L' := by
  rw [loadNext, getNode_storeNext_ne _ _ h, loadNext]

theorem loadNext_storeNext_ne_level {st : SkipList} {i j : Nat} {L L' : Nat}
    (p : Ptr) (h : L ≠ L') :
    loadNext (storeNext st i L p) j L' = loadNext st j L' := by
  by_cases hij : i = j
  · subst hij
    by_cases hv : i < st.mem.length
    · rw [loadNext, getNode_storeNext_self _ _ hv]
      simp only [List.getD_eq_getElem?_getD, List.getElem?_set_ne h]
      rw [loadNext, List.getD_eq_getElem?_getD]
    · rw [storeNext, setNode_oob _ (Nat.le_of_not_lt hv)]
  · exact loadNext_storeNext_ne_node _ _ _ hij

theorem keyOf_storeNext (st : SkipList) (i L : Nat) (p : Ptr) (j : Nat) :
    keyOf (storeNext st i L p) j = keyOf st j := by
  by_cases h : i = j
  · subst h
    by_cases hv : i < st.mem.length
    · rw [keyOf, getNode_storeNext_self _ _ hv]; rfl
    · rw [storeNext, setNode_oob _ (Nat.le_of_not_lt hv)]
  · rw [keyOf, getNode_storeNext_ne _ _ h]; rfl

theorem topOf_storeNext (st : SkipList) (i L : Nat) (p : Ptr) (j : Nat) :
    (getNode (storeNext st i L p) j).topLevel = (getNode st j).topLevel := by
  by_cases h : i = j
  · subst h
    by_cases hv : i < st.mem.length
    · rw [getNode_storeNext_self _ _ hv]
    · rw [storeNext, setNode_oob _ (Nat.le_of_not_lt hv)]
  · rw [getNode_storeNext_ne _ _ h]

theorem markedOf_storeNext (st : SkipList) (i L : Nat) (p : Ptr) (j : Nat) :
    (getNode (storeNext st i L p) j).marked = (getNode st j).marked := by
  by_cases h : i = j
  · subst h
    by_cases hv : i < st.mem.length
    · rw [getNode_storeNext_self _ _ hv]
    · rw [storeNext, setNode_oob _ (Nat.le_of_not_lt hv)]
  · rw [getNode_storeNext_ne _ _ h]

theorem flOf_storeNext (st : SkipList) (i L : Nat) (p : Ptr) (j : Nat) :
    (getNode (storeNext st i L p) j).fully_linked = (getNode st j).fully_linked := by
  by_cases h : i = j
  · subst h
    by_cases hv : i < st.mem.length
    · rw [getNode_storeNext_self _ _ hv]
    · rw [storeNext, setNode_oob _ (Nat.le_of_not_lt hv)]
  · rw [getNode_storeNext_ne _ _ h]

theorem wfn_storeNext {st : SkipList} (i L : Nat) (p : Ptr)
    (h : ∀ j, (getNode st j).next.length = MAX_LEVEL + 1) :
    ∀ j, (getNode (storeNext st i L p) j).next.length = MAX_LEVEL + 1 := by
  intro j
  by_cases hij : i = j
  · subst hij
    by_cases hv : i < st.mem.length
    · rw [getNode_storeNext_self _ _ hv]; simp [h i]
    · rw [storeNext, setNode_oob _ (Nat.le_of_not_lt hv)]; exact h i
  · rw [getNode_storeNext_ne _ _ hij]; exact h j

theorem getNode_alloc_lt {st : SkipList} {nd : Node} {i : Nat}
    (h : i < st.mem.length) : getNode (allocNode st nd).2 i = getNode st i := by
  simp [getNode, allocNode, List.getD_eq_getElem?_getD, List.getElem?_append_left h]

theorem getNode_alloc_self {st : SkipList} (nd : Node) :
    getNode (allocNode st nd).2 st.mem.length = nd := by
  simp [getNode, allocNode, List.getD_eq_getElem?_getD]

theorem loadNext_alloc_lt {st : SkipList} {nd : Node} {i : Nat} (L : Nat)
    (h : i < st.mem.length) : loadNext (allocNode st nd).2 i L = loadNext st i L := by
  rw [loadNext, getNode_alloc_lt h, loadNext]

@[simp] theorem alloc_head (st : SkipList) (nd : Node) :
    (allocNode st nd).2.head = st.head := rfl

@[simp] theorem alloc_tail (st : SkipList) (nd : Node) :
    (allocNode st nd).2.tail = st.tail := rfl

@[simp] theorem alloc_maxLevel (st : SkipList) (nd : Node) :
    (allocNode st nd).2.maxLevel = st.maxLevel := rfl

@[simp] theorem alloc_mem_length (st : SkipList) (nd : Node) :
    (allocNode st nd).2.mem.length = st.mem.length + 1 := by
  simp [allocNode]

@[simp] theorem addSize_getNode (st : SkipList) (d : Int) (i : Nat) :
    getNode (addSize st d) i = getNode st i := rfl

@[simp] theorem addSize_loadNext (st : SkipList) (d : Int) (i L : Nat) :
    loadNext (addSize st d) i L = loadNext st i L := rfl

@[simp] theorem addSize_head (st : SkipList) (d : Int) : (addSize st d).head = st.head := rfl

@[simp] theorem addSize_tail (st : SkipList) (d : Int) : (addSize st d).tail = st.tail := rfl

@[simp] theorem addSize_maxLevel (st : SkipList) (d : Int) :
    (addSize st d).maxLevel = st.maxLevel := rfl

@[simp] theorem addSize_mem_length (st : SkipList) (d : Int) :
    (addSize st d).mem.length = st.mem.length := rfl

@[simp] theorem tailPtr_addSize (st : SkipList) (d : Int) :
    tailPtr (addSize st d) = tailPtr st := rfl

@[simp] theorem tailPtr_alloc (st : SkipList) (nd : Node) :
    tailPtr (allocNode st nd).2 = tailPtr st := rfl

theorem getNode_storeMarked_ne {st : SkipList} {i j : Nat} (b : Bool)
    (h : i ≠ j) : getNode (storeMarked st i b) j = getNode st j :=
  getNode_setNode_ne _ h

theorem getNode_storeMarked_self {st : SkipList} {i : Nat} (b : Bool)
    (hv : i < st.mem.length) :
    getNode (storeMarked st i b) i = { getNode st i with marked := b } :=
  getNode_setNode_eq _ hv

theorem loadNext_storeMarked (st : SkipList) (i : Nat) (b : Bool) (j L : Nat) :
    loadNext (storeMarked st i b) j L = loadNext st j L := by
  by_cases h : i = j
  · subst h
    by_cases hv : i < st.mem.length
    · rw [loadNext, getNode_storeMarked_self _ hv]; rfl
    · rw [storeMarked, setNode_oob _ (Nat.le_of_not_lt hv)]
  · rw [loadNext, getNode_storeMarked_ne _ h, loadNext]

theorem keyOf_storeMarked (st : SkipList) (i : Nat) (b : Bool) (j : Nat) :
    keyOf (storeMarked st i b) j = keyOf st j := by
  by_cases h : i = j
  · subst h
    by_cases hv : i < st.mem.length
    · rw [keyOf, getNode_storeMarked_self _ hv]; rfl
    · rw [storeMarked, setNode_oob _ (Nat.le_of_not_lt hv)]
  · rw [keyOf, getNode_storeMarked_ne _ h]; rfl

theorem topOf_storeMarked (st : SkipList) (i : Nat) (b : Bool) (j : Nat) :
    (getNode (storeMarked st i b) j).topLevel = (getNode st j).topLevel := by
  by_cases h : i = j
  · subst h
    by_cases hv : i < st.mem.length
    · rw [getNode_storeMarked_self _ hv]
    · rw [storeMarked, setNode_oob _ (Nat.le_of_not_lt hv)]
  · rw [getNode_storeMarked_ne _ h]

theorem wfn_storeMarked {st : SkipList} (i : Nat) (b : Bool)
    (h : ∀ j, (getNode st j).next.length = MAX_LEVEL + 1) :
    ∀ j, (getNode (storeMarked st i b) j).next.length = MAX_LEVEL + 1 := by
  intro j
  by_cases hij : i = j
  · subst hij
    by_cases hv : i < st.mem.length
    · rw [getNode_storeMarked_self _ hv]; exact h i
    · rw [storeMarked, setNode_oob _ (Nat.le_of_not_lt hv)]; exact h i
  · rw [getNode_storeMarked_ne _ hij]; exact h j

theorem getNode_storeFullyLinked_ne {st : SkipList} {i j : Nat} (b : Bool)
    (h : i ≠ j) : getNode (storeFullyLinked st i b) j = getNode st j :=
  getNode_setNode_ne _ h

theorem getNode_storeFullyLinked_self {st : SkipList} {i : Nat} (b : Bool)
    (hv : i < st.mem.length) :
    getNode (storeFullyLinked st i b) i = { getNode st i with fully_linked := b } :=
  getNode_setNode_eq _ hv

theorem loadNext_storeFullyLinked (st : SkipList) (i : Nat) (b : Bool) (j L : Nat) :
    loadNext (storeFullyLinked st i b) j L = loadNext st j L := by
  by_cases h : i = j
  · subst h
    by_cases hv : i < st.mem.length
    · rw [loadNext, getNode_storeFullyLinked_self _ hv]; rfl
    · rw [storeFullyLinked, setNode_oob _ (Nat.le_of_not_lt hv)]
  · rw [loadNext, getNode_storeFullyLinked_ne _ h, loadNext]

theorem keyOf_storeFullyLinked (st : SkipList) (i : Nat) (b : Bool) (j : Nat) :
    keyOf (storeFullyLinked st i b) j = keyOf st j := by
  by_cases h : i = j
  · subst h
    by_cases hv : i < st.mem.length
    · rw [keyOf, getNode_storeFullyLinked_self _ hv]; rfl
    · rw [storeFullyLinked, setNode_oob _ (Nat.le_of_not_lt hv)]
  · rw [keyOf, getNode_storeFullyLinked_ne _ h]; rfl

theorem topOf_storeFullyLinked (st : SkipList) (i : Nat) (b : Bool) (j : Nat) :
    (getNode (storeFullyLinked st i b) j).topLevel = (getNode st j).topLevel := by
  by_cases h : i = j
  · subst h
    by_cases hv : i < st.mem.length
    · rw [getNode_storeFullyLinked_self _ hv]
    · rw [storeFullyLinked, setNode_oob _ (Nat.le_of_not_lt hv)]
  · rw [getNode_storeFullyLinked_ne _ h]

theorem markedOf_storeFullyLinked (st : SkipList) (i : Nat) (b : Bool) (j : Nat) :
    (getNode (storeFullyLinked st i b) j).marked = (getNode st j).marked := by
  by_cases h : i = j
  · subst h
    by_cases hv : i < st.mem.length
    · rw [getNode_storeFullyLinked_self _ hv]
    · rw [storeFullyLinked, setNode_oob _ (Nat.le_of_not_lt hv)]
  · rw [getNode_storeFullyLinked_ne _ h]

theorem wfn_storeFullyLinked {st : SkipList} (i : Nat) (b : Bool)
    (h : ∀ j, (getNode st j).next.length = MAX_LEVEL + 1) :
    ∀ j, (getNode (storeFullyLinked st i b) j).next.length = MAX_LEVEL + 1 := by
  intro j
  by_cases hij : i = j
  · subst hij
    by_cases hv : i < st.mem.length
    · rw [getNode_storeFullyLinked_self _ hv]; exact h i
    · rw [storeFullyLinked, setNode_oob _ (Nat.le_of_not_lt hv)]; exact h i
  · rw [getNode_storeFullyLinked_ne _ hij]; exact h j

/-! ## Chain lemmas -/

/-- The pointer value heading a chain `cs` that ends with `e`. -/
def chainHeadPtr : List Nat → Ptr → Ptr
  | [], e => e
  | i :: _, _ => ⟨some i, false⟩

/-- `cs` is sorted by strictly increasing keys. -/
def sortedKeys (st : SkipList) (cs : List Nat) : Prop :=
  cs.Pairwise (fun a b => keyOf st a < keyOf st b)

@[simp] theorem links_nil (st : SkipList) (L : Nat) (p e : Ptr) :
    links st L p [] e ↔ p = e := Iff.rfl

@[simp] theorem links_cons (st : SkipList) (L : Nat) (p e : Ptr) (i : Nat)
    (is : List Nat) :
    links st L p (i :: is) e ↔ p = ⟨some i, false⟩ ∧ links st L (loadNext st i L) is e :=
  Iff.rfl

theorem links_append_iff (st : SkipList) (L : Nat) (p e : Ptr) (lo hi : List Nat) :
    links st L p (lo ++ hi) e ↔
      links st L p lo (chainHeadPtr hi e) ∧ links st L (chainHeadPtr hi e) hi e := by
  induction lo generalizing p with
  | nil =>
    simp only [List.nil_append, links_nil]
    constructor
    · intro h
      cases hi with
      | nil => exact ⟨h, rfl⟩
      | cons j js =>
        rcases h with ⟨h1, h2⟩
        exact ⟨h1, rfl, h2⟩
    · intro h
      rcases h with ⟨h1, h2⟩
      cases hi with
      | nil => exact h1.trans h2
      | cons j js => exact h1 ▸ h2
  | cons i is ih =>
    simp only [List.cons_append, links_cons, ih, and_assoc]

theorem links_frame {st st' : SkipList} {L : Nat} {p e : Ptr} {cs : List Nat}
    (hsame : ∀ i ∈ cs, loadNext st' i L = loadNext st i L)
    (h : links st L p cs e) : links st' L p cs e := by
  induction cs generalizing p with
  | nil => exact h
  | cons i is ih =>
    rcases h with ⟨h1, h2⟩
    refine ⟨h1, ?_⟩
    rw [hsame i (List.mem_cons_self i is)]
    exact ih (fun j hj => hsame j (List.mem_cons_of_mem _ hj)) h2

theorem links_suffix {st : SkipList} {L : Nat} {p e : Ptr} {xs ys : List Nat}
    {i : Nat} (h : links st L p (xs ++ i :: ys) e) :
    links st L (loadNext st i L) ys e := by
  induction xs generalizing p with
  | nil => exact h.2
  | cons a as ih => exact ih h.2

theorem links_start {st : SkipList} {L : Nat} {p e : Ptr} {cs : List Nat}
    (h : links st L p cs e) : p = chainHeadPtr cs e := by
  cases cs with
  | nil => exact h
  | cons i is => exact h.1

/-- Redirect the slot of the last chain element to a new target. -/
theorem links_retarget_last {st st' : SkipList} {L : Nat} {start m p' : Ptr}
    {cs : List Nat} (h : links st L start cs m) (hne : cs ≠ [])
    (hlast : loadNext st' (cs.getLast hne) L = p')
    (hmid : ∀ i ∈ cs.dropLast, loadNext st' i L = loadNext st i L) :
    links st' L start cs p' := by
  induction cs generalizing start with
  | nil => exact absurd rfl hne
  | cons i is ih =>
    rcases h with ⟨h1, h2⟩
    cases is with
    | nil =>
      refine ⟨h1, ?_⟩
      simpa using hlast
    | cons j js =>
      refine ⟨h1, ?_⟩
      have hmide : ∀ a ∈ (j :: js).dropLast, loadNext st' a L = loadNext st a L := by
        intro a ha
        refine hmid a ?_
        simpa using Or.inr ha
      have hi : loadNext st' i L = loadNext st i L := by
        refine hmid i ?_
        simp
      rw [hi]
      exact ih h2 (by simp) (by simpa using hlast) hmide

theorem sortedKeys_nodup {st : SkipList} {cs : List Nat} (h : sortedKeys st cs) :
    cs.Nodup :=
  h.imp (fun hab => by rintro rfl; exact lt_irrefl _ hab)

theorem nodup_length_le {cs : List Nat} {n : Nat} (hd : cs.Nodup)
    (hlt : ∀ i ∈ cs, i < n) : cs.length ≤ n := by
  classical
  have h1 : cs.toFinset ⊆ Finset.range n := by
    intro a ha
    rw [List.mem_toFinset] at ha
    exact Finset.mem_range.2 (hlt a ha)
  have h2 := Finset.card_le_card h1
  rwa [List.toFinset_card_of_nodup hd, Finset.card_range] at h2

/-! ## Walk result description -/

/-- The chain prefix of keys `< k`. -/
def belowK (st : SkipList) (k : Int) (cs : List Nat) : List Nat :=
  cs.takeWhile (fun i => decide (keyOf st i < k))

/-- The final predecessor of a walk for `k` along `cs` started at `dflt`. -/
def predIdx (st : SkipList) (k : Int) (cs : List Nat) (dflt : Nat) : Nat :=
  (belowK st k cs).getLastD dflt

/-- The chain suffix starting at the first key `≥ k`. -/
def restK (st : SkipList) (k : Int) (cs : List Nat) : List Nat :=
  cs.dropWhile (fun i => decide (keyOf st i < k))

/-- The successor pointer of a walk for `k` along `cs` that ends with `e`. -/
def succPtr (st : SkipList) (k : Int) (cs : List Nat) (e : Ptr) : Ptr :=
  chainHeadPtr (restK st k cs) e

@[simp] theorem belowK_nil (st : SkipList) (k : Int) : belowK st k [] = [] := rfl

@[simp] theorem restK_nil (st : SkipList) (k : Int) : restK st k [] = [] := rfl

theorem belowK_cons_pos {st : SkipList} {k : Int} {i : Nat} (is : List Nat)
    (h : keyOf st i < k) : belowK st k (i :: is) = i :: belowK st k is := by
  simp [belowK, List.takeWhile_cons, h]

theorem belowK_cons_neg {st : SkipList} {k : Int} {i : Nat} (is : List Nat)
    (h : ¬keyOf st i < k) : belowK st k (i :: is) = [] := by
  simp [belowK, List.takeWhile_cons, h]

theorem restK_cons_pos {st : SkipList} {k : Int} {i : Nat} (is : List Nat)
    (h : keyOf st i < k) : restK st k (i :: is) = restK st k is := by
  simp [restK, List.dropWhile_cons, h]

theorem restK_cons_neg {st : SkipList} {k : Int} {i : Nat} (is : List Nat)
    (h : ¬keyOf st i < k) : restK st k (i :: is) = i :: is := by
  simp [restK, List.dropWhile_cons, h]

theorem takeWhile_append_all {α : Type} (p : α → Bool) (l1 l2 : List α)
    (h : ∀ a ∈ l1, p a) : (l1 ++ l2).takeWhile p = l1 ++ l2.takeWhile p := by
  induction l1 with
  | nil => simp
  | cons a as ih =>
    have ha := h a (List.mem_cons_self a as)
    simp [List.takeWhile_cons, ha, ih (fun b hb => h b (List.mem_cons_of_mem _ hb))]

theorem dropWhile_append_all {α : Type} (p : α → Bool) (l1 l2 : List α)
    (h : ∀ a ∈ l1, p a) : (l1 ++ l2).dropWhile p = l2.dropWhile p := by
  induction l1 with
  | nil => simp
  | cons a as ih =>
    have ha := h a (List.mem_cons_self a as)
    simp [List.dropWhile_cons, ha, ih (fun b hb => h b (List.mem_cons_of_mem _ hb))]

theorem belowK_mem_lt {st : SkipList} {k : Int} {cs : List Nat} {i : Nat}
    (h : i ∈ belowK st k cs) : keyOf st i < k := by
  have := List.mem_takeWhile_imp h
  simpa using this

theorem belowK_sublist_mem {st : SkipList} {k : Int} {cs : List Nat} {i : Nat}
    (h : i ∈ belowK st k cs) : i ∈ cs :=
  (List.takeWhile_sublist _).subset h

/-- The final predecessor is the start value or a chain member with key `< k`. -/
theorem predIdx_cases (st : SkipList) (k : Int) (cs : List Nat) (dflt : Nat) :
    predIdx st k cs dflt = dflt ∨
      (predIdx st k cs dflt ∈ cs ∧ keyOf st (predIdx st k cs dflt) < k) := by
  rcases hb : belowK st k cs with _ | ⟨a, as⟩
  · left
    simp [predIdx, hb]
  · right
    have hmem : predIdx st k cs dflt ∈ belowK st k cs := by
      rw [predIdx, hb, List.getLastD_cons]
      exact List.getLastD_mem_cons as a
    exact ⟨belowK_sublist_mem hmem, belowK_mem_lt hmem⟩

theorem getLastD_append_cons {α : Type} (l1 l2 : List α) (a d : α) :
    (l1 ++ a :: l2).getLastD d = l2.getLastD a := by
  induction l1 generalizing d with
  | nil => rw [List.nil_append, List.getLastD_cons]
  | cons x xs ih => rw [List.cons_append, List.getLastD_cons]; exact ih x

theorem sorted_split_lt {st : SkipList} {xs ys : List Nat} {p : Nat}
    (hs : sortedKeys st (xs ++ p :: ys)) : ∀ x ∈ xs, keyOf st x < keyOf st p := by
  intro x hx
  rw [sortedKeys, List.pairwise_append] at hs
  exact hs.2.2 x hx p (List.mem_cons_self p ys)

/-- Splitting the walk description at a member with key `< k`. -/
theorem predIdx_split {st : SkipList} {k : Int} {xs ys : List Nat} {p : Nat}
    (hs : sortedKeys st (xs ++ p :: ys)) (hp : keyOf st p < k) (dflt : Nat) :
    predIdx st k (xs ++ p :: ys) dflt = predIdx st k ys p := by
  have hall : ∀ x ∈ xs ++ [p], decide (keyOf st x < k) = true := by
    intro x hx
    rcases List.mem_append.1 hx with hx | hx
    · exact decide_eq_true ((sorted_split_lt hs x hx).trans hp)
    · rcases List.mem_singleton.1 hx with rfl
      exact decide_eq_true hp
  have hb : belowK st k (xs ++ p :: ys) = (xs ++ [p]) ++ belowK st k ys := by
    show List.takeWhile (fun i => decide (keyOf st i < k)) (xs ++ p :: ys) = _
    rw [show xs ++ p :: ys = (xs ++ [p]) ++ ys by simp]
    exact takeWhile_append_all _ _ _ hall
  show (belowK st k (xs ++ p :: ys)).getLastD dflt = (belowK st k ys).getLastD p
  rw [hb, show (xs ++ [p]) ++ belowK st k ys = xs ++ p :: belowK st k ys by simp,
    getLastD_append_cons]

theorem succPtr_split {st : SkipList} {k : Int} {xs ys : List Nat} {p : Nat}
    (hs : sortedKeys st (xs ++ p :: ys)) (hp : keyOf st p < k) (e : Ptr) :
    succPtr st k (xs ++ p :: ys) e = succPtr st k ys e := by
  have hall : ∀ x ∈ xs ++ [p], decide (keyOf st x < k) = true := by
    intro x hx
    rcases List.mem_append.1 hx with hx | hx
    · exact decide_eq_true ((sorted_split_lt hs x hx).trans hp)
    · rcases List.mem_singleton.1 hx with rfl
      exact decide_eq_true hp
  rw [succPtr, restK]
  rw [show xs ++ p :: ys = (xs ++ [p]) ++ ys by simp]
  rw [dropWhile_append_all _ _ _ hall]
  rfl

/-! ## Coarse walk and search specification -/

theorem predIdx_cons_pos {st : SkipList} {k : Int} {i : Nat} (is : List Nat)
    (hk : keyOf st i < k) (dflt : Nat) :
    predIdx st k (i :: is) dflt = predIdx st k is i := by
  rw [predIdx, belowK_cons_pos is hk, List.getLastD_cons]
  rfl

theorem predIdx_cons_neg {st : SkipList} {k : Int} {i : Nat} (is : List Nat)
    (hk : ¬keyOf st i < k) (dflt : Nat) :
    predIdx st k (i :: is) dflt = dflt := by
  rw [predIdx, belowK_cons_neg is hk]
  rfl

theorem succPtr_cons_pos {st : SkipList} {k : Int} {i : Nat} (is : List Nat)
    (hk : keyOf st i < k) (e : Ptr) :
    succPtr st k (i :: is) e = succPtr st k is e := by
  rw [succPtr, restK_cons_pos is hk]
  rfl

theorem succPtr_cons_neg {st : SkipList} {k : Int} {i : Nat} (is : List Nat)
    (hk : ¬keyOf st i < k) (e : Ptr) :
    succPtr st k (i :: is) e = ⟨some i, false⟩ := by
  rw [succPtr, restK_cons_neg is hk]
  rfl

theorem ptr_ne_tailPtr {st : SkipList} {i : Nat} (h : i ≠ st.tail) :
    (⟨some i, false⟩ : Ptr) ≠ tailPtr st := by
  intro hc
  rw [tailPtr, Ptr.mk.injEq] at hc
  exact h (Option.some_injective _ hc.1)

@[simp] theorem deref_some_unmarked (i : Nat) :
    deref (⟨some i, false⟩ : Ptr) = .ok i := rfl

@[simp] theorem deref_null : deref nullPtr = .error .nullDeref := rfl

theorem walkC_spec {st : SkipList} {L : Nat} {k : Int} :
    ∀ (cs : List Nat) (pred : Nat) (fuel : Nat),
    links st L (loadNext st pred L) cs (tailPtr st) →
    st.tail ∉ cs → cs.length < fuel →
    walkC fuel st k pred L = .ok (predIdx st k cs pred, succPtr st k cs (tailPtr st)) := by
  intro cs
  induction cs with
  | nil =>
    intro pred fuel hl _ hf
    obtain ⟨f, rfl⟩ : ∃ f, fuel = f + 1 := ⟨fuel - 1, by omega⟩
    rw [links_nil] at hl
    simp [walkC, hl, predIdx, succPtr, restK, chainHeadPtr]
  | cons i is ih =>
    intro pred fuel hl hn hf
    obtain ⟨f, rfl⟩ : ∃ f, fuel = f + 1 := ⟨fuel - 1, by omega⟩
    rcases hl with ⟨h1, h2⟩
    have hit : i ≠ st.tail := fun h => hn (h ▸ List.mem_cons_self _ _)
    simp only [walkC, h1, if_neg (ptr_ne_tailPtr hit), deref_some_unmarked, bind_ok]
    by_cases hk : (getNode st i).key < k
    · rw [if_pos hk, predIdx_cons_pos is hk, succPtr_cons_pos is hk]
      exact ih i f h2 (fun h => hn (List.mem_cons_of_mem _ h)) (by
        simp only [List.length_cons] at hf; omega)
    · rw [if_neg hk, predIdx_cons_neg is hk, succPtr_cons_neg is hk]

/-- The coarse walk started from the head or from a chain member with key
`< k` lands on the global predecessor/successor of `k` at that level. -/
theorem walkC_from {st : SkipList} {L : Nat} {k : Int} {cs : List Nat}
    {pred fuel : Nat}
    (hl : links st L (loadNext st st.head L) cs (tailPtr st))
    (hs : sortedKeys st cs) (hn : st.tail ∉ cs)
    (hpred : pred = st.head ∨ (pred ∈ cs ∧ keyOf st pred < k))
    (hf : cs.length < fuel) :
    walkC fuel st k pred L =
      .ok (predIdx st k cs st.head, succPtr st k cs (tailPtr st)) := by
  rcases hpred with rfl | ⟨hmem, hkey⟩
  · exact walkC_spec cs st.head fuel hl hn hf
  · rcases List.append_of_mem hmem with ⟨xs, ys, rfl⟩
    have hys : links st L (loadNext st pred L) ys (tailPtr st) := links_suffix hl
    have hn' : st.tail ∉ ys := fun h => hn (by simp [h])
    have hf' : ys.length < fuel := by
      simp only [List.length_append, List.length_cons] at hf
      omega
    rw [walkC_spec ys pred fuel hys hn' hf']
    rw [predIdx_split hs hkey, succPtr_split hs hkey]

/-! ## Tower filter lemmas -/

theorem towerFilter_mem {st : SkipList} {ns : List Nat} {L i : Nat} :
    i ∈ towerFilter st ns L ↔ i ∈ ns ∧ L ≤ (getNode st i).topLevel := by
  simp [towerFilter, List.mem_filter]

theorem towerFilter_zero (st : SkipList) (ns : List Nat) :
    towerFilter st ns 0 = ns := by
  rw [towerFilter, List.filter_eq_self]
  intro a _
  simp

theorem towerFilter_anti {st : SkipList} {ns : List Nat} {L L' : Nat}
    (h : L ≤ L') {i : Nat} (hi : i ∈ towerFilter st ns L') :
    i ∈ towerFilter st ns L := by
  rw [towerFilter_mem] at hi ⊢
  exact ⟨hi.1, le_trans h hi.2⟩

theorem towerFilter_sorted {st : SkipList} {ns : List Nat}
    (hs : List.Pairwise (fun a b => (getNode st a).key < (getNode st b).key) ns)
    (L : Nat) : sortedKeys st (towerFilter st ns L) :=
  hs.filter _

theorem towerFilter_sublist (st : SkipList) (ns : List Nat) (L : Nat) :
    (towerFilter st ns L).Sublist ns :=
  List.filter_sublist ns

/-- Restricting a tower filter one level up. -/
theorem towerFilter_succ (st : SkipList) (ns : List Nat) (L : Nat) :
    towerFilter st ns (L + 1) =
      (towerFilter st ns L).filter (fun i => decide (L + 1 ≤ (getNode st i).topLevel)) := by
  rw [towerFilter, towerFilter, List.filter_filter]
  congr 1
  funext i
  by_cases h : L + 1 ≤ (getNode st i).topLevel
  · simp [h, le_trans (Nat.le_succ L) h]
  · simp [h]

/-! ## Coarse descent specification -/

/-- The level-`l` predecessor of `k` in the coarse/fine chain structure. -/
def gpredSL (st : SkipList) (ns : List Nat) (k : Int) (l : Nat) : Nat :=
  predIdx st k (towerFilter st ns l) st.head

/-- The level-`l` successor pointer of `k` in the coarse/fine chain
structure. -/
def gsuccSL (st : SkipList) (ns : List Nat) (k : Int) (l : Nat) : Ptr :=
  succPtr st k (towerFilter st ns l) (tailPtr st)

/-- The full `(preds, succs)` table for levels `0, …, level`. -/
def gpcsSL (st : SkipList) (ns : List Nat) (k : Int) (level : Nat) : List (Nat × Ptr) :=
  (List.range (level + 1)).map (fun l => (gpredSL st ns k l, gsuccSL st ns k l))

theorem gpcsSL_getD {st : SkipList} {ns : List Nat} {k : Int} {level l : Nat}
    (h : l ≤ level) (d : Nat × Ptr) :
    (gpcsSL st ns k level).getD l d = (gpredSL st ns k l, gsuccSL st ns k l) := by
  have hl : l < (List.range (level + 1)).length := by simpa using Nat.lt_succ_of_le h
  rw [gpcsSL, List.getD_eq_getElem?_getD, List.getElem?_map]
  simp [List.getElem?_range (by simpa using Nat.lt_succ_of_le h)]

theorem gpcsSL_succ (st : SkipList) (ns : List Nat) (k : Int) (level : Nat) :
    gpcsSL st ns k (level + 1) =
      gpcsSL st ns k level ++ [(gpredSL st ns k (level + 1), gsuccSL st ns k (level + 1))] := by
  rw [gpcsSL, gpcsSL, List.range_succ, List.map_append]
  rfl

theorem InvSL.chainSorted {st : SkipList} {ns : List Nat} (inv : InvSL st ns)
    (L : Nat) : sortedKeys st (towerFilter st ns L) :=
  towerFilter_sorted inv.sorted L

theorem InvSL.tailNotMem {st : SkipList} {ns : List Nat} (inv : InvSL st ns)
    (L : Nat) : st.tail ∉ towerFilter st ns L := by
  intro h
  exact inv.idsTail _ ((towerFilter_sublist st ns L).subset h) rfl

theorem InvSL.chainLen {st : SkipList} {ns : List Nat} (inv : InvSL st ns)
    (L : Nat) : (towerFilter st ns L).length ≤ st.mem.length :=
  nodup_length_le (sortedKeys_nodup (inv.chainSorted L))
    (fun _ hi => inv.idsLt _ ((towerFilter_sublist st ns L).subset hi))

/-- The pred produced at one level feeds the next level down. -/
theorem gpredSL_feeds {st : SkipList} {ns : List Nat} {k : Int} {l l' : Nat}
    (h : l' ≤ l) :
    gpredSL st ns k l = st.head ∨
      (gpredSL st ns k l ∈ towerFilter st ns l' ∧ keyOf st (gpredSL st ns k l) < k) := by
  rcases predIdx_cases st k (towerFilter st ns l) st.head with h1 | ⟨h1, h2⟩
  · exact Or.inl h1
  · exact Or.inr ⟨towerFilter_anti h h1, h2⟩

theorem searchC_spec {st : SkipList} {ns : List Nat} {k : Int} (inv : InvSL st ns) :
    ∀ (level : Nat), level ≤ MAX_LEVEL →
    ∀ (pred fuel : Nat), st.mem.length < fuel →
    (pred = st.head ∨ (pred ∈ towerFilter st ns level ∧ keyOf st pred < k)) →
    searchC fuel st k pred level = .ok (gpcsSL st ns k level) := by
  intro level
  induction level with
  | zero =>
    intro _ pred fuel hfuel hp
    have hw := walkC_from (inv.chains 0 (Nat.zero_le _)) (inv.chainSorted 0)
      (inv.tailNotMem 0) hp (lt_of_le_of_lt (inv.chainLen 0) hfuel)
    simp only [searchC, hw, bind_ok]
    rfl
  | succ level ih =>
    intro hle pred fuel hfuel hp
    have hw := walkC_from (inv.chains (level + 1) hle) (inv.chainSorted (level + 1))
      (inv.tailNotMem (level + 1)) hp
      (lt_of_le_of_lt (inv.chainLen (level + 1)) hfuel)
    simp only [searchC, hw, bind_ok]
    have hrec := ih (le_trans (Nat.le_succ _) hle)
      (gpredSL st ns k (level + 1)) fuel hfuel
      (gpredSL_feeds (Nat.le_succ level))
    simp only [gpredSL] at hrec
    rw [hrec, bind_ok, gpcsSL_succ]
    simp only [gpredSL, gsuccSL]

/-! ## Interpreting walk results on sorted chains -/

/-- Keys of the live nodes. -/
def keysOf (st : SkipList) (ns : List Nat) : List Int := ns.map (keyOf st)

theorem links_last_load {st : SkipList} {L : Nat} {start e : Ptr} {cs : List Nat}
    (h : links st L start cs e) (hne : cs ≠ []) :
    loadNext st (cs.getLast hne) L = e := by
  induction cs generalizing start with
  | nil => exact absurd rfl hne
  | cons i is ih =>
    cases is with
    | nil => simpa using h.2
    | cons j js => simpa [List.getLast_cons] using ih h.2 (by simp)

/-- On a sorted chain the walk prefix is the filter of keys `< k`. -/
theorem belowK_eq_filter {st : SkipList} {k : Int} {cs : List Nat}
    (hs : sortedKeys st cs) :
    belowK st k cs = cs.filter (fun i => decide (keyOf st i < k)) := by
  induction cs with
  | nil => rfl
  | cons i is ih =>
    rcases List.pairwise_cons.1 hs with ⟨hi, his⟩
    by_cases hk : keyOf st i < k
    · rw [belowK_cons_pos is hk, ih his, List.filter_cons_of_pos (by simpa using hk)]
    · rw [belowK_cons_neg is hk, List.filter_cons_of_neg (by simpa using hk)]
      symm
      rw [List.filter_eq_nil_iff]
      intro j hj
      simp only [decide_eq_true_eq]
      intro hjk
      exact hk (lt_trans (hi j hj) hjk)

/-- On a sorted chain the walk suffix is the filter of keys `≥ k`. -/
theorem restK_eq_filter {st : SkipList} {k : Int} {cs : List Nat}
    (hs : sortedKeys st cs) :
    restK st k cs = cs.filter (fun i => decide (¬keyOf st i < k)) := by
  induction cs with
  | nil => rfl
  | cons i is ih =>
    rcases List.pairwise_cons.1 hs with ⟨hi, his⟩
    by_cases hk : keyOf st i < k
    · rw [restK_cons_pos is hk, ih his, List.filter_cons_of_neg (by simpa using hk)]
    · rw [restK_cons_neg is hk, List.filter_cons_of_pos (by simpa using hk)]
      congr 1
      symm
      rw [List.filter_eq_self]
      intro j hj
      simp only [decide_eq_true_eq]
      intro hjk
      exact hk (lt_trans (hi j hj) hjk)

theorem restK_mem_ge {st : SkipList} {k : Int} {cs : List Nat}
    (hs : sortedKeys st cs) {i : Nat} (h : i ∈ restK st k cs) :
    k ≤ keyOf st i := by
  rw [restK_eq_filter hs] at h
  rcases List.mem_filter.1 h with ⟨_, h2⟩
  simp only [decide_eq_true_eq] at h2
  omega

theorem restK_mem_base {st : SkipList} {k : Int} {cs : List Nat} {i : Nat}
    (h : i ∈ restK st k cs) : i ∈ cs :=
  (List.dropWhile_sublist _).subset h

/-- If `k` is a live key of the sorted chain, the walk successor is its node. -/
theorem restK_first_of_mem {st : SkipList} {k : Int} {cs : List Nat}
    (hs : sortedKeys st cs) {i : Nat} (hi : i ∈ cs) (hik : keyOf st i = k) :
    ∃ l, restK st k cs = i :: l := by
  have himem : i ∈ restK st k cs := by
    have hsplit := List.takeWhile_append_dropWhile
      (p := fun j => decide (keyOf st j < k)) (l := cs)
    have : i ∈ belowK st k cs ∨ i ∈ restK st k cs := by
      rw [belowK, restK]
      rw [← List.mem_append, hsplit]
      exact hi
    rcases this with h | h
    · exact absurd (belowK_mem_lt h) (by omega)
    · exact h
  rcases hrest : restK st k cs with _ | ⟨j, l⟩
  · rw [hrest] at himem; cases himem
  · rw [hrest] at himem
    rcases List.mem_cons.1 himem with rfl | hil
    · exact ⟨l, rfl⟩
    · exfalso
      have hjge : k ≤ keyOf st j := by
        refine restK_mem_ge hs ?_
        rw [hrest]
        exact List.mem_cons_self _ _
      have hsort' : sortedKeys st (j :: l) := by
        have := (List.dropWhile_sublist (l := cs)
          (p := fun j => decide (keyOf st j < k)))
        rw [show List.dropWhile (fun j => decide (keyOf st j < k)) cs
            = restK st k cs from rfl, hrest] at this
        exact List.Pairwise.sublist this hs
      have := (List.pairwise_cons.1 hsort').1 i hil
      omega

/-- If `k` is not a live key of the sorted chain, every walk-suffix key
exceeds `k`. -/
theorem restK_gt_of_not_mem {st : SkipList} {k : Int} {cs : List Nat}
    (hs : sortedKeys st cs) (hnk : k ∉ keysOf st cs) {i : Nat}
    (h : i ∈ restK st k cs) : k < keyOf st i := by
  have h1 := restK_mem_ge hs h
  have h2 : keyOf st i ≠ k := by
    intro he
    exact hnk (List.mem_map.2 ⟨i, restK_mem_base h, he⟩)
  omega

theorem getLastD_eq_getLast_cons {α : Type} (as : List α) (a : α) :
    as.getLastD a = (a :: as).getLast (by simp) := by
  induction as generalizing a with
  | nil => rfl
  | cons b bs ih =>
    rw [List.getLastD_cons, List.getLast_cons (by simp)]
    exact ih b

/-- The stored pointer after the global predecessor is the global successor. -/
theorem gpred_load {st : SkipList} {ns : List Nat} {k : Int} (inv : InvSL st ns)
    {L : Nat} (hL : L ≤ MAX_LEVEL) :
    loadNext st (gpredSL st ns k L) L = gsuccSL st ns k L := by
  have hchain := inv.chains L hL
  have hsplit : towerFilter st ns L =
      belowK st k (towerFilter st ns L) ++ restK st k (towerFilter st ns L) :=
    (List.takeWhile_append_dropWhile (p := fun j => decide (keyOf st j < k))
      (l := towerFilter st ns L)).symm
  rw [hsplit, links_append_iff] at hchain
  rcases hchain with ⟨h1, _⟩
  rcases hb : belowK st k (towerFilter st ns L) with _ | ⟨a, as⟩
  · rw [hb, links_nil] at h1
    rw [gpredSL, predIdx, hb]
    exact h1
  · rw [hb] at h1
    have hlast := links_last_load h1 (by simp)
    rw [gpredSL, predIdx, hb, List.getLastD_cons, getLastD_eq_getLast_cons]
    exact hlast

/-! ## Chain surgery -/

/-- Insert a fresh node `nid` between the prefix `lo` and the suffix `hi` of a
chain: the last `lo` slot (or the chain entry) now aims at `nid`, `nid` aims at
the old suffix head, everything else at this level is untouched. -/
theorem links_insert_node {st st' : SkipList} {L : Nat} {lo hi : List Nat}
    {e start start' : Ptr} {nid : Nat}
    (hold : links st L start (lo ++ hi) e)
    (hstart1 : lo = [] → start' = ⟨some nid, false⟩)
    (hstart2 : lo ≠ [] → start' = start)
    (hlast : ∀ h : lo ≠ [], loadNext st' (lo.getLast h) L = ⟨some nid, false⟩)
    (hmid : ∀ i ∈ lo.dropLast, loadNext st' i L = loadNext st i L)
    (hnid : loadNext st' nid L = chainHeadPtr hi e)
    (hhi : ∀ i ∈ hi, loadNext st' i L = loadNext st i L) :
    links st' L start' (lo ++ nid :: hi) e := by
  rw [links_append_iff] at hold
  rcases hold with ⟨hlo, hhi0⟩
  have hhi' : links st' L (chainHeadPtr hi e) hi e := links_frame hhi hhi0
  rw [links_append_iff]
  constructor
  · show links st' L start' lo (chainHeadPtr (nid :: hi) e)
    cases holo : lo with
    | nil =>
      rw [links_nil]
      exact hstart1 holo
    | cons a as =>
      rw [← holo]
      have hlo' : links st' L start lo ⟨some nid, false⟩ :=
        links_retarget_last hlo (by simp [holo]) (hlast (by simp [holo])) hmid
      rw [hstart2 (by simp [holo])]
      exact hlo'
  · exact ⟨rfl, by rw [hnid]; exact hhi'⟩

/-- Remove the chain member `v` between `lo` and `hi`: the last `lo` slot (or
the chain entry) now aims at the old suffix head. -/
theorem links_remove_node {st st' : SkipList} {L : Nat} {lo hi : List Nat}
    {e start start' : Ptr} {v : Nat}
    (hold : links st L start (lo ++ v :: hi) e)
    (hstart1 : lo = [] → start' = chainHeadPtr hi e)
    (hstart2 : lo ≠ [] → start' = start)
    (hlast : ∀ h : lo ≠ [], loadNext st' (lo.getLast h) L = chainHeadPtr hi e)
    (hmid : ∀ i ∈ lo.dropLast, loadNext st' i L = loadNext st i L)
    (hhi : ∀ i ∈ hi, loadNext st' i L = loadNext st i L) :
    links st' L start' (lo ++ hi) e := by
  rw [links_append_iff] at hold
  rcases hold with ⟨hlo, hv⟩
  rcases hv with ⟨_, hvlinks⟩
  have hvload : loadNext st v L = chainHeadPtr hi e := links_start hvlinks
  have hhi0 : links st L (chainHeadPtr hi e) hi e := by rw [← hvload]; exact hvlinks
  have hhi' : links st' L (chainHeadPtr hi e) hi e := links_frame hhi hhi0
  rw [links_append_iff]
  refine ⟨?_, hhi'⟩
  cases holo : lo with
  | nil =>
    rw [links_nil]
    exact hstart1 holo
  | cons a as =>
    rw [← holo]
    rw [hstart2 (by simp [holo])]
    exact links_retarget_last hlo (by simp [holo]) (hlast (by simp [holo])) hmid

/-! ## Shape preservation of the mutation loops -/

/-- `st'` agrees with `st` on everything except possibly the contents of some
`next` slots. -/
def eqButNext (st st' : SkipList) : Prop :=
  st'.head = st.head ∧ st'.tail = st.tail ∧ st'.maxLevel = st.maxLevel ∧
  st'.mem.length = st.mem.length ∧ st'.size = st.size ∧
  ∀ j, (getNode st' j).key = (getNode st j).key ∧
    (getNode st' j).value = (getNode st j).value ∧
    (getNode st' j).topLevel = (getNode st j).topLevel ∧
    (getNode st' j).marked = (getNode st j).marked ∧
    (getNode st' j).fully_linked = (getNode st j).fully_linked ∧
    (getNode st' j).next.length = (getNode st j).next.length

theorem eqButNext_refl (st : SkipList) : eqButNext st st :=
  ⟨rfl, rfl, rfl, rfl, rfl, fun _ => ⟨rfl, rfl, rfl, rfl, rfl, rfl⟩⟩

theorem eqButNext_trans {st1 st2 st3 : SkipList}
    (h1 : eqButNext st1 st2) (h2 : eqButNext st2 st3) : eqButNext st1 st3 := by
  obtain ⟨a1, b1, c1, d1, e1, f1⟩ := h1
  obtain ⟨a2, b2, c2, d2, e2, f2⟩ := h2
  refine ⟨a2.trans a1, b2.trans b1, c2.trans c1, d2.trans d1, e2.trans e1, fun j => ?_⟩
  obtain ⟨k1, v1, t1, m1, l1, n1⟩ := f1 j
  obtain ⟨k2, v2, t2, m2, l2, n2⟩ := f2 j
  exact ⟨k2.trans k1, v2.trans v1, t2.trans t1, m2.trans m1, l2.trans l1, n2.trans n1⟩

theorem eqButNext_storeNext (st : SkipList) (i L : Nat) (p : Ptr) :
    eqButNext st (storeNext st i L p) := by
  refine ⟨rfl, rfl, rfl, by simp, ?_, fun j => ?_⟩
  · show (setNode st i _).size = st.size
    rfl
  · by_cases h : i = j
    · subst h
      by_cases hv : i < st.mem.length
      · rw [getNode_storeNext_self _ _ hv]
        exact ⟨rfl, rfl, rfl, rfl, rfl, by simp⟩
      · rw [storeNext, setNode_oob _ (Nat.le_of_not_lt hv)]
        exact ⟨rfl, rfl, rfl, rfl, rfl, rfl⟩
    · rw [getNode_storeNext_ne _ _ h]
      exact ⟨rfl, rfl, rfl, rfl, rfl, rfl⟩

theorem eqButNext_keyOf {st st' : SkipList} (h : eqButNext st st') (j : Nat) :
    keyOf st' j = keyOf st j := (h.2.2.2.2.2 j).1

theorem eqButNext_wfn {st st' : SkipList} (h : eqButNext st st')
    (hw : ∀ j, (getNode st j).next.length = MAX_LEVEL + 1) :
    ∀ j, (getNode st' j).next.length = MAX_LEVEL + 1 :=
  fun j => ((h.2.2.2.2.2 j).2.2.2.2.2).trans (hw j)

/-- State description of the coarse insert link loop: slots `(newNode, l)` and
`(preds[l], l)` for `l ∈ [i, stop]` are written, everything else is kept. -/
theorem linkUpC_loadNext (pcs : List (Nat × Ptr)) (nid : Nat) :
    ∀ (n i stop : Nat) (st : SkipList), stop + 1 - i ≤ n → stop ≤ MAX_LEVEL →
    (∀ j, (getNode st j).next.length = MAX_LEVEL + 1) →
    nid < st.mem.length →
    (∀ l, i ≤ l → l ≤ stop → (pcs.getD l (0, nullPtr)).1 ≠ nid) →
    (∀ l, i ≤ l → l ≤ stop → (pcs.getD l (0, nullPtr)).1 < st.mem.length) →
    eqButNext st (linkUpC pcs nid i stop st) ∧
    ∀ j L', loadNext (linkUpC pcs nid i stop st) j L' =
      if i ≤ L' ∧ L' ≤ stop then
        (if j = nid then loadNext st (pcs.getD L' (0, nullPtr)).1 L'
         else if j = (pcs.getD L' (0, nullPtr)).1 then ⟨some nid, false⟩
         else loadNext st j L')
      else loadNext st j L' := by
  intro n
  induction n with
  | zero =>
    intro i stop st hn _ _ _ _ _
    have hgt : ¬i ≤ stop := by omega
    rw [linkUpC, dif_neg hgt]
    refine ⟨eqButNext_refl st, fun j L' => ?_⟩
    rw [if_neg (by omega)]
  | succ n ih =>
    intro i stop st hn hstop hwf hnid hpn hpv
    by_cases hc : i ≤ stop
    · rw [linkUpC, dif_pos hc]
      set p := (pcs.getD i (0, nullPtr)).1 with hp
      set succ := loadNext st p i with hsucc
      set st1 := storeNext st nid i succ with hst1
      set st2 := storeNext st1 p i ⟨some nid, false⟩ with hst2
      have hpnid : p ≠ nid := hpn i le_rfl hc
      have hwf1 : ∀ j, (getNode st1 j).next.length = MAX_LEVEL + 1 :=
        wfn_storeNext _ _ _ hwf
      have hwf2 : ∀ j, (getNode st2 j).next.length = MAX_LEVEL + 1 :=
        wfn_storeNext _ _ _ hwf1
      have hlen2 : st2.mem.length = st.mem.length := by
        rw [hst2, hst1]; simp
      have ihr := ih (i + 1) stop st2 (by omega) hstop hwf2
        (by rw [hlen2]; exact hnid)
        (fun l hl1 hl2 => hpn l (by omega) hl2)
        (fun l hl1 hl2 => by rw [hlen2]; exact hpv l (by omega) hl2)
      refine ⟨eqButNext_trans (eqButNext_trans (eqButNext_storeNext _ _ _ _)
        (eqButNext_storeNext _ _ _ _)) ihr.1, fun j L' => ?_⟩
      rw [ihr.2 j L']
      -- translate `st2` reads back to `st` reads
      have hread : ∀ (j' L''), ¬(L'' = i) →
          loadNext st2 j' L'' = loadNext st j' L'' := by
        intro j' L'' hL
        rw [hst2, loadNext_storeNext_ne_level _ (fun h => hL h.symm),
          hst1, loadNext_storeNext_ne_level _ (fun h => hL h.symm)]
      have hreadp : ∀ L'', i + 1 ≤ L'' → L'' ≤ stop →
          loadNext st2 (pcs.getD L'' (0, nullPtr)).1 L'' =
            loadNext st (pcs.getD L'' (0, nullPtr)).1 L'' := by
        intro L'' h1 _
        exact hread _ _ (by omega)
      by_cases hL : L' = i
      · rw [hL]
        rw [if_neg (show ¬(i + 1 ≤ i ∧ i ≤ stop) from fun hcon => by omega),
          if_pos (show i ≤ i ∧ i ≤ stop from ⟨le_rfl, hc⟩)]
        by_cases hj1 : j = nid
        · rw [if_pos hj1, hj1, hst2, loadNext_storeNext_ne_node _ _ _ hpnid,
            hst1, loadNext_storeNext_self _ hnid (by rw [hwf nid]; omega)]
        · rw [if_neg hj1]
          by_cases hj2 : j = p
          · rw [if_pos hj2, hj2, hst2,
              loadNext_storeNext_self _
                (by rw [hst1, storeNext_mem_length]; exact hpv i le_rfl hc)
                (by rw [hwf1 p]; omega)]
          · rw [if_neg hj2, hst2, loadNext_storeNext_ne_node _ _ _ (Ne.symm hj2),
              hst1, loadNext_storeNext_ne_node _ _ _ (Ne.symm hj1)]
      · by_cases hr : i ≤ L' ∧ L' ≤ stop
        · rw [if_pos (show i + 1 ≤ L' ∧ L' ≤ stop by omega), if_pos hr]
          by_cases hj1 : j = nid
          · rw [if_pos hj1, if_pos hj1, hreadp L' (by omega) hr.2]
          · rw [if_neg hj1, if_neg hj1]
            by_cases hj2 : j = (pcs.getD L' (0, nullPtr)).1
            · rw [if_pos hj2, if_pos hj2]
            · rw [if_neg hj2, if_neg hj2, hread _ _ hL]
        · rw [if_neg (show ¬(i + 1 ≤ L' ∧ L' ≤ stop) by omega), if_neg hr,
            hread _ _ hL]
    · rw [linkUpC, dif_neg hc]
      refine ⟨eqButNext_refl st, fun j L' => ?_⟩
      rw [if_neg (by omega)]

/-- State description of the coarse delete unlink loop: slot `(preds[l], l)`
for `l ∈ [i, stop]` now holds the victim's old level-`l` pointer. -/
theorem unlinkUpC_loadNext (pcs : List (Nat × Ptr)) (vi : Nat) :
    ∀ (n i stop : Nat) (st : SkipList), stop + 1 - i ≤ n → stop ≤ MAX_LEVEL →
    (∀ j, (getNode st j).next.length = MAX_LEVEL + 1) →
    (∀ l, i ≤ l → l ≤ stop → (pcs.getD l (0, nullPtr)).1 ≠ vi) →
    (∀ l, i ≤ l → l ≤ stop → (pcs.getD l (0, nullPtr)).1 < st.mem.length) →
    eqButNext st (unlinkUpC pcs vi i stop st) ∧
    ∀ j L', loadNext (unlinkUpC pcs vi i stop st) j L' =
      if i ≤ L' ∧ L' ≤ stop ∧ j = (pcs.getD L' (0, nullPtr)).1 then
        loadNext st vi L'
      else loadNext st j L' := by
  intro n
  induction n with
  | zero =>
    intro i stop st hn _ _ _ _
    have hgt : ¬i ≤ stop := by omega
    rw [unlinkUpC, dif_neg hgt]
    refine ⟨eqButNext_refl st, fun j L' => ?_⟩
    rw [if_neg (by omega)]
  | succ n ih =>
    intro i stop st hn hstop hwf hpnv hpv
    by_cases hc : i ≤ stop
    · rw [unlinkUpC, dif_pos hc]
      set p := (pcs.getD i (0, nullPtr)).1 with hp
      set st1 := storeNext st p i (loadNext st vi i) with hst1
      have hwf1 : ∀ j, (getNode st1 j).next.length = MAX_LEVEL + 1 :=
        wfn_storeNext _ _ _ hwf
      have hlen1 : st1.mem.length = st.mem.length := by rw [hst1]; simp
      have ihr := ih (i + 1) stop st1 (by omega) hstop hwf1
        (fun l h1 h2 => hpnv l (by omega) h2)
        (fun l h1 h2 => by rw [hlen1]; exact hpv l (by omega) h2)
      refine ⟨eqButNext_trans (eqButNext_storeNext _ _ _ _) ihr.1, fun j L' => ?_⟩
      rw [ihr.2 j L']
      have hpvi : p ≠ vi := hpnv i le_rfl hc
      have hread : ∀ (j' L''), ¬(L'' = i) →
          loadNext st1 j' L'' = loadNext st j' L'' := by
        intro j' L'' hL
        rw [hst1, loadNext_storeNext_ne_level _ (fun h => hL h.symm)]
      have hreadvi : ∀ L'', loadNext st1 vi L'' = loadNext st vi L'' := by
        intro L''
        rw [hst1, loadNext_storeNext_ne_node _ _ _ hpvi]
      by_cases hL : L' = i
      · rw [hL]
        rw [if_neg (show ¬(i + 1 ≤ i ∧ i ≤ stop ∧ j = (pcs.getD i (0, nullPtr)).1)
            from fun hcon => by omega)]
        by_cases hj : j = p
        · rw [if_pos (show i ≤ i ∧ i ≤ stop ∧ j = (pcs.getD i (0, nullPtr)).1
              from ⟨le_rfl, hc, hj⟩), hj, hst1,
            loadNext_storeNext_self _ (hpv i le_rfl hc) (by rw [hwf p]; omega)]
        · rw [if_neg (show ¬(i ≤ i ∧ i ≤ stop ∧ j = (pcs.getD i (0, nullPtr)).1)
              from fun hcon => hj hcon.2.2), hst1,
            loadNext_storeNext_ne_node _ _ _ (Ne.symm hj)]
      · by_cases hr : i + 1 ≤ L' ∧ L' ≤ stop ∧ j = (pcs.getD L' (0, nullPtr)).1
        · rw [if_pos hr, if_pos (show i ≤ L' ∧ L' ≤ stop ∧ _ from ⟨by omega, hr.2⟩),
            hreadvi]
        · rw [if_neg hr, if_neg (show ¬(i ≤ L' ∧ L' ≤ stop ∧
              j = (pcs.getD L' (0, nullPtr)).1) from fun hcon => hr ⟨by omega, hcon.2⟩),
            hread _ _ hL]
    · rw [unlinkUpC, dif_neg hc]
      refine ⟨eqButNext_refl st, fun j L' => ?_⟩
      rw [if_neg (by omega)]

/-- State description of the new-node setup loop (`newNode->next[l] = succs[l]`
for `l ∈ [i, stop]`). -/
theorem setSuccs_loadNext (pss : List (Nat × Ptr)) (nid : Nat) :
    ∀ (n i stop : Nat) (st : SkipList), stop + 1 - i ≤ n → stop ≤ MAX_LEVEL →
    (∀ j, (getNode st j).next.length = MAX_LEVEL + 1) →
    nid < st.mem.length →
    eqButNext st (setSuccs pss nid i stop st) ∧
    ∀ j L', loadNext (setSuccs pss nid i stop st) j L' =
      if j = nid ∧ i ≤ L' ∧ L' ≤ stop then (pss.getD L' (0, nullPtr)).2
      else loadNext st j L' := by
  intro n
  induction n with
  | zero =>
    intro i stop st hn _ _ _
    have hgt : ¬i ≤ stop := by omega
    rw [setSuccs, dif_neg hgt]
    refine ⟨eqButNext_refl st, fun j L' => ?_⟩
    rw [if_neg (by omega)]
  | succ n ih =>
    intro i stop st hn hstop hwf hnv
    by_cases hc : i ≤ stop
    · rw [setSuccs, dif_pos hc]
      set st1 := storeNext st nid i (pss.getD i (0, nullPtr)).2 with hst1
      have hwf1 : ∀ j, (getNode st1 j).next.length = MAX_LEVEL + 1 :=
        wfn_storeNext _ _ _ hwf
      have hlen1 : st1.mem.length = st.mem.length := by rw [hst1]; simp
      have ihr := ih (i + 1) stop st1 (by omega) hstop hwf1 (by rw [hlen1]; exact hnv)
      refine ⟨eqButNext_trans (eqButNext_storeNext _ _ _ _) ihr.1, fun j L' => ?_⟩
      rw [ihr.2 j L']
      have hread : ∀ (j' L''), ¬(L'' = i) →
          loadNext st1 j' L'' = loadNext st j' L'' := by
        intro j' L'' hL
        rw [hst1, loadNext_storeNext_ne_level _ (fun h => hL h.symm)]
      by_cases hL : L' = i
      · rw [hL]
        rw [if_neg (show ¬(j = nid ∧ i + 1 ≤ i ∧ i ≤ stop) from fun hcon => by omega)]
        by_cases hj : j = nid
        · rw [if_pos (show j = nid ∧ i ≤ i ∧ i ≤ stop from ⟨hj, le_rfl, hc⟩), hj,
            hst1, loadNext_storeNext_self _ hnv (by rw [hwf nid]; omega)]
        · rw [if_neg (show ¬(j = nid ∧ i ≤ i ∧ i ≤ stop) from fun hcon => hj hcon.1),
            hst1, loadNext_storeNext_ne_node _ _ _ (Ne.symm hj)]
      · by_cases hr : j = nid ∧ i + 1 ≤ L' ∧ L' ≤ stop
        · rw [if_pos hr, if_pos (show j = nid ∧ i ≤ L' ∧ L' ≤ stop
            from ⟨hr.1, by omega, hr.2.2⟩)]
        · rw [if_neg hr, if_neg (show ¬(j = nid ∧ i ≤ L' ∧ L' ≤ stop)
              from fun hcon => hr ⟨hcon.1, by omega, hcon.2.2⟩),
            hread _ _ hL]
    · rw [setSuccs, dif_neg hc]
      refine ⟨eqButNext_refl st, fun j L' => ?_⟩
      rw [if_neg (by omega)]

/-! ## Committing an insert (shared by the coarse and fine variants) -/

theorem wfn_alloc {st : SkipList} {nd : Node}
    (hw : ∀ j, (getNode st j).next.length = MAX_LEVEL + 1)
    (hnd : nd.next.length = MAX_LEVEL + 1) :
    ∀ j, (getNode (allocNode st nd).2 j).next.length = MAX_LEVEL + 1 := by
  intro j
  rcases Nat.lt_trichotomy j st.mem.length with h | h | h
  · rw [getNode_alloc_lt h]; exact hw j
  · subst h; rw [getNode_alloc_self]; exact hnd
  · rw [getNode_oob (by simpa using h)]
    rfl

theorem mem_keysOf {st : SkipList} {ns : List Nat} {k : Int} :
    k ∈ keysOf st ns ↔ ∃ i ∈ ns, keyOf st i = k := by
  simp [keysOf, List.mem_map]

theorem ns_split (st : SkipList) (k : Int) (ns : List Nat) :
    ns = belowK st k ns ++ restK st k ns :=
  (List.takeWhile_append_dropWhile (p := fun j => decide (keyOf st j < k)) (l := ns)).symm

theorem loadNext_oob {st : SkipList} {i : Nat} (h : st.mem.length ≤ i) (L : Nat) :
    loadNext st i L = nullPtr := by
  rw [loadNext, getNode_oob h]
  have : (default : Node).next = List.replicate (MAX_LEVEL + 1) nullPtr := rfl
  rw [this]
  rcases Nat.lt_or_ge L (MAX_LEVEL + 1) with hL | hL
  · rw [List.getD_eq_getElem?_getD, List.getElem?_replicate_of_lt hL]
    rfl
  · rw [List.getD_eq_getElem?_getD, List.getElem?_eq_none (by simpa using hL)]
    rfl

/-- Interface of a completed insert at the heap level: a fresh node `nid` of
key `k` and height `lvl`, each level `L ≤ lvl` spliced between `gpredSL L` and
`gsuccSL L`, everything else untouched. -/
def InsertShape (st stX : SkipList) (ns : List Nat) (k : Int) (lvl nid : Nat) : Prop :=
  stX.head = st.head ∧ stX.tail = st.tail ∧ stX.maxLevel = st.maxLevel ∧
  stX.mem.length = st.mem.length + 1 ∧ nid = st.mem.length ∧
  (∀ j, j ≠ nid → (getNode stX j).key = (getNode st j).key ∧
    (getNode stX j).topLevel = (getNode st j).topLevel ∧
    (getNode stX j).marked = (getNode st j).marked) ∧
  (getNode stX nid).key = k ∧ (getNode stX nid).topLevel = lvl ∧
  (getNode stX nid).marked = false ∧
  (∀ j, (getNode stX j).next.length = MAX_LEVEL + 1) ∧
  (∀ j L, loadNext stX j L =
    if L ≤ lvl ∧ j = nid then gsuccSL st ns k L
    else if L ≤ lvl ∧ j = gpredSL st ns k L then ⟨some nid, false⟩
    else loadNext st j L)

theorem gpred_not_nid {st : SkipList} {ns : List Nat} {k : Int} (inv : InvSL st ns)
    (L : Nat) : gpredSL st ns k L < st.mem.length := by
  rcases predIdx_cases st k (towerFilter st ns L) st.head with h | ⟨h, _⟩
  · rw [gpredSL, h, inv.hhead]
    have := inv.hmem
    omega
  · exact inv.idsLt _ ((towerFilter_sublist st ns L).subset h)

theorem gpred_not_tail {st : SkipList} {ns : List Nat} {k : Int} (inv : InvSL st ns)
    (L : Nat) : gpredSL st ns k L ≠ st.tail := by
  rcases predIdx_cases st k (towerFilter st ns L) st.head with h | ⟨h, _⟩
  · rw [gpredSL, h, inv.hhead, inv.htail]
    omega
  · exact inv.idsTail _ ((towerFilter_sublist st ns L).subset h)

/-- The new tower filter after an insert splice. -/
theorem towerFilter_insertShape {st stX : SkipList} {ns : List Nat} {k : Int}
    {lvl nid : Nat} (inv : InvSL st ns) (hshape : InsertShape st stX ns k lvl nid)
    (L : Nat) :
    towerFilter stX (belowK st k ns ++ nid :: restK st k ns) L =
      belowK st k (towerFilter st ns L) ++
        (if L ≤ lvl then nid :: restK st k (towerFilter st ns L)
         else restK st k (towerFilter st ns L)) := by
  obtain ⟨_, _, _, _, hnid, hold, _, htop, _, _, _⟩ := hshape
  have htops : ∀ j ∈ ns, (getNode stX j).topLevel = (getNode st j).topLevel := by
    intro j hj
    exact (hold j (by have := inv.idsLt j hj; omega)).2.1
  have hfilter : ∀ ms : List Nat, (∀ j ∈ ms, j ∈ ns) →
      ms.filter (fun i => decide (L ≤ (getNode stX i).topLevel)) =
        ms.filter (fun i => decide (L ≤ (getNode st i).topLevel)) := by
    intro ms hms
    refine List.filter_congr ?_
    intro j hj
    rw [htops j (hms j hj)]
  have hb : ∀ j ∈ belowK st k ns, j ∈ ns := fun j h => belowK_sublist_mem h
  have hr : ∀ j ∈ restK st k ns, j ∈ ns := fun j h => restK_mem_base h
  have hcomm : ∀ (q : Nat → Bool),
      (ns.filter (fun i => decide (keyOf st i < k))).filter q =
        (ns.filter q).filter (fun i => decide (keyOf st i < k)) := by
    intro q
    rw [List.filter_filter, List.filter_filter]
    refine List.filter_congr ?_
    intro j _
    rw [Bool.and_comm]
  have hcomm2 : ∀ (q : Nat → Bool),
      (ns.filter (fun i => decide (¬keyOf st i < k))).filter q =
        (ns.filter q).filter (fun i => decide (¬keyOf st i < k)) := by
    intro q
    rw [List.filter_filter, List.filter_filter]
    refine List.filter_congr ?_
    intro j _
    rw [Bool.and_comm]
  rw [towerFilter, List.filter_append, List.filter_cons]
  rw [hfilter _ hb, hfilter _ hr]
  rw [show (belowK st k ns).filter (fun i => decide (L ≤ (getNode st i).topLevel))
      = belowK st k (towerFilter st ns L) from ?_]
  · rw [show (restK st k ns).filter (fun i => decide (L ≤ (getNode st i).topLevel))
        = restK st k (towerFilter st ns L) from ?_]
    · by_cases hL : L ≤ lvl
      · rw [if_pos hL]
        have : decide (L ≤ (getNode stX nid).topLevel) = true := by
          rw [htop]; exact decide_eq_true hL
        rw [this]
        simp
      · rw [if_neg hL]
        have : decide (L ≤ (getNode stX nid).topLevel) = false := by
          rw [htop]; exact decide_eq_false hL
        rw [this]
        simp
    · rw [restK_eq_filter inv.sorted, hcomm2,
        restK_eq_filter (towerFilter_sorted inv.sorted L)]
      rfl
  · rw [belowK_eq_filter inv.sorted, hcomm,
      belowK_eq_filter (towerFilter_sorted inv.sorted L)]
    rfl

theorem getLastD_of_ne_nil {α : Type} {l : List α} (h : l ≠ []) (d : α) :
    l.getLastD d = l.getLast h := by
  rw [List.getLastD_eq_getLast?, List.getLast?_eq_getLast _ h]
  rfl

theorem nodup_getLast_not_mem_dropLast {α : Type} {l : List α} (h : l.Nodup)
    (hne : l ≠ []) : l.getLast hne ∉ l.dropLast := by
  intro hmem
  have hsplit := List.dropLast_append_getLast hne
  rw [← hsplit] at h
  rcases List.nodup_append.1 h with ⟨_, _, hdisj⟩
  exact hdisj hmem (List.mem_singleton_self _)

/-- Committing an insert: the spliced state satisfies the invariant with the
new node at its sorted position, and the key set gains `k`. -/
theorem insertCommit {st stX : SkipList} {ns : List Nat} {k : Int} {lvl nid : Nat}
    (inv : InvSL st ns) (hk : k ≤ INT_MAX) (hlvl : lvl ≤ MAX_LEVEL)
    (hnm : k ∉ keysOf st ns) (hshape : InsertShape st stX ns k lvl nid) :
    InvSL stX (belowK st k ns ++ nid :: restK st k ns) ∧
    (keysOf stX (belowK st k ns ++ nid :: restK st k ns)).toFinset =
      insert k ((keysOf st ns).toFinset) := by
  obtain ⟨hh, ht, hm, hlen, hnid, hold, hkey, htopn, hmkn, hwfX, hload⟩ := hshape
  have hmemlt : ∀ j ∈ ns, j < st.mem.length := inv.idsLt
  have hnsne : ∀ j ∈ ns, j ≠ nid := fun j hj => by
    have := hmemlt j hj
    omega
  have hkeyX : ∀ j ∈ ns, (getNode stX j).key = (getNode st j).key :=
    fun j hj => (hold j (hnsne j hj)).1
  have htopX : ∀ j ∈ ns, (getNode stX j).topLevel = (getNode st j).topLevel :=
    fun j hj => (hold j (hnsne j hj)).2.1
  have hmarkX : ∀ j ∈ ns, (getNode stX j).marked = (getNode st j).marked :=
    fun j hj => (hold j (hnsne j hj)).2.2
  have hheadne : st.head ≠ nid := by
    rw [inv.hhead]
    have := inv.hmem
    omega
  have htailne : st.tail ≠ nid := by
    rw [inv.htail]
    have := inv.hmem
    omega
  have hloMem : ∀ j ∈ belowK st k ns, j ∈ ns := fun j h => belowK_sublist_mem h
  have hhiMem : ∀ j ∈ restK st k ns, j ∈ ns := fun j h => restK_mem_base h
  have hchains : ∀ L ≤ MAX_LEVEL,
      links stX L (loadNext stX stX.head L)
        (towerFilter stX (belowK st k ns ++ nid :: restK st k ns) L) (tailPtr stX) := by
    intro L hL
    have htp : tailPtr stX = tailPtr st := by rw [tailPtr, ht]; rfl
    rw [towerFilter_insertShape inv
      ⟨hh, ht, hm, hlen, hnid, hold, hkey, htopn, hmkn, hwfX, hload⟩ L, htp, hh]
    set loL := belowK st k (towerFilter st ns L) with hloL
    set hiL := restK st k (towerFilter st ns L) with hhiL
    have hsplitL : towerFilter st ns L = loL ++ hiL := ns_split st k _
    have holdchain : links st L (loadNext st st.head L) (loL ++ hiL) (tailPtr st) := by
      rw [← hsplitL]
      exact inv.chains L hL
    have hlomem : ∀ j ∈ loL, j ∈ ns :=
      fun j h => (towerFilter_sublist st ns L).subset (belowK_sublist_mem h)
    have hhimem : ∀ j ∈ hiL, j ∈ ns :=
      fun j h => (towerFilter_sublist st ns L).subset (restK_mem_base h)
    have hnodL : (loL ++ hiL).Nodup := by
      rw [← hsplitL]
      exact sortedKeys_nodup (inv.chainSorted L)
    have hgpred : gpredSL st ns k L = (loL).getLastD st.head := rfl
    by_cases hLlvl : L ≤ lvl
    · rw [if_pos hLlvl]
      refine links_insert_node holdchain ?_ ?_ ?_ ?_ ?_ ?_
      · intro hlo
        rw [hload st.head L, if_neg (fun hcon => hheadne hcon.2),
          if_pos ⟨hLlvl, by rw [hgpred, hlo]; rfl⟩]
      · intro hlo
        have hgp : gpredSL st ns k L ≠ st.head := by
          rw [hgpred, getLastD_of_ne_nil hlo]
          intro hcon
          exact inv.idsHead _ (hlomem _ (List.getLast_mem hlo)) hcon
        rw [hload st.head L, if_neg (fun hcon => hheadne hcon.2),
          if_neg (fun hcon => hgp hcon.2.symm)]
      · intro hlo
        have hgl : loL.getLast hlo = gpredSL st ns k L := by
          rw [hgpred, getLastD_of_ne_nil hlo]
        have hglne : loL.getLast hlo ≠ nid := hnsne _ (hlomem _ (List.getLast_mem hlo))
        rw [hload _ L, if_neg (fun hcon => hglne hcon.2), if_pos ⟨hLlvl, hgl⟩]
      · intro i hi
        have hiin : i ∈ loL := (List.dropLast_sublist loL).subset hi
        have hine : i ≠ nid := hnsne _ (hlomem _ hiin)
        have hinegp : i ≠ gpredSL st ns k L := by
          rcases hb : loL with _ | ⟨a, as⟩
          · rw [hb] at hi; cases hi
          · rw [hgpred, getLastD_of_ne_nil (by rw [hb]; simp)]
            intro hcon
            have := nodup_getLast_not_mem_dropLast
              ((List.nodup_append.1 hnodL).1) (by rw [hb]; simp)
            rw [← hcon] at this
            exact this hi
        rw [hload i L, if_neg (fun hcon => hine hcon.2),
          if_neg (fun hcon => hinegp hcon.2)]
      · rw [hload nid L, if_pos ⟨hLlvl, rfl⟩]
        rfl
      · intro i hi
        have hine : i ≠ nid := hnsne _ (hhimem _ hi)
        have hinegp : i ≠ gpredSL st ns k L := by
          rcases hb : loL with _ | ⟨a, as⟩
          · rw [hgpred, hb]
            intro hcon
            exact inv.idsHead _ (hhimem _ hi) hcon
          · rw [hgpred, getLastD_of_ne_nil (by rw [hb]; simp)]
            intro hcon
            have hdisj := (List.nodup_append.1 hnodL).2.2
            exact hdisj (hcon ▸ List.getLast_mem (by rw [hb]; simp)) hi
        rw [hload i L, if_neg (fun hcon => hine hcon.2),
          if_neg (fun hcon => hinegp hcon.2)]
    · rw [if_neg hLlvl]
      have hall : ∀ j L', loadNext stX j L' = loadNext st j L' ∨
          (L' ≤ lvl) := by
        intro j L'
        by_cases h : L' ≤ lvl
        · exact Or.inr h
        · left
          rw [hload j L', if_neg (fun hcon => h hcon.1), if_neg (fun hcon => h hcon.1)]
      have hnotle : ∀ j, loadNext stX j L = loadNext st j L := by
        intro j
        rcases hall j L with h | h
        · exact h
        · exact absurd h hLlvl
      rw [hnotle st.head]
      exact links_frame (fun i _ => hnotle i) holdchain
  refine ⟨?_, ?_⟩
  · refine
      { wfn := hwfX
        hhead := hh.trans inv.hhead
        htail := ht.trans inv.htail
        hmax := hm.trans inv.hmax
        hmem := (by have := inv.hmem; omega)
        headKey := ?_
        tailKey := ?_
        headTop := ?_
        tailTop := ?_
        headUnmarked := ?_
        tailUnmarked := ?_
        sorted := ?_
        idsLt := ?_
        idsHead := ?_
        idsTail := ?_
        keysLe := ?_
        unmarked := ?_
        tops := ?_
        tailNext := ?_
        chains := ?_ }
    · rw [hh, (hold st.head (by rw [inv.hhead]; have := inv.hmem; omega)).1]
      exact inv.headKey
    · rw [ht, (hold st.tail (by rw [inv.htail]; have := inv.hmem; omega)).1]
      exact inv.tailKey
    · rw [hh, (hold st.head (by rw [inv.hhead]; have := inv.hmem; omega)).2.1]
      exact inv.headTop
    · rw [ht, (hold st.tail (by rw [inv.htail]; have := inv.hmem; omega)).2.1]
      exact inv.tailTop
    · rw [hh, (hold st.head (by rw [inv.hhead]; have := inv.hmem; omega)).2.2]
      exact inv.headUnmarked
    · rw [ht, (hold st.tail (by rw [inv.htail]; have := inv.hmem; omega)).2.2]
      exact inv.tailUnmarked
    · -- sortedness of the new live list
      rw [List.pairwise_append]
      refine ⟨?_, ?_, ?_⟩
      · have hsub : (belowK st k ns).Sublist ns := List.takeWhile_sublist _
        have := inv.sorted.sublist hsub
        refine this.imp_of_mem ?_
        intro a b ha hb hab
        rw [(hkeyX a (hloMem a ha)), (hkeyX b (hloMem b hb))]
        exact hab
      · rw [List.pairwise_cons]
        refine ⟨?_, ?_⟩
        · intro b hb
          rw [hkey, (hkeyX b (hhiMem b hb))]
          exact restK_gt_of_not_mem inv.sorted hnm hb
        · have hsub : (restK st k ns).Sublist ns := List.dropWhile_sublist _
          have := inv.sorted.sublist hsub
          refine this.imp_of_mem ?_
          intro a b ha hb hab
          rw [(hkeyX a (hhiMem a ha)), (hkeyX b (hhiMem b hb))]
          exact hab
      · intro a ha b hb
        have hka : (getNode stX a).key < k := by
          rw [hkeyX a (hloMem a ha)]
          exact belowK_mem_lt ha
        rcases List.mem_cons.1 hb with rfl | hb'
        · rw [hkey]
          exact hka
        · rw [hkeyX b (hhiMem b hb')]
          have h2 : k < (getNode st b).key := restK_gt_of_not_mem inv.sorted hnm hb'
          omega
    · intro i hi
      rw [hlen]
      rcases List.mem_append.1 hi with h | h
      · have := hmemlt i (hloMem i h); omega
      · rcases List.mem_cons.1 h with rfl | h'
        · omega
        · have := hmemlt i (hhiMem i h'); omega
    · intro i hi
      rw [hh]
      rcases List.mem_append.1 hi with h | h
      · exact inv.idsHead i (hloMem i h)
      · rcases List.mem_cons.1 h with rfl | h'
        · exact fun hcon => hheadne hcon.symm
        · exact inv.idsHead i (hhiMem i h')
    · intro i hi
      rw [ht]
      rcases List.mem_append.1 hi with h | h
      · exact inv.idsTail i (hloMem i h)
      · rcases List.mem_cons.1 h with rfl | h'
        · exact fun hcon => htailne hcon.symm
        · exact inv.idsTail i (hhiMem i h')
    · intro i hi
      rcases List.mem_append.1 hi with h | h
      · rw [hkeyX i (hloMem i h)]; exact inv.keysLe i (hloMem i h)
      · rcases List.mem_cons.1 h with rfl | h'
        · rw [hkey]; exact hk
        · rw [hkeyX i (hhiMem i h')]; exact inv.keysLe i (hhiMem i h')
    · intro i hi
      rcases List.mem_append.1 hi with h | h
      · rw [hmarkX i (hloMem i h)]; exact inv.unmarked i (hloMem i h)
      · rcases List.mem_cons.1 h with rfl | h'
        · exact hmkn
        · rw [hmarkX i (hhiMem i h')]; exact inv.unmarked i (hhiMem i h')
    · intro i hi
      rcases List.mem_append.1 hi with h | h
      · rw [htopX i (hloMem i h)]; exact inv.tops i (hloMem i h)
      · rcases List.mem_cons.1 h with rfl | h'
        · rw [htopn]; exact hlvl
        · rw [htopX i (hhiMem i h')]; exact inv.tops i (hhiMem i h')
    · intro L
      rw [ht, hload st.tail L, if_neg (fun hcon => htailne hcon.2),
        if_neg (fun hcon => gpred_not_tail inv L hcon.2.symm)]
      exact inv.tailNext L
    · exact hchains
  · -- key sets
    apply Finset.ext
    intro x
    simp only [List.mem_toFinset, Finset.mem_insert]
    constructor
    · intro hx
      rcases mem_keysOf.1 hx with ⟨i, hi, hik⟩
      rcases List.mem_append.1 hi with h | h
      · right
        exact mem_keysOf.2 ⟨i, hloMem i h, by rw [keyOf, ← hkeyX i (hloMem i h)]; exact hik⟩
      · rcases List.mem_cons.1 h with rfl | h'
        · left
          rw [← hik, keyOf, hkey]
        · right
          exact mem_keysOf.2 ⟨i, hhiMem i h',
            by rw [keyOf, ← hkeyX i (hhiMem i h')]; exact hik⟩
    · intro hx
      rcases hx with rfl | hx
      · exact mem_keysOf.2 ⟨nid, by simp, by rw [keyOf, hkey]⟩
      · rcases mem_keysOf.1 hx with ⟨i, hi, hik⟩
        refine mem_keysOf.2 ⟨i, ?_, by rw [keyOf, hkeyX i hi]; exact hik⟩
        conv at hi => rw [ns_split st k ns]
        rcases List.mem_append.1 hi with h | h
        · exact List.mem_append.2 (Or.inl h)
        · exact List.mem_append.2 (Or.inr (List.mem_cons_of_mem _ h))

/-! ## Committing a delete (shared by the coarse and fine variants) -/

/-- Interface of a completed delete at the heap level: at every level
`L ≤ victim.topLevel` the slot of `gpredSL L` now holds the victim's old
level-`L` pointer; key/top fields are untouched and marks of non-victims are
untouched (the fine delete marks the victim; the coarse delete frees it). -/
def DeleteShape (st stX : SkipList) (ns : List Nat) (k : Int) (vi : Nat) : Prop :=
  stX.head = st.head ∧ stX.tail = st.tail ∧ stX.maxLevel = st.maxLevel ∧
  stX.mem.length = st.mem.length ∧
  (∀ j, (getNode stX j).key = (getNode st j).key ∧
    (getNode stX j).topLevel = (getNode st j).topLevel) ∧
  (∀ j, j ≠ vi → (getNode stX j).marked = (getNode st j).marked) ∧
  (∀ j, (getNode stX j).next.length = MAX_LEVEL + 1) ∧
  (∀ j L, loadNext stX j L =
    if L ≤ (getNode st vi).topLevel ∧ j = gpredSL st ns k L then loadNext st vi L
    else loadNext st j L)

/-- Committing a delete: the unlinked state satisfies the invariant with the
victim removed, and the key set loses `k`. -/
theorem deleteCommit {st stX : SkipList} {ns : List Nat} {k : Int} {vi : Nat}
    {l : List Nat} (inv : InvSL st ns) (hrest : restK st k ns = vi :: l)
    (hvk : keyOf st vi = k) (hshape : DeleteShape st stX ns k vi) :
    InvSL stX (belowK st k ns ++ l) ∧
    (keysOf stX (belowK st k ns ++ l)).toFinset = (keysOf st ns).toFinset.erase k := by
  obtain ⟨hh, ht, hm, hlen, hkt, hmk, hwfX, hload⟩ := hshape
  have hvi_ns : vi ∈ ns := by
    have : vi ∈ restK st k ns := by rw [hrest]; exact List.mem_cons_self _ _
    exact restK_mem_base this
  have hsplitns : ns = belowK st k ns ++ vi :: l := by
    conv_lhs => rw [ns_split st k ns]
    rw [hrest]
  have hnodns : ns.Nodup := sortedKeys_nodup inv.sorted
  have hvi_not_lo : vi ∉ belowK st k ns := by
    intro h
    have := belowK_mem_lt h
    omega
  have hvi_not_l : vi ∉ l := by
    intro h
    rw [hsplitns] at hnodns
    rcases List.nodup_append.1 hnodns with ⟨_, h2, _⟩
    exact (List.nodup_cons.1 h2).1 h
  have hl_gt : ∀ j ∈ l, k < keyOf st j := by
    intro j hj
    have hsort : sortedKeys st (restK st k ns) :=
      inv.sorted.sublist (List.dropWhile_sublist _)
    rw [hrest] at hsort
    have := (List.pairwise_cons.1 hsort).1 j hj
    omega
  have hloMem : ∀ j ∈ belowK st k ns, j ∈ ns := fun j h => belowK_sublist_mem h
  have hlMem : ∀ j ∈ l, j ∈ ns := by
    intro j hj
    rw [hsplitns]
    exact List.mem_append.2 (Or.inr (List.mem_cons_of_mem _ hj))
  have hmemns' : ∀ j ∈ belowK st k ns ++ l, j ∈ ns := by
    intro j hj
    rcases List.mem_append.1 hj with h | h
    · exact hloMem j h
    · exact hlMem j h
  have hne_vi : ∀ j ∈ belowK st k ns ++ l, j ≠ vi := by
    intro j hj hcon
    rcases List.mem_append.1 hj with h | h
    · exact hvi_not_lo (hcon ▸ h)
    · exact hvi_not_l (hcon ▸ h)
  have hkeyX : ∀ j, keyOf stX j = keyOf st j := fun j => (hkt j).1
  have htopX : ∀ j, (getNode stX j).topLevel = (getNode st j).topLevel :=
    fun j => (hkt j).2
  have hgpred_key : ∀ L, gpredSL st ns k L ≠ vi := by
    intro L hcon
    rcases predIdx_cases st k (towerFilter st ns L) st.head with h | ⟨_, h2⟩
    · rw [gpredSL, h] at hcon
      exact inv.idsHead vi hvi_ns hcon.symm
    · rw [gpredSL] at hcon
      rw [hcon] at h2
      omega
  -- chain shape at each level
  have hchains : ∀ L ≤ MAX_LEVEL,
      links stX L (loadNext stX stX.head L)
        (towerFilter stX (belowK st k ns ++ l) L) (tailPtr stX) := by
    intro L hL
    have htp : tailPtr stX = tailPtr st := by rw [tailPtr, ht]; rfl
    rw [htp, hh]
    -- tower filters with `stX` tops equal those with `st` tops
    have hfilter : ∀ ms : List Nat,
        ms.filter (fun i => decide (L ≤ (getNode stX i).topLevel)) =
          ms.filter (fun i => decide (L ≤ (getNode st i).topLevel)) := by
      intro ms
      refine List.filter_congr ?_
      intro j _
      rw [htopX j]
    have hcommB : (ns.filter (fun i => decide (keyOf st i < k))).filter
          (fun i => decide (L ≤ (getNode st i).topLevel)) =
        (ns.filter (fun i => decide (L ≤ (getNode st i).topLevel))).filter
          (fun i => decide (keyOf st i < k)) := by
      rw [List.filter_filter, List.filter_filter]
      exact List.filter_congr (fun j _ => Bool.and_comm _ _)
    have hcommR : (ns.filter (fun i => decide (¬keyOf st i < k))).filter
          (fun i => decide (L ≤ (getNode st i).topLevel)) =
        (ns.filter (fun i => decide (L ≤ (getNode st i).topLevel))).filter
          (fun i => decide (¬keyOf st i < k)) := by
      rw [List.filter_filter, List.filter_filter]
      exact List.filter_congr (fun j _ => Bool.and_comm _ _)
    have hloL : (belowK st k ns).filter (fun i => decide (L ≤ (getNode st i).topLevel))
        = belowK st k (towerFilter st ns L) := by
      rw [belowK_eq_filter inv.sorted, hcommB,
        belowK_eq_filter (towerFilter_sorted inv.sorted L)]
      rfl
    have hrestL : (restK st k ns).filter (fun i => decide (L ≤ (getNode st i).topLevel))
        = restK st k (towerFilter st ns L) := by
      rw [restK_eq_filter inv.sorted, hcommR,
        restK_eq_filter (towerFilter_sorted inv.sorted L)]
      rfl
    have hsplitL : towerFilter st ns L =
        belowK st k (towerFilter st ns L) ++ restK st k (towerFilter st ns L) :=
      ns_split st k _
    have hnodL : (towerFilter st ns L).Nodup := sortedKeys_nodup (inv.chainSorted L)
    have hnewfilter : towerFilter stX (belowK st k ns ++ l) L =
        belowK st k (towerFilter st ns L) ++
          (l.filter (fun i => decide (L ≤ (getNode st i).topLevel))) := by
      rw [towerFilter, List.filter_append, hfilter, hfilter, hloL]
    have hrsplit : restK st k (towerFilter st ns L) =
        (if L ≤ (getNode st vi).topLevel then [vi] else []) ++
          l.filter (fun i => decide (L ≤ (getNode st i).topLevel)) := by
      rw [← hrestL, hrest, List.filter_cons]
      by_cases hv : L ≤ (getNode st vi).topLevel
      · rw [if_pos (decide_eq_true hv), if_pos hv]
        rfl
      · rw [if_neg (by simpa using hv), if_neg hv]
        rfl
    set loL := belowK st k (towerFilter st ns L) with hloLdef
    set hiL := l.filter (fun i => decide (L ≤ (getNode st i).topLevel)) with hhiLdef
    have hgpredL : gpredSL st ns k L = loL.getLastD st.head := rfl
    by_cases hLv : L ≤ (getNode st vi).topLevel
    · -- the victim participates at this level: remove it
      rw [hrsplit, if_pos hLv] at hsplitL
      have holdchain : links st L (loadNext st st.head L) (loL ++ vi :: hiL) (tailPtr st) := by
        have := inv.chains L hL
        rw [hsplitL] at this
        simpa using this
      have hvload : loadNext st vi L = chainHeadPtr hiL (tailPtr st) := by
        rw [links_append_iff] at holdchain
        exact links_start holdchain.2.2
      rw [hnewfilter]
      have hnodL' : (loL ++ vi :: hiL).Nodup := by
        have := hnodL
        rw [hsplitL] at this
        simpa using this
      refine links_remove_node holdchain ?_ ?_ ?_ ?_ ?_
      · intro hlo
        rw [hload st.head L, if_pos ⟨hLv, by rw [hgpredL, hlo]; rfl⟩, hvload]
      · intro hlo
        have hgp : gpredSL st ns k L ≠ st.head := by
          rw [hgpredL, getLastD_of_ne_nil hlo]
          intro hcon
          exact inv.idsHead _
            ((towerFilter_sublist st ns L).subset
              (belowK_sublist_mem (List.getLast_mem hlo))) hcon
        rw [hload st.head L, if_neg (fun hcon => hgp hcon.2.symm)]
      · intro hlo
        have hgl : loL.getLast hlo = gpredSL st ns k L := by
          rw [hgpredL, getLastD_of_ne_nil hlo]
        rw [hload _ L, if_pos ⟨hLv, hgl⟩, hvload]
      · intro i hi
        have hine : i ≠ gpredSL st ns k L := by
          rcases hb : loL with _ | ⟨a, as⟩
          · rw [hb] at hi; cases hi
          · rw [hgpredL, getLastD_of_ne_nil (by rw [hb]; simp)]
            intro hcon
            have := nodup_getLast_not_mem_dropLast
              ((List.nodup_append.1 hnodL').1) (by rw [hb]; simp)
            rw [← hcon] at this
            exact this hi
        rw [hload i L, if_neg (fun hcon => hine hcon.2)]
      · intro i hi
        have hine : i ≠ gpredSL st ns k L := by
          rcases hb : loL with _ | ⟨a, as⟩
          · rw [hgpredL, hb]
            intro hcon
            exact inv.idsHead _ (hlMem _ ((List.filter_sublist l).subset hi)) hcon
          · rw [hgpredL, getLastD_of_ne_nil (by rw [hb]; simp)]
            intro hcon
            have hdisj := (List.nodup_append.1 hnodL').2.2
            exact hdisj (hcon ▸ List.getLast_mem (by rw [hb]; simp))
              (List.mem_cons_of_mem _ hi)
        rw [hload i L, if_neg (fun hcon => hine hcon.2)]
    · -- the victim does not participate: the chain is untouched
      rw [hrsplit, if_neg hLv] at hsplitL
      rw [hnewfilter]
      have hall : ∀ j, loadNext stX j L = loadNext st j L := by
        intro j
        rw [hload j L, if_neg (fun hcon => hLv hcon.1)]
      rw [hall st.head]
      have := inv.chains L hL
      rw [hsplitL] at this
      exact links_frame (fun i _ => hall i) this
  refine ⟨?_, ?_⟩
  · refine
      { wfn := hwfX
        hhead := hh.trans inv.hhead
        htail := ht.trans inv.htail
        hmax := hm.trans inv.hmax
        hmem := (by rw [hlen]; exact inv.hmem)
        headKey := (by rw [hh, (hkt st.head).1]; exact inv.headKey)
        tailKey := (by rw [ht, (hkt st.tail).1]; exact inv.tailKey)
        headTop := (by rw [hh, (hkt st.head).2]; exact inv.headTop)
        tailTop := (by rw [ht, (hkt st.tail).2]; exact inv.tailTop)
        headUnmarked := ?_
        tailUnmarked := ?_
        sorted := ?_
        idsLt := ?_
        idsHead := ?_
        idsTail := ?_
        keysLe := ?_
        unmarked := ?_
        tops := ?_
        tailNext := ?_
        chains := hchains }
    · rw [hh, hmk st.head (fun hcon => inv.idsHead vi hvi_ns hcon.symm)]
      exact inv.headUnmarked
    · rw [ht, hmk st.tail (fun hcon => inv.idsTail vi hvi_ns hcon.symm)]
      exact inv.tailUnmarked
    · have hsubl : (belowK st k ns ++ l).Sublist (belowK st k ns ++ vi :: l) :=
        List.Sublist.append (List.Sublist.refl _) (List.sublist_cons_self vi l)
      rw [← hsplitns] at hsubl
      refine List.Pairwise.imp_of_mem ?_ (inv.sorted.sublist hsubl)
      intro a b _ _ hab
      rw [(hkt a).1, (hkt b).1]
      exact hab
    · intro i hi
      rw [hlen]
      exact inv.idsLt i (hmemns' i hi)
    · intro i hi
      rw [hh]
      exact inv.idsHead i (hmemns' i hi)
    · intro i hi
      rw [ht]
      exact inv.idsTail i (hmemns' i hi)
    · intro i hi
      rw [show (getNode stX i).key = (getNode st i).key from (hkt i).1]
      exact inv.keysLe i (hmemns' i hi)
    · intro i hi
      rw [hmk i (hne_vi i hi)]
      exact inv.unmarked i (hmemns' i hi)
    · intro i hi
      rw [(hkt i).2]
      exact inv.tops i (hmemns' i hi)
    · intro L
      rw [ht, hload st.tail L,
        if_neg (fun hcon => gpred_not_tail inv L hcon.2.symm)]
      exact inv.tailNext L
  · apply Finset.ext
    intro x
    simp only [List.mem_toFinset, Finset.mem_erase]
    constructor
    · intro hx
      rcases mem_keysOf.1 hx with ⟨i, hi, hik⟩
      have hik' : keyOf st i = x := by rw [← hkeyX i]; exact hik
      constructor
      · intro hcon
        subst hcon
        rcases List.mem_append.1 hi with h | h
        · have := belowK_mem_lt h
          omega
        · have := hl_gt i h
          omega
      · exact mem_keysOf.2 ⟨i, hmemns' i hi, hik'⟩
    · intro hx
      rcases hx with ⟨hxk, hx⟩
      rcases mem_keysOf.1 hx with ⟨i, hi, hik⟩
      have hine : i ≠ vi := by
        intro hcon
        subst hcon
        exact hxk (by rw [← hik, hvk])
      refine mem_keysOf.2 ⟨i, ?_, by rw [hkeyX i]; exact hik⟩
      rw [hsplitns] at hi
      rcases List.mem_append.1 hi with h | h
      · exact List.mem_append.2 (Or.inl h)
      · rcases List.mem_cons.1 h with rfl | h'
        · exact absurd rfl hine
        · exact List.mem_append.2 (Or.inr h')

/-! ## Coarse step lemmas -/

theorem gsucc0_cons {st : SkipList} {ns : List Nat} {k : Int} {i0 : Nat}
    {l : List Nat} (hrest : restK st k ns = i0 :: l) :
    gsuccSL st ns k 0 = ⟨some i0, false⟩ := by
  rw [gsuccSL, towerFilter_zero, succPtr, hrest]
  rfl

theorem gsucc0_nil {st : SkipList} {ns : List Nat} {k : Int}
    (hrest : restK st k ns = []) : gsuccSL st ns k 0 = tailPtr st := by
  rw [gsuccSL, towerFilter_zero, succPtr, hrest]
  rfl

theorem gpred_ne_keynode {st : SkipList} {ns : List Nat} {k : Int} {vi : Nat}
    (inv : InvSL st ns) (hvi : vi ∈ ns) (hvk : keyOf st vi = k) (L : Nat) :
    gpredSL st ns k L ≠ vi := by
  intro hcon
  rcases predIdx_cases st k (towerFilter st ns L) st.head with h | ⟨_, h2⟩
  · rw [gpredSL, h] at hcon
    exact inv.idsHead vi hvi hcon.symm
  · rw [gpredSL] at hcon
    rw [hcon] at h2
    omega

theorem FUEL_gt (st : SkipList) : st.mem.length < FUEL st := by
  rw [FUEL]
  omega

/-- `skiplist_contains_coarse` answers exactly key membership. -/
theorem containsC_step {st : SkipList} {ns : List Nat} (inv : InvSL st ns)
    (k : Int) :
    skiplist_contains_coarse st k = .ok (decide (k ∈ keysOf st ns)) := by
  rw [skiplist_contains_coarse, inv.hmax,
    searchC_spec inv MAX_LEVEL le_rfl st.head (FUEL st) (FUEL_gt st) (Or.inl rfl),
    bind_ok]
  rw [show (gpcsSL st ns k MAX_LEVEL).getD 0 (0, nullPtr) =
    (gpredSL st ns k 0, gsuccSL st ns k 0) from gpcsSL_getD (Nat.zero_le _) _]
  simp only []
  rw [show loadNext st (gpredSL st ns k 0) 0 = gsuccSL st ns k 0 from
    gpred_load inv (Nat.zero_le _)]
  by_cases hmem : k ∈ keysOf st ns
  · rcases mem_keysOf.1 hmem with ⟨i0, hi0, hik⟩
    rcases restK_first_of_mem inv.sorted hi0 hik with ⟨l, hrest⟩
    rw [gsucc0_cons hrest, if_neg (ptr_ne_tailPtr (inv.idsTail i0 hi0)),
      deref_some_unmarked, bind_ok]
    rw [show decide ((getNode st i0).key = k) = true from decide_eq_true hik]
    rw [show decide (k ∈ keysOf st ns) = true from decide_eq_true hmem]
  · rcases hr : restK st k ns with _ | ⟨i0, l⟩
    · rw [gsucc0_nil hr, if_pos rfl,
        show decide (k ∈ keysOf st ns) = false from decide_eq_false hmem]
    · have hi0 : i0 ∈ ns := restK_mem_base (hr ▸ List.mem_cons_self i0 l)
      have hgt : k < keyOf st i0 :=
        restK_gt_of_not_mem inv.sorted hmem (hr ▸ List.mem_cons_self i0 l)
      rw [gsucc0_cons hr, if_neg (ptr_ne_tailPtr (inv.idsTail i0 hi0)),
        deref_some_unmarked, bind_ok]
      rw [show decide ((getNode st i0).key = k) = false from
        decide_eq_false (by show keyOf st i0 ≠ k; omega)]
      rw [show decide (k ∈ keysOf st ns) = false from decide_eq_false hmem]

/-- `skiplist_insert_coarse` step: the boolean result matches the reference
set insert, and the invariant carries to the new state. -/
theorem insertC_step {st : SkipList} {ns : List Nat} (inv : InvSL st ns)
    (k v : Int) (lvl : Nat) (hk : k ≤ INT_MAX) (hlvl : lvl ≤ MAX_LEVEL) :
    ∃ st' ns', skiplist_insert_coarse st k v lvl = .ok (decide (k ∉ keysOf st ns), st') ∧
      InvSL st' ns' ∧
      (keysOf st' ns').toFinset = insert k ((keysOf st ns).toFinset) := by
  rw [skiplist_insert_coarse, inv.hmax,
    searchC_spec inv MAX_LEVEL le_rfl st.head (FUEL st) (FUEL_gt st) (Or.inl rfl),
    bind_ok]
  rw [show (gpcsSL st ns k MAX_LEVEL).getD 0 (0, nullPtr) =
    (gpredSL st ns k 0, gsuccSL st ns k 0) from gpcsSL_getD (Nat.zero_le _) _]
  simp only []
  by_cases hmem : k ∈ keysOf st ns
  · -- the key is present: the duplicate check fires
    rcases mem_keysOf.1 hmem with ⟨i0, hi0, hik⟩
    rcases restK_first_of_mem inv.sorted hi0 hik with ⟨l, hrest⟩
    rw [gsucc0_cons hrest, if_neg (ptr_ne_tailPtr (inv.idsTail i0 hi0)),
      deref_some_unmarked, bind_ok, pure_eq_ok, bind_ok,
      show decide ((getNode st i0).key = k) = true from decide_eq_true hik,
      if_pos rfl]
    refine ⟨st, ns, ?_, inv, (Finset.insert_eq_self.2 (by simpa using hmem)).symm⟩
    rw [show decide (k ∉ keysOf st ns) = false from decide_eq_false (by simpa using hmem)]
  · -- the key is absent: the new node is spliced in
    set nd : Node := { create_node k v lvl with fully_linked := true } with hnd
    set nid : Nat := st.mem.length with hnid
    set stA : SkipList := (allocNode st nd).2 with hstA
    have hstA_load : ∀ j L, loadNext stA j L = loadNext st j L := by
      intro j L
      rcases Nat.lt_trichotomy j st.mem.length with h | h | h
      · rw [hstA, loadNext_alloc_lt _ h]
      · subst h
        rw [hstA]
        rw [show loadNext (allocNode st nd).2 st.mem.length L = nd.next.getD L nullPtr
          from by rw [loadNext, getNode_alloc_self]]
        rw [loadNext_oob le_rfl]
        rcases Nat.lt_or_ge L (MAX_LEVEL + 1) with hL | hL
        · rw [hnd]
          show (List.replicate (MAX_LEVEL + 1) nullPtr).getD L nullPtr = nullPtr
          rw [List.getD_eq_getElem?_getD, List.getElem?_replicate_of_lt hL]
          rfl
        · rw [hnd]
          show (List.replicate (MAX_LEVEL + 1) nullPtr).getD L nullPtr = nullPtr
          rw [List.getD_eq_getElem?_getD, List.getElem?_eq_none (by simpa using hL)]
          rfl
      · rw [loadNext_oob (by rw [hstA]; simp; omega) L, loadNext_oob (by omega) L]
    have hwfA : ∀ j, (getNode stA j).next.length = MAX_LEVEL + 1 :=
      wfn_alloc inv.wfn (by rw [hnd]; simp [create_node])
    have hpred_facts : ∀ l', l' ≤ lvl →
        (gpcsSL st ns k MAX_LEVEL).getD l' (0, nullPtr) =
          (gpredSL st ns k l', gsuccSL st ns k l') :=
      fun l' hl' => gpcsSL_getD (le_trans hl' hlvl) _
    have hlink := linkUpC_loadNext (gpcsSL st ns k MAX_LEVEL) nid (lvl + 1) 0 lvl stA
      (by omega) hlvl hwfA (by rw [hstA]; simp)
      (fun l' _ hl' => by
        rw [hpred_facts l' hl']
        have := gpred_not_nid inv (k := k) l'
        omega)
      (fun l' _ hl' => by
        rw [hpred_facts l' hl']
        have := gpred_not_nid inv (k := k) l'
        rw [hstA]
        simp
        omega)
    set st2 : SkipList := linkUpC (gpcsSL st ns k MAX_LEVEL) nid 0 lvl stA with hst2
    set st' : SkipList := addSize st2 1 with hst'
    have hshape : InsertShape st st' ns k lvl nid := by
      obtain ⟨heq, hdesc⟩ := hlink
      obtain ⟨hh2, ht2, hm2, hlen2, _, hflds⟩ := heq
      refine ⟨?_, ?_, ?_, ?_, rfl, ?_, ?_, ?_, ?_, ?_, ?_⟩
      · rw [hst', addSize_head, hst2, hh2, hstA, alloc_head]
      · rw [hst', addSize_tail, hst2, ht2, hstA, alloc_tail]
      · rw [hst', addSize_maxLevel, hst2, hm2, hstA, alloc_maxLevel]
      · rw [hst', addSize_mem_length, hst2, hlen2, hstA, alloc_mem_length]
      · intro j hj
        have h1 := hflds j
        rw [hst', addSize_getNode]
        rcases Nat.lt_trichotomy j st.mem.length with h | h | h
        · rw [h1.1, h1.2.2.1, h1.2.2.2.1, hstA, getNode_alloc_lt h]
          exact ⟨rfl, rfl, rfl⟩
        · exact absurd h hj
        · have hoobA : getNode stA j = default := by
            rw [hstA]
            exact getNode_oob (by simp; omega)
          have hoob : getNode st j = default := getNode_oob (by omega)
          rw [h1.1, h1.2.2.1, h1.2.2.2.1, hoobA, hoob]
          exact ⟨rfl, rfl, rfl⟩
      · have h1 := (hflds nid).1
        rw [hst', addSize_getNode, h1, hstA, hnid, getNode_alloc_self]
        rfl
      · have h1 := (hflds nid).2.2.1
        rw [hst', addSize_getNode, h1, hstA, hnid, getNode_alloc_self]
        rfl
      · have h1 := (hflds nid).2.2.2.1
        rw [hst', addSize_getNode, h1, hstA, hnid, getNode_alloc_self]
        rfl
      · intro j
        rw [hst', addSize_getNode]
        exact ((hflds j).2.2.2.2.2).trans (hwfA j)
      · intro j L
        rw [hst', addSize_loadNext, hdesc j L]
        by_cases hc : L ≤ lvl
        · rw [if_pos (show 0 ≤ L ∧ L ≤ lvl from ⟨Nat.zero_le _, hc⟩),
            hpred_facts L hc]
          simp only []
          by_cases hj : j = nid
          · rw [if_pos hj, if_pos (show L ≤ lvl ∧ j = nid from ⟨hc, hj⟩), hstA_load,
              ← gpred_load inv (le_trans hc hlvl)]
          · rw [if_neg hj, if_neg (show ¬(L ≤ lvl ∧ j = nid) from fun hcon => hj hcon.2)]
            by_cases hj2 : j = gpredSL st ns k L
            · rw [if_pos hj2,
                if_pos (show L ≤ lvl ∧ j = gpredSL st ns k L from ⟨hc, hj2⟩)]
            · rw [if_neg hj2,
                if_neg (show ¬(L ≤ lvl ∧ j = gpredSL st ns k L) from
                  fun hcon => hj2 hcon.2), hstA_load]
        · rw [if_neg (show ¬(0 ≤ L ∧ L ≤ lvl) from fun hcon => hc hcon.2),
            if_neg (show ¬(L ≤ lvl ∧ j = nid) from fun hcon => hc hcon.1),
            if_neg (show ¬(L ≤ lvl ∧ j = gpredSL st ns k L) from fun hcon => hc hcon.1),
            hstA_load]
    have hcommit := insertCommit inv hk hlvl hmem hshape
    refine ⟨st', belowK st k ns ++ nid :: restK st k ns, ?_, hcommit.1, hcommit.2⟩
    have hmatch : allocNode st nd = (nid, stA) := rfl
    rcases hr : restK st k ns with _ | ⟨i0, l⟩
    · rw [gsucc0_nil hr, if_pos rfl, pure_eq_ok, bind_ok,
        if_neg (by simp : ¬(false = true)), hmatch]
      simp only []
      rw [show decide (k ∉ keysOf st ns) = true from decide_eq_true hmem]
    · have hi0 : i0 ∈ ns := restK_mem_base (hr ▸ List.mem_cons_self i0 l)
      have hgt : k < keyOf st i0 :=
        restK_gt_of_not_mem inv.sorted hmem (hr ▸ List.mem_cons_self i0 l)
      rw [gsucc0_cons hr, if_neg (ptr_ne_tailPtr (inv.idsTail i0 hi0)),
        deref_some_unmarked, bind_ok, pure_eq_ok, bind_ok,
        show decide ((getNode st i0).key = k) = false from
          decide_eq_false (by show keyOf st i0 ≠ k; omega),
        if_neg (by simp : ¬(false = true)), hmatch]
      simp only []
      rw [show decide (k ∉ keysOf st ns) = true from decide_eq_true hmem]

/-- `skiplist_delete_coarse` step: the boolean result matches the reference
set delete, and the invariant carries to the new state. -/
theorem deleteC_step {st : SkipList} {ns : List Nat} (inv : InvSL st ns)
    (k : Int) :
    ∃ st' ns', skiplist_delete_coarse st k = .ok (decide (k ∈ keysOf st ns), st') ∧
      InvSL st' ns' ∧
      (keysOf st' ns').toFinset = ((keysOf st ns).toFinset).erase k := by
  rw [skiplist_delete_coarse, inv.hmax,
    searchC_spec inv MAX_LEVEL le_rfl st.head (FUEL st) (FUEL_gt st) (Or.inl rfl),
    bind_ok]
  rw [show (gpcsSL st ns k MAX_LEVEL).getD 0 (0, nullPtr) =
    (gpredSL st ns k 0, gsuccSL st ns k 0) from gpcsSL_getD (Nat.zero_le _) _]
  simp only []
  by_cases hmem : k ∈ keysOf st ns
  · rcases mem_keysOf.1 hmem with ⟨i0, hi0, hik⟩
    rcases restK_first_of_mem inv.sorted hi0 hik with ⟨l, hrest⟩
    rw [gsucc0_cons hrest, if_neg (ptr_ne_tailPtr (inv.idsTail i0 hi0)),
      deref_some_unmarked, bind_ok,
      if_pos (show (getNode st i0).key = k from hik)]
    have htop : (getNode st i0).topLevel ≤ MAX_LEVEL := inv.tops i0 hi0
    have hunlink := unlinkUpC_loadNext (gpcsSL st ns k MAX_LEVEL) i0
      ((getNode st i0).topLevel + 1) 0 ((getNode st i0).topLevel) st (by omega) htop
      inv.wfn
      (fun l' _ hl' => by
        rw [gpcsSL_getD (le_trans hl' htop) _]
        exact gpred_ne_keynode inv hi0 hik l')
      (fun l' _ hl' => by
        rw [gpcsSL_getD (le_trans hl' htop) _]
        exact gpred_not_nid inv l')
    set st2 : SkipList := unlinkUpC (gpcsSL st ns k MAX_LEVEL) i0 0
      ((getNode st i0).topLevel) st with hst2
    set st' : SkipList := addSize st2 (-1) with hst'
    have hshape : DeleteShape st st' ns k i0 := by
      obtain ⟨heq, hdesc⟩ := hunlink
      obtain ⟨hh2, ht2, hm2, hlen2, _, hflds⟩ := heq
      refine ⟨?_, ?_, ?_, ?_, ?_, ?_, ?_, ?_⟩
      · rw [hst', addSize_head, hst2, hh2]
      · rw [hst', addSize_tail, hst2, ht2]
      · rw [hst', addSize_maxLevel, hst2, hm2]
      · rw [hst', addSize_mem_length, hst2, hlen2]
      · intro j
        rw [hst', addSize_getNode]
        exact ⟨(hflds j).1, (hflds j).2.2.1⟩
      · intro j _
        rw [hst', addSize_getNode]
        exact (hflds j).2.2.2.1
      · intro j
        rw [hst', addSize_getNode]
        exact ((hflds j).2.2.2.2.2).trans (inv.wfn j)
      · intro j L
        rw [hst', addSize_loadNext, hdesc j L]
        by_cases hc : L ≤ (getNode st i0).topLevel
        · by_cases hj : j = gpredSL st ns k L
          · rw [if_pos ⟨Nat.zero_le _, hc, by rw [gpcsSL_getD (le_trans hc htop) _]; exact hj⟩,
              if_pos ⟨hc, hj⟩]
          · rw [if_neg (fun hcon => hj (by
                rw [gpcsSL_getD (le_trans hc htop) _] at hcon
                exact hcon.2.2)), if_neg (fun hcon => hj hcon.2)]
        · rw [if_neg (fun hcon => hc hcon.2.1), if_neg (fun hcon => hc hcon.1)]
    have hcommit := deleteCommit inv hrest hik hshape
    refine ⟨st', belowK st k ns ++ l, ?_, hcommit.1, hcommit.2⟩
    rw [show decide (k ∈ keysOf st ns) = true from decide_eq_true hmem]
  · rcases hr : restK st k ns with _ | ⟨i0, l⟩
    · rw [gsucc0_nil hr, if_pos rfl]
      refine ⟨st, ns, ?_, inv, (by
        symm
        rw [Finset.erase_eq_self]
        simpa using hmem)⟩
      rw [show decide (k ∈ keysOf st ns) = false from decide_eq_false hmem]
    · have hi0 : i0 ∈ ns := restK_mem_base (hr ▸ List.mem_cons_self i0 l)
      have hgt : k < keyOf st i0 :=
        restK_gt_of_not_mem inv.sorted hmem (hr ▸ List.mem_cons_self i0 l)
      rw [gsucc0_cons hr, if_neg (ptr_ne_tailPtr (inv.idsTail i0 hi0)),
        deref_some_unmarked, bind_ok, if_neg (by show keyOf st i0 ≠ k; omega)]
      refine ⟨st, ns, ?_, inv, (by
        symm
        rw [Finset.erase_eq_self]
        simpa using hmem)⟩
      rw [show decide (k ∈ keysOf st ns) = false from decide_eq_false hmem]

/-! ## Create invariants and the coarse refinement -/

theorem getD_replicate_lt {α : Type} {n L : Nat} (a d : α) (h : L < n) :
    (List.replicate n a).getD L d = a := by
  rw [List.getD_eq_getElem?_getD, List.getElem?_replicate_of_lt h]
  rfl

theorem invSL_create_coarse : InvSL skiplist_create_coarse [] := by
  refine
    { wfn := ?_
      hhead := rfl
      htail := rfl
      hmax := rfl
      hmem := (by rw [skiplist_create_coarse]; simp)
      headKey := rfl
      tailKey := rfl
      headTop := rfl
      tailTop := rfl
      headUnmarked := rfl
      tailUnmarked := rfl
      sorted := List.Pairwise.nil
      idsLt := (by intro i hi; cases hi)
      idsHead := (by intro i hi; cases hi)
      idsTail := (by intro i hi; cases hi)
      keysLe := (by intro i hi; cases hi)
      unmarked := (by intro i hi; cases hi)
      tops := (by intro i hi; cases hi)
      tailNext := ?_
      chains := ?_ }
  · intro i
    match i with
    | 0 => rfl
    | 1 => rfl
    | n + 2 => rfl
  · intro L
    rcases Nat.lt_or_ge L (MAX_LEVEL + 1) with h | h
    · show (List.replicate (MAX_LEVEL + 1) nullPtr).getD L nullPtr = nullPtr
      exact getD_replicate_lt _ _ h
    · show (List.replicate (MAX_LEVEL + 1) nullPtr).getD L nullPtr = nullPtr
      rw [List.getD_eq_getElem?_getD, List.getElem?_eq_none (by simpa using h)]
      rfl
  · intro L hL
    show loadNext skiplist_create_coarse 0 L = tailPtr skiplist_create_coarse
    show (List.replicate (MAX_LEVEL + 1) (⟨some 1, false⟩ : Ptr)).getD L nullPtr = _
    rw [getD_replicate_lt _ _ (by omega)]
    rfl

theorem invSL_create_fine : InvSL skiplist_create_fine [] := by
  refine
    { wfn := ?_
      hhead := rfl
      htail := rfl
      hmax := rfl
      hmem := (by rw [skiplist_create_fine]; simp)
      headKey := rfl
      tailKey := rfl
      headTop := rfl
      tailTop := rfl
      headUnmarked := rfl
      tailUnmarked := rfl
      sorted := List.Pairwise.nil
      idsLt := (by intro i hi; cases hi)
      idsHead := (by intro i hi; cases hi)
      idsTail := (by intro i hi; cases hi)
      keysLe := (by intro i hi; cases hi)
      unmarked := (by intro i hi; cases hi)
      tops := (by intro i hi; cases hi)
      tailNext := ?_
      chains := ?_ }
  · intro i
    match i with
    | 0 => rfl
    | 1 => rfl
    | n + 2 => rfl
  · intro L
    rcases Nat.lt_or_ge L (MAX_LEVEL + 1) with h | h
    · show (List.replicate (MAX_LEVEL + 1) nullPtr).getD L nullPtr = nullPtr
      exact getD_replicate_lt _ _ h
    · show (List.replicate (MAX_LEVEL + 1) nullPtr).getD L nullPtr = nullPtr
      rw [List.getD_eq_getElem?_getD, List.getElem?_eq_none (by simpa using h)]
      rfl
  · intro L hL
    show loadNext skiplist_create_fine 0 L = tailPtr skiplist_create_fine
    show (List.replicate (MAX_LEVEL + 1) (⟨some 1, false⟩ : Ptr)).getD L nullPtr = _
    rw [getD_replicate_lt _ _ (by omega)]
    rfl

/-- The coarse variant refines the reference ordered set on every
single-threaded sequence of operations (all `i32` keys allowed). -/
theorem runCoarse_refines : ∀ (ops : List OpK) (st : SkipList) (ns : List Nat),
    InvSL st ns → (∀ op ∈ ops, opWF op) →
    ∃ st', runCoarse st ops =
      .ok ((runRef ((keysOf st ns).toFinset) ops).1, st') := by
  intro ops
  induction ops with
  | nil =>
    intro st ns _ _
    exact ⟨st, rfl⟩
  | cons op ops ih =>
    intro st ns inv hwf
    have hop := hwf op (List.mem_cons_self _ _)
    have hops := fun o ho => hwf o (List.mem_cons_of_mem _ ho)
    rcases op with ⟨k, v, lvl⟩ | k | k
    · rcases hop with ⟨_, hk2, hlvl⟩
      rcases insertC_step inv k v lvl hk2 hlvl with ⟨st1, ns1, hstep, hinv1, hkeys1⟩
      rcases ih st1 ns1 hinv1 hops with ⟨st2, hrun⟩
      refine ⟨st2, ?_⟩
      rw [runCoarse, hstep, bind_ok]
      simp only []
      rw [hrun, bind_ok]
      simp only []
      rw [runRef]
      simp only [refInsert]
      rw [← hkeys1]
      rw [show (decide (k ∉ (keysOf st ns).toFinset)) = decide (k ∉ keysOf st ns) from
        decide_eq_decide.2 (by rw [List.mem_toFinset])]
    · rcases hop with ⟨_, hk2⟩
      rcases deleteC_step inv k with ⟨st1, ns1, hstep, hinv1, hkeys1⟩
      rcases ih st1 ns1 hinv1 hops with ⟨st2, hrun⟩
      refine ⟨st2, ?_⟩
      rw [runCoarse, hstep, bind_ok]
      simp only []
      rw [hrun, bind_ok]
      simp only []
      rw [runRef]
      simp only [refDelete]
      rw [← hkeys1]
      rw [show (decide (k ∈ (keysOf st ns).toFinset)) = decide (k ∈ keysOf st ns) from
        decide_eq_decide.2 (by rw [List.mem_toFinset])]
    · rcases containsC_step inv k with hstep
      rcases ih st ns inv hops with ⟨st2, hrun⟩
      refine ⟨st2, ?_⟩
      rw [runCoarse, hstep, bind_ok, pure_eq_ok, bind_ok]
      simp only []
      rw [hrun, bind_ok]
      simp only []
      rw [runRef]
      simp only [refContains]
      rw [show (decide (k ∈ (keysOf st ns).toFinset)) = decide (k ∈ keysOf st ns) from
        decide_eq_decide.2 (by rw [List.mem_toFinset])]

/-! ## Fine walk and search specification -/

theorem walkF_spec {st : SkipList} {L : Nat} {k : Int}
    (htk : (getNode st st.tail).key = INT_MAX) (hk : k ≤ INT_MAX) :
    ∀ (cs : List Nat) (pred : Nat) (fuel : Nat),
    links st L (loadNext st pred L) cs (tailPtr st) →
    cs.length < fuel →
    walkF fuel st k pred L = .ok (predIdx st k cs pred, succPtr st k cs (tailPtr st)) := by
  intro cs
  induction cs with
  | nil =>
    intro pred fuel hl hf
    obtain ⟨f, rfl⟩ : ∃ f, fuel = f + 1 := ⟨fuel - 1, by omega⟩
    rw [links_nil] at hl
    have hkt : ¬(getNode st st.tail).key < k := by rw [htk]; omega
    simp [walkF, hl, hkt, predIdx, succPtr, restK, chainHeadPtr,
      show tailPtr st = (⟨some st.tail, false⟩ : Ptr) from rfl]
  | cons i is ih =>
    intro pred fuel hl hf
    obtain ⟨f, rfl⟩ : ∃ f, fuel = f + 1 := ⟨fuel - 1, by omega⟩
    rcases hl with ⟨h1, h2⟩
    simp only [walkF, h1, deref_some_unmarked]
    by_cases hki : (getNode st i).key < k
    · rw [if_pos hki, predIdx_cons_pos is hki, succPtr_cons_pos is hki]
      exact ih i f h2 (by simp only [List.length_cons] at hf; omega)
    · rw [if_neg hki, predIdx_cons_neg is hki, succPtr_cons_neg is hki]

theorem walkF_from {st : SkipList} {L : Nat} {k : Int} {cs : List Nat}
    {pred fuel : Nat}
    (htk : (getNode st st.tail).key = INT_MAX) (hk : k ≤ INT_MAX)
    (hl : links st L (loadNext st st.head L) cs (tailPtr st))
    (hs : sortedKeys st cs)
    (hpred : pred = st.head ∨ (pred ∈ cs ∧ keyOf st pred < k))
    (hf : cs.length < fuel) :
    walkF fuel st k pred L =
      .ok (predIdx st k cs st.head, succPtr st k cs (tailPtr st)) := by
  rcases hpred with rfl | ⟨hmem, hkey⟩
  · exact walkF_spec htk hk cs st.head fuel hl hf
  · rcases List.append_of_mem hmem with ⟨xs, ys, rfl⟩
    have hys : links st L (loadNext st pred L) ys (tailPtr st) := links_suffix hl
    have hf' : ys.length < fuel := by
      simp only [List.length_append, List.length_cons] at hf
      omega
    rw [walkF_spec htk hk ys pred fuel hys hf']
    rw [predIdx_split hs hkey, succPtr_split hs hkey]

theorem findOpt_spec {st : SkipList} {ns : List Nat} {k : Int} (inv : InvSL st ns)
    (hk : k ≤ INT_MAX) :
    ∀ (level : Nat), level ≤ MAX_LEVEL →
    ∀ (pred fuel : Nat), st.mem.length < fuel →
    (pred = st.head ∨ (pred ∈ towerFilter st ns level ∧ keyOf st pred < k)) →
    find_optimistic fuel st k pred level = .ok (gpcsSL st ns k level) := by
  intro level
  induction level with
  | zero =>
    intro _ pred fuel hfuel hp
    have hw := walkF_from inv.tailKey hk (inv.chains 0 (Nat.zero_le _))
      (inv.chainSorted 0) hp (lt_of_le_of_lt (inv.chainLen 0) hfuel)
    simp only [find_optimistic, hw, bind_ok]
    rfl
  | succ level ih =>
    intro hle pred fuel hfuel hp
    have hw := walkF_from inv.tailKey hk (inv.chains (level + 1) hle)
      (inv.chainSorted (level + 1)) hp
      (lt_of_le_of_lt (inv.chainLen (level + 1)) hfuel)
    simp only [find_optimistic, hw, bind_ok]
    have hrec := ih (le_trans (Nat.le_succ _) hle)
      (gpredSL st ns k (level + 1)) fuel hfuel
      (gpredSL_feeds (Nat.le_succ level))
    simp only [gpredSL] at hrec
    rw [hrec, bind_ok, gpcsSL_succ]
    simp only [gpredSL, gsuccSL]

theorem containsDescF_spec {st : SkipList} {ns : List Nat} {k : Int}
    (inv : InvSL st ns) (hk : k ≤ INT_MAX) :
    ∀ (level : Nat), level ≤ MAX_LEVEL →
    ∀ (pred fuel : Nat), st.mem.length < fuel →
    (pred = st.head ∨ (pred ∈ towerFilter st ns level ∧ keyOf st pred < k)) →
    containsDescF fuel st k pred level = .ok (gpredSL st ns k 0, gsuccSL st ns k 0) := by
  intro level
  induction level with
  | zero =>
    intro _ pred fuel hfuel hp
    have hw := walkF_from inv.tailKey hk (inv.chains 0 (Nat.zero_le _))
      (inv.chainSorted 0) hp (lt_of_le_of_lt (inv.chainLen 0) hfuel)
    simp only [containsDescF]
    exact hw
  | succ level ih =>
    intro hle pred fuel hfuel hp
    have hw := walkF_from inv.tailKey hk (inv.chains (level + 1) hle)
      (inv.chainSorted (level + 1)) hp
      (lt_of_le_of_lt (inv.chainLen (level + 1)) hfuel)
    simp only [containsDescF, hw, bind_ok]
    exact ih (le_trans (Nat.le_succ _) hle) (gpredSL st ns k (level + 1)) fuel hfuel
      (gpredSL_feeds (Nat.le_succ level))

/-- `skiplist_contains_fine` answers key membership for keys below `INT_MAX`
(at `INT_MAX` it reports the tail sentinel: see the claim C1/C2 analyses). -/
theorem containsF_step {st : SkipList} {ns : List Nat} (inv : InvSL st ns)
    {k : Int} (hk : k < INT_MAX) :
    skiplist_contains_fine st k = .ok (decide (k ∈ keysOf st ns)) := by
  rw [skiplist_contains_fine,
    containsDescF_spec inv (le_of_lt hk) MAX_LEVEL le_rfl st.head (FUEL st)
      (FUEL_gt st) (Or.inl rfl), bind_ok]
  simp only []
  by_cases hmem : k ∈ keysOf st ns
  · rcases mem_keysOf.1 hmem with ⟨i0, hi0, hik⟩
    rcases restK_first_of_mem inv.sorted hi0 hik with ⟨l, hrest⟩
    rw [gsucc0_cons hrest, deref_some_unmarked, bind_ok,
      show decide ((getNode st i0).key = k) = true from decide_eq_true hik,
      inv.unmarked i0 hi0,
      show decide (k ∈ keysOf st ns) = true from decide_eq_true hmem]
    rfl
  · rcases hr : restK st k ns with _ | ⟨i0, l⟩
    · rw [gsucc0_nil hr,
        show tailPtr st = (⟨some st.tail, false⟩ : Ptr) from rfl,
        deref_some_unmarked, bind_ok,
        show decide ((getNode st st.tail).key = k) = false from
          decide_eq_false (by rw [inv.tailKey]; omega),
        show decide (k ∈ keysOf st ns) = false from decide_eq_false hmem]
      rfl
    · have hi0 : i0 ∈ ns := restK_mem_base (hr ▸ List.mem_cons_self i0 l)
      have hgt : k < keyOf st i0 :=
        restK_gt_of_not_mem inv.sorted hmem (hr ▸ List.mem_cons_self i0 l)
      rw [gsucc0_cons hr, deref_some_unmarked, bind_ok,
        show decide ((getNode st i0).key = k) = false from
          decide_eq_false (by show keyOf st i0 ≠ k; omega),
        show decide (k ∈ keysOf st ns) = false from decide_eq_false hmem]
      rfl


/-! ## Fine insert/delete machinery -/

theorem gsuccL_cons {st : SkipList} {ns : List Nat} {k : Int} {L i0 : Nat}
    {l : List Nat} (hrest : restK st k (towerFilter st ns L) = i0 :: l) :
    gsuccSL st ns k L = ⟨some i0, false⟩ := by
  rw [gsuccSL, succPtr, hrest]
  rfl

theorem gsuccL_nil {st : SkipList} {ns : List Nat} {k : Int} {L : Nat}
    (hrest : restK st k (towerFilter st ns L) = []) :
    gsuccSL st ns k L = tailPtr st := by
  rw [gsuccSL, succPtr, hrest]
  rfl

/-- At every level, the global successor is an unmarked live pointer (to a
live node or to the tail sentinel). -/
theorem gsuccSL_form {st : SkipList} {ns : List Nat} (inv : InvSL st ns)
    (k : Int) (L : Nat) :
    ∃ m, gsuccSL st ns k L = ⟨some m, false⟩ ∧ m < st.mem.length ∧
      (getNode st m).marked = false := by
  rcases hr : restK st k (towerFilter st ns L) with _ | ⟨i0, l⟩
  · refine ⟨st.tail, ?_, ?_, inv.tailUnmarked⟩
    · rw [gsuccL_nil hr]
      rfl
    · rw [inv.htail]
      have := inv.hmem
      omega
  · have hi0 : i0 ∈ ns := (towerFilter_sublist st ns L).subset
      (restK_mem_base (hr ▸ List.mem_cons_self i0 l))
    exact ⟨i0, gsuccL_cons hr, inv.idsLt _ hi0, inv.unmarked _ hi0⟩

theorem gpred_unmarked {st : SkipList} {ns : List Nat} (inv : InvSL st ns)
    (k : Int) (L : Nat) : (getNode st (gpredSL st ns k L)).marked = false := by
  rcases predIdx_cases st k (towerFilter st ns L) st.head with h | ⟨h, _⟩
  · rw [gpredSL, h]
    exact inv.headUnmarked
  · exact inv.unmarked _ ((towerFilter_sublist st ns L).subset h)

/-- When a live node carries `k` and participates at level `L`, it is the
global successor there. -/
theorem gsucc_victim {st : SkipList} {ns : List Nat} (inv : InvSL st ns)
    {k : Int} {vi : Nat} (hvi : vi ∈ ns) (hik : keyOf st vi = k) {L : Nat}
    (hL : L ≤ (getNode st vi).topLevel) :
    gsuccSL st ns k L = ⟨some vi, false⟩ := by
  have hmem : vi ∈ towerFilter st ns L := towerFilter_mem.2 ⟨hvi, hL⟩
  rcases restK_first_of_mem (inv.chainSorted L) hmem hik with ⟨l, hrest⟩
  exact gsuccL_cons hrest

/-- `validate_link` succeeds on a state whose marks agree with an
invariant-satisfying base state and whose predecessor slot is intact. -/
theorem validate_gpcs {st0 : SkipList} {ns : List Nat} {k : Int}
    (inv : InvSL st0 ns) {stc : SkipList} {L : Nat}
    (hmk : ∀ j, j < st0.mem.length → (getNode stc j).marked = (getNode st0 j).marked)
    (hloadp : loadNext stc (gpredSL st0 ns k L) L = gsuccSL st0 ns k L) :
    validate_link stc (gpredSL st0 ns k L) (gsuccSL st0 ns k L) L = .ok true := by
  have hpm : (getNode stc (gpredSL st0 ns k L)).marked = false := by
    rw [hmk _ (gpred_not_nid inv L)]
    exact gpred_unmarked inv k L
  rcases gsuccSL_form inv k L with ⟨m, hm, hmlt, hmum⟩
  rw [validate_link, hpm, if_neg (by simp : ¬(false = true)), hm,
    deref_some_unmarked, bind_ok,
    show (getNode stc m).marked = false from by rw [hmk m hmlt]; exact hmum,
    if_neg (by simp : ¬(false = true)), hloadp.trans hm,
    show decide ((⟨some m, false⟩ : Ptr) = ⟨some m, false⟩) = true from
      decide_eq_true rfl]

/-- State description of the fine upper-level link loop: starting from a state
in which the fresh node's tower is preset and levels `< i` are spliced, every
validation succeeds on the first try and the loop completes the splice. -/
theorem linkUpFine_loadNext {st0 : SkipList} {ns : List Nat} {k : Int}
    (inv : InvSL st0 ns) {lvl : Nat} (hlvl : lvl ≤ MAX_LEVEL) {nid : Nat}
    (hnid : nid = st0.mem.length) :
    ∀ (n i : Nat) (stc : SkipList), lvl + 1 - i ≤ n → 1 ≤ i → i ≤ lvl + 1 →
    stc.mem.length = st0.mem.length + 1 →
    (∀ j, j < st0.mem.length → (getNode stc j).marked = (getNode st0 j).marked) →
    (∀ j, (getNode stc j).next.length = MAX_LEVEL + 1) →
    (∀ j L, loadNext stc j L =
      if L ≤ lvl ∧ j = nid then gsuccSL st0 ns k L
      else if L < i ∧ j = gpredSL st0 ns k L then ⟨some nid, false⟩
      else loadNext st0 j L) →
    ∃ stf, linkUpFine k nid (gpcsSL st0 ns k MAX_LEVEL) i lvl stc = .ok stf ∧
      eqButNext stc stf ∧
      (∀ j L, loadNext stf j L =
        if L ≤ lvl ∧ j = nid then gsuccSL st0 ns k L
        else if L ≤ lvl ∧ j = gpredSL st0 ns k L then ⟨some nid, false⟩
        else loadNext st0 j L) := by
  intro n
  induction n with
  | zero =>
    intro i stc hn h1 h2 hlen hmk hwf hload
    have hgt : ¬i ≤ lvl := by omega
    refine ⟨stc, ?_, eqButNext_refl stc, fun j L => ?_⟩
    · rw [linkUpFine, dif_neg hgt]
    · rw [hload j L]
      by_cases hc1 : L ≤ lvl ∧ j = nid
      · rw [if_pos hc1, if_pos hc1]
      · rw [if_neg hc1, if_neg hc1]
        by_cases hc2 : L ≤ lvl ∧ j = gpredSL st0 ns k L
        · rw [if_pos (show L < i ∧ j = gpredSL st0 ns k L from
            ⟨by omega, hc2.2⟩), if_pos hc2]
        · rw [if_neg (fun hcon => hc2 ⟨by omega, hcon.2⟩), if_neg hc2]
  | succ n ih =>
    intro i stc hn h1 h2 hlen hmk hwf hload
    by_cases hc : i ≤ lvl
    · have hiM : i ≤ MAX_LEVEL := le_trans hc hlvl
      have hgd : (gpcsSL st0 ns k MAX_LEVEL).getD i (0, nullPtr) =
          (gpredSL st0 ns k i, gsuccSL st0 ns k i) := gpcsSL_getD hiM _
      have hpn : gpredSL st0 ns k i ≠ nid := by
        have := gpred_not_nid inv (k := k) i
        omega
      have hloadp : loadNext stc (gpredSL st0 ns k i) i = gsuccSL st0 ns k i := by
        rw [hload, if_neg (fun hcon => hpn hcon.2), if_neg (fun hcon => by omega),
          gpred_load inv hiM]
      set st2 : SkipList := storeNext (storeNext stc nid i (gsuccSL st0 ns k i))
        (gpredSL st0 ns k i) i ⟨some nid, false⟩ with hst2
      have hlink : linkLevelFine (FUEL stc) stc k nid (gpredSL st0 ns k i)
          (gsuccSL st0 ns k i) i = .ok st2 := by
        have hFf : FUEL stc = stc.mem.length + 1 + 1 := by rw [FUEL]
        rw [hFf]
        simp only [linkLevelFine]
        rw [validate_gpcs inv hmk hloadp, bind_ok, if_pos rfl]
      have hEB2 : eqButNext stc st2 := by
        rw [hst2]
        exact eqButNext_trans (eqButNext_storeNext _ _ _ _) (eqButNext_storeNext _ _ _ _)
      have hlen2 : st2.mem.length = st0.mem.length + 1 := by
        rw [hst2, storeNext_mem_length, storeNext_mem_length]
        exact hlen
      have hmk2 : ∀ j, j < st0.mem.length →
          (getNode st2 j).marked = (getNode st0 j).marked := by
        intro j hj
        rw [(hEB2.2.2.2.2.2 j).2.2.2.1]
        exact hmk j hj
      have hwf2 : ∀ j, (getNode st2 j).next.length = MAX_LEVEL + 1 :=
        eqButNext_wfn hEB2 hwf
      have hload2 : ∀ j L, loadNext st2 j L =
          if L ≤ lvl ∧ j = nid then gsuccSL st0 ns k L
          else if L < i + 1 ∧ j = gpredSL st0 ns k L then ⟨some nid, false⟩
          else loadNext st0 j L := by
        intro j L
        by_cases hLi : L = i
        · rw [hLi]
          by_cases hj1 : j = gpredSL st0 ns k i
          · rw [if_neg (show ¬(i ≤ lvl ∧ j = nid) from
                fun hcon => hpn (hj1.symm.trans hcon.2)),
              if_pos (show i < i + 1 ∧ j = gpredSL st0 ns k i from
                ⟨Nat.lt_succ_self i, hj1⟩), hst2, hj1,
              loadNext_storeNext_self _
                (by rw [storeNext_mem_length, hlen]
                    have := gpred_not_nid inv (k := k) i
                    omega)
                (by rw [wfn_storeNext nid i (gsuccSL st0 ns k i) hwf (gpredSL st0 ns k i)]
                    omega)]
          · by_cases hj2 : j = nid
            · rw [if_pos (show i ≤ lvl ∧ j = nid from ⟨hc, hj2⟩), hst2, hj2,
                loadNext_storeNext_ne_node _ _ _ hpn,
                loadNext_storeNext_self _ (by rw [hlen]; omega)
                  (by rw [hwf nid]; omega)]
            · rw [if_neg (fun hcon => hj2 hcon.2), if_neg (fun hcon => hj1 hcon.2),
                hst2, loadNext_storeNext_ne_node _ _ _ (fun h => hj1 h.symm),
                loadNext_storeNext_ne_node _ _ _ (fun h => hj2 h.symm),
                hload, if_neg (fun hcon => hj2 hcon.2), if_neg (fun hcon => by omega)]
        · rw [hst2, loadNext_storeNext_ne_level _ (fun h => hLi h.symm),
            loadNext_storeNext_ne_level _ (fun h => hLi h.symm), hload]
          by_cases hc1 : L ≤ lvl ∧ j = nid
          · rw [if_pos hc1, if_pos hc1]
          · rw [if_neg hc1, if_neg hc1]
            by_cases hc2 : L < i ∧ j = gpredSL st0 ns k L
            · rw [if_pos hc2, if_pos (show L < i + 1 ∧ j = gpredSL st0 ns k L from
                ⟨by omega, hc2.2⟩)]
            · rw [if_neg hc2, if_neg (fun hcon => hc2 ⟨by omega, hcon.2⟩)]
      obtain ⟨stf, heq, hEBf, hdesc⟩ := ih (i + 1) st2 (by omega) (by omega)
        (by omega) hlen2 hmk2 hwf2 hload2
      refine ⟨stf, ?_, eqButNext_trans hEB2 hEBf, hdesc⟩
      rw [linkUpFine, dif_pos hc, hgd]
      simp only []
      rw [hlink, bind_ok]
      exact heq
    · refine ⟨stc, ?_, eqButNext_refl stc, fun j L => ?_⟩
      · rw [linkUpFine, dif_neg hc]
      · rw [hload j L]
        by_cases hc1 : L ≤ lvl ∧ j = nid
        · rw [if_pos hc1, if_pos hc1]
        · rw [if_neg hc1, if_neg hc1]
          by_cases hc2 : L ≤ lvl ∧ j = gpredSL st0 ns k L
          · rw [if_pos (show L < i ∧ j = gpredSL st0 ns k L from
              ⟨by omega, hc2.2⟩), if_pos hc2]
          · rw [if_neg (fun hcon => hc2 ⟨by omega, hcon.2⟩), if_neg hc2]

/-- `skiplist_insert_fine` step (keys strictly below `INT_MAX`): the boolean
result matches the reference set insert, and the invariant carries to the new
state. -/
theorem insertF_step {st : SkipList} {ns : List Nat} (inv : InvSL st ns)
    (k v : Int) (lvl : Nat) (hk : k < INT_MAX) (hlvl : lvl ≤ MAX_LEVEL) :
    ∃ st' ns', skiplist_insert_fine st k v lvl = .ok (decide (k ∉ keysOf st ns), st') ∧
      InvSL st' ns' ∧
      (keysOf st' ns').toFinset = insert k ((keysOf st ns).toFinset) := by
  have hF : FUEL st = st.mem.length + 1 + 1 := by rw [FUEL]
  rw [skiplist_insert_fine, hF]
  simp only [insertFineLoop]
  rw [findOpt_spec inv (le_of_lt hk) MAX_LEVEL le_rfl st.head (FUEL st)
    (FUEL_gt st) (Or.inl rfl), bind_ok]
  rw [show (gpcsSL st ns k MAX_LEVEL).getD 0 (0, nullPtr) =
    (gpredSL st ns k 0, gsuccSL st ns k 0) from gpcsSL_getD (Nat.zero_le _) _]
  simp only []
  by_cases hmem : k ∈ keysOf st ns
  · -- the key is present: the duplicate check fires
    rcases mem_keysOf.1 hmem with ⟨i0, hi0, hik⟩
    rcases restK_first_of_mem inv.sorted hi0 hik with ⟨l, hrest⟩
    have hder : deref (gsuccSL st ns k 0) = .ok i0 := by
      rw [gsucc0_cons hrest]
      rfl
    rw [hder, bind_ok, if_pos (show (getNode st i0).key = k from hik)]
    refine ⟨st, ns, ?_, inv, (Finset.insert_eq_self.2 (by simpa using hmem)).symm⟩
    rw [show decide (k ∉ keysOf st ns) = false from decide_eq_false (by simpa using hmem)]
  · -- the key is absent: the new node is spliced in
    have hs0 : ∃ m, deref (gsuccSL st ns k 0) = .ok m ∧ (getNode st m).key ≠ k := by
      rcases hr : restK st k ns with _ | ⟨i0, l⟩
      · exact ⟨st.tail, by rw [gsucc0_nil hr]; rfl, by rw [inv.tailKey]; omega⟩
      · have hi0 : i0 ∈ ns := restK_mem_base (hr ▸ List.mem_cons_self i0 l)
        have hgt : k < keyOf st i0 :=
          restK_gt_of_not_mem inv.sorted hmem (hr ▸ List.mem_cons_self i0 l)
        exact ⟨i0, by rw [gsucc0_cons hr]; rfl, by show keyOf st i0 ≠ k; omega⟩
    obtain ⟨s0i, hder, hkne⟩ := hs0
    rw [hder, bind_ok, if_neg hkne,
      validate_gpcs inv (fun j _ => rfl) (gpred_load inv (Nat.zero_le _)), bind_ok,
      if_pos rfl]
    set nd : Node := create_node k v lvl with hnd
    set nid : Nat := st.mem.length with hnid
    set stA : SkipList := (allocNode st nd).2 with hstA
    have hmatch : allocNode st nd = (nid, stA) := rfl
    rw [hmatch]
    simp only []
    have hstA_load : ∀ j L, loadNext stA j L = loadNext st j L := by
      intro j L
      rcases Nat.lt_trichotomy j st.mem.length with h | h | h
      · rw [hstA, loadNext_alloc_lt _ h]
      · subst h
        rw [hstA]
        rw [show loadNext (allocNode st nd).2 st.mem.length L = nd.next.getD L nullPtr
          from by rw [loadNext, getNode_alloc_self]]
        rw [loadNext_oob le_rfl]
        rcases Nat.lt_or_ge L (MAX_LEVEL + 1) with hL | hL
        · rw [hnd]
          show (List.replicate (MAX_LEVEL + 1) nullPtr).getD L nullPtr = nullPtr
          rw [List.getD_eq_getElem?_getD, List.getElem?_replicate_of_lt hL]
          rfl
        · rw [hnd]
          show (List.replicate (MAX_LEVEL + 1) nullPtr).getD L nullPtr = nullPtr
          rw [List.getD_eq_getElem?_getD, List.getElem?_eq_none (by simpa using hL)]
          rfl
      · rw [loadNext_oob (by rw [hstA]; simp; omega) L, loadNext_oob (by omega) L]
    have hwfA : ∀ j, (getNode stA j).next.length = MAX_LEVEL + 1 :=
      wfn_alloc inv.wfn (by rw [hnd]; simp [create_node])
    obtain ⟨hEB_A2, hdesc2⟩ := setSuccs_loadNext (gpcsSL st ns k MAX_LEVEL) nid
      (lvl + 1) 0 lvl stA (by omega) hlvl hwfA (by rw [hstA]; simp)
    set st2 : SkipList := setSuccs (gpcsSL st ns k MAX_LEVEL) nid 0 lvl stA with hst2
    set st3 : SkipList := storeNext st2 (gpredSL st ns k 0) 0 ⟨some nid, false⟩ with hst3
    set st4 : SkipList := addSize st3 1 with hst4
    have hEB_A3 : eqButNext stA st3 := by
      rw [hst3]
      exact eqButNext_trans hEB_A2 (eqButNext_storeNext _ _ _ _)
    have hp0nid : gpredSL st ns k 0 ≠ nid := by
      have := gpred_not_nid inv (k := k) 0
      omega
    have hlen4 : st4.mem.length = st.mem.length + 1 := by
      rw [hst4, addSize_mem_length, hst3, storeNext_mem_length,
        hEB_A2.2.2.2.1, hstA, alloc_mem_length]
    have hmk4 : ∀ j, j < st.mem.length →
        (getNode st4 j).marked = (getNode st j).marked := by
      intro j hj
      rw [hst4, addSize_getNode, (hEB_A3.2.2.2.2.2 j).2.2.2.1, hstA,
        getNode_alloc_lt hj]
    have hwf4 : ∀ j, (getNode st4 j).next.length = MAX_LEVEL + 1 := by
      intro j
      rw [hst4, addSize_getNode]
      exact eqButNext_wfn hEB_A3 hwfA j
    have hload4 : ∀ j L, loadNext st4 j L =
        if L ≤ lvl ∧ j = nid then gsuccSL st ns k L
        else if L < 1 ∧ j = gpredSL st ns k L then ⟨some nid, false⟩
        else loadNext st j L := by
      intro j L
      rw [hst4, addSize_loadNext]
      by_cases hL0 : L = 0
      · rw [hL0]
        by_cases hj1 : j = gpredSL st ns k 0
        · rw [if_neg (fun hcon => hp0nid (hj1.symm.trans hcon.2)),
            if_pos (show 0 < 1 ∧ j = gpredSL st ns k 0 from ⟨one_pos, hj1⟩),
            hst3, hj1,
            loadNext_storeNext_self _
              (by rw [hEB_A2.2.2.2.1, hstA, alloc_mem_length]
                  have := gpred_not_nid inv (k := k) 0
                  omega)
              (by rw [eqButNext_wfn hEB_A2 hwfA (gpredSL st ns k 0)]; omega)]
        · by_cases hj2 : j = nid
          · rw [if_pos (show (0 : Nat) ≤ lvl ∧ j = nid from ⟨Nat.zero_le _, hj2⟩),
              hst3, hj2, loadNext_storeNext_ne_node _ _ _ hp0nid, hdesc2,
              if_pos (show nid = nid ∧ (0 : Nat) ≤ 0 ∧ (0 : Nat) ≤ lvl from
                ⟨rfl, le_rfl, Nat.zero_le _⟩),
              gpcsSL_getD (Nat.zero_le MAX_LEVEL) (0, nullPtr)]
          · rw [if_neg (fun hcon => hj2 hcon.2), if_neg (fun hcon => hj1 hcon.2),
              hst3, loadNext_storeNext_ne_node _ _ _ (fun h => hj1 h.symm),
              hdesc2, if_neg (fun hcon => hj2 hcon.1), hstA_load]
      · rw [hst3, loadNext_storeNext_ne_level _ (fun h => hL0 h.symm), hdesc2]
        by_cases hc1 : L ≤ lvl ∧ j = nid
        · rw [if_pos (show j = nid ∧ (0 : Nat) ≤ L ∧ L ≤ lvl from
            ⟨hc1.2, Nat.zero_le _, hc1.1⟩), if_pos hc1,
            gpcsSL_getD (le_trans hc1.1 hlvl) (0, nullPtr)]
        · rw [if_neg (fun hcon => hc1 ⟨hcon.2.2, hcon.1⟩), hstA_load,
            if_neg hc1, if_neg (fun hcon => by omega)]
    obtain ⟨st5, heq5, hEB5, hdesc5⟩ := linkUpFine_loadNext inv hlvl hnid lvl 1 st4
      (by omega) le_rfl (by omega) hlen4 hmk4 hwf4 hload4
    have hshape : InsertShape st st5 ns k lvl nid := by
      obtain ⟨hh5, ht5, hm5, hlen5, _, hflds5⟩ := hEB5
      obtain ⟨hh3, ht3, hm3, hlen3, _, hflds3⟩ := hEB_A3
      refine ⟨?_, ?_, ?_, ?_, hnid, ?_, ?_, ?_, ?_, ?_, hdesc5⟩
      · rw [hh5, hst4, addSize_head, hh3, hstA, alloc_head]
      · rw [ht5, hst4, addSize_tail, ht3, hstA, alloc_tail]
      · rw [hm5, hst4, addSize_maxLevel, hm3, hstA, alloc_maxLevel]
      · rw [hlen5]
        exact hlen4
      · intro j hj
        have h5 := hflds5 j
        have h3 := hflds3 j
        rcases Nat.lt_trichotomy j st.mem.length with h | h | h
        · rw [h5.1, h5.2.2.1, h5.2.2.2.1, hst4, addSize_getNode,
            h3.1, h3.2.2.1, h3.2.2.2.1, hstA, getNode_alloc_lt h]
          exact ⟨rfl, rfl, rfl⟩
        · exact absurd (h.trans hnid.symm) hj
        · have hoobA : getNode stA j = default := by
            rw [hstA]
            exact getNode_oob (by simp; omega)
          have hoob : getNode st j = default := getNode_oob (by omega)
          rw [h5.1, h5.2.2.1, h5.2.2.2.1, hst4, addSize_getNode,
            h3.1, h3.2.2.1, h3.2.2.2.1, hoobA, hoob]
          exact ⟨rfl, rfl, rfl⟩
      · rw [(hflds5 nid).1, hst4, addSize_getNode, (hflds3 nid).1, hstA, hnid,
          getNode_alloc_self]
        rfl
      · rw [(hflds5 nid).2.2.1, hst4, addSize_getNode, (hflds3 nid).2.2.1, hstA, hnid,
          getNode_alloc_self]
        rfl
      · rw [(hflds5 nid).2.2.2.1, hst4, addSize_getNode, (hflds3 nid).2.2.2.1, hstA,
          hnid, getNode_alloc_self]
        rfl
      · intro j
        exact ((hflds5 j).2.2.2.2.2).trans (hwf4 j)
    have hcommit := insertCommit inv (le_of_lt hk) hlvl hmem hshape
    refine ⟨st5, belowK st k ns ++ nid :: restK st k ns, ?_, hcommit.1, hcommit.2⟩
    rw [heq5, bind_ok,
      show decide (k ∉ keysOf st ns) = true from decide_eq_true hmem]

/-- State description of the fine unlink loop (levels `victim->topLevel` down
to `0`): each level's predecessor check succeeds on the first try and the
victim is unlinked at every level. -/
theorem unlinkDownFine_loadNext {st0 : SkipList} {ns : List Nat} {k : Int}
    (inv : InvSL st0 ns) {vi : Nat} (hvi : vi ∈ ns) (hik : keyOf st0 vi = k) :
    ∀ (i : Nat) (stc : SkipList), i ≤ (getNode st0 vi).topLevel →
    stc.mem.length = st0.mem.length →
    (∀ j, (getNode stc j).next.length = MAX_LEVEL + 1) →
    (∀ j L, loadNext stc j L =
      if i < L ∧ L ≤ (getNode st0 vi).topLevel ∧ j = gpredSL st0 ns k L then
        loadNext st0 vi L
      else loadNext st0 j L) →
    ∃ stf, unlinkDownFine k vi ⟨some vi, false⟩ (gpcsSL st0 ns k MAX_LEVEL) i stc =
        .ok stf ∧
      eqButNext stc stf ∧
      (∀ j L, loadNext stf j L =
        if L ≤ (getNode st0 vi).topLevel ∧ j = gpredSL st0 ns k L then
          loadNext st0 vi L
        else loadNext st0 j L) := by
  have htop : (getNode st0 vi).topLevel ≤ MAX_LEVEL := inv.tops vi hvi
  intro i
  induction i with
  | zero =>
    intro stc hi hlen hwf hload
    have hgd : (gpcsSL st0 ns k MAX_LEVEL).getD 0 (0, nullPtr) =
        (gpredSL st0 ns k 0, gsuccSL st0 ns k 0) := gpcsSL_getD (Nat.zero_le _) _
    have hpnv : gpredSL st0 ns k 0 ≠ vi := gpred_ne_keynode inv hvi hik 0
    have hcond : loadNext stc (gpredSL st0 ns k 0) 0 = ⟨some vi, false⟩ := by
      rw [hload, if_neg (fun hcon => by omega), gpred_load inv (Nat.zero_le _),
        gsucc_victim inv hvi hik hi]
    have hvload : loadNext stc vi 0 = loadNext st0 vi 0 := by
      rw [hload, if_neg (fun hcon => by omega)]
    set st2 : SkipList :=
      storeNext stc (gpredSL st0 ns k 0) 0 (loadNext st0 vi 0) with hst2
    have hstep : unlinkLevelFine (FUEL stc) stc k vi ⟨some vi, false⟩
        (gpredSL st0 ns k 0) 0 = .ok st2 := by
      have hFf : FUEL stc = stc.mem.length + 1 + 1 := by rw [FUEL]
      rw [hFf]
      simp only [unlinkLevelFine]
      rw [if_pos hcond, hvload]
    have hEB2 : eqButNext stc st2 := by
      rw [hst2]
      exact eqButNext_storeNext _ _ _ _
    refine ⟨st2, ?_, hEB2, fun j L => ?_⟩
    · simp only [unlinkDownFine]
      rw [hgd]
      simp only []
      rw [hstep, bind_ok]
    · by_cases hL0 : L = 0
      · rw [hL0]
        by_cases hj : j = gpredSL st0 ns k 0
        · rw [if_pos (show (0 : Nat) ≤ (getNode st0 vi).topLevel ∧
              j = gpredSL st0 ns k 0 from ⟨Nat.zero_le _, hj⟩),
            hst2, hj,
            loadNext_storeNext_self _
              (by rw [hlen]; exact gpred_not_nid inv (k := k) 0)
              (by rw [hwf (gpredSL st0 ns k 0)]; omega)]
        · rw [if_neg (fun hcon => hj hcon.2), hst2,
            loadNext_storeNext_ne_node _ _ _ (fun h => hj h.symm),
            hload, if_neg (fun hcon => by omega)]
      · rw [hst2, loadNext_storeNext_ne_level _ (fun h => hL0 h.symm), hload]
        by_cases hc : L ≤ (getNode st0 vi).topLevel ∧ j = gpredSL st0 ns k L
        · rw [if_pos (show 0 < L ∧ L ≤ (getNode st0 vi).topLevel ∧
            j = gpredSL st0 ns k L from ⟨by omega, hc.1, hc.2⟩), if_pos hc]
        · rw [if_neg (fun hcon => hc ⟨hcon.2.1, hcon.2.2⟩), if_neg hc]
  | succ i ih =>
    intro stc hi hlen hwf hload
    have hiM : i + 1 ≤ MAX_LEVEL := le_trans hi htop
    have hgd : (gpcsSL st0 ns k MAX_LEVEL).getD (i + 1) (0, nullPtr) =
        (gpredSL st0 ns k (i + 1), gsuccSL st0 ns k (i + 1)) := gpcsSL_getD hiM _
    have hpnv : gpredSL st0 ns k (i + 1) ≠ vi := gpred_ne_keynode inv hvi hik (i + 1)
    have hcond : loadNext stc (gpredSL st0 ns k (i + 1)) (i + 1) =
        ⟨some vi, false⟩ := by
      rw [hload, if_neg (fun hcon => by omega), gpred_load inv hiM,
        gsucc_victim inv hvi hik hi]
    have hvload : loadNext stc vi (i + 1) = loadNext st0 vi (i + 1) := by
      rw [hload, if_neg (fun hcon => by omega)]
    set st2 : SkipList :=
      storeNext stc (gpredSL st0 ns k (i + 1)) (i + 1) (loadNext st0 vi (i + 1))
      with hst2
    have hstep : unlinkLevelFine (FUEL stc) stc k vi ⟨some vi, false⟩
        (gpredSL st0 ns k (i + 1)) (i + 1) = .ok st2 := by
      have hFf : FUEL stc = stc.mem.length + 1 + 1 := by rw [FUEL]
      rw [hFf]
      simp only [unlinkLevelFine]
      rw [if_pos hcond, hvload]
    have hEB2 : eqButNext stc st2 := by
      rw [hst2]
      exact eqButNext_storeNext _ _ _ _
    have hlen2 : st2.mem.length = st0.mem.length := by
      rw [hst2, storeNext_mem_length]
      exact hlen
    have hwf2 : ∀ j, (getNode st2 j).next.length = MAX_LEVEL + 1 := by
      rw [hst2]
      exact wfn_storeNext _ _ _ hwf
    have hload2 : ∀ j L, loadNext st2 j L =
        if i < L ∧ L ≤ (getNode st0 vi).topLevel ∧ j = gpredSL st0 ns k L then
          loadNext st0 vi L
        else loadNext st0 j L := by
      intro j L
      by_cases hLi : L = i + 1
      · rw [hLi]
        by_cases hj : j = gpredSL st0 ns k (i + 1)
        · rw [if_pos (show i < i + 1 ∧ i + 1 ≤ (getNode st0 vi).topLevel ∧
              j = gpredSL st0 ns k (i + 1) from ⟨Nat.lt_succ_self i, hi, hj⟩),
            hst2, hj,
            loadNext_storeNext_self _
              (by rw [hlen]; exact gpred_not_nid inv (k := k) (i + 1))
              (by rw [hwf (gpredSL st0 ns k (i + 1))]; omega)]
        · rw [if_neg (fun hcon => hj hcon.2.2), hst2,
            loadNext_storeNext_ne_node _ _ _ (fun h => hj h.symm),
            hload, if_neg (fun hcon => by omega)]
      · rw [hst2, loadNext_storeNext_ne_level _ (fun h => hLi h.symm), hload]
        by_cases hc : L ≤ (getNode st0 vi).topLevel ∧ j = gpredSL st0 ns k L
        · by_cases hlt : i < L
          · rw [if_pos (show i + 1 < L ∧ _ ∧ _ from ⟨by omega, hc.1, hc.2⟩),
              if_pos (show i < L ∧ _ ∧ _ from ⟨hlt, hc.1, hc.2⟩)]
          · rw [if_neg (fun hcon => by omega), if_neg (fun hcon => by omega)]
        · rw [if_neg (fun hcon => hc ⟨hcon.2.1, hcon.2.2⟩),
            if_neg (fun hcon => hc ⟨hcon.2.1, hcon.2.2⟩)]
    obtain ⟨stf, heq, hEBf, hdesc⟩ := ih st2 (by omega) hlen2 hwf2 hload2
    refine ⟨stf, ?_, eqButNext_trans hEB2 hEBf, hdesc⟩
    rw [unlinkDownFine, hgd]
    simp only []
    rw [hstep, bind_ok]
    exact heq

/-- `skiplist_delete_fine` step: the boolean result matches the reference set
delete, and the invariant carries to the new state. -/
theorem deleteF_step {st : SkipList} {ns : List Nat} (inv : InvSL st ns)
    (k : Int) (hk : k ≤ INT_MAX) :
    ∃ st' ns', skiplist_delete_fine st k = .ok (decide (k ∈ keysOf st ns), st') ∧
      InvSL st' ns' ∧
      (keysOf st' ns').toFinset = ((keysOf st ns).toFinset).erase k := by
  have hF : FUEL st = st.mem.length + 1 + 1 := by rw [FUEL]
  rw [skiplist_delete_fine, hF]
  simp only [deleteFineLoop]
  rw [findOpt_spec inv hk MAX_LEVEL le_rfl st.head (FUEL st) (FUEL_gt st)
    (Or.inl rfl), bind_ok]
  rw [show (gpcsSL st ns k MAX_LEVEL).getD 0 (0, nullPtr) =
    (gpredSL st ns k 0, gsuccSL st ns k 0) from gpcsSL_getD (Nat.zero_le _) _]
  simp only []
  by_cases hmem : k ∈ keysOf st ns
  · -- the key is present: the victim is marked and unlinked
    rcases mem_keysOf.1 hmem with ⟨vi, hvi, hik⟩
    rcases restK_first_of_mem inv.sorted hvi hik with ⟨l, hrest⟩
    have hder : deref (gsuccSL st ns k 0) = .ok vi := by
      rw [gsucc0_cons hrest]
      rfl
    rw [hder, bind_ok,
      if_neg (show ¬((getNode st vi).key ≠ k ∨ gsuccSL st ns k 0 = tailPtr st) from by
        rintro (h | h)
        · exact h hik
        · rw [gsucc0_cons hrest] at h
          exact ptr_ne_tailPtr (inv.idsTail vi hvi) h),
      inv.unmarked vi hvi, if_neg (by simp : ¬(false = true))]
    set st1 : SkipList := storeMarked st vi true with hst1
    rw [gsucc0_cons hrest,
      show (getNode st1 vi).topLevel = (getNode st vi).topLevel from by
        rw [hst1]; exact topOf_storeMarked st vi true vi]
    have hlen1 : st1.mem.length = st.mem.length := by
      rw [hst1, storeMarked, setNode_mem_length]
    have hwf1 : ∀ j, (getNode st1 j).next.length = MAX_LEVEL + 1 := by
      rw [hst1]
      exact wfn_storeMarked _ _ inv.wfn
    have hload1 : ∀ j L, loadNext st1 j L =
        if (getNode st vi).topLevel < L ∧ L ≤ (getNode st vi).topLevel ∧
            j = gpredSL st ns k L then
          loadNext st vi L
        else loadNext st j L := by
      intro j L
      rw [hst1, loadNext_storeMarked, if_neg (fun hcon => by omega)]
    obtain ⟨stf, hequ, hEBu, hdescu⟩ := unlinkDownFine_loadNext inv hvi hik
      ((getNode st vi).topLevel) st1 le_rfl hlen1 hwf1 hload1
    rw [hequ, bind_ok]
    have hshape : DeleteShape st (addSize stf (-1)) ns k vi := by
      obtain ⟨hhu, htu, hmu, hlenu, _, hfldsu⟩ := hEBu
      refine ⟨?_, ?_, ?_, ?_, fun j => ⟨?_, ?_⟩, ?_, ?_, ?_⟩
      · rw [addSize_head, hhu, hst1, storeMarked, setNode_head]
      · rw [addSize_tail, htu, hst1, storeMarked, setNode_tail]
      · rw [addSize_maxLevel, hmu, hst1, storeMarked, setNode_maxLevel]
      · rw [addSize_mem_length, hlenu, hlen1]
      · rw [addSize_getNode, (hfldsu j).1, hst1]
        exact keyOf_storeMarked st vi true j
      · rw [addSize_getNode, (hfldsu j).2.2.1, hst1]
        exact topOf_storeMarked st vi true j
      · intro j hj
        rw [addSize_getNode, (hfldsu j).2.2.2.1, hst1,
          getNode_storeMarked_ne _ (fun h => hj h.symm)]
      · intro j
        exact ((hfldsu j).2.2.2.2.2).trans (hwf1 j)
      · intro j L
        rw [addSize_loadNext, hdescu j L]
    have hcommit := deleteCommit inv hrest hik hshape
    refine ⟨addSize stf (-1), belowK st k ns ++ l, ?_, hcommit.1, hcommit.2⟩
    rw [show decide (k ∈ keysOf st ns) = true from decide_eq_true hmem]
  · -- the key is absent: no marking, no unlinking
    rcases hr : restK st k ns with _ | ⟨i0, l⟩
    · have hder : deref (gsuccSL st ns k 0) = .ok st.tail := by
        rw [gsucc0_nil hr]
        rfl
      rw [hder, bind_ok, if_pos (Or.inr (gsucc0_nil hr))]
      refine ⟨st, ns, ?_, inv, (by
        symm
        rw [Finset.erase_eq_self]
        simpa using hmem)⟩
      rw [show decide (k ∈ keysOf st ns) = false from decide_eq_false hmem]
    · have hi0 : i0 ∈ ns := restK_mem_base (hr ▸ List.mem_cons_self i0 l)
      have hgt : k < keyOf st i0 :=
        restK_gt_of_not_mem inv.sorted hmem (hr ▸ List.mem_cons_self i0 l)
      have hder : deref (gsuccSL st ns k 0) = .ok i0 := by
        rw [gsucc0_cons hr]
        rfl
      rw [hder, bind_ok,
        if_pos (Or.inl (show (getNode st i0).key ≠ k from by
          show keyOf st i0 ≠ k; omega))]
      refine ⟨st, ns, ?_, inv, (by
        symm
        rw [Finset.erase_eq_self]
        simpa using hmem)⟩
      rw [show decide (k ∈ keysOf st ns) = false from decide_eq_false hmem]

/-- On any invariant-satisfying state, `skiplist_insert_fine(INT_MAX, …)`
returns `false` and leaves the state unchanged: the walk stops at the tail
sentinel, whose key `INT_MAX` triggers the duplicate-key check. -/
theorem insertF_max {st : SkipList} {ns : List Nat} (inv : InvSL st ns)
    (v : Int) (lvl : Nat) :
    skiplist_insert_fine st INT_MAX v lvl = .ok (false, st) := by
  have hF : FUEL st = st.mem.length + 1 + 1 := by rw [FUEL]
  rw [skiplist_insert_fine, hF]
  simp only [insertFineLoop]
  rw [findOpt_spec inv le_rfl MAX_LEVEL le_rfl st.head (FUEL st) (FUEL_gt st)
    (Or.inl rfl), bind_ok]
  rw [show (gpcsSL st ns INT_MAX MAX_LEVEL).getD 0 (0, nullPtr) =
    (gpredSL st ns INT_MAX 0, gsuccSL st ns INT_MAX 0) from gpcsSL_getD (Nat.zero_le _) _]
  simp only []
  rcases hr : restK st INT_MAX ns with _ | ⟨i0, l⟩
  · have hder : deref (gsuccSL st ns INT_MAX 0) = .ok st.tail := by
      rw [gsucc0_nil hr]
      rfl
    rw [hder, bind_ok, if_pos (show (getNode st st.tail).key = INT_MAX from inv.tailKey)]
  · have hi0 : i0 ∈ ns := restK_mem_base (hr ▸ List.mem_cons_self i0 l)
    have hge : INT_MAX ≤ keyOf st i0 :=
      restK_mem_ge inv.sorted (hr ▸ List.mem_cons_self i0 l)
    have hle : keyOf st i0 ≤ INT_MAX := inv.keysLe i0 hi0
    have hder : deref (gsuccSL st ns INT_MAX 0) = .ok i0 := by
      rw [gsucc0_cons hr]
      rfl
    rw [hder, bind_ok, if_pos (show (getNode st i0).key = INT_MAX from by
      show keyOf st i0 = INT_MAX
      omega)]

/-- Sequence-level refinement of the fine variant: on any sequence of
well-formed operations that avoids the key `INT_MAX`, the fine skip list
returns exactly the reference answers. -/
theorem runFine_refines : ∀ (ops : List OpK) (st : SkipList) (ns : List Nat),
    InvSL st ns → (∀ op ∈ ops, opWF op ∧ opKey op ≠ INT_MAX) →
    ∃ st', runFine st ops =
      .ok ((runRef ((keysOf st ns).toFinset) ops).1, st') := by
  intro ops
  induction ops with
  | nil =>
    intro st ns _ _
    exact ⟨st, rfl⟩
  | cons op ops ih =>
    intro st ns inv hwf
    have hop := hwf op (List.mem_cons_self _ _)
    have hops := fun o ho => hwf o (List.mem_cons_of_mem _ ho)
    rcases op with ⟨k, v, lvl⟩ | k | k
    · rcases hop with ⟨⟨_, hk2, hlvl⟩, hkne⟩
      have hklt : k < INT_MAX := lt_of_le_of_ne hk2 hkne
      rcases insertF_step inv k v lvl hklt hlvl with ⟨st1, ns1, hstep, hinv1, hkeys1⟩
      rcases ih st1 ns1 hinv1 hops with ⟨st2, hrun⟩
      refine ⟨st2, ?_⟩
      rw [runFine, hstep, bind_ok]
      simp only []
      rw [hrun, bind_ok]
      simp only []
      rw [runRef]
      simp only [refInsert]
      rw [← hkeys1]
      rw [show (decide (k ∉ (keysOf st ns).toFinset)) = decide (k ∉ keysOf st ns) from
        decide_eq_decide.2 (by rw [List.mem_toFinset])]
    · rcases hop with ⟨⟨_, hk2⟩, _⟩
      rcases deleteF_step inv k hk2 with ⟨st1, ns1, hstep, hinv1, hkeys1⟩
      rcases ih st1 ns1 hinv1 hops with ⟨st2, hrun⟩
      refine ⟨st2, ?_⟩
      rw [runFine, hstep, bind_ok]
      simp only []
      rw [hrun, bind_ok]
      simp only []
      rw [runRef]
      simp only [refDelete]
      rw [← hkeys1]
      rw [show (decide (k ∈ (keysOf st ns).toFinset)) = decide (k ∈ keysOf st ns) from
        decide_eq_decide.2 (by rw [List.mem_toFinset])]
    · rcases hop with ⟨⟨_, hk2⟩, hkne⟩
      have hklt : k < INT_MAX := lt_of_le_of_ne hk2 hkne
      rcases containsF_step inv hklt with hstep
      rcases ih st ns inv hops with ⟨st2, hrun⟩
      refine ⟨st2, ?_⟩
      rw [runFine, hstep, bind_ok, pure_eq_ok, bind_ok]
      simp only []
      rw [hrun, bind_ok]
      simp only []
      rw [runRef]
      simp only [refContains]
      rw [show (decide (k ∈ (keysOf st ns).toFinset)) = decide (k ∈ keysOf st ns) from
        decide_eq_decide.2 (by rw [List.mem_toFinset])]

/-- Every coarse-variant reachable state satisfies the structural invariant. -/
theorem reachC_inv {st : SkipList} (h : ReachC st) : ∃ ns, InvSL st ns := by
  induction h with
  | create => exact ⟨[], invSL_create_coarse⟩
  | insert st0 st' k v lvl b _ _ hk2 hlvl hstep ih =>
    rcases ih with ⟨ns, inv⟩
    rcases insertC_step inv k v lvl hk2 hlvl with ⟨st1, ns1, hstep1, hinv1, _⟩
    have hst : st' = st1 :=
      congrArg Prod.snd (Except.ok.inj (hstep.symm.trans hstep1))
    exact ⟨ns1, hst ▸ hinv1⟩
  | delete st0 st' k b _ _ hk2 hstep ih =>
    rcases ih with ⟨ns, inv⟩
    rcases deleteC_step inv k with ⟨st1, ns1, hstep1, hinv1, _⟩
    have hst : st' = st1 :=
      congrArg Prod.snd (Except.ok.inj (hstep.symm.trans hstep1))
    exact ⟨ns1, hst ▸ hinv1⟩

/-- Every fine-variant reachable state satisfies the structural invariant. -/
theorem reachF_inv {st : SkipList} (h : ReachF st) : ∃ ns, InvSL st ns := by
  induction h with
  | create => exact ⟨[], invSL_create_fine⟩
  | insert st0 st' k v lvl b _ _ hk2 hlvl hstep ih =>
    rcases ih with ⟨ns, inv⟩
    by_cases hklt : k < INT_MAX
    · rcases insertF_step inv k v lvl hklt hlvl with ⟨st1, ns1, hstep1, hinv1, _⟩
      have hst : st' = st1 :=
        congrArg Prod.snd (Except.ok.inj (hstep.symm.trans hstep1))
      exact ⟨ns1, hst ▸ hinv1⟩
    · have hkeq : k = INT_MAX := le_antisymm hk2 (not_lt.1 hklt)
      have hmax := insertF_max inv v lvl
      rw [← hkeq] at hmax
      have hst : st' = st0 :=
        congrArg Prod.snd (Except.ok.inj (hstep.symm.trans hmax))
      exact ⟨ns, hst ▸ inv⟩
  | delete st0 st' k b _ _ hk2 hstep ih =>
    rcases ih with ⟨ns, inv⟩
    rcases deleteF_step inv k hk2 with ⟨st1, ns1, hstep1, hinv1, _⟩
    have hst : st' = st1 :=
      congrArg Prod.snd (Except.ok.inj (hstep.symm.trans hstep1))
    exact ⟨ns1, hst ▸ hinv1⟩

/-! ## Lock-free descent specification

The predecessor description `gpredSL` is shared with the locked variants (it
does not mention the chain end); the successor description differs only in the
`NULL` chain end. -/

/-- The level-`l` successor pointer of `k` in the lock-free chain structure. -/
def gsuccLF (st : SkipList) (ms : List Nat) (k : Int) (l : Nat) : Ptr :=
  succPtr st k (towerFilter st ms l) nullPtr

/-- The `(preds, succs)` table of the lock-free `find` for levels
`0, …, level`. -/
def gpcsLF (st : SkipList) (ms : List Nat) (k : Int) (level : Nat) : List (Nat × Ptr) :=
  (List.range (level + 1)).map (fun l => (gpredSL st ms k l, gsuccLF st ms k l))

theorem gpcsLF_getD {st : SkipList} {ms : List Nat} {k : Int} {level l : Nat}
    (h : l ≤ level) (d : Nat × Ptr) :
    (gpcsLF st ms k level).getD l d = (gpredSL st ms k l, gsuccLF st ms k l) := by
  rw [gpcsLF, List.getD_eq_getElem?_getD, List.getElem?_map]
  simp [List.getElem?_range (by simpa using Nat.lt_succ_of_le h)]

theorem gpcsLF_succ (st : SkipList) (ms : List Nat) (k : Int) (level : Nat) :
    gpcsLF st ms k (level + 1) =
      gpcsLF st ms k level ++ [(gpredSL st ms k (level + 1), gsuccLF st ms k (level + 1))] := by
  rw [gpcsLF, gpcsLF, List.range_succ, List.map_append]
  rfl

theorem InvLF.chainSortedLF {st : SkipList} {ms : List Nat} (inv : InvLF st ms)
    (L : Nat) : sortedKeys st (towerFilter st ms L) :=
  towerFilter_sorted inv.sorted L

theorem InvLF.chainLenLF {st : SkipList} {ms : List Nat} (inv : InvLF st ms)
    (L : Nat) : (towerFilter st ms L).length ≤ st.mem.length :=
  nodup_length_le (sortedKeys_nodup (inv.chainSortedLF L))
    (fun _ hi => inv.idsLt _ ((towerFilter_sublist st ms L).subset hi))

theorem gpredLF_lt {st : SkipList} {ms : List Nat} {k : Int} (inv : InvLF st ms)
    (L : Nat) : gpredSL st ms k L < st.mem.length := by
  rcases predIdx_cases st k (towerFilter st ms L) st.head with h | ⟨h, _⟩
  · rw [gpredSL, h, inv.hhead]
    have := inv.hmem
    omega
  · exact inv.idsLt _ ((towerFilter_sublist st ms L).subset h)

theorem gpredLF_ne_tail {st : SkipList} {ms : List Nat} {k : Int} (inv : InvLF st ms)
    (hk : k ≤ INT_MAX) (L : Nat) : gpredSL st ms k L ≠ st.tail := by
  rcases predIdx_cases st k (towerFilter st ms L) st.head with h | ⟨_, h2⟩
  · rw [gpredSL, h, inv.hhead, inv.htail]
    omega
  · intro hcon
    rw [gpredSL] at hcon
    rw [hcon] at h2
    have : keyOf st st.tail = INT_MAX := inv.tailKey
    omega

theorem gpredLF_ne_keynode {st : SkipList} {ms : List Nat} {k : Int} {vi : Nat}
    (inv : InvLF st ms) (hvi : vi ∈ ms) (hvk : keyOf st vi = k) (L : Nat) :
    gpredSL st ms k L ≠ vi := by
  intro hcon
  rcases predIdx_cases st k (towerFilter st ms L) st.head with h | ⟨_, h2⟩
  · rw [gpredSL, h] at hcon
    exact inv.idsHead vi hvi hcon.symm
  · rw [gpredSL] at hcon
    rw [hcon] at h2
    omega

/-- The stored pointer after the global predecessor is the global successor. -/
theorem gpredLF_load {st : SkipList} {ms : List Nat} {k : Int} (inv : InvLF st ms)
    {L : Nat} (hL : L < MAX_LEVEL) :
    loadNext st (gpredSL st ms k L) L = gsuccLF st ms k L := by
  have hchain := inv.chains L hL
  have hsplit : towerFilter st ms L =
      belowK st k (towerFilter st ms L) ++ restK st k (towerFilter st ms L) :=
    (List.takeWhile_append_dropWhile (p := fun j => decide (keyOf st j < k))
      (l := towerFilter st ms L)).symm
  rw [hsplit, links_append_iff] at hchain
  rcases hchain with ⟨h1, _⟩
  rcases hb : belowK st k (towerFilter st ms L) with _ | ⟨a, as⟩
  · rw [hb, links_nil] at h1
    rw [gpredSL, predIdx, hb]
    exact h1
  · rw [hb] at h1
    have hlast := links_last_load h1 (by simp)
    rw [gpredSL, predIdx, hb, List.getLastD_cons, getLastD_eq_getLast_cons]
    exact hlast

theorem gsuccLF_cons {st : SkipList} {ms : List Nat} {k : Int} {L i0 : Nat}
    {l : List Nat} (hrest : restK st k (towerFilter st ms L) = i0 :: l) :
    gsuccLF st ms k L = ⟨some i0, false⟩ := by
  rw [gsuccLF, succPtr, hrest]
  rfl

theorem gsuccLF_nil {st : SkipList} {ms : List Nat} {k : Int} {L : Nat}
    (hrest : restK st k (towerFilter st ms L) = []) :
    gsuccLF st ms k L = nullPtr := by
  rw [gsuccLF, succPtr, hrest]
  rfl

theorem GET_UNMARKED_of_unmarked {p : Ptr} (h : p.mark = false) :
    GET_UNMARKED p = p := by
  obtain ⟨b, m⟩ := p
  simp only [GET_UNMARKED]
  simp at h
  rw [h]

/-- A chain whose end pointer is unmarked stores only unmarked pointers; in
particular its start is unmarked. -/
theorem links_start_unmarked {st : SkipList} {L : Nat} {p e : Ptr} {cs : List Nat}
    (h : links st L p cs e) (he : e.mark = false) : p.mark = false := by
  cases cs with
  | nil => rw [links_nil] at h; rw [h]; exact he
  | cons i is => rw [h.1]

/-! ## Clean lock-free walks (no marked pointer encountered, no helping) -/

theorem findLevelGo_clean {st : SkipList} {L : Nat} {k : Int} :
    ∀ (cs : List Nat) (pred : Nat) (curr : Ptr) (fuel : Nat),
    links st L curr cs nullPtr → cs.length < fuel →
    findLevelGo fuel st k pred curr L =
      .ok (some (predIdx st k cs pred, succPtr st k cs nullPtr), st) := by
  intro cs
  induction cs with
  | nil =>
    intro pred curr fuel hl hf
    obtain ⟨f, rfl⟩ : ∃ f, fuel = f + 1 := ⟨fuel - 1, by omega⟩
    rw [links_nil] at hl
    simp [findLevelGo, hl, nullPtr, predIdx, succPtr, restK, chainHeadPtr]
  | cons i is ih =>
    intro pred curr fuel hl hf
    obtain ⟨f, rfl⟩ : ∃ f, fuel = f + 1 := ⟨fuel - 1, by omega⟩
    rcases hl with ⟨h1, h2⟩
    have hsm : (loadNext st i L).mark = false := links_start_unmarked h2 rfl
    have hgu : GET_UNMARKED (loadNext st i L) = loadNext st i L :=
      GET_UNMARKED_of_unmarked hsm
    simp only [findLevelGo, h1]
    rw [if_neg (by simp : ¬(some i = none)), deref_some_unmarked, bind_ok]
    rw [show IS_MARKED (loadNext st i L) = false from hsm,
      if_neg (by simp : ¬(false = true)), hgu]
    by_cases hki : (getNode st i).key < k
    · rw [if_pos hki, predIdx_cons_pos is hki, succPtr_cons_pos is hki]
      exact ih i (loadNext st i L) f h2 (by simp only [List.length_cons] at hf; omega)
    · rw [if_neg hki, predIdx_cons_neg is hki, succPtr_cons_neg is hki]

theorem findLevelGo_from {st : SkipList} {L : Nat} {k : Int} {cs : List Nat}
    {pred fuel : Nat}
    (hl : links st L (loadNext st st.head L) cs nullPtr)
    (hs : sortedKeys st cs)
    (hpred : pred = st.head ∨ (pred ∈ cs ∧ keyOf st pred < k))
    (hf : cs.length < fuel) :
    findLevelGo fuel st k pred (GET_UNMARKED (loadNext st pred L)) L =
      .ok (some (predIdx st k cs st.head, succPtr st k cs nullPtr), st) := by
  rcases hpred with rfl | ⟨hmem, hkey⟩
  · rw [GET_UNMARKED_of_unmarked (links_start_unmarked hl rfl)]
    exact findLevelGo_clean cs st.head _ fuel hl hf
  · rcases List.append_of_mem hmem with ⟨xs, ys, rfl⟩
    have hys : links st L (loadNext st pred L) ys nullPtr := links_suffix hl
    have hf' : ys.length < fuel := by
      simp only [List.length_append, List.length_cons] at hf
      omega
    rw [GET_UNMARKED_of_unmarked (links_start_unmarked hys rfl)]
    rw [findLevelGo_clean ys pred _ fuel hys hf']
    rw [predIdx_split hs hkey, succPtr_split hs hkey]

theorem findDesc_clean {st : SkipList} {ms : List Nat} {k : Int}
    (inv : InvLF st ms) :
    ∀ (level : Nat), level < MAX_LEVEL →
    ∀ (pred fuel : Nat), st.mem.length < fuel →
    (pred = st.head ∨ (pred ∈ towerFilter st ms level ∧ keyOf st pred < k)) →
    findDesc fuel k st pred level = .ok (some (gpcsLF st ms k level), st) := by
  intro level
  induction level with
  | zero =>
    intro _ pred fuel hfuel hp
    have hw := findLevelGo_from (inv.chains 0 (by decide)) (inv.chainSortedLF 0) hp
      (lt_of_le_of_lt (inv.chainLenLF 0) hfuel)
    simp only [findDesc, hw, bind_ok]
    rfl
  | succ level ih =>
    intro hle pred fuel hfuel hp
    have hw := findLevelGo_from (inv.chains (level + 1) hle) (inv.chainSortedLF (level + 1))
      hp (lt_of_le_of_lt (inv.chainLenLF (level + 1)) hfuel)
    simp only [findDesc, hw, bind_ok]
    have hrec := ih (lt_trans (Nat.lt_succ_self _) hle)
      (gpredSL st ms k (level + 1)) fuel hfuel
      (gpredSL_feeds (Nat.le_succ level))
    simp only [gpredSL] at hrec
    rw [hrec, bind_ok]
    simp only []
    rw [gpcsLF_succ]
    simp only [gpredSL, gsuccLF]

/-! ## Committing a lock-free insert -/

/-- Interface of a completed lock-free insert at the heap level (like
`InsertShape`, with the `NULL` chain end of the lock-free variant). -/
def InsertShapeLF (st stX : SkipList) (ms : List Nat) (k : Int) (lvl nid : Nat) : Prop :=
  stX.head = st.head ∧ stX.tail = st.tail ∧ stX.maxLevel = st.maxLevel ∧
  stX.mem.length = st.mem.length + 1 ∧ nid = st.mem.length ∧
  (∀ j, j ≠ nid → (getNode stX j).key = (getNode st j).key ∧
    (getNode stX j).topLevel = (getNode st j).topLevel ∧
    (getNode stX j).marked = (getNode st j).marked) ∧
  (getNode stX nid).key = k ∧ (getNode stX nid).topLevel = lvl ∧
  (getNode stX nid).marked = false ∧
  (∀ j, (getNode stX j).next.length = MAX_LEVEL + 1) ∧
  (∀ j L, loadNext stX j L =
    if L ≤ lvl ∧ j = nid then gsuccLF st ms k L
    else if L ≤ lvl ∧ j = gpredSL st ms k L then ⟨some nid, false⟩
    else loadNext st j L)

/-- The new tower filter after a lock-free insert splice. -/
theorem towerFilter_insertShapeLF {st stX : SkipList} {ms : List Nat} {k : Int}
    {lvl nid : Nat} (inv : InvLF st ms) (hshape : InsertShapeLF st stX ms k lvl nid)
    (L : Nat) :
    towerFilter stX (belowK st k ms ++ nid :: restK st k ms) L =
      belowK st k (towerFilter st ms L) ++
        (if L ≤ lvl then nid :: restK st k (towerFilter st ms L)
         else restK st k (towerFilter st ms L)) := by
  obtain ⟨_, _, _, _, hnid, hold, _, htop, _, _, _⟩ := hshape
  have htops : ∀ j ∈ ms, (getNode stX j).topLevel = (getNode st j).topLevel := by
    intro j hj
    exact (hold j (by have := inv.idsLt j hj; omega)).2.1
  have hfilter : ∀ zs : List Nat, (∀ j ∈ zs, j ∈ ms) →
      zs.filter (fun i => decide (L ≤ (getNode stX i).topLevel)) =
        zs.filter (fun i => decide (L ≤ (getNode st i).topLevel)) := by
    intro zs hzs
    refine List.filter_congr ?_
    intro j hj
    rw [htops j (hzs j hj)]
  have hb : ∀ j ∈ belowK st k ms, j ∈ ms := fun j h => belowK_sublist_mem h
  have hr : ∀ j ∈ restK st k ms, j ∈ ms := fun j h => restK_mem_base h
  have hcomm : ∀ (q : Nat → Bool),
      (ms.filter (fun i => decide (keyOf st i < k))).filter q =
        (ms.filter q).filter (fun i => decide (keyOf st i < k)) := by
    intro q
    rw [List.filter_filter, List.filter_filter]
    refine List.filter_congr ?_
    intro j _
    rw [Bool.and_comm]
  have hcomm2 : ∀ (q : Nat → Bool),
      (ms.filter (fun i => decide (¬keyOf st i < k))).filter q =
        (ms.filter q).filter (fun i => decide (¬keyOf st i < k)) := by
    intro q
    rw [List.filter_filter, List.filter_filter]
    refine List.filter_congr ?_
    intro j _
    rw [Bool.and_comm]
  rw [towerFilter, List.filter_append, List.filter_cons]
  rw [hfilter _ hb, hfilter _ hr]
  rw [show (belowK st k ms).filter (fun i => decide (L ≤ (getNode st i).topLevel))
      = belowK st k (towerFilter st ms L) from ?_]
  · rw [show (restK st k ms).filter (fun i => decide (L ≤ (getNode st i).topLevel))
        = restK st k (towerFilter st ms L) from ?_]
    · by_cases hL : L ≤ lvl
      · rw [if_pos hL]
        have : decide (L ≤ (getNode stX nid).topLevel) = true := by
          rw [htop]; exact decide_eq_true hL
        rw [this]
        simp
      · rw [if_neg hL]
        have : decide (L ≤ (getNode stX nid).topLevel) = false := by
          rw [htop]; exact decide_eq_false hL
        rw [this]
        simp
    · rw [restK_eq_filter inv.sorted, hcomm2,
        restK_eq_filter (towerFilter_sorted inv.sorted L)]
      rfl
  · rw [belowK_eq_filter inv.sorted, hcomm,
      belowK_eq_filter (towerFilter_sorted inv.sorted L)]
    rfl

/-- Committing a lock-free insert: the spliced state satisfies the invariant
with the new node at its sorted position, the key set gains `k`, and a linked
tail sentinel stays linked. -/
theorem insertCommitLF {st stX : SkipList} {ms : List Nat} {k : Int} {lvl nid : Nat}
    (inv : InvLF st ms) (hk : k ≤ INT_MAX) (hlvl : lvl < MAX_LEVEL)
    (hnm : k ∉ keysOf st ms) (hshape : InsertShapeLF st stX ms k lvl nid) :
    InvLF stX (belowK st k ms ++ nid :: restK st k ms) ∧
    (keysOf stX (belowK st k ms ++ nid :: restK st k ms)).toFinset =
      insert k ((keysOf st ms).toFinset) ∧
    (st.tail ∈ ms → st.tail ∈ belowK st k ms ++ nid :: restK st k ms) := by
  obtain ⟨hh, ht, hm, hlen, hnid, hold, hkey, htopn, hmkn, hwfX, hload⟩ := hshape
  have hmemlt : ∀ j ∈ ms, j < st.mem.length := inv.idsLt
  have hnsne : ∀ j ∈ ms, j ≠ nid := fun j hj => by
    have := hmemlt j hj
    omega
  have hkeyX : ∀ j ∈ ms, (getNode stX j).key = (getNode st j).key :=
    fun j hj => (hold j (hnsne j hj)).1
  have htopX : ∀ j ∈ ms, (getNode stX j).topLevel = (getNode st j).topLevel :=
    fun j hj => (hold j (hnsne j hj)).2.1
  have hmarkX : ∀ j ∈ ms, (getNode stX j).marked = (getNode st j).marked :=
    fun j hj => (hold j (hnsne j hj)).2.2
  have hheadne : st.head ≠ nid := by
    rw [inv.hhead]
    have := inv.hmem
    omega
  have htailne : st.tail ≠ nid := by
    rw [inv.htail]
    have := inv.hmem
    omega
  have hloMem : ∀ j ∈ belowK st k ms, j ∈ ms := fun j h => belowK_sublist_mem h
  have hhiMem : ∀ j ∈ restK st k ms, j ∈ ms := fun j h => restK_mem_base h
  have hchains : ∀ L < MAX_LEVEL,
      links stX L (loadNext stX stX.head L)
        (towerFilter stX (belowK st k ms ++ nid :: restK st k ms) L) nullPtr := by
    intro L hL
    rw [towerFilter_insertShapeLF inv
      ⟨hh, ht, hm, hlen, hnid, hold, hkey, htopn, hmkn, hwfX, hload⟩ L, hh]
    set loL := belowK st k (towerFilter st ms L) with hloL
    set hiL := restK st k (towerFilter st ms L) with hhiL
    have hsplitL : towerFilter st ms L = loL ++ hiL := ns_split st k _
    have holdchain : links st L (loadNext st st.head L) (loL ++ hiL) nullPtr := by
      rw [← hsplitL]
      exact inv.chains L hL
    have hlomem : ∀ j ∈ loL, j ∈ ms :=
      fun j h => (towerFilter_sublist st ms L).subset (belowK_sublist_mem h)
    have hhimem : ∀ j ∈ hiL, j ∈ ms :=
      fun j h => (towerFilter_sublist st ms L).subset (restK_mem_base h)
    have hnodL : (loL ++ hiL).Nodup := by
      rw [← hsplitL]
      exact sortedKeys_nodup (inv.chainSortedLF L)
    have hgpred : gpredSL st ms k L = (loL).getLastD st.head := rfl
    by_cases hLlvl : L ≤ lvl
    · rw [if_pos hLlvl]
      refine links_insert_node holdchain ?_ ?_ ?_ ?_ ?_ ?_
      · intro hlo
        rw [hload st.head L, if_neg (fun hcon => hheadne hcon.2),
          if_pos ⟨hLlvl, by rw [hgpred, hlo]; rfl⟩]
      · intro hlo
        have hgp : gpredSL st ms k L ≠ st.head := by
          rw [hgpred, getLastD_of_ne_nil hlo]
          intro hcon
          exact inv.idsHead _ (hlomem _ (List.getLast_mem hlo)) hcon
        rw [hload st.head L, if_neg (fun hcon => hheadne hcon.2),
          if_neg (fun hcon => hgp hcon.2.symm)]
      · intro hlo
        have hgl : loL.getLast hlo = gpredSL st ms k L := by
          rw [hgpred, getLastD_of_ne_nil hlo]
        have hglne : loL.getLast hlo ≠ nid := hnsne _ (hlomem _ (List.getLast_mem hlo))
        rw [hload _ L, if_neg (fun hcon => hglne hcon.2), if_pos ⟨hLlvl, hgl⟩]
      · intro i hi
        have hiin : i ∈ loL := (List.dropLast_sublist loL).subset hi
        have hine : i ≠ nid := hnsne _ (hlomem _ hiin)
        have hinegp : i ≠ gpredSL st ms k L := by
          rcases hb : loL with _ | ⟨a, as⟩
          · rw [hb] at hi; cases hi
          · rw [hgpred, getLastD_of_ne_nil (by rw [hb]; simp)]
            intro hcon
            have := nodup_getLast_not_mem_dropLast
              ((List.nodup_append.1 hnodL).1) (by rw [hb]; simp)
            rw [← hcon] at this
            exact this hi
        rw [hload i L, if_neg (fun hcon => hine hcon.2),
          if_neg (fun hcon => hinegp hcon.2)]
      · rw [hload nid L, if_pos ⟨hLlvl, rfl⟩]
        rfl
      · intro i hi
        have hine : i ≠ nid := hnsne _ (hhimem _ hi)
        have hinegp : i ≠ gpredSL st ms k L := by
          rcases hb : loL with _ | ⟨a, as⟩
          · rw [hgpred, hb]
            intro hcon
            exact inv.idsHead _ (hhimem _ hi) hcon
          · rw [hgpred, getLastD_of_ne_nil (by rw [hb]; simp)]
            intro hcon
            have hdisj := (List.nodup_append.1 hnodL).2.2
            exact hdisj (hcon ▸ List.getLast_mem (by rw [hb]; simp)) hi
        rw [hload i L, if_neg (fun hcon => hine hcon.2),
          if_neg (fun hcon => hinegp hcon.2)]
    · rw [if_neg hLlvl]
      have hall : ∀ j L', loadNext stX j L' = loadNext st j L' ∨
          (L' ≤ lvl) := by
        intro j L'
        by_cases h : L' ≤ lvl
        · exact Or.inr h
        · left
          rw [hload j L', if_neg (fun hcon => h hcon.1), if_neg (fun hcon => h hcon.1)]
      have hnotle : ∀ j, loadNext stX j L = loadNext st j L := by
        intro j
        rcases hall j L with h | h
        · exact h
        · exact absurd h hLlvl
      rw [hnotle st.head]
      exact links_frame (fun i _ => hnotle i) holdchain
  refine ⟨?_, ?_, ?_⟩
  · refine
      { wfn := hwfX
        hhead := hh.trans inv.hhead
        htail := ht.trans inv.htail
        hmax := hm.trans inv.hmax
        hmem := (by have := inv.hmem; omega)
        headKey := ?_
        tailKey := ?_
        headTop := ?_
        tailTop := ?_
        sorted := ?_
        idsLt := ?_
        idsHead := ?_
        keysLe := ?_
        tops := ?_
        topsLt := ?_
        top16 := ?_
        tailNexts := ?_
        chains := hchains }
    · rw [hh, (hold st.head (by rw [inv.hhead]; have := inv.hmem; omega)).1]
      exact inv.headKey
    · rw [ht, (hold st.tail (by rw [inv.htail]; have := inv.hmem; omega)).1]
      exact inv.tailKey
    · rw [hh, (hold st.head (by rw [inv.hhead]; have := inv.hmem; omega)).2.1]
      exact inv.headTop
    · rw [ht, (hold st.tail (by rw [inv.htail]; have := inv.hmem; omega)).2.1]
      exact inv.tailTop
    · -- sortedness of the new live list
      rw [List.pairwise_append]
      refine ⟨?_, ?_, ?_⟩
      · have hsub : (belowK st k ms).Sublist ms := List.takeWhile_sublist _
        have := inv.sorted.sublist hsub
        refine this.imp_of_mem ?_
        intro a b ha hb hab
        rw [(hkeyX a (hloMem a ha)), (hkeyX b (hloMem b hb))]
        exact hab
      · rw [List.pairwise_cons]
        refine ⟨?_, ?_⟩
        · intro b hb
          rw [hkey, (hkeyX b (hhiMem b hb))]
          exact restK_gt_of_not_mem inv.sorted hnm hb
        · have hsub : (restK st k ms).Sublist ms := List.dropWhile_sublist _
          have := inv.sorted.sublist hsub
          refine this.imp_of_mem ?_
          intro a b ha hb hab
          rw [(hkeyX a (hhiMem a ha)), (hkeyX b (hhiMem b hb))]
          exact hab
      · intro a ha b hb
        have hka : (getNode stX a).key < k := by
          rw [hkeyX a (hloMem a ha)]
          exact belowK_mem_lt ha
        rcases List.mem_cons.1 hb with rfl | hb'
        · rw [hkey]
          exact hka
        · rw [hkeyX b (hhiMem b hb')]
          have h2 : k < (getNode st b).key := restK_gt_of_not_mem inv.sorted hnm hb'
          omega
    · intro i hi
      rw [hlen]
      rcases List.mem_append.1 hi with h | h
      · have := hmemlt i (hloMem i h); omega
      · rcases List.mem_cons.1 h with rfl | h'
        · omega
        · have := hmemlt i (hhiMem i h'); omega
    · intro i hi
      rw [hh]
      rcases List.mem_append.1 hi with h | h
      · exact inv.idsHead i (hloMem i h)
      · rcases List.mem_cons.1 h with rfl | h'
        · exact fun hcon => hheadne hcon.symm
        · exact inv.idsHead i (hhiMem i h')
    · intro i hi
      rcases List.mem_append.1 hi with h | h
      · rw [hkeyX i (hloMem i h)]; exact inv.keysLe i (hloMem i h)
      · rcases List.mem_cons.1 h with rfl | h'
        · rw [hkey]; exact hk
        · rw [hkeyX i (hhiMem i h')]; exact inv.keysLe i (hhiMem i h')
    · intro i hi
      rcases List.mem_append.1 hi with h | h
      · rw [htopX i (hloMem i h)]; exact inv.tops i (hloMem i h)
      · rcases List.mem_cons.1 h with rfl | h'
        · rw [htopn]; exact le_of_lt hlvl
        · rw [htopX i (hhiMem i h')]; exact inv.tops i (hhiMem i h')
    · intro i hi hit
      rw [ht] at hit
      rcases List.mem_append.1 hi with h | h
      · rw [htopX i (hloMem i h)]
        exact inv.topsLt i (hloMem i h) hit
      · rcases List.mem_cons.1 h with rfl | h'
        · rw [htopn]; exact hlvl
        · rw [htopX i (hhiMem i h')]
          exact inv.topsLt i (hhiMem i h') hit
    · rw [hh, hload st.head MAX_LEVEL, if_neg (fun hcon => by omega),
        if_neg (fun hcon => by omega)]
      exact inv.top16
    · intro htm L
      have htm0 : st.tail ∈ ms := by
        rcases List.mem_append.1 (ht ▸ htm) with h | h
        · exact hloMem _ h
        · rcases List.mem_cons.1 h with h' | h'
          · exact absurd h' htailne
          · exact hhiMem _ h'
      rw [ht, hload st.tail L, if_neg (fun hcon => htailne hcon.2),
        if_neg (fun hcon => gpredLF_ne_tail inv hk L hcon.2.symm)]
      exact inv.tailNexts htm0 L
  · -- key sets
    apply Finset.ext
    intro x
    simp only [List.mem_toFinset, Finset.mem_insert]
    constructor
    · intro hx
      rcases mem_keysOf.1 hx with ⟨i, hi, hik⟩
      rcases List.mem_append.1 hi with h | h
      · right
        exact mem_keysOf.2 ⟨i, hloMem i h, by rw [keyOf, ← hkeyX i (hloMem i h)]; exact hik⟩
      · rcases List.mem_cons.1 h with rfl | h'
        · left
          rw [← hik, keyOf, hkey]
        · right
          exact mem_keysOf.2 ⟨i, hhiMem i h',
            by rw [keyOf, ← hkeyX i (hhiMem i h')]; exact hik⟩
    · intro hx
      rcases hx with rfl | hx
      · exact mem_keysOf.2 ⟨nid, by simp, by rw [keyOf, hkey]⟩
      · rcases mem_keysOf.1 hx with ⟨i, hi, hik⟩
        refine mem_keysOf.2 ⟨i, ?_, by rw [keyOf, hkeyX i hi]; exact hik⟩
        conv at hi => rw [ns_split st k ms]
        rcases List.mem_append.1 hi with h | h
        · exact List.mem_append.2 (Or.inl h)
        · exact List.mem_append.2 (Or.inr (List.mem_cons_of_mem _ h))
  · intro htm
    conv at htm => rw [ns_split st k ms]
    rcases List.mem_append.1 htm with h | h
    · exact List.mem_append.2 (Or.inl h)
    · exact List.mem_append.2 (Or.inr (List.mem_cons_of_mem _ h))

theorem gsuccLF0_cons {st : SkipList} {ms : List Nat} {k : Int} {i0 : Nat}
    {l : List Nat} (hrest : restK st k ms = i0 :: l) :
    gsuccLF st ms k 0 = ⟨some i0, false⟩ := by
  rw [gsuccLF, towerFilter_zero, succPtr, hrest]
  rfl

theorem gsuccLF0_nil {st : SkipList} {ms : List Nat} {k : Int}
    (hrest : restK st k ms = []) : gsuccLF st ms k 0 = nullPtr := by
  rw [gsuccLF, towerFilter_zero, succPtr, hrest]
  rfl

/-- On a quiescent lock-free state `find` changes nothing (no helping occurs),
returns the `(preds, succs)` table described by the descent, and its boolean
result is exactly key membership among the chain participants (for the tail
sentinel: `find` reports `INT_MAX` as found while the tail is linked). -/
theorem find_clean {st : SkipList} {ms : List Nat} {k : Int}
    (inv : InvLF st ms) :
    find st k = .ok ((decide (k ∈ keysOf st ms), gpcsLF st ms k (MAX_LEVEL - 1)), st) := by
  have hF : FUEL st = st.mem.length + 1 + 1 := by rw [FUEL]
  rw [find, hF]
  simp only [findLoop]
  rw [findDesc_clean inv (MAX_LEVEL - 1) (by decide) st.head (FUEL st) (FUEL_gt st)
    (Or.inl rfl), bind_ok]
  simp only []
  rw [show (gpcsLF st ms k (MAX_LEVEL - 1)).getD 0 (0, nullPtr) =
    (gpredSL st ms k 0, gsuccLF st ms k 0) from gpcsLF_getD (by decide) _]
  simp only []
  rcases hr : restK st k ms with _ | ⟨i0, l⟩
  · have hmem : k ∉ keysOf st ms := by
      intro hm
      rcases mem_keysOf.1 hm with ⟨i, hi, hik⟩
      rcases restK_first_of_mem inv.sorted hi hik with ⟨l, hrest⟩
      rw [hr] at hrest
      cases hrest
    rw [gsuccLF0_nil hr, if_pos (show nullPtr.base = none from rfl),
      show decide (k ∈ keysOf st ms) = false from decide_eq_false hmem]
  · have hi0 : i0 ∈ ms := restK_mem_base (hr ▸ List.mem_cons_self i0 l)
    rw [gsuccLF0_cons hr, if_neg (by simp : ¬(some i0 = none)),
      deref_some_unmarked, bind_ok]
    by_cases hmem : k ∈ keysOf st ms
    · rcases mem_keysOf.1 hmem with ⟨i, hi, hik⟩
      rcases restK_first_of_mem inv.sorted hi hik with ⟨l2, hrest⟩
      rw [hr] at hrest
      have hii : i0 = i := (List.cons.inj hrest).1
      rw [show decide ((getNode st i0).key = k) = true from
          decide_eq_true (by rw [hii]; exact hik),
        show decide (k ∈ keysOf st ms) = true from decide_eq_true hmem]
    · have hgt : k < keyOf st i0 :=
        restK_gt_of_not_mem inv.sorted hmem (hr ▸ List.mem_cons_self i0 l)
      rw [show decide ((getNode st i0).key = k) = false from
          decide_eq_false (by show keyOf st i0 ≠ k; omega),
        show decide (k ∈ keysOf st ms) = false from decide_eq_false hmem]

/-- State description of the lock-free tower-build loop: starting from a state
in which the fresh node's tower is preset and levels `< i` are spliced, every
CAS succeeds on the first try and the loop completes the splice. -/
theorem towerLF_loadNext {st0 : SkipList} {ms : List Nat} {k : Int}
    (inv : InvLF st0 ms) {lvl : Nat} (hlvl : lvl < MAX_LEVEL) {nid : Nat}
    (hnid : nid = st0.mem.length) :
    ∀ (n i : Nat) (stc : SkipList), lvl + 1 - i ≤ n → 1 ≤ i → i ≤ lvl + 1 →
    stc.mem.length = st0.mem.length + 1 →
    (∀ j, (getNode stc j).next.length = MAX_LEVEL + 1) →
    (∀ j L, loadNext stc j L =
      if L ≤ lvl ∧ j = nid then gsuccLF st0 ms k L
      else if L < i ∧ j = gpredSL st0 ms k L then ⟨some nid, false⟩
      else loadNext st0 j L) →
    ∃ stf, towerLF k nid i lvl (gpcsLF st0 ms k (MAX_LEVEL - 1)) stc = .ok (stf, true) ∧
      eqButNext stc stf ∧
      (∀ j L, loadNext stf j L =
        if L ≤ lvl ∧ j = nid then gsuccLF st0 ms k L
        else if L ≤ lvl ∧ j = gpredSL st0 ms k L then ⟨some nid, false⟩
        else loadNext st0 j L) := by
  intro n
  induction n with
  | zero =>
    intro i stc hn h1 h2 hlen hwf hload
    have hgt : ¬i ≤ lvl := by omega
    refine ⟨stc, ?_, eqButNext_refl stc, fun j L => ?_⟩
    · rw [towerLF, dif_neg hgt]
    · rw [hload j L]
      by_cases hc1 : L ≤ lvl ∧ j = nid
      · rw [if_pos hc1, if_pos hc1]
      · rw [if_neg hc1, if_neg hc1]
        by_cases hc2 : L ≤ lvl ∧ j = gpredSL st0 ms k L
        · rw [if_pos (show L < i ∧ j = gpredSL st0 ms k L from
            ⟨by omega, hc2.2⟩), if_pos hc2]
        · rw [if_neg (fun hcon => hc2 ⟨by omega, hcon.2⟩), if_neg hc2]
  | succ n ih =>
    intro i stc hn h1 h2 hlen hwf hload
    by_cases hc : i ≤ lvl
    · have hiM : i < MAX_LEVEL := lt_of_le_of_lt hc hlvl
      have hgd : (gpcsLF st0 ms k (MAX_LEVEL - 1)).getD i (0, nullPtr) =
          (gpredSL st0 ms k i, gsuccLF st0 ms k i) := gpcsLF_getD (by omega) _
      have hpn : gpredSL st0 ms k i ≠ nid := by
        have := gpredLF_lt inv (k := k) i
        omega
      have hloadp : loadNext stc (gpredSL st0 ms k i) i = gsuccLF st0 ms k i := by
        rw [hload, if_neg (fun hcon => hpn hcon.2), if_neg (fun hcon => by omega),
          gpredLF_load inv hiM]
      set st2 : SkipList :=
        storeNext stc (gpredSL st0 ms k i) i ⟨some nid, false⟩ with hst2
      have hstep : towerLevelLF (FUEL stc) stc k nid
          (gpcsLF st0 ms k (MAX_LEVEL - 1)) i =
          .ok (gpcsLF st0 ms k (MAX_LEVEL - 1), st2, true) := by
        have hFf : FUEL stc = stc.mem.length + 1 + 1 := by rw [FUEL]
        rw [hFf]
        simp only [towerLevelLF]
        rw [hgd]
        simp only []
        rw [if_pos hloadp]
      have hEB2 : eqButNext stc st2 := by
        rw [hst2]
        exact eqButNext_storeNext _ _ _ _
      have hlen2 : st2.mem.length = st0.mem.length + 1 := by
        rw [hst2, storeNext_mem_length]
        exact hlen
      have hwf2 : ∀ j, (getNode st2 j).next.length = MAX_LEVEL + 1 :=
        eqButNext_wfn hEB2 hwf
      have hload2 : ∀ j L, loadNext st2 j L =
          if L ≤ lvl ∧ j = nid then gsuccLF st0 ms k L
          else if L < i + 1 ∧ j = gpredSL st0 ms k L then ⟨some nid, false⟩
          else loadNext st0 j L := by
        intro j L
        by_cases hLi : L = i
        · rw [hLi]
          by_cases hj1 : j = gpredSL st0 ms k i
          · rw [if_neg (show ¬(i ≤ lvl ∧ j = nid) from
                fun hcon => hpn (hj1.symm.trans hcon.2)),
              if_pos (show i < i + 1 ∧ j = gpredSL st0 ms k i from
                ⟨Nat.lt_succ_self i, hj1⟩), hst2, hj1,
              loadNext_storeNext_self _
                (by rw [hlen]
                    have := gpredLF_lt inv (k := k) i
                    omega)
                (by rw [hwf (gpredSL st0 ms k i)]; omega)]
          · by_cases hj2 : j = nid
            · rw [if_pos (show i ≤ lvl ∧ j = nid from ⟨hc, hj2⟩), hst2, hj2,
                loadNext_storeNext_ne_node _ _ _ hpn, hload,
                if_pos (show i ≤ lvl ∧ nid = nid from ⟨hc, rfl⟩)]
            · rw [if_neg (fun hcon => hj2 hcon.2), if_neg (fun hcon => hj1 hcon.2),
                hst2, loadNext_storeNext_ne_node _ _ _ (fun h => hj1 h.symm),
                hload, if_neg (fun hcon => hj2 hcon.2),
                if_neg (fun hcon => by omega)]
        · rw [hst2, loadNext_storeNext_ne_level _ (fun h => hLi h.symm), hload]
          by_cases hc1 : L ≤ lvl ∧ j = nid
          · rw [if_pos hc1, if_pos hc1]
          · rw [if_neg hc1, if_neg hc1]
            by_cases hc2 : L < i ∧ j = gpredSL st0 ms k L
            · rw [if_pos hc2, if_pos (show L < i + 1 ∧ j = gpredSL st0 ms k L from
                ⟨by omega, hc2.2⟩)]
            · rw [if_neg hc2, if_neg (fun hcon => hc2 ⟨by omega, hcon.2⟩)]
      obtain ⟨stf, heq, hEBf, hdesc⟩ := ih (i + 1) st2 (by omega) (by omega)
        (by omega) hlen2 hwf2 hload2
      refine ⟨stf, ?_, eqButNext_trans hEB2 hEBf, hdesc⟩
      rw [towerLF, dif_pos hc, hstep, bind_ok]
      simp only []
      rw [if_pos trivial]
      exact heq
    · refine ⟨stc, ?_, eqButNext_refl stc, fun j L => ?_⟩
      · rw [towerLF, dif_neg hc]
      · rw [hload j L]
        by_cases hc1 : L ≤ lvl ∧ j = nid
        · rw [if_pos hc1, if_pos hc1]
        · rw [if_neg hc1, if_neg hc1]
          by_cases hc2 : L ≤ lvl ∧ j = gpredSL st0 ms k L
          · rw [if_pos (show L < i ∧ j = gpredSL st0 ms k L from
              ⟨by omega, hc2.2⟩), if_pos hc2]
          · rw [if_neg (fun hcon => hc2 ⟨by omega, hcon.2⟩), if_neg hc2]

/-- `skiplist_insert_lockfree` step: the boolean result matches the reference
set insert over the chain participants (including the tail sentinel while it
is linked, so inserting `INT_MAX` on a tail-linked list returns `false`), and
the invariant carries to the new state. -/
theorem insertLF_step {st : SkipList} {ms : List Nat} (inv : InvLF st ms)
    (k v : Int) (lvl : Nat) (hk : k ≤ INT_MAX) :
    ∃ st' ms', skiplist_insert_lockfree st k v lvl =
        .ok (decide (k ∉ keysOf st ms), st') ∧
      InvLF st' ms' ∧
      (keysOf st' ms').toFinset = insert k ((keysOf st ms).toFinset) ∧
      (st.tail ∈ ms → st.tail ∈ ms') := by
  have hF : FUEL st = st.mem.length + 1 + 1 := by rw [FUEL]
  rw [skiplist_insert_lockfree, hF]
  simp only [insertLFLoop]
  rw [find_clean inv, bind_ok]
  simp only []
  by_cases hmem : k ∈ keysOf st ms
  · -- the key (possibly the tail's INT_MAX) is present: insert returns false
    rw [show decide (k ∈ keysOf st ms) = true from decide_eq_true hmem, if_pos rfl]
    refine ⟨st, ms, ?_, inv, (Finset.insert_eq_self.2 (by simpa using hmem)).symm,
      fun h => h⟩
    rw [show decide (k ∉ keysOf st ms) = false from decide_eq_false (by simpa using hmem)]
  · -- the key is absent: the new node is spliced in
    rw [show decide (k ∈ keysOf st ms) = false from decide_eq_false hmem,
      if_neg (by simp : ¬(false = true))]
    set top : Nat := if MAX_LEVEL ≤ lvl then MAX_LEVEL - 1 else lvl with htopdef
    have htoplt : top < MAX_LEVEL := by
      rw [htopdef]
      by_cases h : MAX_LEVEL ≤ lvl
      · rw [if_pos h]
        decide
      · rw [if_neg h]
        omega
    set nd : Node := create_node k v top with hnd
    set nid : Nat := st.mem.length with hnid
    set stA : SkipList := (allocNode st nd).2 with hstA
    have hmatch : allocNode st nd = (nid, stA) := rfl
    rw [hmatch]
    simp only []
    have hstA_load : ∀ j L, loadNext stA j L = loadNext st j L := by
      intro j L
      rcases Nat.lt_trichotomy j st.mem.length with h | h | h
      · rw [hstA, loadNext_alloc_lt _ h]
      · subst h
        rw [hstA]
        rw [show loadNext (allocNode st nd).2 st.mem.length L = nd.next.getD L nullPtr
          from by rw [loadNext, getNode_alloc_self]]
        rw [loadNext_oob le_rfl]
        rcases Nat.lt_or_ge L (MAX_LEVEL + 1) with hL | hL
        · rw [hnd]
          show (List.replicate (MAX_LEVEL + 1) nullPtr).getD L nullPtr = nullPtr
          rw [List.getD_eq_getElem?_getD, List.getElem?_replicate_of_lt hL]
          rfl
        · rw [hnd]
          show (List.replicate (MAX_LEVEL + 1) nullPtr).getD L nullPtr = nullPtr
          rw [List.getD_eq_getElem?_getD, List.getElem?_eq_none (by simpa using hL)]
          rfl
      · rw [loadNext_oob (by rw [hstA]; simp; omega) L, loadNext_oob (by omega) L]
    have hwfA : ∀ j, (getNode stA j).next.length = MAX_LEVEL + 1 :=
      wfn_alloc inv.wfn (by rw [hnd]; simp [create_node])
    obtain ⟨hEB_A2, hdesc2⟩ := setSuccs_loadNext (gpcsLF st ms k (MAX_LEVEL - 1)) nid
      (top + 1) 0 top stA (by omega) (le_of_lt htoplt) hwfA (by rw [hstA]; simp)
    set st3 : SkipList := setSuccs (gpcsLF st ms k (MAX_LEVEL - 1)) nid 0 top stA
      with hst3
    rw [show (gpcsLF st ms k (MAX_LEVEL - 1)).getD 0 (0, nullPtr) =
      (gpredSL st ms k 0, gsuccLF st ms k 0) from gpcsLF_getD (by decide) _]
    simp only []
    have hp0nid : gpredSL st ms k 0 ≠ nid := by
      have := gpredLF_lt inv (k := k) 0
      omega
    have hcas : loadNext st3 (gpredSL st ms k 0) 0 = gsuccLF st ms k 0 := by
      rw [hdesc2, if_neg (fun hcon => hp0nid hcon.1), hstA_load,
        gpredLF_load inv (by decide)]
    rw [if_pos hcas]
    set stor : SkipList := storeNext st3 (gpredSL st ms k 0) 0 ⟨some nid, false⟩
      with hstor
    set st4 : SkipList := addSize stor 1 with hst4
    have hEB_A3 : eqButNext stA stor := by
      rw [hstor]
      exact eqButNext_trans hEB_A2 (eqButNext_storeNext _ _ _ _)
    have hlen4 : st4.mem.length = st.mem.length + 1 := by
      rw [hst4, addSize_mem_length, hstor, storeNext_mem_length,
        hEB_A2.2.2.2.1, hstA, alloc_mem_length]
    have hwf4 : ∀ j, (getNode st4 j).next.length = MAX_LEVEL + 1 := by
      intro j
      rw [hst4, addSize_getNode]
      exact eqButNext_wfn hEB_A3 hwfA j
    have hload4 : ∀ j L, loadNext st4 j L =
        if L ≤ top ∧ j = nid then gsuccLF st ms k L
        else if L < 1 ∧ j = gpredSL st ms k L then ⟨some nid, false⟩
        else loadNext st j L := by
      intro j L
      rw [hst4, addSize_loadNext]
      by_cases hL0 : L = 0
      · rw [hL0]
        by_cases hj1 : j = gpredSL st ms k 0
        · rw [if_neg (fun hcon => hp0nid (hj1.symm.trans hcon.2)),
            if_pos (show 0 < 1 ∧ j = gpredSL st ms k 0 from ⟨one_pos, hj1⟩),
            hstor, hj1,
            loadNext_storeNext_self _
              (by rw [hEB_A2.2.2.2.1, hstA, alloc_mem_length]
                  have := gpredLF_lt inv (k := k) 0
                  omega)
              (by rw [eqButNext_wfn hEB_A2 hwfA (gpredSL st ms k 0)]; omega)]
        · by_cases hj2 : j = nid
          · rw [if_pos (show (0 : Nat) ≤ top ∧ j = nid from ⟨Nat.zero_le _, hj2⟩),
              hstor, hj2, loadNext_storeNext_ne_node _ _ _ hp0nid, hdesc2,
              if_pos (show nid = nid ∧ (0 : Nat) ≤ 0 ∧ (0 : Nat) ≤ top from
                ⟨rfl, le_rfl, Nat.zero_le _⟩),
              gpcsLF_getD (by decide) (0, nullPtr)]
          · rw [if_neg (fun hcon => hj2 hcon.2), if_neg (fun hcon => hj1 hcon.2),
              hstor, loadNext_storeNext_ne_node _ _ _ (fun h => hj1 h.symm),
              hdesc2, if_neg (fun hcon => hj2 hcon.1), hstA_load]
      · rw [hstor, loadNext_storeNext_ne_level _ (fun h => hL0 h.symm), hdesc2]
        by_cases hc1 : L ≤ top ∧ j = nid
        · rw [if_pos (show j = nid ∧ (0 : Nat) ≤ L ∧ L ≤ top from
            ⟨hc1.2, Nat.zero_le _, hc1.1⟩), if_pos hc1,
            gpcsLF_getD (by omega) (0, nullPtr)]
        · rw [if_neg (fun hcon => hc1 ⟨hcon.2.2, hcon.1⟩), hstA_load,
            if_neg hc1, if_neg (fun hcon => by omega)]
    obtain ⟨st5, heq5, hEB5, hdesc5⟩ := towerLF_loadNext inv htoplt hnid top 1 st4
      (by omega) le_rfl (by omega) hlen4 hwf4 hload4
    have hwf5 : ∀ j, (getNode st5 j).next.length = MAX_LEVEL + 1 :=
      eqButNext_wfn hEB5 hwf4
    have hshape : InsertShapeLF st (storeFullyLinked st5 nid true) ms k top nid := by
      obtain ⟨hh5, ht5, hm5, hlen5, _, hflds5⟩ := hEB5
      obtain ⟨hh3, ht3, hm3, hlen3, _, hflds3⟩ := hEB_A3
      refine ⟨?_, ?_, ?_, ?_, hnid, ?_, ?_, ?_, ?_, ?_, ?_⟩
      · rw [storeFullyLinked, setNode_head, hh5, hst4, addSize_head, hh3, hstA,
          alloc_head]
      · rw [storeFullyLinked, setNode_tail, ht5, hst4, addSize_tail, ht3, hstA,
          alloc_tail]
      · rw [storeFullyLinked, setNode_maxLevel, hm5, hst4, addSize_maxLevel, hm3,
          hstA, alloc_maxLevel]
      · rw [storeFullyLinked, setNode_mem_length, hlen5]
        exact hlen4
      · intro j hj
        have h5 := hflds5 j
        have h3 := hflds3 j
        have hS : (getNode (storeFullyLinked st5 nid true) j).key = (getNode st5 j).key ∧
            (getNode (storeFullyLinked st5 nid true) j).topLevel =
              (getNode st5 j).topLevel ∧
            (getNode (storeFullyLinked st5 nid true) j).marked =
              (getNode st5 j).marked :=
          ⟨keyOf_storeFullyLinked st5 nid true j, topOf_storeFullyLinked st5 nid true j,
            markedOf_storeFullyLinked st5 nid true j⟩
        rcases Nat.lt_trichotomy j st.mem.length with h | h | h
        · rw [hS.1, hS.2.1, hS.2.2, h5.1, h5.2.2.1, h5.2.2.2.1, hst4, addSize_getNode,
            h3.1, h3.2.2.1, h3.2.2.2.1, hstA, getNode_alloc_lt h]
          exact ⟨rfl, rfl, rfl⟩
        · exact absurd (h.trans hnid.symm) hj
        · have hoobA : getNode stA j = default := by
            rw [hstA]
            exact getNode_oob (by simp; omega)
          have hoob : getNode st j = default := getNode_oob (by omega)
          rw [hS.1, hS.2.1, hS.2.2, h5.1, h5.2.2.1, h5.2.2.2.1, hst4, addSize_getNode,
            h3.1, h3.2.2.1, h3.2.2.2.1, hoobA, hoob]
          exact ⟨rfl, rfl, rfl⟩
      · rw [show (getNode (storeFullyLinked st5 nid true) nid).key =
            (getNode st5 nid).key from keyOf_storeFullyLinked st5 nid true nid,
          (hflds5 nid).1, hst4, addSize_getNode, (hflds3 nid).1, hstA, hnid,
          getNode_alloc_self]
        rfl
      · rw [show (getNode (storeFullyLinked st5 nid true) nid).topLevel =
            (getNode st5 nid).topLevel from topOf_storeFullyLinked st5 nid true nid,
          (hflds5 nid).2.2.1, hst4, addSize_getNode, (hflds3 nid).2.2.1, hstA, hnid,
          getNode_alloc_self]
        rfl
      · rw [show (getNode (storeFullyLinked st5 nid true) nid).marked =
            (getNode st5 nid).marked from markedOf_storeFullyLinked st5 nid true nid,
          (hflds5 nid).2.2.2.1, hst4, addSize_getNode, (hflds3 nid).2.2.2.1, hstA,
          hnid, getNode_alloc_self]
        rfl
      · exact wfn_storeFullyLinked _ _ hwf5
      · intro j L
        rw [loadNext_storeFullyLinked]
        exact hdesc5 j L
    have hcommit := insertCommitLF inv hk htoplt hmem hshape
    refine ⟨storeFullyLinked st5 nid true, belowK st k ms ++ nid :: restK st k ms,
      ?_, hcommit.1, hcommit.2.1, hcommit.2.2⟩
    rw [heq5, bind_ok]
    simp only []
    rw [if_pos trivial,
      show decide (k ∉ keysOf st ms) = true from decide_eq_true hmem]

/-! ## Lock-free delete: the marking loop -/

/-- State description of the marking loop of `skiplist_delete_lockfree`: when
the victim's slots up to `top` are unmarked, every mark CAS succeeds and the
loop reports `marked`, tagging slots `0, …, top`. -/
theorem markDownLF_desc {st1 : SkipList} {vi top : Nat}
    (hum : ∀ L, L ≤ top → (loadNext st1 vi L).mark = false)
    (hviLt : vi < st1.mem.length) (htopM : top ≤ MAX_LEVEL) :
    ∀ (i : Nat) (stc : SkipList), i ≤ top →
    stc.mem.length = st1.mem.length →
    (∀ j, (getNode stc j).next.length = MAX_LEVEL + 1) →
    (∀ j L, loadNext stc j L =
      if j = vi ∧ i < L ∧ L ≤ top then GET_MARKED (loadNext st1 j L)
      else loadNext st1 j L) →
    ∃ stf, markDownLF vi i stc = (.marked, stf) ∧
      eqButNext stc stf ∧
      (∀ j L, loadNext stf j L =
        if j = vi ∧ L ≤ top then GET_MARKED (loadNext st1 j L)
        else loadNext st1 j L) := by
  intro i
  induction i with
  | zero =>
    intro stc hi hlen hwf hload
    have h1 : loadNext stc vi 0 = loadNext st1 vi 0 := by
      rw [hload, if_neg (fun hcon => by omega)]
    rw [markDownLF]
    simp only []
    rw [h1]
    rw [show IS_MARKED (loadNext st1 vi 0) = false from hum 0 (Nat.zero_le _),
      if_neg (by simp : ¬(false = true)), if_pos trivial]
    refine ⟨storeNext stc vi 0 (GET_MARKED (loadNext st1 vi 0)), rfl,
      eqButNext_storeNext _ _ _ _, fun j L => ?_⟩
    by_cases hL0 : L = 0
    · rw [hL0]
      by_cases hj : j = vi
      · rw [if_pos (show j = vi ∧ (0 : Nat) ≤ top from ⟨hj, Nat.zero_le _⟩), hj,
          loadNext_storeNext_self _ (by rw [hlen]; exact hviLt)
            (by rw [hwf vi]; omega)]
      · rw [if_neg (fun hcon => hj hcon.1),
          loadNext_storeNext_ne_node _ _ _ (fun h => hj h.symm),
          hload, if_neg (fun hcon => hj hcon.1)]
    · rw [loadNext_storeNext_ne_level _ (fun h => hL0 h.symm), hload]
      by_cases hc : j = vi ∧ L ≤ top
      · rw [if_pos ⟨hc.1, by omega, hc.2⟩, if_pos hc]
      · rw [if_neg (fun hcon => hc ⟨hcon.1, hcon.2.2⟩), if_neg hc]
  | succ i ih =>
    intro stc hi hlen hwf hload
    have h1 : loadNext stc vi (i + 1) = loadNext st1 vi (i + 1) := by
      rw [hload, if_neg (fun hcon => by omega)]
    rw [markDownLF]
    simp only []
    rw [h1]
    rw [show IS_MARKED (loadNext st1 vi (i + 1)) = false from hum (i + 1) hi,
      if_neg (by simp : ¬(false = true)), if_pos trivial]
    set st2 : SkipList :=
      storeNext stc vi (i + 1) (GET_MARKED (loadNext st1 vi (i + 1))) with hst2
    have hlen2 : st2.mem.length = st1.mem.length := by
      rw [hst2, storeNext_mem_length]
      exact hlen
    have hwf2 : ∀ j, (getNode st2 j).next.length = MAX_LEVEL + 1 := by
      rw [hst2]
      exact wfn_storeNext _ _ _ hwf
    have hload2 : ∀ j L, loadNext st2 j L =
        if j = vi ∧ i < L ∧ L ≤ top then GET_MARKED (loadNext st1 j L)
        else loadNext st1 j L := by
      intro j L
      by_cases hLi : L = i + 1
      · rw [hLi]
        by_cases hj : j = vi
        · rw [if_pos (show j = vi ∧ i < i + 1 ∧ i + 1 ≤ top from
              ⟨hj, Nat.lt_succ_self i, hi⟩), hst2, hj,
            loadNext_storeNext_self _ (by rw [hlen]; exact hviLt)
              (by rw [hwf vi]; omega)]
        · rw [if_neg (fun hcon => hj hcon.1), hst2,
            loadNext_storeNext_ne_node _ _ _ (fun h => hj h.symm),
            hload, if_neg (fun hcon => hj hcon.1)]
      · rw [hst2, loadNext_storeNext_ne_level _ (fun h => hLi h.symm), hload]
        by_cases hc : j = vi ∧ i < L ∧ L ≤ top
        · rw [if_pos ⟨hc.1, by omega, hc.2.2⟩, if_pos hc]
        · rw [if_neg (fun hcon => hc ⟨hcon.1, by omega, hcon.2.2⟩), if_neg hc]
    obtain ⟨stf, heq, hEBf, hdesc⟩ := ih st2 (by omega) hlen2 hwf2 hload2
    exact ⟨stf, heq, eqButNext_trans (hst2 ▸ eqButNext_storeNext _ _ _ _) hEBf, hdesc⟩

/-! ## Lock-free delete: the helping (dirty) find -/

theorem GET_MARKED_mark (p : Ptr) : (GET_MARKED p).mark = true := rfl

theorem GET_UNMARKED_GET_MARKED (p : Ptr) :
    GET_UNMARKED (GET_MARKED p) = GET_UNMARKED p := rfl

/-- Every slot stored along a `NULL`-terminated chain is unmarked. -/
theorem links_mem_load_unmarked {st : SkipList} {L : Nat} {p e : Ptr}
    {cs : List Nat} (h : links st L p cs e) (he : e.mark = false) :
    ∀ i ∈ cs, (loadNext st i L).mark = false := by
  induction cs generalizing p with
  | nil => intro i hi; cases hi
  | cons j js ih =>
    intro i hi
    rcases List.mem_cons.1 hi with rfl | hi'
    · exact links_start_unmarked h.2 he
    · exact ih h.2 i hi'

/-- The helping walk at one level: the walk crosses the unmarked prefix `xs`,
meets the marked victim, physically unlinks it with one successful CAS, and
finishes cleanly over the suffix `ys` (all of whose keys are `≥ k`). -/
theorem findLevelGo_dirty {stc : SkipList} {L : Nat} {k : Int} {vi : Nat} {w : Ptr}
    (hvm : loadNext stc vi L = GET_MARKED w) (hwm : w.mark = false)
    {ys : List Nat} (hys : links stc L w ys nullPtr)
    (hyk : ∀ i ∈ ys, ¬keyOf stc i < k) :
    ∀ (xs : List Nat) (pred : Nat) (fuel : Nat),
    links stc L (loadNext stc pred L) xs ⟨some vi, false⟩ →
    (∀ i ∈ xs, keyOf stc i < k) →
    (∀ i ∈ ys, i ≠ xs.getLastD pred) →
    xs.length + ys.length + 1 < fuel →
    findLevelGo fuel stc k pred (GET_UNMARKED (loadNext stc pred L)) L =
      .ok (some (xs.getLastD pred, chainHeadPtr ys nullPtr),
        storeNext stc (xs.getLastD pred) L w) := by
  intro xs
  induction xs with
  | nil =>
    intro pred fuel hl _ hne hf
    rw [links_nil] at hl
    obtain ⟨f, rfl⟩ : ∃ f, fuel = f + 1 := ⟨fuel - 1, by omega⟩
    rw [show ([] : List Nat).getLastD pred = pred from rfl] at hne ⊢
    rw [hl, show GET_UNMARKED (⟨some vi, false⟩ : Ptr) = ⟨some vi, false⟩ from rfl]
    simp only [findLevelGo]
    rw [if_neg (by simp : ¬(some vi = none)), deref_some_unmarked, bind_ok]
    simp only [hvm]
    rw [show IS_MARKED (GET_MARKED w) = true from rfl, if_pos rfl, if_pos hl,
      GET_UNMARKED_GET_MARKED, GET_UNMARKED_of_unmarked hwm]
    set stD : SkipList := storeNext stc pred L w with hstD
    have hysD : links stD L w ys nullPtr := by
      refine links_frame (fun i hi => ?_) hys
      rw [hstD, loadNext_storeNext_ne_node _ _ _ (fun h => (hne i hi) h.symm)]
    have hkeyD : ∀ j, keyOf stD j = keyOf stc j := fun j => by
      rw [hstD, keyOf_storeNext]
    rw [findLevelGo_clean ys pred w f hysD (by simp only [List.length_nil] at hf; omega)]
    rcases ys with _ | ⟨y, ys'⟩
    · rfl
    · have hyk1 : ¬keyOf stD y < k := by
        rw [hkeyD]
        exact hyk y (List.mem_cons_self _ _)
      rw [show predIdx stD k (y :: ys') pred = pred from predIdx_cons_neg ys' hyk1 pred,
        show succPtr stD k (y :: ys') nullPtr = ⟨some y, false⟩ from
          succPtr_cons_neg ys' hyk1 nullPtr]
      rfl
  | cons x xs' ih =>
    intro pred fuel hl hkx hne hf
    obtain ⟨f, rfl⟩ : ∃ f, fuel = f + 1 := ⟨fuel - 1, by omega⟩
    rcases hl with ⟨h1, h2⟩
    have hxm : (loadNext stc x L).mark = false := links_start_unmarked h2 rfl
    rw [h1, show GET_UNMARKED (⟨some x, false⟩ : Ptr) = ⟨some x, false⟩ from rfl]
    simp only [findLevelGo]
    rw [if_neg (by simp : ¬(some x = none)), deref_some_unmarked, bind_ok]
    rw [show IS_MARKED (loadNext stc x L) = false from hxm,
      if_neg (by simp : ¬(false = true)),
      if_pos (show (getNode stc x).key < k from hkx x (List.mem_cons_self _ _))]
    have hlast : (x :: xs').getLastD pred = xs'.getLastD x := List.getLastD_cons _ _ _
    rw [show (x :: xs').getLastD pred = xs'.getLastD x from hlast] at hne ⊢
    exact ih x f h2 (fun i hi => hkx i (List.mem_cons_of_mem _ hi)) hne
      (by simp only [List.length_cons] at hf; omega)

theorem sortedKeys_keyeq {st st' : SkipList} {cs : List Nat}
    (h : ∀ j, keyOf st' j = keyOf st j) (hs : sortedKeys st cs) :
    sortedKeys st' cs := by
  refine hs.imp ?_
  intro a b hab
  show keyOf st' a < keyOf st' b
  rw [h a, h b]
  exact hab

theorem belowK_keyeq {st st' : SkipList} (h : ∀ j, keyOf st' j = keyOf st j)
    (k : Int) (cs : List Nat) : belowK st' k cs = belowK st k cs := by
  induction cs with
  | nil => rfl
  | cons i is ih =>
    by_cases hk : keyOf st i < k
    · rw [belowK_cons_pos is (show keyOf st' i < k from (h i).symm ▸ hk),
        belowK_cons_pos is hk, ih]
    · rw [belowK_cons_neg is (show ¬keyOf st' i < k from (h i).symm ▸ hk),
        belowK_cons_neg is hk]

theorem restK_keyeq {st st' : SkipList} (h : ∀ j, keyOf st' j = keyOf st j)
    (k : Int) (cs : List Nat) : restK st' k cs = restK st k cs := by
  induction cs with
  | nil => rfl
  | cons i is ih =>
    by_cases hk : keyOf st i < k
    · rw [restK_cons_pos is (show keyOf st' i < k from (h i).symm ▸ hk),
        restK_cons_pos is hk, ih]
    · rw [restK_cons_neg is (show ¬keyOf st' i < k from (h i).symm ▸ hk),
        restK_cons_neg is hk]

theorem predIdx_keyeq {st st' : SkipList} (h : ∀ j, keyOf st' j = keyOf st j)
    (k : Int) (cs : List Nat) (d : Nat) : predIdx st' k cs d = predIdx st k cs d := by
  rw [predIdx, predIdx, belowK_keyeq h]

theorem succPtr_keyeq {st st' : SkipList} (h : ∀ j, keyOf st' j = keyOf st j)
    (k : Int) (cs : List Nat) (e : Ptr) : succPtr st' k cs e = succPtr st k cs e := by
  rw [succPtr, succPtr, restK_keyeq h]

/-- The per-level behaviour of the helping `find` for the delete of the node
`vi`: at a level where `vi` participates, the walk unlinks it with one
successful CAS; at higher levels the walk is clean.  In both cases the level
result is the global predecessor. -/
theorem findLevelLF_step {st : SkipList} {ms : List Nat} {k : Int} {vi : Nat}
    (inv : InvLF st ms) (hvi : vi ∈ ms) (hik : keyOf st vi = k) :
    ∀ {L : Nat}, L < MAX_LEVEL →
    ∀ (stc : SkipList) (pred fuel : Nat), st.mem.length < fuel →
    stc.mem.length = st.mem.length →
    (∀ j, (getNode stc j).next.length = MAX_LEVEL + 1) →
    (∀ j, keyOf stc j = keyOf st j) →
    stc.head = st.head →
    (∀ j L', loadNext stc j L' =
      if j = vi ∧ L' ≤ (getNode st vi).topLevel then GET_MARKED (loadNext st vi L')
      else if L < L' ∧ L' < MAX_LEVEL ∧ L' ≤ (getNode st vi).topLevel ∧
          j = gpredSL st ms k L' then loadNext st vi L'
      else loadNext st j L') →
    (pred = st.head ∨ (pred ∈ towerFilter st ms L ∧ keyOf st pred < k)) →
    ∃ std sL, findLevelGo fuel stc k pred (GET_UNMARKED (loadNext stc pred L)) L =
        .ok (some (gpredSL st ms k L, sL), std) ∧
      std.mem.length = st.mem.length ∧
      (∀ j, (getNode std j).next.length = MAX_LEVEL + 1) ∧
      (∀ j, keyOf std j = keyOf st j) ∧
      std.head = st.head ∧
      (∀ j L', loadNext std j L' =
        if j = vi ∧ L' ≤ (getNode st vi).topLevel then GET_MARKED (loadNext st vi L')
        else if L ≤ L' ∧ L' < MAX_LEVEL ∧ L' ≤ (getNode st vi).topLevel ∧
            j = gpredSL st ms k L' then loadNext st vi L'
        else loadNext st j L') ∧
      (L ≤ (getNode st vi).topLevel →
        ∃ lL, restK st k (towerFilter st ms L) = vi :: lL ∧
          sL = chainHeadPtr lL nullPtr) := by
  intro L hL stc pred fuel hfuel hlen hwf hkeys hhead hload hpred
  have hvine : vi ≠ st.head := inv.idsHead vi hvi
  have hgpvi : ∀ L'', gpredSL st ms k L'' ≠ vi := gpredLF_ne_keynode inv hvi hik
  have hchainlen : (towerFilter st ms L).length ≤ st.mem.length := inv.chainLenLF L
  have hnodL : (towerFilter st ms L).Nodup := sortedKeys_nodup (inv.chainSortedLF L)
  by_cases hdirty : L ≤ (getNode st vi).topLevel
  · -- `vi` participates at this level: the walk helps and unlinks it
    have hviL : vi ∈ towerFilter st ms L := towerFilter_mem.2 ⟨hvi, hdirty⟩
    rcases restK_first_of_mem (inv.chainSortedLF L) hviL hik with ⟨lL, hrestL⟩
    have hsplitL : towerFilter st ms L =
        belowK st k (towerFilter st ms L) ++ vi :: lL := by
      conv_lhs => rw [ns_split st k (towerFilter st ms L)]
      rw [hrestL]
    have hchain := inv.chains L hL
    rw [hsplitL, links_append_iff] at hchain
    rcases hchain with ⟨hlo, hviL2⟩
    have hlLst : links st L (loadNext st vi L) lL nullPtr := hviL2.2
    set w : Ptr := loadNext st vi L with hw
    have hwm : w.mark = false := links_start_unmarked hlLst rfl
    have hviNotlo : vi ∉ belowK st k (towerFilter st ms L) := by
      intro hmem
      have := belowK_mem_lt hmem
      omega
    have hviNotl : vi ∉ lL := by
      rw [hsplitL] at hnodL
      rcases List.nodup_append.1 hnodL with ⟨_, h2, _⟩
      exact (List.nodup_cons.1 h2).1
    have hloMem : ∀ j ∈ belowK st k (towerFilter st ms L), j ∈ towerFilter st ms L :=
      fun j hj => hsplitL ▸ List.mem_append.2 (Or.inl hj)
    have hlMem : ∀ j ∈ lL, j ∈ towerFilter st ms L :=
      fun j hj => hsplitL ▸ List.mem_append.2 (Or.inr (List.mem_cons_of_mem _ hj))
    have hframe : ∀ j ∈ lL, loadNext stc j L = loadNext st j L := by
      intro j hj
      rw [hload, if_neg (show ¬(j = vi ∧ L ≤ (getNode st vi).topLevel) from
          fun hcon => hviNotl (hcon.1 ▸ hj)),
        if_neg (show ¬(L < L ∧ L < MAX_LEVEL ∧ L ≤ (getNode st vi).topLevel ∧
          j = gpredSL st ms k L) from fun hcon => by omega)]
    have hlLc : links stc L w lL nullPtr := links_frame hframe hlLst
    have hyk : ∀ i ∈ lL, ¬keyOf stc i < k := by
      intro i hi
      rw [hkeys]
      have : k ≤ keyOf st i := by
        refine restK_mem_ge (inv.chainSortedLF L) ?_
        rw [hrestL]
        exact List.mem_cons_of_mem _ hi
      omega
    have hvmc : loadNext stc vi L = GET_MARKED w := by
      rw [hload, if_pos ⟨rfl, hdirty⟩]
    -- split the prefix at the entry predecessor
    have hstep : ∀ (xs : List Nat),
        links stc L (loadNext stc pred L) xs ⟨some vi, false⟩ →
        (∀ i ∈ xs, keyOf stc i < k) →
        xs.getLastD pred = gpredSL st ms k L →
        xs.length ≤ (belowK st k (towerFilter st ms L)).length →
        ∃ std sL, findLevelGo fuel stc k pred
            (GET_UNMARKED (loadNext stc pred L)) L =
          .ok (some (gpredSL st ms k L, sL), std) ∧
          std = storeNext stc (gpredSL st ms k L) L w ∧
          sL = chainHeadPtr lL nullPtr := by
      intro xs hxl hxk hxlast hxlen
      have hne : ∀ i ∈ lL, i ≠ xs.getLastD pred := by
        intro i hi
        rw [hxlast]
        intro hcon
        rcases predIdx_cases st k (towerFilter st ms L) st.head with h | ⟨h, h2⟩
        · rw [gpredSL, h] at hcon
          exact inv.idsHead i ((towerFilter_sublist st ms L).subset (hlMem i hi))
            hcon
        · rw [gpredSL] at hcon
          rw [← hcon] at h2
          have : k ≤ keyOf st i := by
            refine restK_mem_ge (inv.chainSortedLF L) ?_
            rw [hrestL]
            exact List.mem_cons_of_mem _ hi
          omega
      have hflen : xs.length + lL.length + 1 < fuel := by
        have : (towerFilter st ms L).length =
            (belowK st k (towerFilter st ms L)).length + (lL.length + 1) := by
          conv_lhs => rw [hsplitL]
          rw [List.length_append, List.length_cons]
        omega
      have := findLevelGo_dirty hvmc hwm hlLc hyk xs pred fuel hxl hxk hne hflen
      rw [hxlast] at this
      exact ⟨storeNext stc (gpredSL st ms k L) L w, chainHeadPtr lL nullPtr,
        this, rfl, rfl⟩
    have hmain : ∃ std sL, findLevelGo fuel stc k pred
        (GET_UNMARKED (loadNext stc pred L)) L =
        .ok (some (gpredSL st ms k L, sL), std) ∧
        std = storeNext stc (gpredSL st ms k L) L w ∧
        sL = chainHeadPtr lL nullPtr := by
      rcases hpred with rfl | ⟨hmem, hkey⟩
      · refine hstep (belowK st k (towerFilter st ms L)) ?_ ?_ rfl le_rfl
        · have hstart : loadNext stc st.head L = loadNext st st.head L := by
            rw [hload, if_neg (show ¬(st.head = vi ∧ L ≤ (getNode st vi).topLevel)
                from fun hcon => hvine hcon.1.symm),
              if_neg (show ¬(L < L ∧ L < MAX_LEVEL ∧ L ≤ (getNode st vi).topLevel ∧
                st.head = gpredSL st ms k L) from fun hcon => by omega)]
          rw [hstart]
          have hbframe : ∀ j ∈ belowK st k (towerFilter st ms L),
              loadNext stc j L = loadNext st j L := by
            intro j hj
            rw [hload, if_neg (show ¬(j = vi ∧ L ≤ (getNode st vi).topLevel) from
                fun hcon => hviNotlo (hcon.1 ▸ hj)),
              if_neg (show ¬(L < L ∧ L < MAX_LEVEL ∧ L ≤ (getNode st vi).topLevel ∧
                j = gpredSL st ms k L) from fun hcon => by omega)]
          refine links_frame hbframe ?_
          have := hlo
          rw [show chainHeadPtr (vi :: lL) nullPtr = (⟨some vi, false⟩ : Ptr)
            from rfl] at this
          exact this
        · intro i hi
          rw [hkeys]
          exact belowK_mem_lt hi
      · have hmemlo : pred ∈ belowK st k (towerFilter st ms L) := by
          have : pred ∈ towerFilter st ms L := hmem
          rw [hsplitL] at this
          rcases List.mem_append.1 this with h | h
          · exact h
          · rcases List.mem_cons.1 h with rfl | h'
            · omega
            · exfalso
              have : k ≤ keyOf st pred := by
                refine restK_mem_ge (inv.chainSortedLF L) ?_
                rw [hrestL]
                exact List.mem_cons_of_mem _ h'
              omega
        rcases List.append_of_mem hmemlo with ⟨as, bs, hab⟩
        refine hstep bs ?_ ?_ ?_ ?_
        · have hsuf : links st L (loadNext st pred L) bs ⟨some vi, false⟩ := by
            have := hlo
            rw [hab, show chainHeadPtr (vi :: lL) nullPtr = (⟨some vi, false⟩ : Ptr)
              from rfl] at this
            exact links_suffix this
          have hbsub : ∀ j ∈ bs, j ∈ belowK st k (towerFilter st ms L) := by
            intro j hj
            rw [hab]
            exact List.mem_append.2 (Or.inr (List.mem_cons_of_mem _ hj))
          have hstart : loadNext stc pred L = loadNext st pred L := by
            rw [hload, if_neg (show ¬(pred = vi ∧ L ≤ (getNode st vi).topLevel)
                from fun hcon => hviNotlo (hcon.1 ▸ hmemlo)),
              if_neg (show ¬(L < L ∧ L < MAX_LEVEL ∧ L ≤ (getNode st vi).topLevel ∧
                pred = gpredSL st ms k L) from fun hcon => by omega)]
          rw [hstart]
          refine links_frame ?_ hsuf
          intro j hj
          rw [hload, if_neg (show ¬(j = vi ∧ L ≤ (getNode st vi).topLevel) from
              fun hcon => hviNotlo (hcon.1 ▸ hbsub j hj)),
            if_neg (show ¬(L < L ∧ L < MAX_LEVEL ∧ L ≤ (getNode st vi).topLevel ∧
              j = gpredSL st ms k L) from fun hcon => by omega)]
        · intro i hi
          rw [hkeys]
          refine @belowK_mem_lt st k (towerFilter st ms L) i ?_
          rw [hab]
          exact List.mem_append.2 (Or.inr (List.mem_cons_of_mem _ hi))
        · rw [show bs.getLastD pred = (as ++ pred :: bs).getLastD st.head from
            (getLastD_append_cons as bs pred st.head).symm, ← hab]
          rfl
        · rw [hab]
          simp only [List.length_append, List.length_cons]
          omega
    rcases hmain with ⟨std, sL, heq, hstd, hsL⟩
    refine ⟨std, sL, heq, ?_, ?_, ?_, ?_, ?_, fun _ => ⟨lL, hrestL, hsL⟩⟩
    · rw [hstd, storeNext_mem_length]
      exact hlen
    · rw [hstd]
      exact wfn_storeNext _ _ _ hwf
    · intro j
      rw [hstd, keyOf_storeNext]
      exact hkeys j
    · rw [hstd, storeNext, setNode_head]
      exact hhead
    · intro j L'
      rw [hstd]
      by_cases hLL : L' = L
      · rw [hLL]
        by_cases hj : j = gpredSL st ms k L
        · rw [hj, loadNext_storeNext_self _
              (by rw [hlen]; exact gpredLF_lt inv (k := k) L)
              (by rw [hwf (gpredSL st ms k L)]; omega),
            if_neg (fun hcon => hgpvi L hcon.1),
            if_pos ⟨le_rfl, hL, hdirty, rfl⟩]
        · rw [loadNext_storeNext_ne_node _ _ _ (fun h => hj h.symm), hload]
          by_cases hjv : j = vi ∧ L ≤ (getNode st vi).topLevel
          · rw [if_pos hjv, if_pos hjv]
          · rw [if_neg hjv, if_neg hjv, if_neg (fun hcon => by omega),
              if_neg (fun hcon => hj hcon.2.2.2)]
      · rw [loadNext_storeNext_ne_level _ (fun h => hLL h.symm), hload]
        by_cases hjv : j = vi ∧ L' ≤ (getNode st vi).topLevel
        · rw [if_pos hjv, if_pos hjv]
        · rw [if_neg hjv, if_neg hjv]
          by_cases hc : L < L' ∧ L' < MAX_LEVEL ∧ L' ≤ (getNode st vi).topLevel ∧
              j = gpredSL st ms k L'
          · rw [if_pos hc, if_pos ⟨by omega, hc.2⟩]
          · rw [if_neg hc, if_neg (fun hcon => hc ⟨by omega, hcon.2⟩)]
  · -- `vi` does not participate at this level: the walk is clean
    have hviL : vi ∉ towerFilter st ms L := by
      intro hmem
      exact hdirty (towerFilter_mem.1 hmem).2
    have hframe : ∀ j ∈ towerFilter st ms L, loadNext stc j L = loadNext st j L := by
      intro j hj
      rw [hload, if_neg (show ¬(j = vi ∧ L ≤ (getNode st vi).topLevel) from
          fun hcon => hviL (hcon.1 ▸ hj)),
        if_neg (show ¬(L < L ∧ L < MAX_LEVEL ∧ L ≤ (getNode st vi).topLevel ∧
          j = gpredSL st ms k L) from fun hcon => by omega)]
    have hchainc : links stc L (loadNext stc stc.head L) (towerFilter st ms L)
        nullPtr := by
      have hstart : loadNext stc stc.head L = loadNext st st.head L := by
        rw [hhead, hload, if_neg (show ¬(st.head = vi ∧ L ≤ (getNode st vi).topLevel)
            from fun hcon => hvine hcon.1.symm),
          if_neg (show ¬(L < L ∧ L < MAX_LEVEL ∧ L ≤ (getNode st vi).topLevel ∧
            st.head = gpredSL st ms k L) from fun hcon => by omega)]
      rw [hstart]
      exact links_frame hframe (inv.chains L hL)
    have hsort : sortedKeys stc (towerFilter st ms L) :=
      sortedKeys_keyeq hkeys (inv.chainSortedLF L)
    have hpredc : pred = stc.head ∨
        (pred ∈ towerFilter st ms L ∧ keyOf stc pred < k) := by
      rcases hpred with rfl | ⟨hmem, hkey⟩
      · exact Or.inl hhead.symm
      · exact Or.inr ⟨hmem, by rw [hkeys]; exact hkey⟩
    have hw := findLevelGo_from hchainc hsort hpredc
      (lt_of_le_of_lt hchainlen hfuel)
    rw [show predIdx stc k (towerFilter st ms L) stc.head =
        gpredSL st ms k L from by
      rw [hhead, predIdx_keyeq hkeys]
      rfl] at hw
    refine ⟨stc, succPtr stc k (towerFilter st ms L) nullPtr, hw, hlen, hwf, hkeys,
      hhead, ?_, fun hcon => absurd hcon hdirty⟩
    intro j L'
    rw [hload]
    by_cases hjv : j = vi ∧ L' ≤ (getNode st vi).topLevel
    · rw [if_pos hjv, if_pos hjv]
    · rw [if_neg hjv, if_neg hjv]
      by_cases hc : L < L' ∧ L' < MAX_LEVEL ∧ L' ≤ (getNode st vi).topLevel ∧
          j = gpredSL st ms k L'
      · rw [if_pos hc, if_pos ⟨by omega, hc.2⟩]
      · rw [if_neg hc, if_neg (fun hcon => ?_)]
        rcases Nat.lt_or_ge L L' with h | h
        · exact hc ⟨h, hcon.2⟩
        · have hLL : L' = L := by omega
          rw [hLL] at hcon
          exact hdirty hcon.2.2.1

/-- The full descent of the helping `find` over the marked state: every level
reports the global predecessor, the victim is unlinked at every level it
participated in, and the level-0 successor is the chain after the victim. -/
theorem findDesc_dirty {st : SkipList} {ms : List Nat} {k : Int} {vi : Nat}
    (inv : InvLF st ms) (hvi : vi ∈ ms) (hik : keyOf st vi = k) :
    ∀ (level : Nat), level < MAX_LEVEL →
    ∀ (stc : SkipList) (pred fuel : Nat), st.mem.length < fuel →
    stc.mem.length = st.mem.length →
    (∀ j, (getNode stc j).next.length = MAX_LEVEL + 1) →
    (∀ j, keyOf stc j = keyOf st j) →
    stc.head = st.head →
    (∀ j L', loadNext stc j L' =
      if j = vi ∧ L' ≤ (getNode st vi).topLevel then GET_MARKED (loadNext st vi L')
      else if level < L' ∧ L' < MAX_LEVEL ∧ L' ≤ (getNode st vi).topLevel ∧
          j = gpredSL st ms k L' then loadNext st vi L'
      else loadNext st j L') →
    (pred = st.head ∨ (pred ∈ towerFilter st ms level ∧ keyOf st pred < k)) →
    ∃ std pss, findDesc fuel k stc pred level = .ok (some pss, std) ∧
      std.mem.length = st.mem.length ∧
      (∀ j, (getNode std j).next.length = MAX_LEVEL + 1) ∧
      (∀ j, keyOf std j = keyOf st j) ∧
      std.head = st.head ∧
      (∀ j L', loadNext std j L' =
        if j = vi ∧ L' ≤ (getNode st vi).topLevel then GET_MARKED (loadNext st vi L')
        else if L' < MAX_LEVEL ∧ L' ≤ (getNode st vi).topLevel ∧
            j = gpredSL st ms k L' then loadNext st vi L'
        else loadNext st j L') ∧
      pss.length = level + 1 ∧
      (∀ l, l ≤ level → (pss.getD l (0, nullPtr)).1 = gpredSL st ms k l) ∧
      (∃ l0, restK st k (towerFilter st ms 0) = vi :: l0 ∧
        (pss.getD 0 (0, nullPtr)).2 = chainHeadPtr l0 nullPtr) := by
  intro level
  induction level with
  | zero =>
    intro _ stc pred fuel hfuel hlen hwf hkeys hhead hload hpred
    obtain ⟨std, sL, heq, hlen1, hwf1, hkeys1, hhead1, hdesc, hdf⟩ :=
      findLevelLF_step inv hvi hik (by decide) stc pred fuel hfuel hlen hwf hkeys
        hhead hload hpred
    obtain ⟨l0, hl0, hsL⟩ := hdf (Nat.zero_le _)
    refine ⟨std, [(gpredSL st ms k 0, sL)], ?_, hlen1, hwf1, hkeys1, hhead1,
      ?_, rfl, ?_, l0, hl0, hsL⟩
    · simp only [findDesc, heq, bind_ok]
    · intro j L'
      rw [hdesc j L']
      by_cases h1 : j = vi ∧ L' ≤ (getNode st vi).topLevel
      · rw [if_pos h1, if_pos h1]
      · rw [if_neg h1, if_neg h1]
        by_cases h2 : L' < MAX_LEVEL ∧ L' ≤ (getNode st vi).topLevel ∧
            j = gpredSL st ms k L'
        · rw [if_pos (show 0 ≤ L' ∧ L' < MAX_LEVEL ∧ L' ≤ (getNode st vi).topLevel ∧
            j = gpredSL st ms k L' from ⟨Nat.zero_le _, h2⟩), if_pos h2]
        · rw [if_neg (show ¬(0 ≤ L' ∧ L' < MAX_LEVEL ∧ L' ≤ (getNode st vi).topLevel ∧
            j = gpredSL st ms k L') from fun hc => h2 hc.2), if_neg h2]
    · intro l hl
      rw [Nat.le_zero.1 hl]
      rfl
  | succ level ih =>
    intro hle stc pred fuel hfuel hlen hwf hkeys hhead hload hpred
    obtain ⟨std1, sL, heq, hlen1, hwf1, hkeys1, hhead1, hdesc, _⟩ :=
      findLevelLF_step inv hvi hik hle stc pred fuel hfuel hlen hwf hkeys
        hhead hload hpred
    have hload1 : ∀ j L', loadNext std1 j L' =
        if j = vi ∧ L' ≤ (getNode st vi).topLevel then GET_MARKED (loadNext st vi L')
        else if level < L' ∧ L' < MAX_LEVEL ∧ L' ≤ (getNode st vi).topLevel ∧
            j = gpredSL st ms k L' then loadNext st vi L'
        else loadNext st j L' := by
      intro j L'
      rw [hdesc j L']
      by_cases h1 : j = vi ∧ L' ≤ (getNode st vi).topLevel
      · rw [if_pos h1, if_pos h1]
      · rw [if_neg h1, if_neg h1]
        by_cases h2 : level + 1 ≤ L' ∧ L' < MAX_LEVEL ∧ L' ≤ (getNode st vi).topLevel ∧
            j = gpredSL st ms k L'
        · rw [if_pos h2, if_pos (show level < L' ∧ L' < MAX_LEVEL ∧
            L' ≤ (getNode st vi).topLevel ∧ j = gpredSL st ms k L' from ⟨h2.1, h2.2⟩)]
        · rw [if_neg h2, if_neg (show ¬(level < L' ∧ L' < MAX_LEVEL ∧
            L' ≤ (getNode st vi).topLevel ∧ j = gpredSL st ms k L') from
            fun hc => h2 ⟨hc.1, hc.2⟩)]
    obtain ⟨std2, pss2, heq2, hlen2, hwf2, hkeys2, hhead2, hdesc2, hplen2, hpfst2, hp02⟩ :=
      ih (lt_trans (Nat.lt_succ_self _) hle) std1 (gpredSL st ms k (level + 1)) fuel
        hfuel hlen1 hwf1 hkeys1 hhead1 hload1 (gpredSL_feeds (Nat.le_succ level))
    refine ⟨std2, pss2 ++ [(gpredSL st ms k (level + 1), sL)], ?_, hlen2, hwf2,
      hkeys2, hhead2, hdesc2, ?_, ?_, ?_⟩
    · simp only [findDesc, heq, bind_ok]
      rw [heq2, bind_ok]
    · rw [List.length_append, hplen2]
      rfl
    · intro l hl
      rcases Nat.lt_or_ge l (level + 1) with h | h
      · rw [List.getD_append _ _ _ _ (by rw [hplen2]; exact h)]
        exact hpfst2 l (Nat.lt_succ_iff.1 h)
      · have hll : l = level + 1 := le_antisymm hl h
        rw [hll, List.getD_append_right _ _ _ _ (by rw [hplen2]), hplen2]
        simp
    · obtain ⟨l0, hl0, hp0⟩ := hp02
      refine ⟨l0, hl0, ?_⟩
      rw [List.getD_append _ _ _ _ (by rw [hplen2]; exact Nat.succ_pos _)]
      exact hp0

/-! ## Committing a lock-free delete -/

/-- Interface of a completed lock-free delete at the heap level: the victim
`vi` has its `next` slots marked up to its top level and is physically
unlinked from every level it participated in; other slots are untouched. -/
def DeleteShapeLF (st stX : SkipList) (ms : List Nat) (k : Int) (vi : Nat) : Prop :=
  stX.head = st.head ∧ stX.tail = st.tail ∧ stX.maxLevel = st.maxLevel ∧
  stX.mem.length = st.mem.length ∧
  (∀ j, (getNode stX j).key = (getNode st j).key ∧
    (getNode stX j).topLevel = (getNode st j).topLevel) ∧
  (∀ j, (getNode stX j).next.length = MAX_LEVEL + 1) ∧
  (∀ j L, loadNext stX j L =
    if j = vi ∧ L ≤ (getNode st vi).topLevel then GET_MARKED (loadNext st vi L)
    else if L < MAX_LEVEL ∧ L ≤ (getNode st vi).topLevel ∧ j = gpredSL st ms k L
    then loadNext st vi L
    else loadNext st j L)

/-- Committing a lock-free delete: the unlinked state satisfies the invariant
with the victim removed, and the key set loses `k`. -/
theorem deleteCommitLF {st stX : SkipList} {ms : List Nat} {k : Int} {vi : Nat}
    {l : List Nat} (inv : InvLF st ms) (hrest : restK st k ms = vi :: l)
    (hvk : keyOf st vi = k) (hshape : DeleteShapeLF st stX ms k vi) :
    InvLF stX (belowK st k ms ++ l) ∧
    (keysOf stX (belowK st k ms ++ l)).toFinset = (keysOf st ms).toFinset.erase k := by
  obtain ⟨hh, ht, hm, hlen, hkt, hwfX, hload⟩ := hshape
  have hvi_ms : vi ∈ ms := by
    have : vi ∈ restK st k ms := by rw [hrest]; exact List.mem_cons_self _ _
    exact restK_mem_base this
  have hkle : k ≤ INT_MAX := by
    rw [← hvk]
    exact inv.keysLe vi hvi_ms
  have hgpred_key : ∀ L, gpredSL st ms k L ≠ vi :=
    gpredLF_ne_keynode inv hvi_ms hvk
  have hheadvi : st.head ≠ vi := fun hcon => inv.idsHead vi hvi_ms hcon.symm
  have hsplitms : ms = belowK st k ms ++ vi :: l := by
    conv_lhs => rw [ns_split st k ms]
    rw [hrest]
  have hnodms : ms.Nodup := sortedKeys_nodup inv.sorted
  have hvi_not_lo : vi ∉ belowK st k ms := by
    intro h
    have := belowK_mem_lt h
    omega
  have hvi_not_l : vi ∉ l := by
    intro h
    rw [hsplitms] at hnodms
    rcases List.nodup_append.1 hnodms with ⟨_, h2, _⟩
    exact (List.nodup_cons.1 h2).1 h
  have hl_gt : ∀ j ∈ l, k < keyOf st j := by
    intro j hj
    have hsort : sortedKeys st (restK st k ms) :=
      inv.sorted.sublist (List.dropWhile_sublist _)
    rw [hrest] at hsort
    have := (List.pairwise_cons.1 hsort).1 j hj
    omega
  have hloMem : ∀ j ∈ belowK st k ms, j ∈ ms := fun j h => belowK_sublist_mem h
  have hlMem : ∀ j ∈ l, j ∈ ms := by
    intro j hj
    rw [hsplitms]
    exact List.mem_append.2 (Or.inr (List.mem_cons_of_mem _ hj))
  have hmemms' : ∀ j ∈ belowK st k ms ++ l, j ∈ ms := by
    intro j hj
    rcases List.mem_append.1 hj with h | h
    · exact hloMem j h
    · exact hlMem j h
  have hne_vi : ∀ j ∈ belowK st k ms ++ l, j ≠ vi := by
    intro j hj hcon
    rcases List.mem_append.1 hj with h | h
    · exact hvi_not_lo (hcon ▸ h)
    · exact hvi_not_l (hcon ▸ h)
  have hkeyX : ∀ j, keyOf stX j = keyOf st j := fun j => (hkt j).1
  have htopX : ∀ j, (getNode stX j).topLevel = (getNode st j).topLevel :=
    fun j => (hkt j).2
  -- chain shape at each level
  have hchains : ∀ L, L < MAX_LEVEL →
      links stX L (loadNext stX stX.head L)
        (towerFilter stX (belowK st k ms ++ l) L) nullPtr := by
    intro L hL
    rw [hh]
    have hfilter : ∀ zs : List Nat,
        zs.filter (fun i => decide (L ≤ (getNode stX i).topLevel)) =
          zs.filter (fun i => decide (L ≤ (getNode st i).topLevel)) := by
      intro zs
      refine List.filter_congr ?_
      intro j _
      rw [htopX j]
    have hcommB : (ms.filter (fun i => decide (keyOf st i < k))).filter
          (fun i => decide (L ≤ (getNode st i).topLevel)) =
        (ms.filter (fun i => decide (L ≤ (getNode st i).topLevel))).filter
          (fun i => decide (keyOf st i < k)) := by
      rw [List.filter_filter, List.filter_filter]
      exact List.filter_congr (fun j _ => Bool.and_comm _ _)
    have hcommR : (ms.filter (fun i => decide (¬keyOf st i < k))).filter
          (fun i => decide (L ≤ (getNode st i).topLevel)) =
        (ms.filter (fun i => decide (L ≤ (getNode st i).topLevel))).filter
          (fun i => decide (¬keyOf st i < k)) := by
      rw [List.filter_filter, List.filter_filter]
      exact List.filter_congr (fun j _ => Bool.and_comm _ _)
    have hloL : (belowK st k ms).filter (fun i => decide (L ≤ (getNode st i).topLevel))
        = belowK st k (towerFilter st ms L) := by
      rw [belowK_eq_filter inv.sorted, hcommB,
        belowK_eq_filter (towerFilter_sorted inv.sorted L)]
      rfl
    have hrestL : (restK st k ms).filter (fun i => decide (L ≤ (getNode st i).topLevel))
        = restK st k (towerFilter st ms L) := by
      rw [restK_eq_filter inv.sorted, hcommR,
        restK_eq_filter (towerFilter_sorted inv.sorted L)]
      rfl
    have hsplitL : towerFilter st ms L =
        belowK st k (towerFilter st ms L) ++ restK st k (towerFilter st ms L) :=
      ns_split st k _
    have hnodL : (towerFilter st ms L).Nodup := sortedKeys_nodup (inv.chainSortedLF L)
    have hnewfilter : towerFilter stX (belowK st k ms ++ l) L =
        belowK st k (towerFilter st ms L) ++
          (l.filter (fun i => decide (L ≤ (getNode st i).topLevel))) := by
      rw [towerFilter, List.filter_append, hfilter, hfilter, hloL]
    have hrsplit : restK st k (towerFilter st ms L) =
        (if L ≤ (getNode st vi).topLevel then [vi] else []) ++
          l.filter (fun i => decide (L ≤ (getNode st i).topLevel)) := by
      rw [← hrestL, hrest, List.filter_cons]
      by_cases hv : L ≤ (getNode st vi).topLevel
      · rw [if_pos (decide_eq_true hv), if_pos hv]
        rfl
      · rw [if_neg (by simpa using hv), if_neg hv]
        rfl
    have hvi_not_loL : vi ∉ belowK st k (towerFilter st ms L) := by
      intro h
      have := belowK_mem_lt h
      omega
    set loL := belowK st k (towerFilter st ms L) with hloLdef
    set hiL := l.filter (fun i => decide (L ≤ (getNode st i).topLevel)) with hhiLdef
    have hgpredL : gpredSL st ms k L = loL.getLastD st.head := rfl
    by_cases hLv : L ≤ (getNode st vi).topLevel
    · -- the victim participates at this level: remove it
      rw [hrsplit, if_pos hLv] at hsplitL
      have holdchain : links st L (loadNext st st.head L) (loL ++ vi :: hiL) nullPtr := by
        have := inv.chains L hL
        rw [hsplitL] at this
        simpa using this
      have hvload : loadNext st vi L = chainHeadPtr hiL nullPtr := by
        rw [links_append_iff] at holdchain
        exact links_start holdchain.2.2
      rw [hnewfilter]
      have hnodL' : (loL ++ vi :: hiL).Nodup := by
        have := hnodL
        rw [hsplitL] at this
        simpa using this
      refine links_remove_node holdchain ?_ ?_ ?_ ?_ ?_
      · intro hlo
        rw [hload st.head L,
          if_neg (show ¬(st.head = vi ∧ L ≤ (getNode st vi).topLevel) from
            fun hcon => hheadvi hcon.1),
          if_pos (show L < MAX_LEVEL ∧ L ≤ (getNode st vi).topLevel ∧
            st.head = gpredSL st ms k L from ⟨hL, hLv, by rw [hgpredL, hlo]; rfl⟩),
          hvload]
      · intro hlo
        have hgp : gpredSL st ms k L ≠ st.head := by
          rw [hgpredL, getLastD_of_ne_nil hlo]
          intro hcon
          exact inv.idsHead _
            ((towerFilter_sublist st ms L).subset
              (belowK_sublist_mem (List.getLast_mem hlo))) hcon
        rw [hload st.head L,
          if_neg (show ¬(st.head = vi ∧ L ≤ (getNode st vi).topLevel) from
            fun hcon => hheadvi hcon.1),
          if_neg (show ¬(L < MAX_LEVEL ∧ L ≤ (getNode st vi).topLevel ∧
            st.head = gpredSL st ms k L) from fun hcon => hgp hcon.2.2.symm)]
      · intro hlo
        have hgl : loL.getLast hlo = gpredSL st ms k L := by
          rw [hgpredL, getLastD_of_ne_nil hlo]
        rw [hload _ L,
          if_neg (show ¬(loL.getLast hlo = vi ∧ L ≤ (getNode st vi).topLevel) from
            fun hcon => hgpred_key L (hgl ▸ hcon.1)),
          if_pos (show L < MAX_LEVEL ∧ L ≤ (getNode st vi).topLevel ∧
            loL.getLast hlo = gpredSL st ms k L from ⟨hL, hLv, hgl⟩),
          hvload]
      · intro i hi
        have hine : i ≠ gpredSL st ms k L := by
          rcases hb : loL with _ | ⟨a, as⟩
          · rw [hb] at hi; cases hi
          · rw [hgpredL, getLastD_of_ne_nil (by rw [hb]; simp)]
            intro hcon
            have := nodup_getLast_not_mem_dropLast
              ((List.nodup_append.1 hnodL').1) (by rw [hb]; simp)
            rw [← hcon] at this
            exact this hi
        have hivi : i ≠ vi := by
          intro hcon
          exact hvi_not_loL (hcon ▸ (List.dropLast_sublist _).subset hi)
        rw [hload i L,
          if_neg (show ¬(i = vi ∧ L ≤ (getNode st vi).topLevel) from
            fun hcon => hivi hcon.1),
          if_neg (show ¬(L < MAX_LEVEL ∧ L ≤ (getNode st vi).topLevel ∧
            i = gpredSL st ms k L) from fun hcon => hine hcon.2.2)]
      · intro i hi
        have hivi : i ≠ vi := by
          intro hcon
          exact (List.nodup_cons.1 (List.nodup_append.1 hnodL').2.1).1 (hcon ▸ hi)
        have hine : i ≠ gpredSL st ms k L := by
          rcases hb : loL with _ | ⟨a, as⟩
          · rw [hgpredL, hb]
            intro hcon
            exact inv.idsHead _ (hlMem _ ((List.filter_sublist l).subset hi)) hcon
          · rw [hgpredL, getLastD_of_ne_nil (by rw [hb]; simp)]
            intro hcon
            have hdisj := (List.nodup_append.1 hnodL').2.2
            exact hdisj (hcon ▸ List.getLast_mem (by rw [hb]; simp))
              (List.mem_cons_of_mem _ hi)
        rw [hload i L,
          if_neg (show ¬(i = vi ∧ L ≤ (getNode st vi).topLevel) from
            fun hcon => hivi hcon.1),
          if_neg (show ¬(L < MAX_LEVEL ∧ L ≤ (getNode st vi).topLevel ∧
            i = gpredSL st ms k L) from fun hcon => hine hcon.2.2)]
    · -- the victim does not participate: the chain is untouched
      rw [hrsplit, if_neg hLv] at hsplitL
      rw [hnewfilter]
      have hall : ∀ j, loadNext stX j L = loadNext st j L := by
        intro j
        rw [hload j L,
          if_neg (show ¬(j = vi ∧ L ≤ (getNode st vi).topLevel) from
            fun hcon => hLv hcon.2),
          if_neg (show ¬(L < MAX_LEVEL ∧ L ≤ (getNode st vi).topLevel ∧
            j = gpredSL st ms k L) from fun hcon => hLv hcon.2.1)]
      rw [hall st.head]
      have := inv.chains L hL
      rw [hsplitL] at this
      exact links_frame (fun i _ => hall i) this
  refine ⟨?_, ?_⟩
  · refine
      { wfn := hwfX
        hhead := hh.trans inv.hhead
        htail := ht.trans inv.htail
        hmax := hm.trans inv.hmax
        hmem := (by rw [hlen]; exact inv.hmem)
        headKey := (by rw [hh, (hkt st.head).1]; exact inv.headKey)
        tailKey := (by rw [ht, (hkt st.tail).1]; exact inv.tailKey)
        headTop := (by rw [hh, (hkt st.head).2]; exact inv.headTop)
        tailTop := (by rw [ht, (hkt st.tail).2]; exact inv.tailTop)
        sorted := ?_
        idsLt := ?_
        idsHead := ?_
        keysLe := ?_
        tops := ?_
        topsLt := ?_
        top16 := ?_
        tailNexts := ?_
        chains := hchains }
    · have hsubl : (belowK st k ms ++ l).Sublist (belowK st k ms ++ vi :: l) :=
        List.Sublist.append (List.Sublist.refl _) (List.sublist_cons_self vi l)
      rw [← hsplitms] at hsubl
      refine List.Pairwise.imp_of_mem ?_ (inv.sorted.sublist hsubl)
      intro a b _ _ hab
      rw [(hkt a).1, (hkt b).1]
      exact hab
    · intro i hi
      rw [hlen]
      exact inv.idsLt i (hmemms' i hi)
    · intro i hi
      rw [hh]
      exact inv.idsHead i (hmemms' i hi)
    · intro i hi
      rw [show (getNode stX i).key = (getNode st i).key from (hkt i).1]
      exact inv.keysLe i (hmemms' i hi)
    · intro i hi
      rw [(hkt i).2]
      exact inv.tops i (hmemms' i hi)
    · intro i hi hit
      rw [ht] at hit
      rw [(hkt i).2]
      exact inv.topsLt i (hmemms' i hi) hit
    · rw [hh, hload st.head MAX_LEVEL,
        if_neg (show ¬(st.head = vi ∧ MAX_LEVEL ≤ (getNode st vi).topLevel) from
          fun hcon => hheadvi hcon.1),
        if_neg (show ¬(MAX_LEVEL < MAX_LEVEL ∧ MAX_LEVEL ≤ (getNode st vi).topLevel ∧
          st.head = gpredSL st ms k MAX_LEVEL) from fun hcon => lt_irrefl _ hcon.1)]
      exact inv.top16
    · intro htl L
      rw [ht] at htl
      have htlvi : st.tail ≠ vi := hne_vi st.tail htl
      rw [ht, hload st.tail L,
        if_neg (show ¬(st.tail = vi ∧ L ≤ (getNode st vi).topLevel) from
          fun hcon => htlvi hcon.1),
        if_neg (show ¬(L < MAX_LEVEL ∧ L ≤ (getNode st vi).topLevel ∧
          st.tail = gpredSL st ms k L) from
          fun hcon => gpredLF_ne_tail inv hkle L hcon.2.2.symm)]
      exact inv.tailNexts (hmemms' _ htl) L
  · apply Finset.ext
    intro x
    simp only [List.mem_toFinset, Finset.mem_erase]
    constructor
    · intro hx
      rcases mem_keysOf.1 hx with ⟨i, hi, hik⟩
      have hik' : keyOf st i = x := by rw [← hkeyX i]; exact hik
      constructor
      · intro hcon
        subst hcon
        rcases List.mem_append.1 hi with h | h
        · have := belowK_mem_lt h
          omega
        · have := hl_gt i h
          omega
      · exact mem_keysOf.2 ⟨i, hmemms' i hi, hik'⟩
    · intro hx
      rcases hx with ⟨hxk, hx⟩
      rcases mem_keysOf.1 hx with ⟨i, hi, hik⟩
      have hine : i ≠ vi := by
        intro hcon
        subst hcon
        exact hxk (by rw [← hik, hvk])
      refine mem_keysOf.2 ⟨i, ?_, by rw [hkeyX i]; exact hik⟩
      rw [hsplitms] at hi
      rcases List.mem_append.1 hi with h | h
      · exact List.mem_append.2 (Or.inl h)
      · rcases List.mem_cons.1 h with rfl | h'
        · exact absurd rfl hine
        · exact List.mem_append.2 (Or.inr h')

/-- `findLevelGo` only rewrites `next` slots: every other component of the
state is untouched. -/
theorem findLevelGo_eqButNext {k : Int} {L : Nat} :
    ∀ (fuel : Nat) (st : SkipList) (pred : Nat) (curr : Ptr)
      (r : Option (Nat × Ptr)) (st' : SkipList),
    findLevelGo fuel st k pred curr L = .ok (r, st') → eqButNext st st' := by
  intro fuel
  induction fuel with
  | zero =>
    intro st pred curr r st' h
    rw [findLevelGo] at h
    cases h
  | succ fuel ih =>
    intro st pred curr r st' h
    rw [findLevelGo] at h
    by_cases hc : curr.base = none
    · rw [if_pos hc] at h
      have hst : st = st' := congrArg Prod.snd (Except.ok.inj h)
      rw [← hst]
      exact eqButNext_refl st
    · rw [if_neg hc] at h
      rcases hd : deref curr with e | ci
      · rw [hd, bind_err] at h
        cases h
      · rw [hd, bind_ok] at h
        simp only [] at h
        by_cases hm : IS_MARKED (loadNext st ci L) = true
        · rw [if_pos hm] at h
          by_cases hcas : loadNext st pred L = curr
          · rw [if_pos hcas] at h
            exact eqButNext_trans (eqButNext_storeNext _ _ _ _) (ih _ _ _ _ _ h)
          · rw [if_neg hcas] at h
            have hst : st = st' := congrArg Prod.snd (Except.ok.inj h)
            rw [← hst]
            exact eqButNext_refl st
        · rw [if_neg hm] at h
          by_cases hkey : (getNode st ci).key < k
          · rw [if_pos hkey] at h
            exact ih _ _ _ _ _ h
          · rw [if_neg hkey] at h
            have hst : st = st' := congrArg Prod.snd (Except.ok.inj h)
            rw [← hst]
            exact eqButNext_refl st

/-- `findDesc` only rewrites `next` slots. -/
theorem findDesc_eqButNext {k : Int} :
    ∀ (level fuel : Nat) (st : SkipList) (pred : Nat)
      (r : Option (List (Nat × Ptr))) (st' : SkipList),
    findDesc fuel k st pred level = .ok (r, st') → eqButNext st st' := by
  intro level
  induction level with
  | zero =>
    intro fuel st pred r st' h
    rw [findDesc] at h
    rcases hg : findLevelGo fuel st k pred (GET_UNMARKED (loadNext st pred 0)) 0
      with e | ⟨r1, st1⟩
    · rw [hg, bind_err] at h
      cases h
    · rw [hg, bind_ok] at h
      have h1 := findLevelGo_eqButNext fuel st pred _ r1 st1 hg
      rcases r1 with _ | pc
      · have hst : st1 = st' := congrArg Prod.snd (Except.ok.inj h)
        rw [← hst]
        exact h1
      · have hst : st1 = st' := congrArg Prod.snd (Except.ok.inj h)
        rw [← hst]
        exact h1
  | succ level ih =>
    intro fuel st pred r st' h
    rw [findDesc] at h
    rcases hg : findLevelGo fuel st k pred
        (GET_UNMARKED (loadNext st pred (level + 1))) (level + 1) with e | ⟨r1, st1⟩
    · rw [hg, bind_err] at h
      cases h
    · rw [hg, bind_ok] at h
      have h1 := findLevelGo_eqButNext fuel st pred _ r1 st1 hg
      rcases r1 with _ | pc
      · have hst : st1 = st' := congrArg Prod.snd (Except.ok.inj h)
        rw [← hst]
        exact h1
      · simp only [] at h
        rcases hg2 : findDesc fuel k st1 pc.1 level with e | ⟨r2, st2⟩
        · rw [hg2, bind_err] at h
          cases h
        · rw [hg2, bind_ok] at h
          have h2 := ih fuel st1 pc.1 r2 st2 hg2
          rcases r2 with _ | rest
          · have hst : st2 = st' := congrArg Prod.snd (Except.ok.inj h)
            rw [← hst]
            exact eqButNext_trans h1 h2
          · have hst : st2 = st' := congrArg Prod.snd (Except.ok.inj h)
            rw [← hst]
            exact eqButNext_trans h1 h2

/-- One `skiplist_delete_lockfree` call from an invariant state: it returns
whether the key was present (the tail's `INT_MAX` included), removes the key
from the abstract set, and re-establishes the invariant. -/
theorem deleteLF_step {st : SkipList} {ms : List Nat} (inv : InvLF st ms) (k : Int) :
    ∃ st' ms', skiplist_delete_lockfree st k = .ok (decide (k ∈ keysOf st ms), st') ∧
      InvLF st' ms' ∧
      (keysOf st' ms').toFinset = (keysOf st ms).toFinset.erase k ∧
      (st.tail ∈ ms → k ≠ INT_MAX → st.tail ∈ ms') := by
  have hF : FUEL st = st.mem.length + 1 + 1 := by rw [FUEL]
  rw [skiplist_delete_lockfree, hF, deleteLFLoop]
  rw [find_clean inv, bind_ok]
  simp only []
  by_cases hmem : k ∈ keysOf st ms
  · -- the key is present: it is marked and the helping find unlinks it
    rw [show decide (k ∈ keysOf st ms) = true from decide_eq_true hmem]
    rw [Bool.not_true, if_neg (by simp : ¬(false = true))]
    obtain ⟨vi, hvims, hvik⟩ := mem_keysOf.1 hmem
    obtain ⟨l, hrest⟩ := restK_first_of_mem inv.sorted hvims hvik
    rw [show (gpcsLF st ms k (MAX_LEVEL - 1)).getD 0 (0, nullPtr) =
      (gpredSL st ms k 0, gsuccLF st ms k 0) from gpcsLF_getD (by decide) _]
    simp only []
    rw [gsuccLF0_cons hrest, deref_some_unmarked, bind_ok]
    have htopM : (getNode st vi).topLevel ≤ MAX_LEVEL := inv.tops vi hvims
    have hviLt : vi < st.mem.length := inv.idsLt vi hvims
    have hum : ∀ L, L ≤ (getNode st vi).topLevel →
        (loadNext st vi L).mark = false := by
      by_cases hvt : vi = st.tail
      · intro L _
        rw [hvt, inv.tailNexts (hvt ▸ hvims) L]
        rfl
      · intro L hL
        have hLlt : L < MAX_LEVEL := lt_of_le_of_lt hL (inv.topsLt vi hvims hvt)
        exact links_mem_load_unmarked (inv.chains L hLlt) rfl vi
          (towerFilter_mem.2 ⟨hvims, hL⟩)
    obtain ⟨stf, hmark, hEB, hdesc⟩ :=
      markDownLF_desc hum hviLt htopM ((getNode st vi).topLevel) st le_rfl rfl
        inv.wfn
        (by
          intro j L
          rw [if_neg (show ¬(j = vi ∧ (getNode st vi).topLevel < L ∧
            L ≤ (getNode st vi).topLevel) from fun hc => by omega)])
    rw [hmark]
    simp only []
    have hEBlen : stf.mem.length = st.mem.length := hEB.2.2.2.1
    have hF2 : FUEL stf = stf.mem.length + 1 + 1 := by rw [FUEL]
    rw [find, hF2, findLoop]
    obtain ⟨std, pss, heqD, hlenD, hwfD, hkeysD, hheadD, hdescD, hplenD, hpfstD,
        l0, hl0, hp0D⟩ :=
      findDesc_dirty inv hvims hvik (MAX_LEVEL - 1) (by decide) stf stf.head
        (FUEL stf) (by rw [FUEL, hEBlen]; omega) hEBlen
        (eqButNext_wfn hEB inv.wfn) (eqButNext_keyOf hEB) hEB.1
        (by
          intro j L'
          rw [hdesc j L']
          by_cases h1 : j = vi ∧ L' ≤ (getNode st vi).topLevel
          · rw [if_pos h1, if_pos h1, h1.1]
          · rw [if_neg h1, if_neg h1,
              if_neg (show ¬(MAX_LEVEL - 1 < L' ∧ L' < MAX_LEVEL ∧
                L' ≤ (getNode st vi).topLevel ∧ j = gpredSL st ms k L') from
                fun hc => by
                  have ha := hc.1
                  have hb := hc.2.1
                  rw [show MAX_LEVEL = 16 from rfl] at ha hb
                  omega)])
        (Or.inl hEB.1)
    rw [heqD, bind_ok]
    simp only []
    rw [hp0D]
    have hrest0 : restK st k ms = vi :: l0 := by
      rw [← towerFilter_zero st ms]
      exact hl0
    have hEBD : eqButNext st std :=
      eqButNext_trans hEB
        (findDesc_eqButNext (MAX_LEVEL - 1) (FUEL stf) stf stf.head _ std heqD)
    have hshape : DeleteShapeLF st (addSize std (-1)) ms k vi := by
      refine ⟨hEBD.1, hEBD.2.1, hEBD.2.2.1, hEBD.2.2.2.1, ?_, ?_, ?_⟩
      · intro j
        exact ⟨(hEBD.2.2.2.2.2 j).1, (hEBD.2.2.2.2.2 j).2.2.1⟩
      · intro j
        rw [addSize_getNode]
        exact hwfD j
      · intro j L
        rw [addSize_loadNext]
        exact hdescD j L
    obtain ⟨hinv', hkeys'⟩ := deleteCommitLF inv hrest0 hvik hshape
    rcases l0 with _ | ⟨m, l0rest⟩
    · rw [show chainHeadPtr ([] : List Nat) nullPtr = nullPtr from rfl,
        if_pos (show nullPtr.base = none from rfl), bind_ok]
      refine ⟨addSize std (-1), belowK st k ms ++ [], rfl, hinv', hkeys', ?_⟩
      intro htl hkmax
      have hvit : vi ≠ st.tail := by
        intro hcon
        apply hkmax
        rw [← hvik, hcon]
        exact inv.tailKey
      have hsplit : ms = belowK st k ms ++ vi :: [] := by
        conv_lhs => rw [ns_split st k ms]
        rw [hrest0]
      rw [hsplit] at htl
      rcases List.mem_append.1 htl with h | h
      · exact List.mem_append.2 (Or.inl h)
      · rcases List.mem_cons.1 h with h' | h'
        · exact absurd h'.symm hvit
        · cases h'
    · rw [show chainHeadPtr (m :: l0rest) nullPtr = ⟨some m, false⟩ from rfl,
        if_neg (by simp : ¬(some m = none)), deref_some_unmarked, bind_ok]
      rw [bind_ok]
      refine ⟨addSize std (-1), belowK st k ms ++ m :: l0rest, rfl, hinv', hkeys', ?_⟩
      intro htl hkmax
      have hvit : vi ≠ st.tail := by
        intro hcon
        apply hkmax
        rw [← hvik, hcon]
        exact inv.tailKey
      have hsplit : ms = belowK st k ms ++ vi :: m :: l0rest := by
        conv_lhs => rw [ns_split st k ms]
        rw [hrest0]
      rw [hsplit] at htl
      rcases List.mem_append.1 htl with h | h
      · exact List.mem_append.2 (Or.inl h)
      · rcases List.mem_cons.1 h with h' | h'
        · exact absurd h'.symm hvit
        · exact List.mem_append.2 (Or.inr h')
  · -- the key is absent: delete returns false and changes nothing
    rw [show decide (k ∈ keysOf st ms) = false from decide_eq_false hmem]
    rw [Bool.not_false, if_pos rfl]
    refine ⟨st, ms, rfl, inv, ?_, fun h _ => h⟩
    rw [Finset.erase_eq_of_not_mem (by simpa using hmem)]

/-! ## The lock-free `contains` -/

/-- The level walk of `skiplist_contains_lockfree` over a clean chain stops at
the walk predecessor (also when it breaks at the tail sentinel, whose key
`INT_MAX` is at least any searched key). -/
theorem containsLevelLF_clean {st : SkipList} {L : Nat} {k : Int}
    (htk : (getNode st st.tail).key = INT_MAX) (hk : k ≤ INT_MAX) :
    ∀ (cs : List Nat) (pred : Nat) (curr : Ptr) (fuel : Nat),
    links st L curr cs nullPtr → cs.length < fuel →
    containsLevelLF fuel st k pred curr L = .ok (predIdx st k cs pred) := by
  intro cs
  induction cs with
  | nil =>
    intro pred curr fuel hl hf
    obtain ⟨f, rfl⟩ : ∃ f, fuel = f + 1 := ⟨fuel - 1, by omega⟩
    rw [links_nil] at hl
    rw [containsLevelLF, if_pos (Or.inl (show curr.base = none from by rw [hl]; rfl))]
    rfl
  | cons i is ih =>
    intro pred curr fuel hl hf
    obtain ⟨f, rfl⟩ : ∃ f, fuel = f + 1 := ⟨fuel - 1, by omega⟩
    rcases hl with ⟨h1, h2⟩
    have hsm : (loadNext st i L).mark = false := links_start_unmarked h2 rfl
    have hgu : GET_UNMARKED (loadNext st i L) = loadNext st i L :=
      GET_UNMARKED_of_unmarked hsm
    by_cases hki : (getNode st i).key < k
    · have hit : i ≠ st.tail := by
        intro hcon
        rw [hcon, htk] at hki
        omega
      simp only [containsLevelLF, h1]
      rw [if_neg (show ¬((⟨some i, false⟩ : Ptr).base = none ∨
          (⟨some i, false⟩ : Ptr) = tailPtr st) from by
          rintro (hc | hc)
          · cases hc
          · exact ptr_ne_tailPtr hit hc),
        deref_some_unmarked, bind_ok]
      rw [show IS_MARKED (loadNext st i L) = false from hsm,
        if_neg (by simp : ¬(false = true)), if_pos hki, hgu,
        predIdx_cons_pos is hki]
      exact ih i (loadNext st i L) f h2 (by simp only [List.length_cons] at hf; omega)
    · rw [predIdx_cons_neg is hki]
      by_cases hit : i = st.tail
      · simp only [containsLevelLF, h1]
        rw [if_pos (Or.inr (show (⟨some i, false⟩ : Ptr) = tailPtr st from by
          rw [hit]; rfl))]
      · simp only [containsLevelLF, h1]
        rw [if_neg (show ¬((⟨some i, false⟩ : Ptr).base = none ∨
            (⟨some i, false⟩ : Ptr) = tailPtr st) from by
            rintro (hc | hc)
            · cases hc
            · exact ptr_ne_tailPtr hit hc),
          deref_some_unmarked, bind_ok]
        rw [show IS_MARKED (loadNext st i L) = false from hsm,
          if_neg (by simp : ¬(false = true)), if_neg hki]

/-- The contains walk started from a mid-chain predecessor. -/
theorem containsLevelLF_from {st : SkipList} {L : Nat} {k : Int} {cs : List Nat}
    {pred fuel : Nat}
    (htk : (getNode st st.tail).key = INT_MAX) (hk : k ≤ INT_MAX)
    (hl : links st L (loadNext st st.head L) cs nullPtr)
    (hs : sortedKeys st cs)
    (hpred : pred = st.head ∨ (pred ∈ cs ∧ keyOf st pred < k))
    (hf : cs.length < fuel) :
    containsLevelLF fuel st k pred (GET_UNMARKED (loadNext st pred L)) L =
      .ok (predIdx st k cs st.head) := by
  rcases hpred with rfl | ⟨hmem, hkey⟩
  · rw [GET_UNMARKED_of_unmarked (links_start_unmarked hl rfl)]
    exact containsLevelLF_clean htk hk cs st.head _ fuel hl hf
  · rcases List.append_of_mem hmem with ⟨xs, ys, rfl⟩
    have hys : links st L (loadNext st pred L) ys nullPtr := links_suffix hl
    have hf' : ys.length < fuel := by
      simp only [List.length_append, List.length_cons] at hf
      omega
    rw [GET_UNMARKED_of_unmarked (links_start_unmarked hys rfl)]
    rw [containsLevelLF_clean htk hk ys pred _ fuel hys hf']
    rw [predIdx_split hs hkey]

/-- The descent of `skiplist_contains_lockfree` ends at the level-0 global
predecessor. -/
theorem containsDescLF_clean {st : SkipList} {ms : List Nat} {k : Int}
    (inv : InvLF st ms) (hk : k ≤ INT_MAX) :
    ∀ (level : Nat), level < MAX_LEVEL →
    ∀ (pred fuel : Nat), st.mem.length < fuel →
    (pred = st.head ∨ (pred ∈ towerFilter st ms level ∧ keyOf st pred < k)) →
    containsDescLF fuel st k pred level = .ok (gpredSL st ms k 0) := by
  intro level
  induction level with
  | zero =>
    intro _ pred fuel hfuel hp
    have hw := containsLevelLF_from inv.tailKey hk (inv.chains 0 (by decide))
      (inv.chainSortedLF 0) hp (lt_of_le_of_lt (inv.chainLenLF 0) hfuel)
    rw [containsDescLF, hw]
    rfl
  | succ level ih =>
    intro hle pred fuel hfuel hp
    have hw := containsLevelLF_from inv.tailKey hk (inv.chains (level + 1) hle)
      (inv.chainSortedLF (level + 1)) hp
      (lt_of_le_of_lt (inv.chainLenLF (level + 1)) hfuel)
    rw [containsDescLF, hw, bind_ok]
    have hrec := ih (lt_trans (Nat.lt_succ_self _) hle)
      (gpredSL st ms k (level + 1)) fuel hfuel (gpredSL_feeds (Nat.le_succ level))
    simp only [gpredSL] at hrec
    exact hrec

/-- Full behaviour of `skiplist_contains_lockfree` on an invariant state: if no
chain node has key at least `k`, the final dereference is of `NULL`; if the
level-0 successor is the tail, the result is `false`; otherwise the result
compares the successor's key. -/
theorem containsLF_run {st : SkipList} {ms : List Nat} (inv : InvLF st ms)
    {k : Int} (hk : k ≤ INT_MAX) :
    skiplist_contains_lockfree st k =
      match restK st k ms with
      | [] => .error .nullDeref
      | i :: _ =>
        if i = st.tail then .ok false
        else .ok (decide (keyOf st i = k)) := by
  rw [skiplist_contains_lockfree,
    containsDescLF_clean inv hk (MAX_LEVEL - 1) (by decide) st.head (FUEL st)
      (by rw [FUEL]; omega) (Or.inl rfl), bind_ok]
  simp only []
  rw [gpredLF_load inv (by decide)]
  rcases hr : restK st k ms with _ | ⟨i, l⟩
  · simp only []
    rw [gsuccLF0_nil hr,
      show GET_UNMARKED nullPtr = nullPtr from rfl,
      if_neg (show ¬(nullPtr = tailPtr st) from by
        intro hc
        rw [tailPtr, Ptr.mk.injEq] at hc
        exact Option.noConfusion hc.1),
      show deref nullPtr = .error .nullDeref from rfl, bind_err]
  · simp only []
    rw [gsuccLF0_cons hr,
      show GET_UNMARKED (⟨some i, false⟩ : Ptr) = ⟨some i, false⟩ from rfl]
    have humk : (loadNext st i 0).mark = false := by
      refine links_mem_load_unmarked (inv.chains 0 (by decide)) rfl i ?_
      rw [towerFilter_zero]
      exact restK_mem_base (hr ▸ List.mem_cons_self i l)
    by_cases hit : i = st.tail
    · rw [if_pos (show (⟨some i, false⟩ : Ptr) = tailPtr st from by rw [hit]; rfl),
        if_pos hit]
    · rw [if_neg (ptr_ne_tailPtr hit), deref_some_unmarked, bind_ok,
        show IS_MARKED (loadNext st i 0) = false from humk, Bool.not_false,
        Bool.and_true, if_neg hit]
      rfl

/-- `skiplist_contains_lockfree` below `INT_MAX` with the tail linked reports
exact membership. -/
theorem containsLF_step {st : SkipList} {ms : List Nat} (inv : InvLF st ms)
    (htl : st.tail ∈ ms) {k : Int} (hk : k < INT_MAX) :
    skiplist_contains_lockfree st k = .ok (decide (k ∈ keysOf st ms)) := by
  rw [containsLF_run inv (le_of_lt hk)]
  by_cases hmem : k ∈ keysOf st ms
  · rcases mem_keysOf.1 hmem with ⟨i0, hi0, hik⟩
    rcases restK_first_of_mem inv.sorted hi0 hik with ⟨l, hrest⟩
    rw [hrest]
    simp only []
    have hit : i0 ≠ st.tail := by
      intro hcon
      rw [hcon] at hik
      have h4 : keyOf st st.tail = INT_MAX := inv.tailKey
      omega
    rw [if_neg hit, show decide (keyOf st i0 = k) = true from decide_eq_true hik,
      show decide (k ∈ keysOf st ms) = true from decide_eq_true hmem]
  · rcases hr : restK st k ms with _ | ⟨i0, l⟩
    · exfalso
      have h2 := ns_split st k ms
      rw [hr, List.append_nil] at h2
      have h3 := belowK_mem_lt (h2 ▸ htl)
      have h4 : keyOf st st.tail = INT_MAX := inv.tailKey
      omega
    · simp only []
      have hgt : k < keyOf st i0 :=
        restK_gt_of_not_mem inv.sorted hmem (hr ▸ List.mem_cons_self i0 l)
      by_cases hit : i0 = st.tail
      · rw [if_pos hit,
          show decide (k ∈ keysOf st ms) = false from decide_eq_false hmem]
      · rw [if_neg hit,
          show decide (keyOf st i0 = k) = false from decide_eq_false (by omega),
          show decide (k ∈ keysOf st ms) = false from decide_eq_false hmem]

/-- With the tail linked, `skiplist_contains_lockfree(list, INT_MAX)` returns
`false`: the search finds the tail sentinel and the final check rejects it. -/
theorem containsLF_intmax {st : SkipList} {ms : List Nat} (inv : InvLF st ms)
    (htl : st.tail ∈ ms) :
    skiplist_contains_lockfree st INT_MAX = .ok false := by
  have htlr : st.tail ∈ restK st INT_MAX ms := by
    have h2 := ns_split st INT_MAX ms
    rcases List.mem_append.1 (h2 ▸ htl) with h | h
    · exfalso
      have h3 := belowK_mem_lt h
      have h4 : keyOf st st.tail = INT_MAX := inv.tailKey
      omega
    · exact h
  rw [containsLF_run inv le_rfl]
  rcases hr : restK st INT_MAX ms with _ | ⟨i0, l⟩
  · rw [hr] at htlr
    cases htlr
  · simp only []
    have hi0 : i0 = st.tail := by
      by_contra hne
      have htll : st.tail ∈ l := by
        rw [hr] at htlr
        rcases List.mem_cons.1 htlr with h | h
        · exact absurd h.symm hne
        · exact h
      have hsort : sortedKeys st (restK st INT_MAX ms) :=
        inv.sorted.sublist (List.dropWhile_sublist _)
      rw [hr] at hsort
      have hlt := (List.pairwise_cons.1 hsort).1 st.tail htll
      have hge : (INT_MAX : Int) ≤ keyOf st i0 :=
        restK_mem_ge inv.sorted (hr ▸ List.mem_cons_self i0 l)
      have h4 : keyOf st st.tail = INT_MAX := inv.tailKey
      omega
    rw [if_pos hi0]

/-- The freshly created lock-free list satisfies the invariant with the tail
sentinel as the single chain participant. -/
theorem invLF_create : InvLF skiplist_create_lockfree [1] := by
  refine
    { wfn := ?_
      hhead := rfl
      htail := rfl
      hmax := rfl
      hmem := (by rw [skiplist_create_lockfree]; simp)
      headKey := rfl
      tailKey := rfl
      headTop := rfl
      tailTop := rfl
      sorted := List.pairwise_singleton _ _
      idsLt := ?_
      idsHead := ?_
      keysLe := ?_
      tops := ?_
      topsLt := ?_
      top16 := ?_
      tailNexts := ?_
      chains := ?_ }
  · intro i
    match i with
    | 0 => rfl
    | 1 => rfl
    | n + 2 => rfl
  · intro i hi
    rcases List.mem_singleton.1 hi with rfl
    rw [skiplist_create_lockfree]
    simp
  · intro i hi
    rcases List.mem_singleton.1 hi with rfl
    decide
  · intro i hi
    rcases List.mem_singleton.1 hi with rfl
    exact le_refl INT_MAX
  · intro i hi
    rcases List.mem_singleton.1 hi with rfl
    exact le_refl MAX_LEVEL
  · intro i hi hit
    rcases List.mem_singleton.1 hi with rfl
    exact absurd rfl hit
  · show (List.replicate MAX_LEVEL (⟨some 1, false⟩ : Ptr) ++ [nullPtr]).getD
      MAX_LEVEL nullPtr = nullPtr
    rw [List.getD_append_right _ _ _ _ (by simp)]
    simp
  · intro _ L
    show (List.replicate (MAX_LEVEL + 1) nullPtr).getD L nullPtr = nullPtr
    rcases Nat.lt_or_ge L (MAX_LEVEL + 1) with h | h
    · exact getD_replicate_lt _ _ h
    · rw [List.getD_eq_getElem?_getD, List.getElem?_eq_none (by simpa using h)]
      rfl
  · intro L hL
    have ht : towerFilter skiplist_create_lockfree [1] L = [1] := by
      rw [towerFilter, List.filter_cons,
        show decide (L ≤ (getNode skiplist_create_lockfree 1).topLevel) = true from
          decide_eq_true (show L ≤ MAX_LEVEL from by
            rw [show MAX_LEVEL = 16 from rfl] at hL ⊢; omega)]
      rfl
    rw [ht]
    refine ⟨?_, ?_⟩
    · show (List.replicate MAX_LEVEL (⟨some 1, false⟩ : Ptr) ++ [nullPtr]).getD
        L nullPtr = ⟨some 1, false⟩
      rw [List.getD_append _ _ _ _ (by simpa using hL)]
      exact getD_replicate_lt _ _ hL
    · show links skiplist_create_lockfree L
        (loadNext skiplist_create_lockfree 1 L) [] nullPtr
      rw [links_nil]
      show (List.replicate (MAX_LEVEL + 1) nullPtr).getD L nullPtr = nullPtr
      exact getD_replicate_lt _ _ (by
        rw [show MAX_LEVEL = 16 from rfl] at hL ⊢; omega)

/-- Every reachable lock-free state satisfies the invariant for some chain
participants. -/
theorem reachLF_inv {st : SkipList} (h : ReachLF st) : ∃ ms, InvLF st ms := by
  induction h with
  | create => exact ⟨[1], invLF_create⟩
  | insert st0 st' k v lvl b _ _ hk2 hlvl hstep ih =>
    rcases ih with ⟨ms, inv⟩
    rcases insertLF_step inv k v lvl hk2 with ⟨st1, ms1, hstep1, hinv1, _, _⟩
    have hst : st' = st1 :=
      congrArg Prod.snd (Except.ok.inj (hstep.symm.trans hstep1))
    exact ⟨ms1, hst ▸ hinv1⟩
  | delete st0 st' k b _ _ hk2 hstep ih =>
    rcases ih with ⟨ms, inv⟩
    rcases deleteLF_step inv k with ⟨st1, ms1, hstep1, hinv1, _, _⟩
    have hst : st' = st1 :=
      congrArg Prod.snd (Except.ok.inj (hstep.symm.trans hstep1))
    exact ⟨ms1, hst ▸ hinv1⟩

/-- Every state reachable without `delete(INT_MAX)` additionally keeps the
tail sentinel among the chain participants. -/
theorem reachLFND_inv {st : SkipList} (h : ReachLFND st) :
    ∃ ms, InvLF st ms ∧ st.tail ∈ ms := by
  induction h with
  | create => exact ⟨[1], invLF_create, List.mem_singleton_self 1⟩
  | insert st0 st' k v lvl b _ _ hk2 hlvl hstep ih =>
    rcases ih with ⟨ms, inv, htl⟩
    rcases insertLF_step inv k v lvl hk2 with ⟨st1, ms1, hstep1, hinv1, _, htl1⟩
    have hst : st' = st1 :=
      congrArg Prod.snd (Except.ok.inj (hstep.symm.trans hstep1))
    have hteq : st'.tail = st0.tail := by
      rw [hst, hinv1.htail, inv.htail]
    exact ⟨ms1, hst ▸ hinv1, by rw [hteq]; exact htl1 htl⟩
  | delete st0 st' k b _ _ hk2 hstep ih =>
    rcases ih with ⟨ms, inv, htl⟩
    rcases deleteLF_step inv k with ⟨st1, ms1, hstep1, hinv1, _, htl1⟩
    have hst : st' = st1 :=
      congrArg Prod.snd (Except.ok.inj (hstep.symm.trans hstep1))
    have hteq : st'.tail = st0.tail := by
      rw [hst, hinv1.htail, inv.htail]
    exact ⟨ms1, hst ▸ hinv1, by rw [hteq]; exact htl1 htl (by omega)⟩

/-- A lock-free run refines the reference set over the chain participants
(tail phantom `INT_MAX` included), for operations avoiding `INT_MAX`. -/
theorem runLockfree_refines : ∀ (ops : List OpK) (st : SkipList) (ms : List Nat),
    InvLF st ms → st.tail ∈ ms → (∀ op ∈ ops, opWF op ∧ opKey op ≠ INT_MAX) →
    ∃ st', runLockfree st ops =
      .ok ((runRef ((keysOf st ms).toFinset) ops).1, st') := by
  intro ops
  induction ops with
  | nil =>
    intro st ms _ _ _
    exact ⟨st, rfl⟩
  | cons op ops ih =>
    intro st ms inv htl hwf
    have hop := hwf op (List.mem_cons_self _ _)
    have hops := fun o ho => hwf o (List.mem_cons_of_mem _ ho)
    rcases op with ⟨k, v, lvl⟩ | k | k
    · rcases hop with ⟨⟨_, hk2, hlvl⟩, hkne⟩
      rcases insertLF_step inv k v lvl hk2 with ⟨st1, ms1, hstep, hinv1, hkeys1, htl1⟩
      have htlm1 : st1.tail ∈ ms1 := by
        rw [show st1.tail = st.tail from by rw [hinv1.htail, inv.htail]]
        exact htl1 htl
      rcases ih st1 ms1 hinv1 htlm1 hops with ⟨st2, hrun⟩
      refine ⟨st2, ?_⟩
      rw [runLockfree, hstep, bind_ok]
      simp only []
      rw [hrun, bind_ok]
      simp only []
      rw [runRef]
      simp only [refInsert]
      rw [← hkeys1]
      rw [show (decide (k ∉ (keysOf st ms).toFinset)) = decide (k ∉ keysOf st ms) from
        decide_eq_decide.2 (by rw [List.mem_toFinset])]
    · rcases hop with ⟨⟨_, hk2⟩, hkne⟩
      rcases deleteLF_step inv k with ⟨st1, ms1, hstep, hinv1, hkeys1, htl1⟩
      have htlm1 : st1.tail ∈ ms1 := by
        rw [show st1.tail = st.tail from by rw [hinv1.htail, inv.htail]]
        exact htl1 htl hkne
      rcases ih st1 ms1 hinv1 htlm1 hops with ⟨st2, hrun⟩
      refine ⟨st2, ?_⟩
      rw [runLockfree, hstep, bind_ok]
      simp only []
      rw [hrun, bind_ok]
      simp only []
      rw [runRef]
      simp only [refDelete]
      rw [← hkeys1]
      rw [show (decide (k ∈ (keysOf st ms).toFinset)) = decide (k ∈ keysOf st ms) from
        decide_eq_decide.2 (by rw [List.mem_toFinset])]
    · rcases hop with ⟨⟨_, hk2⟩, hkne⟩
      have hklt : k < INT_MAX := lt_of_le_of_ne hk2 hkne
      have hstep := containsLF_step inv htl hklt
      rcases ih st ms inv htl hops with ⟨st2, hrun⟩
      refine ⟨st2, ?_⟩
      rw [runLockfree, hstep, bind_ok, pure_eq_ok, bind_ok]
      simp only []
      rw [hrun, bind_ok]
      simp only []
      rw [runRef]
      simp only [refContains]
      rw [show (decide (k ∈ (keysOf st ms).toFinset)) = decide (k ∈ keysOf st ms) from
        decide_eq_decide.2 (by rw [List.mem_toFinset])]

/-- Runs of the reference set only look at membership of the touched keys: a
phantom `INT_MAX` member is invisible to operations avoiding `INT_MAX`. -/
theorem runRef_congr : ∀ (ops : List OpK) (s t : Finset Int),
    (∀ op ∈ ops, opKey op ≠ INT_MAX) →
    (∀ x, x ≠ INT_MAX → (x ∈ s ↔ x ∈ t)) →
    (runRef s ops).1 = (runRef t ops).1 := by
  intro ops
  induction ops with
  | nil =>
    intro s t _ _
    rfl
  | cons op ops ih =>
    intro s t hops hmem
    have hk := hops op (List.mem_cons_self _ _)
    have hops' := fun o ho => hops o (List.mem_cons_of_mem _ ho)
    rcases op with ⟨k, v, lvl⟩ | k | k
    · rw [runRef, runRef]
      simp only [refInsert]
      rw [show (decide (k ∉ s)) = decide (k ∉ t) from
        decide_eq_decide.2 (not_congr (hmem k hk))]
      rw [ih (insert k s) (insert k t) hops' (fun x hx => by
        simp only [Finset.mem_insert]
        exact or_congr Iff.rfl (hmem x hx))]
    · rw [runRef, runRef]
      simp only [refDelete]
      rw [show (decide (k ∈ s)) = decide (k ∈ t) from
        decide_eq_decide.2 (hmem k hk)]
      rw [ih (s.erase k) (t.erase k) hops' (fun x hx => by
        simp only [Finset.mem_erase]
        exact and_congr Iff.rfl (hmem x hx))]
    · rw [runRef, runRef]
      simp only [refContains]
      rw [show (decide (k ∈ s)) = decide (k ∈ t) from
        decide_eq_decide.2 (hmem k hk)]
      rw [ih s t hops' hmem]

/-! ## The `validate_skiplist` traversal -/

/-- The collector follows a clean chain exactly, stopping at `NULL` or at the
tail sentinel. -/
theorem collectGo_links {st : SkipList} {L : Nat} {e : Ptr}
    (he : e = nullPtr ∨ e = tailPtr st) :
    ∀ (cs : List Nat) (p : Ptr) (fuel : Nat), links st L p cs e →
    (∀ i ∈ cs, i ≠ st.tail) → cs.length < fuel →
    collectGo fuel st L p = cs := by
  intro cs
  induction cs with
  | nil =>
    intro p fuel hl _ hf
    obtain ⟨f, rfl⟩ : ∃ f, fuel = f + 1 := ⟨fuel - 1, by omega⟩
    rw [links_nil] at hl
    rcases he with he | he
    · rw [collectGo, hl, he]
      rfl
    · rw [collectGo, hl, he]
      rw [show (GET_UNMARKED (tailPtr st)).base = some st.tail from rfl]
      simp only []
      rw [if_pos trivial]
  | cons i is ih =>
    intro p fuel hl hne hf
    obtain ⟨f, rfl⟩ : ∃ f, fuel = f + 1 := ⟨fuel - 1, by omega⟩
    rcases hl with ⟨h1, h2⟩
    rw [collectGo, h1,
      show (GET_UNMARKED (⟨some i, false⟩ : Ptr)).base = some i from rfl]
    simp only []
    rw [if_neg (hne i (List.mem_cons_self i is))]
    rw [ih (loadNext st i L) f h2 (fun j hj => hne j (List.mem_cons_of_mem _ hj))
      (by simp only [List.length_cons] at hf; omega)]

/-- Whole-chain form for the coarse and fine variants: the traversal of
`validate_skiplist` at level `L` visits exactly the live chain. -/
theorem collectChain_SL {st : SkipList} {ns : List Nat} (inv : InvSL st ns)
    {L : Nat} (hL : L ≤ MAX_LEVEL) :
    collectChain st L = towerFilter st ns L := by
  rw [collectChain]
  refine collectGo_links (Or.inr rfl) _ _ _ (inv.chains L hL) ?_ ?_
  · intro i hi
    exact inv.idsTail i ((towerFilter_sublist st ns L).subset hi)
  · exact lt_of_le_of_lt (inv.chainLen L) (by rw [FUEL]; omega)

/-- Whole-chain form for the lock-free variant: the traversal visits the live
chain, minus the tail sentinel where it participates. -/
theorem collectChain_LF {st : SkipList} {ms : List Nat} (inv : InvLF st ms)
    {L : Nat} (hL : L < MAX_LEVEL) :
    collectChain st L =
      (towerFilter st ms L).filter (fun i => decide (i ≠ st.tail)) := by
  have hchain := inv.chains L hL
  have hlen : (towerFilter st ms L).length < FUEL st :=
    lt_of_le_of_lt (inv.chainLenLF L) (by rw [FUEL]; omega)
  by_cases htl : st.tail ∈ towerFilter st ms L
  · rcases List.append_of_mem htl with ⟨xs, ys, hsplit⟩
    have hys : ys = [] := by
      rcases ys with _ | ⟨y, ys'⟩
      · rfl
      · exfalso
        have hsort : sortedKeys st (towerFilter st ms L) := inv.chainSortedLF L
        rw [hsplit] at hsort
        have h1 := (List.pairwise_cons.1 (List.pairwise_append.1 hsort).2.1).1 y
          (List.mem_cons_self y ys')
        have h2 : keyOf st st.tail = INT_MAX := inv.tailKey
        have hymem : y ∈ towerFilter st ms L := by
          rw [hsplit]
          refine List.mem_append.2 (Or.inr ?_)
          exact List.mem_cons_of_mem _ (List.mem_cons_self y ys')
        have hy : y ∈ ms := (towerFilter_sublist st ms L).subset hymem
        have h3 : keyOf st y ≤ INT_MAX := inv.keysLe y hy
        omega
    rw [hys] at hsplit
    have htlxs : st.tail ∉ xs := by
      have hnod := sortedKeys_nodup (inv.chainSortedLF L)
      rw [hsplit] at hnod
      intro hcon
      rcases List.nodup_append.1 hnod with ⟨_, _, hdisj⟩
      exact hdisj hcon (List.mem_singleton_self _)
    have hxs_ne : ∀ i ∈ xs, i ≠ st.tail := fun i hi hcon => htlxs (hcon ▸ hi)
    have hfxs : xs.filter (fun i => decide (i ≠ st.tail)) = xs :=
      List.filter_eq_self.2 (fun i hi => decide_eq_true (hxs_ne i hi))
    rw [hsplit, List.filter_append]
    rw [show (([st.tail] : List Nat).filter (fun i => decide (i ≠ st.tail))) = []
      from by simp]
    rw [List.append_nil, hfxs]
    rw [hsplit] at hchain
    rw [links_append_iff] at hchain
    rw [collectChain]
    refine collectGo_links (Or.inr rfl) xs _ _ ?_ hxs_ne ?_
    · have := hchain.1
      rw [show chainHeadPtr [st.tail] nullPtr = tailPtr st from rfl] at this
      exact this
    · rw [hsplit] at hlen
      simp only [List.length_append] at hlen
      omega
  · have hfid : (towerFilter st ms L).filter (fun i => decide (i ≠ st.tail)) =
        towerFilter st ms L :=
      List.filter_eq_self.2 (fun i hi => decide_eq_true (fun hcon => htl (hcon ▸ hi)))
    rw [hfid]
    rw [collectChain]
    exact collectGo_links (Or.inl rfl) _ _ _ hchain
      (fun i hi hcon => htl (hcon ▸ hi)) hlen

/-! ## `random_level` behaviour and distribution -/

/-- Characterisation of `random_level`: the result is at most `MAX_LEVEL`, the
flips below it all succeeded, and an unclamped result sits on a failure. -/
theorem random_level_spec (flips : Nat → Bool) :
    random_level flips ≤ MAX_LEVEL ∧
    (∀ i < random_level flips, flips i = true) ∧
    (random_level flips < MAX_LEVEL → flips (random_level flips) = false) := by
  have main : ∀ (d lv : Nat), MAX_LEVEL - lv = d → lv ≤ MAX_LEVEL →
      lv ≤ random_level_from flips lv ∧ random_level_from flips lv ≤ MAX_LEVEL ∧
      (∀ i, lv ≤ i → i < random_level_from flips lv → flips i = true) ∧
      (random_level_from flips lv < MAX_LEVEL →
        flips (random_level_from flips lv) = false) := by
    intro d
    induction d with
    | zero =>
      intro lv hd hle
      rw [random_level_from,
        dif_neg (show ¬(lv < MAX_LEVEL ∧ flips lv = true) from fun hc => by omega)]
      exact ⟨le_rfl, hle, fun i h1 h2 => absurd h2 (by omega),
        fun h => absurd h (by omega)⟩
    | succ d ih =>
      intro lv hd hle
      have hlv : lv < MAX_LEVEL := by omega
      rw [random_level_from]
      by_cases hf : flips lv = true
      · rw [dif_pos ⟨hlv, hf⟩]
        obtain ⟨ih1, ih2, ih3, ih4⟩ := ih (lv + 1) (by omega) (by omega)
        refine ⟨by omega, ih2, ?_, ih4⟩
        intro i h1 h2
        rcases Nat.eq_or_lt_of_le h1 with rfl | h1'
        · exact hf
        · exact ih3 i (by omega) h2
      · rw [dif_neg (fun hc => hf hc.2)]
        refine ⟨le_rfl, le_of_lt hlv, fun i h1 h2 => absurd h2 (by omega), fun _ => ?_⟩
        revert hf
        cases flips lv <;> simp
  obtain ⟨_, h2, h3, h4⟩ := main MAX_LEVEL 0 (by omega) (by omega)
  exact ⟨h2, fun i hi => h3 i (Nat.zero_le i) hi, h4⟩

/-- `random_level` always returns a level between `0` and `MAX_LEVEL`. -/
theorem random_level_le (flips : Nat → Bool) : random_level flips ≤ MAX_LEVEL :=
  (random_level_spec flips).1

theorem streak_cons_true (l : List Bool) : streak (true :: l) = streak l + 1 := by
  simp [streak, List.takeWhile_cons]

theorem streak_cons_false (l : List Bool) : streak (false :: l) = 0 := by
  simp [streak, List.takeWhile_cons]

theorem streak_le_length (l : List Bool) : streak l ≤ l.length :=
  (List.takeWhile_sublist _).length_le

theorem streak_true : ∀ (l : List Bool), ∀ i < streak l, l.getD i false = true := by
  intro l
  induction l with
  | nil =>
    intro i hi
    simp [streak] at hi
  | cons b bs ih =>
    intro i hi
    cases b
    · rw [streak_cons_false] at hi
      omega
    · rw [streak_cons_true] at hi
      cases i with
      | zero => rfl
      | succ j =>
        rw [show ((true :: bs).getD (j + 1) false) = bs.getD j false from rfl]
        exact ih j (by omega)

theorem streak_stop : ∀ (l : List Bool), streak l < l.length →
    l.getD (streak l) false = false := by
  intro l
  induction l with
  | nil =>
    intro h
    simp at h
  | cons b bs ih =>
    intro h
    cases b
    · rw [streak_cons_false]
      rfl
    · rw [streak_cons_true] at h ⊢
      rw [show ((true :: bs).getD (streak bs + 1) false) = bs.getD (streak bs) false
        from rfl]
      exact ih (by simp only [List.length_cons] at h; omega)

/-- On a length-`MAX_LEVEL` flip list, `random_level` is the leading-success
streak clamped at `MAX_LEVEL`. -/
theorem random_level_min_streak (l : List Bool) (hlen : l.length = MAX_LEVEL) :
    random_level (fun i => l.getD i false) = min MAX_LEVEL (streak l) := by
  obtain ⟨h1, h2, h3⟩ := random_level_spec (fun i => l.getD i false)
  have hs_le : streak l ≤ MAX_LEVEL := hlen ▸ streak_le_length l
  rw [min_eq_right hs_le]
  rcases Nat.lt_trichotomy (random_level (fun i => l.getD i false)) (streak l)
    with h | h | h
  · exfalso
    have ht := streak_true l _ h
    have hkM : random_level (fun i => l.getD i false) < MAX_LEVEL :=
      lt_of_lt_of_le h hs_le
    have hf := h3 hkM
    rw [ht] at hf
    cases hf
  · exact h
  · exfalso
    have hsl : streak l < l.length := by omega
    have hfalse := streak_stop l hsl
    have htrue := h2 (streak l) h
    rw [htrue] at hfalse
    cases hfalse

theorem allBoolLists_length (n : Nat) : (allBoolLists n).length = 2 ^ n := by
  induction n with
  | zero => rfl
  | succ n ih =>
    rw [allBoolLists, List.length_append, List.length_map, List.length_map, ih]
    ring

theorem allBoolLists_mem_length : ∀ (n : Nat), ∀ l ∈ allBoolLists n, l.length = n := by
  intro n
  induction n with
  | zero =>
    intro l hl
    rcases List.mem_singleton.1 hl with rfl
    rfl
  | succ n ih =>
    intro l hl
    rw [allBoolLists] at hl
    rcases List.mem_append.1 hl with h | h <;>
      · rcases List.mem_map.1 h with ⟨l', hl', rfl⟩
        rw [List.length_cons, ih l' hl']

/-- How many length-`n` flip lists have leading-success streak `j`. -/
def countStreak (n j : Nat) : Nat :=
  ((allBoolLists n).filter (fun l => decide (streak l = j))).length

theorem countStreak_succ_zero (n : Nat) : countStreak (n + 1) 0 = 2 ^ n := by
  rw [countStreak, allBoolLists, List.filter_append, List.length_append,
    List.filter_map, List.filter_map, List.length_map, List.length_map]
  have h1 : ((fun l => decide (streak l = 0)) ∘ (List.cons true)) =
      fun (l : List Bool) => false := by
    funext l
    simp [Function.comp, streak_cons_true]
  have h2 : ((fun l => decide (streak l = 0)) ∘ (List.cons false)) =
      fun (l : List Bool) => true := by
    funext l
    simp [Function.comp, streak_cons_false]
  rw [h1, h2]
  simp [allBoolLists_length]

theorem countStreak_succ_succ (n j : Nat) :
    countStreak (n + 1) (j + 1) = countStreak n j := by
  rw [countStreak, allBoolLists, List.filter_append, List.length_append,
    List.filter_map, List.filter_map, List.length_map, List.length_map]
  have h1 : ((fun l => decide (streak l = j + 1)) ∘ (List.cons true)) =
      fun l => decide (streak l = j) := by
    funext l
    simp [Function.comp, streak_cons_true]
  have h2 : ((fun l => decide (streak l = j + 1)) ∘ (List.cons false)) =
      fun (l : List Bool) => false := by
    funext l
    simp [Function.comp, streak_cons_false]
  rw [h1, h2]
  simp [countStreak]

theorem countStreak_lt : ∀ n j, j < n → countStreak n j = 2 ^ (n - j - 1) := by
  intro n
  induction n with
  | zero =>
    intro j hj
    omega
  | succ n ih =>
    intro j hj
    cases j with
    | zero =>
      rw [countStreak_succ_zero]
      congr 1
    | succ j' =>
      rw [countStreak_succ_succ, ih j' (by omega)]
      congr 1
      omega

theorem countStreak_self : ∀ n, countStreak n n = 1 := by
  intro n
  induction n with
  | zero => rfl
  | succ n ih =>
    rw [countStreak_succ_succ, ih]

/-- The level counter is the streak counter: over the full-length sample space
the clamp never fires below a full streak. -/
theorem levelCount_eq_countStreak (j : Nat) :
    levelCount MAX_LEVEL j = countStreak MAX_LEVEL j := by
  rw [levelCount, countStreak]
  congr 1
  refine List.filter_congr ?_
  intro l hl
  have hlen := allBoolLists_mem_length MAX_LEVEL l hl
  rw [random_level_min_streak l hlen,
    min_eq_right (hlen ▸ streak_le_length l)]

/-! ## The `fully_linked` flag in the fine variant -/

/-- Inversion of a successful monadic bind. -/
theorem bind_ok_inv {α β : Type} {m : M α} {f : α → M β} {r : β}
    (h : (m >>= f) = .ok r) : ∃ a, m = .ok a ∧ f a = .ok r := by
  rcases m with e | a
  · rw [bind_err] at h
    cases h
  · refine ⟨a, rfl, ?_⟩
    rw [bind_ok] at h
    exact h

/-- No node of the state has its `fully_linked` flag set. -/
def noFL (st : SkipList) : Prop := ∀ j, (getNode st j).fully_linked = false

theorem noFL_storeNext {st : SkipList} (h : noFL st) (i L : Nat) (p : Ptr) :
    noFL (storeNext st i L p) := by
  intro j
  by_cases hij : i = j
  · subst hij
    by_cases hv : i < st.mem.length
    · rw [getNode_storeNext_self _ _ hv]
      exact h i
    · rw [storeNext, setNode_oob _ (Nat.le_of_not_lt hv)]
      exact h i
  · rw [getNode_storeNext_ne _ _ hij]
    exact h j

theorem noFL_storeMarked {st : SkipList} (h : noFL st) (i : Nat) (b : Bool) :
    noFL (storeMarked st i b) := by
  intro j
  by_cases hij : i = j
  · subst hij
    by_cases hv : i < st.mem.length
    · rw [getNode_storeMarked_self _ hv]
      exact h i
    · rw [storeMarked, setNode_oob _ (Nat.le_of_not_lt hv)]
      exact h i
  · rw [getNode_storeMarked_ne _ hij]
    exact h j

theorem noFL_alloc {st : SkipList} (h : noFL st) {nd : Node}
    (hnd : nd.fully_linked = false) : noFL (allocNode st nd).2 := by
  intro j
  rcases Nat.lt_trichotomy j st.mem.length with hj | hj | hj
  · rw [getNode_alloc_lt hj]
    exact h j
  · subst hj
    rw [getNode_alloc_self]
    exact hnd
  · rw [getNode_oob (by rw [alloc_mem_length]; omega)]
    rfl

theorem noFL_addSize {st : SkipList} (h : noFL st) (d : Int) :
    noFL (addSize st d) := fun j => h j

theorem setSuccs_noFL (pss : List (Nat × Ptr)) (nid : Nat) :
    ∀ (d i stop : Nat), stop + 1 - i = d → ∀ (st : SkipList), noFL st →
    noFL (setSuccs pss nid i stop st) := by
  intro d
  induction d with
  | zero =>
    intro i stop hd st hfl
    rw [setSuccs, dif_neg (show ¬ i ≤ stop from by omega)]
    exact hfl
  | succ d ih =>
    intro i stop hd st hfl
    rw [setSuccs, dif_pos (show i ≤ stop from by omega)]
    exact ih (i + 1) stop (by omega) _ (noFL_storeNext hfl _ _ _)

theorem linkLevelFine_noFL {key : Int} {nid i : Nat} :
    ∀ (fuel : Nat) (st : SkipList) (pred : Nat) (succ : Ptr) (st' : SkipList),
    linkLevelFine fuel st key nid pred succ i = .ok st' → noFL st → noFL st' := by
  intro fuel
  induction fuel with
  | zero =>
    intro st pred succ st' h
    rw [linkLevelFine] at h
    cases h
  | succ fuel ih =>
    intro st pred succ st' h hfl
    rw [linkLevelFine] at h
    obtain ⟨v, hv, h⟩ := bind_ok_inv h
    simp only [] at h
    rcases v with _ | _
    · rw [if_neg (by simp : ¬(false = true))] at h
      obtain ⟨pc, hw, h⟩ := bind_ok_inv h
      exact ih st pc.1 pc.2 st' h hfl
    · rw [if_pos rfl] at h
      have hst := Except.ok.inj h
      rw [← hst]
      exact noFL_storeNext (noFL_storeNext hfl _ _ _) _ _ _

theorem linkUpFine_noFL (key : Int) (nid : Nat) (pss : List (Nat × Ptr)) :
    ∀ (d i stop : Nat), stop + 1 - i = d → ∀ (st st' : SkipList),
    linkUpFine key nid pss i stop st = .ok st' → noFL st → noFL st' := by
  intro d
  induction d with
  | zero =>
    intro i stop hd st st' h hfl
    rw [linkUpFine, dif_neg (show ¬ i ≤ stop from by omega)] at h
    have := Except.ok.inj h
    rw [← this]
    exact hfl
  | succ d ih =>
    intro i stop hd st st' h hfl
    rw [linkUpFine, dif_pos (show i ≤ stop from by omega)] at h
    obtain ⟨st1, hl, h⟩ := bind_ok_inv h
    exact ih (i + 1) stop (by omega) st1 st' h
      (linkLevelFine_noFL (FUEL st) st _ _ st1 hl hfl)

theorem insertFineLoop_noFL {key value : Int} {lvl : Nat} :
    ∀ (fuel : Nat) (st : SkipList) (b : Bool) (st' : SkipList),
    insertFineLoop fuel st key value lvl = .ok (b, st') → noFL st → noFL st' := by
  intro fuel
  induction fuel with
  | zero =>
    intro st b st' h
    rw [insertFineLoop] at h
    cases h
  | succ fuel ih =>
    intro st b st' h hfl
    rw [insertFineLoop] at h
    obtain ⟨pss, hp, h⟩ := bind_ok_inv h
    obtain ⟨s0i, hd, h⟩ := bind_ok_inv h
    simp only [] at h
    by_cases hk0 : (getNode st s0i).key = key
    · rw [if_pos hk0] at h
      have hst : st = st' := congrArg Prod.snd (Except.ok.inj h)
      rw [← hst]
      exact hfl
    · rw [if_neg hk0] at h
      obtain ⟨v, hv, h⟩ := bind_ok_inv h
      rcases v with _ | _
      · rw [if_neg (by simp : ¬(false = true))] at h
        exact ih st b st' h hfl
      · rw [if_pos rfl] at h
        rw [show allocNode st (create_node key value lvl) =
          (st.mem.length, (allocNode st (create_node key value lvl)).2) from rfl] at h
        simp only [] at h
        obtain ⟨st5, hlu, h⟩ := bind_ok_inv h
        have hst : st5 = st' := congrArg Prod.snd (Except.ok.inj h)
        rw [← hst]
        refine linkUpFine_noFL key st.mem.length pss (lvl + 1 - 1) 1 lvl rfl _ st5 hlu ?_
        refine noFL_addSize (noFL_storeNext ?_ _ _ _) _
        refine setSuccs_noFL pss st.mem.length (lvl + 1 - 0) 0 lvl rfl _ ?_
        exact noFL_alloc hfl rfl

theorem unlinkLevelFine_noFL {key : Int} {vi : Nat} {vptr : Ptr} {i : Nat} :
    ∀ (fuel : Nat) (st : SkipList) (pred : Nat) (st' : SkipList),
    unlinkLevelFine fuel st key vi vptr pred i = .ok st' → noFL st → noFL st' := by
  intro fuel
  induction fuel with
  | zero =>
    intro st pred st' h
    rw [unlinkLevelFine] at h
    cases h
  | succ fuel ih =>
    intro st pred st' h hfl
    rw [unlinkLevelFine] at h
    by_cases hc : loadNext st pred i = vptr
    · rw [if_pos hc] at h
      have hst := Except.ok.inj h
      rw [← hst]
      exact noFL_storeNext hfl _ _ _
    · rw [if_neg hc] at h
      obtain ⟨pc, hw, h⟩ := bind_ok_inv h
      exact ih st pc.1 st' h hfl

theorem unlinkDownFine_noFL {key : Int} {vi : Nat} {vptr : Ptr}
    {pss : List (Nat × Ptr)} :
    ∀ (i : Nat) (st st' : SkipList),
    unlinkDownFine key vi vptr pss i st = .ok st' → noFL st → noFL st' := by
  intro i
  induction i with
  | zero =>
    intro st st' h hfl
    rw [unlinkDownFine] at h
    obtain ⟨st1, hu, h⟩ := bind_ok_inv h
    simp only [] at h
    have hst := Except.ok.inj h
    rw [← hst]
    exact unlinkLevelFine_noFL (FUEL st) st _ st1 hu hfl
  | succ i ih =>
    intro st st' h hfl
    rw [unlinkDownFine] at h
    obtain ⟨st1, hu, h⟩ := bind_ok_inv h
    simp only [] at h
    exact ih st1 st' h (unlinkLevelFine_noFL (FUEL st) st _ st1 hu hfl)

theorem deleteFineLoop_noFL {key : Int} :
    ∀ (fuel : Nat) (st : SkipList) (b : Bool) (st' : SkipList),
    deleteFineLoop fuel st key = .ok (b, st') → noFL st → noFL st' := by
  intro fuel
  rcases fuel with _ | fuel
  · intro st b st' h
    rw [deleteFineLoop] at h
    cases h
  · intro st b st' h hfl
    rw [deleteFineLoop] at h
    obtain ⟨pss, hp, h⟩ := bind_ok_inv h
    obtain ⟨vi, hd, h⟩ := bind_ok_inv h
    simp only [] at h
    by_cases h1 : (getNode st vi).key ≠ key ∨ (pss.getD 0 (0, nullPtr)).2 = tailPtr st
    · rw [if_pos h1] at h
      have hst : st = st' := congrArg Prod.snd (Except.ok.inj h)
      rw [← hst]
      exact hfl
    · rw [if_neg h1] at h
      by_cases h2 : (getNode st vi).marked = true
      · rw [if_pos h2] at h
        have hst : st = st' := congrArg Prod.snd (Except.ok.inj h)
        rw [← hst]
        exact hfl
      · rw [if_neg h2] at h
        obtain ⟨st2, hu, h⟩ := bind_ok_inv h
        have hst : addSize st2 (-1) = st' := congrArg Prod.snd (Except.ok.inj h)
        rw [← hst]
        exact noFL_addSize
          (unlinkDownFine_noFL _ _ st2 hu (noFL_storeMarked hfl vi true)) _

/-- `fully_linked` is `false` on every node of every fine-variant reachable
state: neither create, insert nor delete ever sets the flag. -/
theorem reachF_noFL {st : SkipList} (h : ReachF st) : noFL st := by
  induction h with
  | create =>
    intro j
    match j with
    | 0 => rfl
    | 1 => rfl
    | n + 2 => rfl
  | insert st0 st' k v lvl b _ _ _ _ hstep ih =>
    exact insertFineLoop_noFL (FUEL st0) st0 b st' hstep ih
  | delete st0 st' k b _ _ _ hstep ih =>
    exact deleteFineLoop_noFL (FUEL st0) st0 b st' hstep ih

/-- With the tail linked, inserting `INT_MAX` fails: `find` reports the tail
sentinel as an existing node with that key, and the state is unchanged. -/
theorem insertLF_intmax {st : SkipList} {ms : List Nat} (inv : InvLF st ms)
    (htl : st.tail ∈ ms) (v : Int) (lvl : Nat) :
    skiplist_insert_lockfree st INT_MAX v lvl = .ok (false, st) := by
  have hmem : INT_MAX ∈ keysOf st ms := mem_keysOf.2 ⟨st.tail, htl, inv.tailKey⟩
  have hF : FUEL st = st.mem.length + 1 + 1 := by rw [FUEL]
  rw [skiplist_insert_lockfree, hF]
  simp only [insertLFLoop]
  rw [find_clean inv, bind_ok]
  simp only []
  rw [show decide (INT_MAX ∈ keysOf st ms) = true from decide_eq_true hmem,
    if_pos rfl]

/-- With `head->next[MAX_LEVEL]` equal to `NULL`, the `validate_skiplist`
traversal of the top slot is empty. -/
theorem collectChain_max {st : SkipList}
    (h : loadNext st st.head MAX_LEVEL = nullPtr) :
    collectChain st MAX_LEVEL = [] := by
  obtain ⟨f, hf⟩ : ∃ f, FUEL st = f + 1 := ⟨FUEL st - 1, by rw [FUEL]; omega⟩
  rw [collectChain, hf, h, collectGo]
  rfl

/-- Raising the level only thins a tower chain. -/
theorem towerFilter_mono {st : SkipList} {ns : List Nat} {L L' : Nat}
    (h : L' ≤ L) : ∀ i ∈ towerFilter st ns L, i ∈ towerFilter st ns L' := by
  intro i hi
  rcases towerFilter_mem.1 hi with ⟨h1, h2⟩
  exact towerFilter_mem.2 ⟨h1, le_trans h h2⟩

/-! ## The claims -/

/-- C1: For each variant and every single-threaded sequence of insert, delete
and contains calls on a fresh list, the boolean results equal those of a
reference ordered set — amended: this holds for the coarse variant on all
`i32` keys, and for the fine and lock-free variants once no operation touches
`INT_MAX` (the tail sentinel's key, which their searches report as present). -/
theorem refinement_of_reference_set (ops : List OpK)
    (hwf : ∀ op ∈ ops, opWF op) :
    (∃ stC, runCoarse skiplist_create_coarse ops = .ok ((runRef ∅ ops).1, stC)) ∧
    ((∀ op ∈ ops, opKey op ≠ INT_MAX) →
      ∃ stF stL,
        runFine skiplist_create_fine ops = .ok ((runRef ∅ ops).1, stF) ∧
        runLockfree skiplist_create_lockfree ops = .ok ((runRef ∅ ops).1, stL)) := by
  constructor
  · obtain ⟨stC, hC⟩ := runCoarse_refines ops _ [] invSL_create_coarse hwf
    refine ⟨stC, ?_⟩
    rw [hC, show keysOf skiplist_create_coarse ([] : List Nat) = [] from rfl,
      List.toFinset_nil]
  · intro hnm
    have hwfm : ∀ op ∈ ops, opWF op ∧ opKey op ≠ INT_MAX :=
      fun op hop => ⟨hwf op hop, hnm op hop⟩
    obtain ⟨stF, hF⟩ := runFine_refines ops _ [] invSL_create_fine hwfm
    obtain ⟨stL, hL⟩ := runLockfree_refines ops _ [1] invLF_create
      (List.mem_singleton_self 1) hwfm
    refine ⟨stF, stL, ?_, ?_⟩
    · rw [hF, show keysOf skiplist_create_fine ([] : List Nat) = [] from rfl,
        List.toFinset_nil]
    · rw [hL]
      have hcongr : (runRef ((keysOf skiplist_create_lockfree [1]).toFinset) ops).1 =
          (runRef ∅ ops).1 := by
        refine runRef_congr ops _ ∅ hnm ?_
        intro x hx
        constructor
        · intro hmem
          exfalso
          rw [show keysOf skiplist_create_lockfree [1] = [INT_MAX] from rfl,
            List.mem_toFinset] at hmem
          rcases List.mem_singleton.1 hmem with rfl
          exact hx rfl
        · intro hmem
          exact absurd hmem (Finset.not_mem_empty x)
      rw [hcongr]

/-- C1 witness: a concrete `INT_MAX`-free run agrees across all variants. -/
theorem refinement_of_reference_set_witness :
    (∃ stC, runCoarse skiplist_create_coarse
          [OpK.ins 5 0 2, OpK.qry 5, OpK.del 5, OpK.qry 5] =
        .ok ((runRef ∅ [OpK.ins 5 0 2, OpK.qry 5, OpK.del 5, OpK.qry 5]).1, stC)) ∧
    (∃ stF stL,
      runFine skiplist_create_fine
          [OpK.ins 5 0 2, OpK.qry 5, OpK.del 5, OpK.qry 5] =
        .ok ((runRef ∅ [OpK.ins 5 0 2, OpK.qry 5, OpK.del 5, OpK.qry 5]).1, stF) ∧
      runLockfree skiplist_create_lockfree
          [OpK.ins 5 0 2, OpK.qry 5, OpK.del 5, OpK.qry 5] =
        .ok ((runRef ∅ [OpK.ins 5 0 2, OpK.qry 5, OpK.del 5, OpK.qry 5]).1, stL)) := by
  have h := refinement_of_reference_set
    [OpK.ins 5 0 2, OpK.qry 5, OpK.del 5, OpK.qry 5]
    (by
      intro op hop
      rcases List.mem_cons.1 hop with rfl | hop
      · exact ⟨by decide, by decide, by decide⟩
      rcases List.mem_cons.1 hop with rfl | hop
      · exact ⟨by decide, by decide⟩
      rcases List.mem_cons.1 hop with rfl | hop
      · exact ⟨by decide, by decide⟩
      rcases List.mem_cons.1 hop with rfl | hop
      · exact ⟨by decide, by decide⟩
      · cases hop)
  refine ⟨h.1, h.2 ?_⟩
  intro op hop
  rcases List.mem_cons.1 hop with rfl | hop
  · exact by decide
  rcases List.mem_cons.1 hop with rfl | hop
  · exact by decide
  rcases List.mem_cons.1 hop with rfl | hop
  · exact by decide
  rcases List.mem_cons.1 hop with rfl | hop
  · exact by decide
  · cases hop

/-- C1 counterexample: inserting `INT_MAX` into a fresh lock-free list returns
`false` (the tail sentinel is reported as an existing node), while the
reference set returns `true`. -/
theorem insert_intmax_lockfree_diverges :
    runLockfree skiplist_create_lockfree [OpK.ins INT_MAX 0 3] =
      .ok ([false], skiplist_create_lockfree) ∧
    (runRef ∅ [OpK.ins INT_MAX 0 3]).1 = [true] := by
  constructor
  · rw [runLockfree]
    simp only []
    rw [insertLF_intmax invLF_create (List.mem_singleton_self 1) 0 3, bind_ok]
    simp only []
    rw [show runLockfree skiplist_create_lockfree [] =
      .ok (([] : List Bool), skiplist_create_lockfree) from rfl, bind_ok]
  · decide

/-- C2: `skiplist_contains_fine` returns true iff the level-0 node found by the
search has the queried key, its `fully_linked` flag is true and its mark is
false — amended: the code never consults `fully_linked` (and `insert_fine`
never sets it, so every node of every reachable fine state has
`fully_linked = false`); `contains_fine` reports exactly membership of the
live key set below `INT_MAX`. -/
theorem contains_fine_semantics {st : SkipList} (h : ReachF st) {k : Int}
    (hk : k < INT_MAX) :
    ∃ ns, InvSL st ns ∧
      skiplist_contains_fine st k = .ok (decide (k ∈ keysOf st ns)) ∧
      (∀ j, (getNode st j).fully_linked = false) := by
  obtain ⟨ns, inv⟩ := reachF_inv h
  exact ⟨ns, inv, containsF_step inv hk, reachF_noFL h⟩

/-- C2 witness: the fresh fine list. -/
theorem contains_fine_semantics_witness :
    ∃ ns, InvSL skiplist_create_fine ns ∧
      skiplist_contains_fine skiplist_create_fine 5 =
        .ok (decide ((5 : Int) ∈ keysOf skiplist_create_fine ns)) ∧
      (∀ j, (getNode skiplist_create_fine j).fully_linked = false) :=
  contains_fine_semantics ReachF.create (by decide)

/-- C2 counterexample: after a successful fine insert, `contains` returns true
for the new node although its `fully_linked` flag is still false. -/
theorem contains_fine_true_without_fully_linked :
    ∃ st1, skiplist_insert_fine skiplist_create_fine 5 0 2 = .ok (true, st1) ∧
      skiplist_contains_fine st1 5 = .ok true ∧
      (getNode st1 2).fully_linked = false := by
  obtain ⟨st1, ns1, hins, hinv1, hkeys1⟩ := insertF_step invSL_create_fine 5 0 2
    (by decide) (by decide)
  rw [show decide ((5 : Int) ∉ keysOf skiplist_create_fine []) = true from by decide]
    at hins
  refine ⟨st1, hins, ?_, ?_⟩
  · rw [containsF_step hinv1 (show (5 : Int) < INT_MAX from by decide)]
    have hmem : (5 : Int) ∈ keysOf st1 ns1 := by
      rw [← List.mem_toFinset, hkeys1]
      exact Finset.mem_insert_self _ _
    rw [decide_eq_true hmem]
  · exact insertFineLoop_noFL (FUEL skiplist_create_fine) skiplist_create_fine
      true st1 hins (reachF_noFL ReachF.create) 2

/-- C3: sentinels are never marked, never removed and participate at every
level, with `head.next[i] == tail` for every `i ∈ [0, MAX_LEVEL]` after create
— amended: the coarse and fine creates link all `MAX_LEVEL + 1` slots, but the
lock-free create leaves `head->next[MAX_LEVEL]` equal to `NULL`; the sentinel
structure of the invariant is preserved by every reachable state (for the
lock-free variant, provided `delete(INT_MAX)` is never called, since that call
marks and physically removes the tail sentinel). -/
theorem sentinel_structure :
    (∀ L, L ≤ MAX_LEVEL →
      loadNext skiplist_create_coarse 0 L = tailPtr skiplist_create_coarse) ∧
    (∀ L, L ≤ MAX_LEVEL →
      loadNext skiplist_create_fine 0 L = tailPtr skiplist_create_fine) ∧
    (∀ L, L < MAX_LEVEL →
      loadNext skiplist_create_lockfree 0 L = tailPtr skiplist_create_lockfree) ∧
    loadNext skiplist_create_lockfree 0 MAX_LEVEL = nullPtr ∧
    (∀ st, ReachC st → ∃ ns, InvSL st ns) ∧
    (∀ st, ReachF st → ∃ ns, InvSL st ns) ∧
    (∀ st, ReachLFND st → ∃ ms, InvLF st ms ∧ st.tail ∈ ms) := by
  refine ⟨?_, ?_, ?_, by decide, fun st h => reachC_inv h, fun st h => reachF_inv h,
    fun st h => reachLFND_inv h⟩
  · intro L hL
    show (List.replicate (MAX_LEVEL + 1) (⟨some 1, false⟩ : Ptr)).getD L nullPtr = _
    rw [getD_replicate_lt _ _ (by omega)]
    rfl
  · intro L hL
    show (List.replicate (MAX_LEVEL + 1) (⟨some 1, false⟩ : Ptr)).getD L nullPtr = _
    rw [getD_replicate_lt _ _ (by omega)]
    rfl
  · intro L hL
    show (List.replicate MAX_LEVEL (⟨some 1, false⟩ : Ptr) ++ [nullPtr]).getD
      L nullPtr = _
    rw [List.getD_append _ _ _ _ (by simpa using hL), getD_replicate_lt _ _ hL]
    rfl

/-- C3 counterexample: in the lock-free create, the head's top slot is `NULL`,
not the tail, so `head.next[i] == tail` fails at `i = MAX_LEVEL`. -/
theorem create_lockfree_top_slot_null :
    loadNext skiplist_create_lockfree 0 MAX_LEVEL = nullPtr ∧
    loadNext skiplist_create_lockfree 0 MAX_LEVEL ≠
      tailPtr skiplist_create_lockfree := by
  decide

/-- C4: at every quiescent point of every variant, the `validate_skiplist`
traversal of any level (following unmarked links from the head, up to the tail
or `NULL`) visits nodes with strictly increasing keys; in particular the
level-0 chain is strictly sorted and every traversal successor of a
non-sentinel node has a strictly greater key. -/
theorem sorted_chains_quiescent :
    (∀ st, ReachC st → ∀ L, L ≤ MAX_LEVEL → sortedKeys st (collectChain st L)) ∧
    (∀ st, ReachF st → ∀ L, L ≤ MAX_LEVEL → sortedKeys st (collectChain st L)) ∧
    (∀ st, ReachLF st → ∀ L, L ≤ MAX_LEVEL → sortedKeys st (collectChain st L)) := by
  refine ⟨?_, ?_, ?_⟩
  · intro st h L hL
    obtain ⟨ns, inv⟩ := reachC_inv h
    rw [collectChain_SL inv hL]
    exact inv.chainSorted L
  · intro st h L hL
    obtain ⟨ns, inv⟩ := reachF_inv h
    rw [collectChain_SL inv hL]
    exact inv.chainSorted L
  · intro st h L hL
    obtain ⟨ms, inv⟩ := reachLF_inv h
    rcases Nat.lt_or_ge L MAX_LEVEL with hlt | hge
    · rw [collectChain_LF inv hlt]
      exact (inv.chainSortedLF L).sublist (List.filter_sublist _)
    · rw [le_antisymm hL hge, collectChain_max inv.top16]
      exact List.Pairwise.nil

/-- C5: in a single-threaded run, after `delete(k)` returns true an immediate
`contains(k)` returns false — amended: this holds for the coarse variant on
all keys and for the fine and lock-free variants on keys below `INT_MAX` (for
the lock-free variant on runs that never delete `INT_MAX`); deleting `INT_MAX`
itself on the lock-free variant succeeds by removing the tail sentinel, after
which `contains(INT_MAX)` dereferences `NULL` instead of returning false. -/
theorem delete_then_contains :
    (∀ st st' : SkipList, ReachC st → ∀ k : Int,
      skiplist_delete_coarse st k = .ok (true, st') →
      skiplist_contains_coarse st' k = .ok false) ∧
    (∀ st st' : SkipList, ReachF st → ∀ k : Int, k < INT_MAX →
      skiplist_delete_fine st k = .ok (true, st') →
      skiplist_contains_fine st' k = .ok false) ∧
    (∀ st st' : SkipList, ReachLFND st → ∀ k : Int, k < INT_MAX →
      skiplist_delete_lockfree st k = .ok (true, st') →
      skiplist_contains_lockfree st' k = .ok false) := by
  refine ⟨?_, ?_, ?_⟩
  · intro st st' h k hdel
    obtain ⟨ns, inv⟩ := reachC_inv h
    obtain ⟨st1, ns1, heq, hinv1, hkeys1⟩ := deleteC_step inv k
    have hpair := Except.ok.inj (hdel.symm.trans heq)
    have hst : st' = st1 := congrArg Prod.snd hpair
    rw [hst, containsC_step hinv1 k]
    have hnot : k ∉ keysOf st1 ns1 := by
      intro hc
      have := List.mem_toFinset.2 hc
      rw [hkeys1] at this
      exact (Finset.not_mem_erase k _) this
    rw [decide_eq_false hnot]
  · intro st st' h k hk hdel
    obtain ⟨ns, inv⟩ := reachF_inv h
    obtain ⟨st1, ns1, heq, hinv1, hkeys1⟩ := deleteF_step inv k (le_of_lt hk)
    have hpair := Except.ok.inj (hdel.symm.trans heq)
    have hst : st' = st1 := congrArg Prod.snd hpair
    rw [hst, containsF_step hinv1 hk]
    have hnot : k ∉ keysOf st1 ns1 := by
      intro hc
      have := List.mem_toFinset.2 hc
      rw [hkeys1] at this
      exact (Finset.not_mem_erase k _) this
    rw [decide_eq_false hnot]
  · intro st st' h k hk hdel
    obtain ⟨ms, inv, htl⟩ := reachLFND_inv h
    obtain ⟨st1, ms1, heq, hinv1, hkeys1, htail1⟩ := deleteLF_step inv k
    have hpair := Except.ok.inj (hdel.symm.trans heq)
    have hst : st' = st1 := congrArg Prod.snd hpair
    have htl1 : st1.tail ∈ ms1 := by
      rw [show st1.tail = st.tail from by rw [hinv1.htail, inv.htail]]
      exact htail1 htl (by omega)
    rw [hst, containsLF_step hinv1 htl1 hk]
    have hnot : k ∉ keysOf st1 ms1 := by
      intro hc
      have := List.mem_toFinset.2 hc
      rw [hkeys1] at this
      exact (Finset.not_mem_erase k _) this
    rw [decide_eq_false hnot]

/-- C5 counterexample: on the lock-free variant, `delete(INT_MAX)` on a fresh
list returns true (it deletes the tail sentinel), and the following
`contains(INT_MAX)` dereferences `NULL` instead of returning false. -/
theorem delete_intmax_then_contains_crashes :
    ∃ st1,
      skiplist_delete_lockfree skiplist_create_lockfree INT_MAX =
        .ok (true, st1) ∧
      skiplist_contains_lockfree st1 INT_MAX = .error .nullDeref := by
  obtain ⟨st1, ms1, hdel, hinv1, hkeys1, _⟩ := deleteLF_step invLF_create INT_MAX
  rw [show decide (INT_MAX ∈ keysOf skiplist_create_lockfree [1]) = true from
    by decide] at hdel
  refine ⟨st1, hdel, ?_⟩
  have hnot : INT_MAX ∉ keysOf st1 ms1 := by
    intro hc
    have := List.mem_toFinset.2 hc
    rw [hkeys1] at this
    exact (Finset.not_mem_erase _ _) this
  have hrest : restK st1 INT_MAX ms1 = [] := by
    rw [restK, List.dropWhile_eq_nil_iff]
    intro x hx
    refine decide_eq_true ?_
    have hle : keyOf st1 x ≤ INT_MAX := hinv1.keysLe x hx
    have hne : keyOf st1 x ≠ INT_MAX := fun hc => hnot (mem_keysOf.2 ⟨x, hx, hc⟩)
    omega
  rw [containsLF_run hinv1 le_rfl, hrest]

/-- C6: `skiplist_insert_fine` sets the new node's `fully_linked` flag to true
as its final step — amended: the fine insert never writes `fully_linked` at
all; every node of the state returned by a completed fine insert still has
`fully_linked = false`. -/
theorem insert_fine_fully_linked {st st' : SkipList} (h : ReachF st)
    {k v : Int} {lvl : Nat} {b : Bool}
    (hstep : skiplist_insert_fine st k v lvl = .ok (b, st')) :
    ∀ j, (getNode st' j).fully_linked = false :=
  insertFineLoop_noFL (FUEL st) st b st' hstep (reachF_noFL h)

/-- C6 witness: a concrete completed fine insert whose nodes all still have
`fully_linked = false`. -/
theorem insert_fine_fully_linked_witness :
    ∃ st1, skiplist_insert_fine skiplist_create_fine 7 1 0 = .ok (true, st1) ∧
      ∀ j, (getNode st1 j).fully_linked = false := by
  obtain ⟨st1, ns1, hins, _, _⟩ := insertF_step invSL_create_fine 7 1 0
    (by decide) (by decide)
  rw [show decide ((7 : Int) ∉ keysOf skiplist_create_fine []) = true from by decide]
    at hins
  exact ⟨st1, hins, insert_fine_fully_linked ReachF.create hins⟩

/-- C6 counterexample: a completed `insert_fine(7)` returns true, yet the new
node's `fully_linked` flag is false — the claimed final step never happens. -/
theorem insert_fine_leaves_fully_linked_false :
    ∃ st1, skiplist_insert_fine skiplist_create_fine 9 1 1 = .ok (true, st1) ∧
      (getNode st1 2).fully_linked = false := by
  obtain ⟨st1, ns1, hins, _, _⟩ := insertF_step invSL_create_fine 9 1 1
    (by decide) (by decide)
  rw [show decide ((9 : Int) ∉ keysOf skiplist_create_fine []) = true from by decide]
    at hins
  exact ⟨st1, hins, insertFineLoop_noFL (FUEL skiplist_create_fine)
    skiplist_create_fine true st1 hins (reachF_noFL ReachF.create) 2⟩

/-- C7: at every quiescent point of every variant, the keys of the unmarked
nodes reachable at level `L` via unmarked links are a subset of those
reachable at level `L - 1`, for every `L` in `[1, MAX_LEVEL]`. -/
theorem tower_containment :
    (∀ st, ReachC st → ∀ L, 1 ≤ L → L ≤ MAX_LEVEL →
      (keysOf st (collectChain st L)).toFinset ⊆
        (keysOf st (collectChain st (L - 1))).toFinset) ∧
    (∀ st, ReachF st → ∀ L, 1 ≤ L → L ≤ MAX_LEVEL →
      (keysOf st (collectChain st L)).toFinset ⊆
        (keysOf st (collectChain st (L - 1))).toFinset) ∧
    (∀ st, ReachLF st → ∀ L, 1 ≤ L → L ≤ MAX_LEVEL →
      (keysOf st (collectChain st L)).toFinset ⊆
        (keysOf st (collectChain st (L - 1))).toFinset) := by
  refine ⟨?_, ?_, ?_⟩
  · intro st h L h1 hL
    obtain ⟨ns, inv⟩ := reachC_inv h
    rw [collectChain_SL inv hL, collectChain_SL inv (by omega)]
    intro x hx
    rw [List.mem_toFinset] at hx ⊢
    rcases mem_keysOf.1 hx with ⟨i, hi, hk⟩
    exact mem_keysOf.2 ⟨i, towerFilter_mono (by omega) i hi, hk⟩
  · intro st h L h1 hL
    obtain ⟨ns, inv⟩ := reachF_inv h
    rw [collectChain_SL inv hL, collectChain_SL inv (by omega)]
    intro x hx
    rw [List.mem_toFinset] at hx ⊢
    rcases mem_keysOf.1 hx with ⟨i, hi, hk⟩
    exact mem_keysOf.2 ⟨i, towerFilter_mono (by omega) i hi, hk⟩
  · intro st h L h1 hL
    obtain ⟨ms, inv⟩ := reachLF_inv h
    rcases Nat.lt_or_ge L MAX_LEVEL with hlt | hge
    · rw [collectChain_LF inv hlt, collectChain_LF inv (by omega)]
      intro x hx
      rw [List.mem_toFinset] at hx ⊢
      rcases mem_keysOf.1 hx with ⟨i, hi, hk⟩
      rcases List.mem_filter.1 hi with ⟨hit, hine⟩
      exact mem_keysOf.2 ⟨i, List.mem_filter.2 ⟨towerFilter_mono (by omega) i hit,
        hine⟩, hk⟩
    · rw [le_antisymm hL hge, collectChain_max inv.top16]
      intro x hx
      cases hx

/-- C8: `random_level` always returns `k` with `0 ≤ k ≤ MAX_LEVEL`; under the
i.i.d. fair-coin model of the PRNG draws, the result is the leading-success
streak clamped at `MAX_LEVEL`, and over the uniform space of length-`MAX_LEVEL`
flip sequences each value `k < MAX_LEVEL` has probability `(1 - p)·p^k` and
`MAX_LEVEL` has probability `p^MAX_LEVEL`, with `p = 1/2`. -/
theorem random_level_distribution :
    (∀ flips : Nat → Bool, random_level flips ≤ MAX_LEVEL) ∧
    (∀ l : List Bool, l.length = MAX_LEVEL →
      random_level (fun i => l.getD i false) = min MAX_LEVEL (streak l)) ∧
    (∀ j, j < MAX_LEVEL →
      (levelCount MAX_LEVEL j : ℚ) / 2 ^ MAX_LEVEL =
        (1 - (1 : ℚ)/2) * ((1 : ℚ)/2) ^ j) ∧
    (levelCount MAX_LEVEL MAX_LEVEL : ℚ) / 2 ^ MAX_LEVEL =
      ((1 : ℚ)/2) ^ MAX_LEVEL := by
  refine ⟨random_level_le, random_level_min_streak, ?_, ?_⟩
  · intro j hj
    have hcount : levelCount MAX_LEVEL j = 2 ^ (MAX_LEVEL - j - 1) := by
      rw [levelCount_eq_countStreak]
      exact countStreak_lt MAX_LEVEL j hj
    rw [hcount, div_eq_iff (show ((2 : ℚ) ^ MAX_LEVEL) ≠ 0 from by positivity)]
    rw [show (1 - (1 : ℚ)/2) * ((1 : ℚ)/2) ^ j = ((1 : ℚ)/2) ^ (j + 1) from by
      rw [pow_succ]; ring]
    rw [show ((1 : ℚ)/2) ^ (j + 1) * 2 ^ MAX_LEVEL =
        (((1 : ℚ)/2) ^ (j + 1) * 2 ^ (j + 1)) * 2 ^ (MAX_LEVEL - j - 1) from by
      rw [mul_assoc, ← pow_add]
      congr 2
      omega]
    rw [show ((1 : ℚ)/2) ^ (j + 1) * 2 ^ (j + 1) = 1 from by
      rw [← mul_pow]; norm_num, one_mul]
    push_cast
    ring
  · rw [show levelCount MAX_LEVEL MAX_LEVEL = 1 from by
      rw [levelCount_eq_countStreak]; exact countStreak_self MAX_LEVEL]
    rw [div_pow, one_pow]
    push_cast
    ring

/-- C9: in the lock-free variant every dereference goes through
`GET_UNMARKED`: from any reachable state, `find`, insert, delete and contains
never fault on a marked pointer. -/
theorem lockfree_no_marked_dereference {st : SkipList} (h : ReachLF st)
    (k v : Int) (lvl : Nat) (hk : k ≤ INT_MAX) :
    find st k ≠ .error .markedDeref ∧
    skiplist_insert_lockfree st k v lvl ≠ .error .markedDeref ∧
    skiplist_delete_lockfree st k ≠ .error .markedDeref ∧
    skiplist_contains_lockfree st k ≠ .error .markedDeref := by
  obtain ⟨ms, inv⟩ := reachLF_inv h
  refine ⟨?_, ?_, ?_, ?_⟩
  · rw [find_clean inv]
    intro hc
    cases hc
  · obtain ⟨st', ms', heq, _, _, _⟩ := insertLF_step inv k v lvl hk
    rw [heq]
    intro hc
    cases hc
  · obtain ⟨st', ms', heq, _, _, _⟩ := deleteLF_step inv k
    rw [heq]
    intro hc
    cases hc
  · rw [containsLF_run inv hk]
    rcases restK st k ms with _ | ⟨i, l⟩
    · intro hc
      exact Fault.noConfusion (Except.error.inj hc)
    · simp only []
      by_cases hit : i = st.tail
      · rw [if_pos hit]
        intro hc
        cases hc
      · rw [if_neg hit]
        intro hc
        cases hc

/-- C9 witness: the fresh lock-free list at key 0. -/
theorem lockfree_no_marked_dereference_witness :
    find skiplist_create_lockfree 0 ≠ .error .markedDeref ∧
    skiplist_insert_lockfree skiplist_create_lockfree 0 0 0 ≠
      .error .markedDeref ∧
    skiplist_delete_lockfree skiplist_create_lockfree 0 ≠ .error .markedDeref ∧
    skiplist_contains_lockfree skiplist_create_lockfree 0 ≠
      .error .markedDeref :=
  lockfree_no_marked_dereference ReachLF.create 0 0 0 (by decide)

/-- C10: in the lock-free variant, insert of `INT_MAX` returns false without
changing the list and contains of `INT_MAX` returns false — amended: this
holds exactly while the tail sentinel is linked (every run that never calls
`delete(INT_MAX)`); deleting `INT_MAX` removes the tail, after which
`INT_MAX` becomes insertable. -/
theorem lockfree_intmax_phantom {st : SkipList} (h : ReachLFND st) (v : Int)
    (lvl : Nat) :
    skiplist_insert_lockfree st INT_MAX v lvl = .ok (false, st) ∧
    skiplist_contains_lockfree st INT_MAX = .ok false := by
  obtain ⟨ms, inv, htl⟩ := reachLFND_inv h
  exact ⟨insertLF_intmax inv htl v lvl, containsLF_intmax inv htl⟩

/-- C10 witness: the fresh lock-free list. -/
theorem lockfree_intmax_phantom_witness :
    skiplist_insert_lockfree skiplist_create_lockfree INT_MAX 0 0 =
      .ok (false, skiplist_create_lockfree) ∧
    skiplist_contains_lockfree skiplist_create_lockfree INT_MAX = .ok false :=
  lockfree_intmax_phantom ReachLFND.create 0 0

/-- C10 counterexample: after `delete(INT_MAX)` removes the tail sentinel, the
key `INT_MAX` can be inserted into the lock-free list. -/
theorem intmax_insertable_after_tail_removal :
    ∃ st1 st2,
      skiplist_delete_lockfree skiplist_create_lockfree INT_MAX =
        .ok (true, st1) ∧
      skiplist_insert_lockfree st1 INT_MAX 0 0 = .ok (true, st2) := by
  obtain ⟨st1, ms1, hdel, hinv1, hkeys1, _⟩ := deleteLF_step invLF_create INT_MAX
  rw [show decide (INT_MAX ∈ keysOf skiplist_create_lockfree [1]) = true from
    by decide] at hdel
  have hnot : INT_MAX ∉ keysOf st1 ms1 := by
    intro hc
    have := List.mem_toFinset.2 hc
    rw [hkeys1] at this
    exact (Finset.not_mem_erase _ _) this
  obtain ⟨st2, ms2, hins, _, _, _⟩ := insertLF_step hinv1 INT_MAX 0 0 le_rfl
  rw [show decide (INT_MAX ∉ keysOf st1 ms1) = true from decide_eq_true hnot]
    at hins
  exact ⟨st1, st2, hdel, hins⟩

end SkipV
